import Mathlib

/-! # envytools: the `rnn` register-database loader and the BIOS "d" table parser

A shallow embedding of `src/nvbios/d.c` and `src/rnn.c`, with the properties
of the specification stated and proved over it.

Conventions of the embedding.
* C unsigned integers are `Nat`, reduced modulo `2^w` where the C type wraps.
* A C `int` status code is its 32-bit two's complement word, a `Nat` below
  `2^32`: `-E` is `neg32 E` and `a | b` is `a ||| b`.
* A C pointer that may be `NULL` is an `Option`; a heap array with its
  element count (`xs`, `xsnum`) is a `List`.
* A pointer into a top-level array of the database is the index of the
  element in that array: the arrays only grow, so indices are stable.
-/

namespace Nvbios

/-! ## BIOS "d" table: data model (bios.h) -/

/-- Modelled from the spec: the image held by `struct envy_bios` (bios.h is not
among the sources). `data` is the byte array, its length is `bios->length`;
an element is read modulo 256, so every list is a well-formed image. -/
structure envy_bios_image where
  data : List Nat
deriving Repr, DecidableEq

/-- Modelled from the spec: `struct envy_bios_bit_entry`, the framing record
`{offset, version, t_offset, t_len}` that locates the "d" index. -/
structure envy_bios_bit_entry where
  offset : Nat
  version : Nat
  t_offset : Nat
  t_len : Nat
deriving Repr, DecidableEq

/-- Modelled from the spec: `struct envy_bios_d_dp_info_level_entry`. -/
structure envy_bios_d_dp_info_level_entry where
  offset : Nat
  post_cursor_2 : Nat
  drive_current : Nat
  pre_emphasis : Nat
  tx_pu : Nat
  valid : Bool
deriving Repr, DecidableEq

/-- Modelled from the spec: `struct envy_bios_d_dp_info_level_entry_table`. -/
structure envy_bios_d_dp_info_level_entry_table where
  offset : Nat
  level_entries : List envy_bios_d_dp_info_level_entry
deriving Repr, DecidableEq

/-- Modelled from the spec: `struct envy_bios_d_dp_info_entry`. -/
structure envy_bios_d_dp_info_entry where
  offset : Nat
deriving Repr, DecidableEq

/-- Modelled from the spec: `struct envy_bios_d_dp_info`. The two heap arrays
are `none` while the pointer has not been assigned by `malloc`. The record
offsets are held as computed (the declaration of the field type is in bios.h,
which is not among the sources; the spec gives the fields as exact offsets). -/
structure envy_bios_d_dp_info where
  offset : Nat
  version : Nat
  hlen : Nat
  rlen : Nat
  entriesnum : Nat
  target_size : Nat
  levelentrytables_count : Nat
  levelentry_size : Nat
  levelentry_count : Nat
  flags : Nat
  regular_vswing : Nat
  low_vswing : Nat
  valid : Bool
  entries : Option (List envy_bios_d_dp_info_entry)
  level_entry_tables : Option (List envy_bios_d_dp_info_level_entry_table)
deriving Repr, DecidableEq

/-- The part `struct envy_bios_d` of the BIOS state. -/
structure envy_bios_d where
  bit : Option envy_bios_bit_entry
  dp_info : envy_bios_d_dp_info
deriving Repr, DecidableEq

/-- The BIOS state `struct envy_bios`, as far as d.c uses it. -/
structure envy_bios where
  image : envy_bios_image
  d : envy_bios_d
deriving Repr, DecidableEq

/-- Unary minus on a C `int`, as a 32-bit two's complement word. -/
def neg32 (x : Nat) : Nat := (2 ^ 32 - x % 2 ^ 32) % 2 ^ 32

/-- The errno constant `EFAULT`. -/
def EFAULT : Nat := 14

/-- The errno constant `ENOENT`. -/
def ENOENT : Nat := 2

/-- The `length` of the image. -/
def envy_bios.length (bios : envy_bios) : Nat := bios.image.data.length

/-- The byte of the image at `offs` (0 outside the image). -/
def envy_bios.byte (bios : envy_bios) (offs : Nat) : Nat :=
  bios.image.data.getD offs 0 % 256

/-- Modelled from the spec: `bios_u8`, the bounded byte read of the fetcher
(bios.h). It returns the status (0, or `-EFAULT` out of range) and the value
stored through the result pointer (0 out of range). -/
def bios_u8 (bios : envy_bios) (offs : Nat) : Nat × Nat :=
  if offs < bios.length then (0, bios.byte offs) else (neg32 EFAULT, 0)

/-- Modelled from the spec: `bios_u16`, the bounded little-endian 16-bit read
of the fetcher (bios.h). -/
def bios_u16 (bios : envy_bios) (offs : Nat) : Nat × Nat :=
  if offs + 1 < bios.length then (0, bios.byte offs + 256 * bios.byte (offs + 1))
  else (neg32 EFAULT, 0)

/-! ## BIOS "d" table: the index walk -/

/-- The single row of `tbls` in `parse_at`: the offset of the slot inside the
index (the pointer of the row is `&d->dp_info.offset`). -/
def d_known_tables_offset : List Nat := [0x0]

/-- `parse_at`: the status, and the state after the read. Every caller has
set `d->bit` before the call; the `none` branch stands for the null pointer. -/
def parse_at (bios : envy_bios) (idx : Nat) : Nat × envy_bios :=
  match bios.d.bit with
  | none => (neg32 ENOENT, bios)
  | some bit =>
    let entries_count := d_known_tables_offset.length
    if idx ≥ entries_count then (neg32 ENOENT, bios)
    else
      let toff := d_known_tables_offset.getD idx 0
      if toff + 2 > bit.t_len then (neg32 ENOENT, bios)
      else
        let r := bios_u16 bios (bit.t_offset + toff)
        (r.1, { bios with d := { bios.d with dp_info := { bios.d.dp_info with offset := r.2 } } })

/-- The loop `while (!parse_at(bios, idx, NULL)) idx++;` of
`envy_bios_parse_bit_d`, started at `idx`: the state and the slot at which the
walk stopped. `none` when the fuel runs out. -/
def parse_at_loop : Nat → envy_bios → Nat → Option (envy_bios × Nat)
  | 0, _, _ => none
  | fuel + 1, bios, idx =>
    let r := parse_at bios idx
    if r.1 = 0 then parse_at_loop fuel r.2 (idx + 1) else some (r.2, idx)

/-! ## BIOS "d" table: the DP INFO parser -/

/-- The header reads of the cases `0x40` and `0x41` of the first `switch` of
`envy_bios_parse_d_dp_info`, from `err |= bios_u8(.. + 0x1, ..)` to
`dp_info->valid = !err`. -/
def parse_dp_info_header_v40 (bios : envy_bios) (dp : envy_bios_d_dp_info) (err : Nat) :
    envy_bios_d_dp_info × Nat :=
  let r1 := bios_u8 bios (dp.offset + 0x1)
  let err := err ||| r1.1
  let r2 := bios_u8 bios (dp.offset + 0x2)
  let err := err ||| r2.1
  let r3 := bios_u8 bios (dp.offset + 0x3)
  let err := err ||| r3.1
  let r4 := bios_u8 bios (dp.offset + 0x4)
  let err := err ||| r4.1
  let r5 := bios_u8 bios (dp.offset + 0x5)
  let err := err ||| r5.1
  let r6 := bios_u8 bios (dp.offset + 0x6)
  let err := err ||| r6.1
  let r7 := bios_u8 bios (dp.offset + 0x7)
  let err := err ||| r7.1
  let r8 := bios_u8 bios (dp.offset + 0x8)
  let err := err ||| r8.1
  ({ dp with
      hlen := r1.2, rlen := r2.2, entriesnum := r3.2, target_size := r4.2,
      levelentrytables_count := r5.2, levelentry_size := r6.2,
      levelentry_count := r7.2, flags := r8.2,
      regular_vswing := 0, low_vswing := 0,
      valid := decide (err = 0) }, err)

/-- The header reads of the case `0x42` of the first `switch`. -/
def parse_dp_info_header_v42 (bios : envy_bios) (dp : envy_bios_d_dp_info) (err : Nat) :
    envy_bios_d_dp_info × Nat :=
  let r1 := bios_u8 bios (dp.offset + 0x1)
  let err := err ||| r1.1
  let r2 := bios_u8 bios (dp.offset + 0x2)
  let err := err ||| r2.1
  let r3 := bios_u8 bios (dp.offset + 0x3)
  let err := err ||| r3.1
  let r4 := bios_u8 bios (dp.offset + 0x4)
  let err := err ||| r4.1
  let r5 := bios_u8 bios (dp.offset + 0x5)
  let err := err ||| r5.1
  let r6 := bios_u8 bios (dp.offset + 0x6)
  let err := err ||| r6.1
  let r7 := bios_u8 bios (dp.offset + 0x7)
  let err := err ||| r7.1
  let r8 := bios_u8 bios (dp.offset + 0x8)
  let err := err ||| r8.1
  let r9 := bios_u16 bios (dp.offset + 0x9)
  let err := err ||| r9.1
  let rb := bios_u16 bios (dp.offset + 0xb)
  let err := err ||| rb.1
  ({ dp with
      hlen := r1.2, rlen := r2.2, entriesnum := r3.2, target_size := r4.2,
      levelentrytables_count := r5.2, levelentry_size := r6.2,
      levelentry_count := r7.2, flags := r8.2,
      regular_vswing := r9.2, low_vswing := rb.2,
      valid := decide (err = 0) }, err)

/-- The loop that fills `dp_info->entries`: entry `i`, `i + 1`, ... for `n`
more rounds. -/
def parse_dp_info_entries (dp : envy_bios_d_dp_info) : Nat → Nat → List envy_bios_d_dp_info_entry
  | 0, _ => []
  | n + 1, i => { offset := dp.offset + dp.hlen + i * dp.rlen } :: parse_dp_info_entries dp n (i + 1)

/-- The body of the inner loop: the second `switch`, on a level entry whose
`offset` is set. `none` is the `default` branch, which returns from the
parser. -/
def parse_dp_info_level_entry (bios : envy_bios) (version off : Nat) (err : Nat) :
    Option (envy_bios_d_dp_info_level_entry × Nat) :=
  if version = 0x40 ∨ version = 0x41 then
    let r0 := bios_u8 bios (off + 0x0)
    let err := err ||| r0.1
    let r1 := bios_u8 bios (off + 0x1)
    let err := err ||| r1.1
    let r2 := bios_u8 bios (off + 0x2)
    let err := err ||| r2.1
    let r3 := bios_u8 bios (off + 0x3)
    let err := err ||| r3.1
    some ({ offset := off, post_cursor_2 := r0.2, drive_current := r1.2,
            pre_emphasis := r2.2, tx_pu := r3.2, valid := decide (err = 0) }, err)
  else if version = 0x42 then
    let r0 := bios_u8 bios (off + 0x0)
    let err := err ||| r0.1
    let r1 := bios_u8 bios (off + 0x1)
    let err := err ||| r1.1
    let r2 := bios_u8 bios (off + 0x2)
    let err := err ||| r2.1
    some ({ offset := off, post_cursor_2 := 0, drive_current := r0.2,
            pre_emphasis := r1.2, tx_pu := r2.2, valid := decide (err = 0) }, err)
  else none

/-- The inner loop `for (j = ..; j < levelentry_count; ++j)` over the level
entries of the table at `letoff`, for `n` more rounds from `j`: the entries
written, the error word, and whether the `default` branch returned. -/
def parse_dp_info_level_entries (bios : envy_bios) (dp : envy_bios_d_dp_info) (letoff : Nat) :
    Nat → Nat → Nat → List envy_bios_d_dp_info_level_entry × Nat × Bool
  | 0, _, err => ([], err, false)
  | n + 1, j, err =>
    match parse_dp_info_level_entry bios dp.version (letoff + j * dp.levelentry_size) err with
    | none => ([], err, true)
    | some (le, err1) =>
      let r := parse_dp_info_level_entries bios dp letoff n (j + 1) err1
      (le :: r.1, r.2.1, r.2.2)

/-- The outer loop `for (i = ..; i < levelentrytables_count; ++i)`, for `n`
more rounds from `i`. -/
def parse_dp_info_level_entry_tables (bios : envy_bios) (dp : envy_bios_d_dp_info) :
    Nat → Nat → Nat → List envy_bios_d_dp_info_level_entry_table × Nat × Bool
  | 0, _, err => ([], err, false)
  | n + 1, i, err =>
    let letoff := dp.offset + dp.hlen + dp.entriesnum * dp.rlen +
      i * dp.levelentry_count * dp.levelentry_size
    let r := parse_dp_info_level_entries bios dp letoff dp.levelentry_count 0 err
    if r.2.2 then ([{ offset := letoff, level_entries := r.1 }], r.2.1, true)
    else
      let rest := parse_dp_info_level_entry_tables bios dp n (i + 1) r.2.1
      ({ offset := letoff, level_entries := r.1 } :: rest.1, rest.2.1, rest.2.2)

/-- The part of `envy_bios_parse_d_dp_info` after the first `switch`: the two
allocations and their loops. -/
def parse_dp_info_records (bios : envy_bios) (dp : envy_bios_d_dp_info) (err : Nat) :
    envy_bios_d_dp_info :=
  let dp := { dp with entries := some (parse_dp_info_entries dp dp.entriesnum 0) }
  let r := parse_dp_info_level_entry_tables bios dp dp.levelentrytables_count 0 err
  { dp with level_entry_tables := some r.1 }

/-- `envy_bios_parse_d_dp_info`, on the record `bios->d.dp_info`. -/
def parse_d_dp_info (bios : envy_bios) (dp : envy_bios_d_dp_info) : envy_bios_d_dp_info :=
  let err : Nat := 0
  if dp.offset = 0 then dp
  else
    let rv := bios_u8 bios dp.offset
    let dp := { dp with version := rv.2 }
    if dp.version = 0x40 ∨ dp.version = 0x41 then
      let h := parse_dp_info_header_v40 bios dp err
      parse_dp_info_records bios h.1 h.2
    else if dp.version = 0x42 then
      let h := parse_dp_info_header_v42 bios dp err
      parse_dp_info_records bios h.1 h.2
    else dp

/-- `envy_bios_parse_d_dp_info`. -/
def envy_bios_parse_d_dp_info (bios : envy_bios) : envy_bios :=
  { bios with d := { bios.d with dp_info := parse_d_dp_info bios bios.d.dp_info } }

/-- `envy_bios_parse_bit_d`: `none` when the fuel of the index walk runs out. -/
def envy_bios_parse_bit_d (fuel : Nat) (bios : envy_bios) (bit : envy_bios_bit_entry) :
    Option envy_bios :=
  let bios := { bios with d := { bios.d with bit := some bit } }
  match parse_at_loop fuel bios 0 with
  | none => none
  | some (bios, _) => some (envy_bios_parse_d_dp_info bios)

/-- The first `switch` of `envy_bios_parse_d_dp_info` when the version read is
supported: the record
and the error word with which the record loops start. -/
def parse_dp_info_header (bios : envy_bios) (dp : envy_bios_d_dp_info) :
    envy_bios_d_dp_info × Nat :=
  let dp := { dp with version := (bios_u8 bios dp.offset).2 }
  if dp.version = 0x42 then parse_dp_info_header_v42 bios dp 0
  else parse_dp_info_header_v40 bios dp 0

/-- The versions the DP INFO parser supports. -/
def dp_info_version_known (version : Nat) : Prop :=
  version = 0x40 ∨ version = 0x41 ∨ version = 0x42

instance (version : Nat) : Decidable (dp_info_version_known version) := by
  unfold dp_info_version_known; infer_instance

/-- Every byte the header of the table at `off` is read from lies inside the
image: 9 bytes for the versions 0x40 and 0x41, 13 bytes for 0x42. -/
def header_in_range (bios : envy_bios) (version off : Nat) : Prop :=
  if version = 0x42 then off + 0xc < bios.length else off + 0x8 < bios.length

instance (bios : envy_bios) (version off : Nat) : Decidable (header_in_range bios version off) := by
  unfold header_in_range; infer_instance

/-- Every byte the level entry at `off` is read from lies inside the image:
4 bytes for the versions 0x40 and 0x41, 3 bytes for 0x42. -/
def level_entry_in_range (bios : envy_bios) (version off : Nat) : Prop :=
  if version = 0x42 then off + 0x2 < bios.length else off + 0x3 < bios.length

instance (bios : envy_bios) (version off : Nat) :
    Decidable (level_entry_in_range bios version off) := by
  unfold level_entry_in_range; infer_instance

/-- The offset the specification gives for level entry `j` of table `k`. -/
def level_entry_offset (dp : envy_bios_d_dp_info) (k j : Nat) : Nat :=
  dp.offset + dp.hlen + dp.entriesnum * dp.rlen +
    k * dp.levelentry_count * dp.levelentry_size + j * dp.levelentry_size

/-- The fields of a level entry at `off` as the specification lays them out:
four bytes for 0x40 and 0x41, three bytes after a zero `post_cursor_2` for
0x42. -/
def level_entry_fields (bios : envy_bios) (version off : Nat)
    (le : envy_bios_d_dp_info_level_entry) : Prop :=
  if version = 0x42 then
    le.post_cursor_2 = 0 ∧
    (off + 0 < bios.length → le.drive_current = bios.byte (off + 0)) ∧
    (off + 1 < bios.length → le.pre_emphasis = bios.byte (off + 1)) ∧
    (off + 2 < bios.length → le.tx_pu = bios.byte (off + 2))
  else
    (off + 0 < bios.length → le.post_cursor_2 = bios.byte (off + 0)) ∧
    (off + 1 < bios.length → le.drive_current = bios.byte (off + 1)) ∧
    (off + 2 < bios.length → le.pre_emphasis = bios.byte (off + 2)) ∧
    (off + 3 < bios.length → le.tx_pu = bios.byte (off + 3))

/-- The values the error word `err` takes: 0, or `-EFAULT` once a read has
failed. -/
def ErrWord (e : Nat) : Prop := e = 0 ∨ e = neg32 EFAULT

/-- The state of a fresh `struct envy_bios_d_dp_info` (all bytes zero). -/
def dp_info_zero : envy_bios_d_dp_info :=
  { offset := 0, version := 0, hlen := 0, rlen := 0, entriesnum := 0, target_size := 0,
    levelentrytables_count := 0, levelentry_size := 0, levelentry_count := 0, flags := 0,
    regular_vswing := 0, low_vswing := 0, valid := false, entries := none,
    level_entry_tables := none }

/-- A BIOS state over the bytes `data`, its "d" part fresh. -/
def bios_of_bytes (data : List Nat) : envy_bios :=
  { image := { data := data }, d := { bit := none, dp_info := dp_info_zero } }

/-! ## BIOS "d" table: the properties of the specification, as predicates -/

/-- The layout of the records of a parsed DP INFO table `r` (I4, P6): the two
arrays have the lengths the header gives, entry `i` is at
`offset + hlen + i*rlen`, and level entry `j` of table `k` is at
`offset + hlen + entriesnum*rlen + k*levelentry_count*levelentry_size +
j*levelentry_size`. -/
def dp_info_records_laid_out (r : envy_bios_d_dp_info) : Prop :=
  ∃ es ts, r.entries = some es ∧ r.level_entry_tables = some ts ∧
    es.length = r.entriesnum ∧ ts.length = r.levelentrytables_count ∧
    (∀ i, i < r.entriesnum → ∃ e, es[i]? = some e ∧
      e.offset = r.offset + r.hlen + i * r.rlen) ∧
    (∀ k, k < r.levelentrytables_count → ∃ t, ts[k]? = some t ∧
      t.level_entries.length = r.levelentry_count ∧
      ∀ j, j < r.levelentry_count → ∃ le, t.level_entries[j]? = some le ∧
        le.offset = r.offset + r.hlen + r.entriesnum * r.rlen +
          k * r.levelentry_count * r.levelentry_size + j * r.levelentry_size)

/-- The header of the table at `o` decoded into `r` as the specification lays
it out: one byte per field from `o` on, and for 0x42 two little-endian 16-bit
words at `o+9` and `o+0xb`. -/
def dp_info_header_decoded (bios : envy_bios) (o : Nat) (r : envy_bios_d_dp_info) : Prop :=
  r.version = bios.byte o ∧ r.hlen = bios.byte (o + 1) ∧ r.rlen = bios.byte (o + 2) ∧
  r.entriesnum = bios.byte (o + 3) ∧ r.target_size = bios.byte (o + 4) ∧
  r.levelentrytables_count = bios.byte (o + 5) ∧ r.levelentry_size = bios.byte (o + 6) ∧
  r.levelentry_count = bios.byte (o + 7) ∧ r.flags = bios.byte (o + 8) ∧
  (r.version = 0x40 ∨ r.version = 0x41 → r.regular_vswing = 0 ∧ r.low_vswing = 0) ∧
  (r.version = 0x42 →
    r.regular_vswing = bios.byte (o + 9) + 256 * bios.byte (o + 0xa) ∧
    r.low_vswing = bios.byte (o + 0xb) + 256 * bios.byte (o + 0xc)) ∧
  r.valid = true

/-- Every level entry of the parsed table `r` carries the fields the
specification gives for the version of `r`, and every entry is there. -/
def dp_info_level_entries_decoded (bios : envy_bios) (r : envy_bios_d_dp_info) : Prop :=
  ∃ ts, r.level_entry_tables = some ts ∧ ts.length = r.levelentrytables_count ∧
    ∀ t, t ∈ ts → t.level_entries.length = r.levelentry_count ∧
      ∀ le, le ∈ t.level_entries → level_entry_fields bios r.version le.offset le

/-- The reading of `valid` the specification gives (a short read invalidates
only the record it belongs to): a level entry of `r` is invalid exactly when
one of its own reads is out of range. -/
def dp_info_valid_per_record (bios : envy_bios) (r : envy_bios_d_dp_info) : Prop :=
  ∀ ts, r.level_entry_tables = some ts → ∀ t, t ∈ ts → ∀ le, le ∈ t.level_entries →
    (le.valid = false ↔ ¬ level_entry_in_range bios r.version le.offset)

/-- What `valid` is in the code: every level entry is visited, and level entry
`j` of table `k` is valid exactly when the header reads, the reads of every
entry of the tables before `k`, and the reads of the entries `0..j` of table
`k` are all in range. -/
def dp_info_valid_latched (bios : envy_bios) (r : envy_bios_d_dp_info) : Prop :=
  ∃ ts, r.level_entry_tables = some ts ∧ ts.length = r.levelentrytables_count ∧
    ∀ k, k < r.levelentrytables_count → ∃ t, ts[k]? = some t ∧
      t.level_entries.length = r.levelentry_count ∧
      ∀ j, j < r.levelentry_count → ∃ le, t.level_entries[j]? = some le ∧
        (le.valid = true ↔
          header_in_range bios r.version r.offset ∧
          (∀ k', k' < k → ∀ j', j' < r.levelentry_count →
            level_entry_in_range bios r.version (level_entry_offset r k' j')) ∧
          ∀ j', j' ≤ j → level_entry_in_range bios r.version (level_entry_offset r k j'))

/-- The state after `d->bit = bit`. -/
def set_bit (bios : envy_bios) (bit : envy_bios_bit_entry) : envy_bios :=
  { bios with d := { bios.d with bit := some bit } }

/-- The state after a store of `o` through `&d->dp_info.offset`. -/
def set_dp_info_offset (bios : envy_bios) (o : Nat) : envy_bios :=
  { bios with d := { bios.d with dp_info := { bios.d.dp_info with offset := o } } }

/-- The slot at which the specification lets the index walk stop: the first
slot `s` that exceeds the known table (only slot 0 is known) or has
`t_offset + s*2 + 2 > t_len`. -/
def d_index_stop_slot_spec (bit : envy_bios_bit_entry) : Nat :=
  if bit.t_offset + 0 * 2 + 2 > bit.t_len then 0 else 1

/-- The index walk as the specification words it: the walk over the index
`bit` stops at `d_index_stop_slot_spec`, and when that is slot 0 the slot is
not read, so that `dp_info.offset` keeps its value. -/
def d_index_walk_spec (fuel : Nat) (bios : envy_bios) (bit : envy_bios_bit_entry) : Prop :=
  ∃ b s, parse_at_loop fuel (set_bit bios bit) 0 = some (b, s) ∧
    s = d_index_stop_slot_spec bit ∧
    (s = 0 → b.d.dp_info.offset = bios.d.dp_info.offset)

/-- An image whose "d" index lies at `t_offset = 4` with `t_len = 2`, its one
slot holding the pointer 0x1234. -/
def bios_index_at_4 : envy_bios := bios_of_bytes [0, 0, 0, 0, 0x34, 0x12]

/-- The framing record of `bios_index_at_4`. -/
def bit_index_at_4 : envy_bios_bit_entry :=
  { offset := 0, version := 1, t_offset := 4, t_len := 2 }

/-- A BIOS state over the bytes `data` whose DP INFO pointer is `o`. -/
def bios_at (data : List Nat) (o : Nat) : envy_bios :=
  { image := { data := data },
    d := { bit := none, dp_info := { dp_info_zero with offset := o } } }

/-- The image of scenario S5: the 13 header bytes at offset 0x100, followed by
the two entries and the three level-entry tables they announce. -/
def bios_s5 : envy_bios :=
  bios_at (List.replicate 0x100 0 ++
    [0x42, 0x09, 0x04, 0x02, 0x01, 0x03, 0x04, 0x02, 0x05, 0x11, 0x22, 0x33, 0x44] ++
    List.replicate 4 0 ++
    [1, 2, 3, 0, 4, 5, 6, 0, 7, 8, 9, 0, 10, 11, 12, 0, 13, 14, 15, 0, 16, 17, 18, 0]) 0x100

/-- A version 0x40 table at offset 1 with `hlen = 0`, no entries and one
level-entry table of one entry, in an image that ends before the `flags`
byte of the header. -/
def bios_short_header : envy_bios :=
  bios_at [0, 0x40, 0, 0, 0, 0, 1, 4, 1] 1

/-- Level entry `j` of table `k` of the parsed record `r`, when the parser has
written it. -/
def dp_info_level_entry_at (r : envy_bios_d_dp_info) (k j : Nat) :
    Option envy_bios_d_dp_info_level_entry :=
  r.level_entry_tables.bind (fun ts => ts[k]?.bind (fun t => t.level_entries[j]?))

/-- The order in which the level entries are decoded, table-major and
entry-minor: entry `(k, j)` is decoded no later than entry `(k', j')`. -/
def decoded_before (k j k' j' : Nat) : Prop := k < k' ∨ (k = k' ∧ j ≤ j')

end Nvbios

namespace Rnn

/-! ## The XML tree (libxml2) -/

/-- The node kinds of libxml2 the loader tells apart. -/
inductive xmlElementType where
  | XML_ELEMENT_NODE
  | XML_TEXT_NODE
  | XML_OTHER_NODE
deriving Repr, DecidableEq

/-- A child node of an attribute: its kind and its text. -/
structure xmlAttrNode where
  type : xmlElementType
  content : String
deriving Repr, DecidableEq

/-- An attribute `xmlAttr`: its name and the chain of its children. -/
structure xmlAttr where
  name : String
  children : List xmlAttrNode
deriving Repr, DecidableEq

/-- A node `xmlNode`: kind, tag name, the chain `properties` and the chain
`children`. The line number, used in diagnostics only, is left out. -/
structure xmlNode where
  type : xmlElementType
  name : String
  properties : List xmlAttr
  children : List xmlNode
deriving Repr

/-- The documents `xmlParseFile` can open: the chain `doc->children` of each
readable path. -/
abbrev xmlFiles := String → Option (List xmlNode)

/-! ## The register database (rnn.h) -/

/-- Modelled from the spec: `struct rnnvarset`. `venum` points to an enum of
the database and is held as its index in `db->enums`. -/
structure rnnvarset where
  venum : Nat
  variants : List Nat
deriving Repr, DecidableEq

/-- Modelled from the spec: `struct rnnvarinfo`. The field `prefix` of the
source is `prefix_` here, `prefenum` is an index in `db->enums`. -/
structure rnnvarinfo where
  prefixstr : Option String
  varsetstr : Option String
  variantsstr : Option String
  dead : Bool
  prefenum : Option Nat
  prefix_ : Option String
  varsets : List rnnvarset
deriving Repr, DecidableEq

/-- Modelled from the spec: `struct rnnvalue`. A value the parser stores
always has a name. -/
structure rnnvalue where
  name : String
  valvalid : Bool
  value : Nat
  varinfo : rnnvarinfo
  fullname : Option String
deriving Repr, DecidableEq

/-- Modelled from the spec: the enumerators of `enum rnnttype`, numbered in the
order the specification lists the kinds. -/
def RNN_TTYPE_ENUM : Nat := 0
def RNN_TTYPE_INLINE_ENUM : Nat := 1
def RNN_TTYPE_BITSET : Nat := 2
def RNN_TTYPE_INLINE_BITSET : Nat := 3
def RNN_TTYPE_OTHER : Nat := 4

/-- Modelled from the spec: `struct rnntype`; `eenum` and `ebitset` are
indices in `db->enums` and `db->bitsets`. -/
structure rnntype where
  name : String
  type : Nat
  eenum : Option Nat
  ebitset : Option Nat
deriving Repr, DecidableEq

/-- Modelled from the spec: `struct rnntypeinfo`, over the type of its
bitfields. -/
structure rnntypeinfo_of (BF : Type) where
  shr : Nat
  min : Nat
  max : Nat
  align : Nat
  types : List rnntype
  vals : List rnnvalue
  bitfields : List BF
deriving Repr

/-- Modelled from the spec: `struct rnnbitfield`. `low` and `high` hold the
number the attribute parser returned. -/
structure rnnbitfield where
  name : String
  low : Nat
  high : Nat
  mask : Nat
  varinfo : rnnvarinfo
  typeinfo : rnntypeinfo_of rnnbitfield
  fullname : Option String
deriving Repr

/-- The `struct rnntypeinfo` of the source. -/
abbrev rnntypeinfo := rnntypeinfo_of rnnbitfield

/-- Modelled from the spec: `struct rnnenum`. -/
structure rnnenum where
  name : String
  bare : Bool
  isinline : Bool
  varinfo : rnnvarinfo
  vals : List rnnvalue
  fullname : Option String
  prepared : Bool
deriving Repr, DecidableEq

/-- Modelled from the spec: `struct rnnbitset`. -/
structure rnnbitset where
  name : String
  bare : Bool
  isinline : Bool
  varinfo : rnnvarinfo
  bitfields : List rnnbitfield
  fullname : Option String
deriving Repr

/-- Modelled from the spec: the enumerators of `enum rnnetype`, numbered in the
order the specification lists the kinds. -/
def RNN_ETYPE_REG : Nat := 0
def RNN_ETYPE_ARRAY : Nat := 1
def RNN_ETYPE_STRIPE : Nat := 2
def RNN_ETYPE_USE_GROUP : Nat := 3

/-- Modelled from the spec: the enumerators of `enum rnnaccess`. -/
def RNN_ACCESS_R : Nat := 0
def RNN_ACCESS_W : Nat := 1
def RNN_ACCESS_RW : Nat := 2

/-- Modelled from the spec: `struct rnndelem`. -/
structure rnndelem where
  type : Nat
  name : Option String
  width : Nat
  access : Nat
  offset : Nat
  length : Nat
  stride : Nat
  subelems : List rnndelem
  varinfo : rnnvarinfo
  typeinfo : rnntypeinfo
  fullname : Option String
deriving Repr

/-- Modelled from the spec: `struct rnngroup`. -/
structure rnngroup where
  name : String
  subelems : List rnndelem
deriving Repr

/-- Modelled from the spec: `struct rnndomain`. `width` is a C `int`, held as
its 32-bit word. -/
structure rnndomain where
  name : String
  bare : Bool
  width : Nat
  size : Nat
  varinfo : rnnvarinfo
  subelems : List rnndelem
  fullname : Option String
deriving Repr

/-- Modelled from the spec: `struct rnndb`. -/
structure rnndb where
  enums : List rnnenum
  bitsets : List rnnbitset
  domains : List rnndomain
  groups : List rnngroup
  files : List String
  estatus : Nat
deriving Repr

/-! ## Strings and attribute decoders -/

/-- `catstr`: `b` when `a` is null, else `a`, an underscore and `b`. -/
def catstr (a : Option String) (b : String) : String :=
  match a with
  | none => b
  | some a => a ++ "_" ++ b

/-- `strdiff`, as the truth value of its result: whether the two strings,
either of which may be null, differ. -/
def strdiff (a b : Option String) : Bool :=
  match a, b with
  | none, none => false
  | none, some _ => true
  | some _, none => true
  | some x, some y => x != y

/-- `rnn_newdb`: the database `calloc` returns. -/
def rnn_newdb : rnndb :=
  { enums := [], bitsets := [], domains := [], groups := [], files := [], estatus := 0 }

/-- The state after `db->estatus = 1`. -/
def set_estatus (db : rnndb) : rnndb := { db with estatus := 1 }

/-- The loop of `getattrib` over the chain of attribute children. -/
def getattrib_chain (db : rnndb) : List xmlAttrNode → rnndb × String
  | [] => (db, "")
  | chain :: next =>
    if chain.type ≠ xmlElementType.XML_TEXT_NODE then getattrib_chain (set_estatus db) next
    else (db, chain.content)

/-- `getattrib`: the content of the first text child, `""` without one; every
child skipped on the way sets `estatus`. -/
def getattrib (db : rnndb) (attr : xmlAttr) : rnndb × String :=
  getattrib_chain db attr.children

/-- `getboolattrib`. -/
def getboolattrib (db : rnndb) (attr : xmlAttr) : rnndb × Bool :=
  let r := getattrib db attr
  if r.2 = "yes" ∨ r.2 = "1" then (r.1, true)
  else if r.2 = "no" ∨ r.2 = "0" then (r.1, false)
  else (set_estatus r.1, false)

/-- The C library's `isspace` in the "C" locale. -/
def c_isspace (c : Char) : Bool :=
  c = ' ' || c = '\t' || c = '\n' || c = '\x0b' || c = '\x0c' || c = '\r'

/-- The value of a digit character in `strtoull`, for bases up to 36. -/
def digit_value (c : Char) : Option Nat :=
  if '0' ≤ c ∧ c ≤ '9' then some (c.toNat - '0'.toNat)
  else if 'a' ≤ c ∧ c ≤ 'z' then some (c.toNat - 'a'.toNat + 10)
  else if 'A' ≤ c ∧ c ≤ 'Z' then some (c.toNat - 'A'.toNat + 10)
  else none

/-- The digit loop of `strtoull`: the value so far, whether it has overflowed
64 bits, whether a digit was consumed, and the rest of the string. -/
def strtoull_digits (base : Nat) : List Char → Nat → Bool → Bool → Nat × Bool × Bool × List Char
  | [], acc, ovf, any => (acc, ovf, any, [])
  | c :: cs, acc, ovf, any =>
    match digit_value c with
    | none => (acc, ovf, any, c :: cs)
    | some d =>
      if d < base then
        if acc * base + d < 2 ^ 64 then strtoull_digits base cs (acc * base + d) ovf true
        else strtoull_digits base cs acc true true
      else (acc, ovf, any, c :: cs)

/-- The C library's `strtoull(s, &end, base)` for base 10 or 16: the result and
the string at `end`. White space and a sign are skipped, base 16 accepts a
`0x` head, an overflow gives `ULLONG_MAX`, a minus sign negates modulo `2^64`,
and without a digit the result is 0 with `end` at the start of `s` (at the
`x` after a bare `0x`). -/
def strtoull (s : List Char) (base : Nat) : Nat × List Char :=
  let s1 := s.dropWhile c_isspace
  let sg : Bool × List Char :=
    match s1 with
    | '-' :: r => (true, r)
    | '+' :: r => (false, r)
    | _ => (false, s1)
  let hd : Bool × List Char :=
    match sg.2 with
    | '0' :: x :: r => if base = 16 ∧ (x = 'x' ∨ x = 'X') then (true, r) else (false, sg.2)
    | _ => (false, sg.2)
  let d := strtoull_digits base hd.2 0 false false
  if d.2.2.1 = false then
    if hd.1 then (0, sg.2.drop 1) else (0, s)
  else if d.2.1 then (2 ^ 64 - 1, d.2.2.2)
  else if sg.1 then ((2 ^ 64 - d.1) % 2 ^ 64, d.2.2.2)
  else (d.1, d.2.2.2)

/-- `getnumattrib`: base 16 when the text holds an `x` or `X`, else base 10;
`estatus` is set when `strtoull` leaves characters unread. -/
def getnumattrib (db : rnndb) (attr : xmlAttr) : rnndb × Nat :=
  let r := getattrib db attr
  let c := r.2.toList
  let p := if c.contains 'x' ∨ c.contains 'X' then strtoull c 16 else strtoull c 10
  if p.2 ≠ [] then (set_estatus r.1, p.1) else (r.1, p.1)

/-- `trydoc`. -/
def trydoc (node : xmlNode) : Bool :=
  if node.name = "brief" then true
  else if node.name = "doc" then true
  else false

/-- The words of `str` between runs of spaces, as the scanning loops of
`trytypeattr` and `prepvarinfo` cut them; `cur` is the word being read, in
reverse. -/
def split_spaces : List Char → List Char → List String
  | [], cur => if cur = [] then [] else [String.mk cur.reverse]
  | c :: cs, cur =>
    if c = ' ' then
      if cur = [] then split_spaces cs [] else String.mk cur.reverse :: split_spaces cs []
    else split_spaces cs (c :: cur)

/-- The `struct rnntype` that `trytypeattr` allocates for the word `name`. -/
def new_rnntype (name : String) : rnntype :=
  { name := name, type := 0, eenum := none, ebitset := none }

/-- `trytypeattr`: the status, the database and the type info. -/
def trytypeattr (db : rnndb) (attr : xmlAttr) (ti : rnntypeinfo) : rnndb × rnntypeinfo × Bool :=
  if attr.name = "shr" then
    let r := getnumattrib db attr
    (r.1, { ti with shr := r.2 }, true)
  else if attr.name = "type" then
    let r := getattrib db attr
    (r.1, { ti with types := ti.types ++ (split_spaces r.2.toList []).map new_rnntype }, true)
  else (db, ti, false)

/-- The type info of a fresh record (all bytes zero). -/
def rnntypeinfo_zero : rnntypeinfo :=
  { shr := 0, min := 0, max := 0, align := 0, types := [], vals := [], bitfields := [] }

/-- The variant info of a fresh record (all bytes zero). -/
def rnnvarinfo_zero : rnnvarinfo :=
  { prefixstr := none, varsetstr := none, variantsstr := none, dead := false,
    prefenum := none, prefix_ := none, varsets := [] }

/-- The first element of `l` named `name` with its index, counted from `i`:
the search loops `for (i = 0; i < n; i++) if (!strcmp(xs[i]->name, name))`. -/
def find_named {α : Type} (nm : α → String) (name : String) : List α → Nat → Option (Nat × α)
  | [], _ => none
  | x :: xs, i => if nm x = name then some (i, x) else find_named nm name xs (i + 1)

/-- The list `l` with `f` applied to the element at index `i`: a store
through the pointer `l[i]`. -/
def modify_at {α : Type} (f : α → α) : List α → Nat → List α
  | [], _ => []
  | x :: xs, 0 => f x :: xs
  | x :: xs, i + 1 => x :: modify_at f xs i

/-! ## The parser: attribute loops -/

/-- The `struct rnnvalue` under construction in `parsevalue`; `name` is null
until the attribute is seen. -/
structure rnnvalue_tmp where
  name : Option String
  valvalid : Bool
  value : Nat
  varinfo : rnnvarinfo
deriving Repr, DecidableEq

/-- One round of the attribute loop of `parsevalue`. -/
def parsevalue_attr (st : rnndb × rnnvalue_tmp) (attr : xmlAttr) : rnndb × rnnvalue_tmp :=
  let db := st.1
  let val := st.2
  if attr.name = "name" then
    let r := getattrib db attr
    (r.1, { val with name := some r.2 })
  else if attr.name = "value" then
    let r := getnumattrib db attr
    (r.1, { val with value := r.2, valvalid := true })
  else if attr.name = "varset" then
    let r := getattrib db attr
    (r.1, { val with varinfo := { val.varinfo with varsetstr := some r.2 } })
  else if attr.name = "variants" then
    let r := getattrib db attr
    (r.1, { val with varinfo := { val.varinfo with variantsstr := some r.2 } })
  else (set_estatus db, val)

/-- The `struct rnnbitfield` under construction in `parsebitfield`, with the
locals `highok` and `lowok`. -/
structure rnnbitfield_tmp where
  name : Option String
  low : Nat
  high : Nat
  highok : Bool
  lowok : Bool
  varinfo : rnnvarinfo
  typeinfo : rnntypeinfo
deriving Repr

/-- One round of the attribute loop of `parsebitfield`. -/
def parsebitfield_attr (st : rnndb × rnnbitfield_tmp) (attr : xmlAttr) :
    rnndb × rnnbitfield_tmp :=
  let db := st.1
  let bf := st.2
  if attr.name = "name" then
    let r := getattrib db attr
    (r.1, { bf with name := some r.2 })
  else if attr.name = "high" then
    let r := getnumattrib db attr
    (r.1, { bf with high := r.2, highok := true })
  else if attr.name = "low" then
    let r := getnumattrib db attr
    (r.1, { bf with low := r.2, lowok := true })
  else if attr.name = "varset" then
    let r := getattrib db attr
    (r.1, { bf with varinfo := { bf.varinfo with varsetstr := some r.2 } })
  else if attr.name = "variants" then
    let r := getattrib db attr
    (r.1, { bf with varinfo := { bf.varinfo with variantsstr := some r.2 } })
  else
    let r := trytypeattr db attr bf.typeinfo
    if r.2.2 then (r.1, { bf with typeinfo := r.2.1 })
    else (set_estatus r.1, { bf with typeinfo := r.2.1 })

/-- The locals of `parseenum` and of `parsebitset` that the attribute loop
sets. -/
structure enum_attrs where
  name : Option String
  isinline : Bool
  bare : Bool
  prefixstr : Option String
  varsetstr : Option String
  variantsstr : Option String
deriving Repr, DecidableEq

/-- The locals of `parseenum` before its attribute loop. -/
def enum_attrs_zero : enum_attrs :=
  { name := none, isinline := false, bare := false, prefixstr := none, varsetstr := none,
    variantsstr := none }

/-- One round of the attribute loop of `parseenum` (and `parsebitset`, which
has the same loop). -/
def parseenum_attr (st : rnndb × enum_attrs) (attr : xmlAttr) : rnndb × enum_attrs :=
  let db := st.1
  let a := st.2
  if attr.name = "name" then
    let r := getattrib db attr
    (r.1, { a with name := some r.2 })
  else if attr.name = "bare" then
    let r := getboolattrib db attr
    (r.1, { a with bare := r.2 })
  else if attr.name = "inline" then
    let r := getboolattrib db attr
    (r.1, { a with isinline := r.2 })
  else if attr.name = "prefix" then
    let r := getattrib db attr
    (r.1, { a with prefixstr := some r.2 })
  else if attr.name = "varset" then
    let r := getattrib db attr
    (r.1, { a with varsetstr := some r.2 })
  else if attr.name = "variants" then
    let r := getattrib db attr
    (r.1, { a with variantsstr := some r.2 })
  else (set_estatus db, a)

/-- The conversion of a `uint64_t` to `int`, as a 32-bit word. -/
def int_of_u64 (v : Nat) : Nat := v % 2 ^ 32

/-- The locals of `parsedomain` that the attribute loop sets. -/
structure domain_attrs where
  name : Option String
  size : Nat
  width : Nat
  bare : Bool
  prefixstr : Option String
  varsetstr : Option String
  variantsstr : Option String
deriving Repr, DecidableEq

/-- The locals of `parsedomain` before its attribute loop (`width = 8`). -/
def domain_attrs_zero : domain_attrs :=
  { name := none, size := 0, width := 8, bare := false, prefixstr := none,
    varsetstr := none, variantsstr := none }

/-- One round of the attribute loop of `parsedomain`. -/
def parsedomain_attr (st : rnndb × domain_attrs) (attr : xmlAttr) : rnndb × domain_attrs :=
  let db := st.1
  let a := st.2
  if attr.name = "name" then
    let r := getattrib db attr
    (r.1, { a with name := some r.2 })
  else if attr.name = "bare" then
    let r := getboolattrib db attr
    (r.1, { a with bare := r.2 })
  else if attr.name = "size" then
    let r := getnumattrib db attr
    (r.1, { a with size := r.2 })
  else if attr.name = "width" then
    let r := getnumattrib db attr
    (r.1, { a with width := int_of_u64 r.2 })
  else if attr.name = "prefix" then
    let r := getattrib db attr
    (r.1, { a with prefixstr := some r.2 })
  else if attr.name = "varset" then
    let r := getattrib db attr
    (r.1, { a with varsetstr := some r.2 })
  else if attr.name = "variants" then
    let r := getattrib db attr
    (r.1, { a with variantsstr := some r.2 })
  else (set_estatus db, a)

/-- One round of the attribute loop of `parsegroup`: the local `name`. -/
def parsegroup_attr (st : rnndb × Option String) (attr : xmlAttr) : rnndb × Option String :=
  if attr.name = "name" then
    let r := getattrib st.1 attr
    (r.1, some r.2)
  else (set_estatus st.1, st.2)

/-- One round of the attribute loop of the `import` branch of `trytop`: the
local `subfile`. -/
def import_attr (st : rnndb × Option String) (attr : xmlAttr) : rnndb × Option String :=
  if attr.name = "file" then
    let r := getattrib st.1 attr
    (r.1, some r.2)
  else (set_estatus st.1, st.2)

/-- The element `calloc` returns in `trydelem`. -/
def rnndelem_zero : rnndelem :=
  { type := 0, name := none, width := 0, access := 0, offset := 0, length := 0, stride := 0,
    subelems := [], varinfo := rnnvarinfo_zero, typeinfo := rnntypeinfo_zero,
    fullname := none }

/-- One round of the attribute loop of the `use-group` branch of `trydelem`. -/
def usegroup_attr (st : rnndb × rnndelem) (attr : xmlAttr) : rnndb × rnndelem :=
  if attr.name = "name" then
    let r := getattrib st.1 attr
    (r.1, { st.2 with name := some r.2 })
  else (set_estatus st.1, st.2)

/-- One round of the attribute loop of the `stripe`/`array` branch of
`trydelem`. -/
def stripe_attr (st : rnndb × rnndelem) (attr : xmlAttr) : rnndb × rnndelem :=
  let db := st.1
  let res := st.2
  if attr.name = "name" then
    let r := getattrib db attr
    (r.1, { res with name := some r.2 })
  else if attr.name = "offset" then
    let r := getnumattrib db attr
    (r.1, { res with offset := r.2 })
  else if attr.name = "length" then
    let r := getnumattrib db attr
    (r.1, { res with length := r.2 })
  else if attr.name = "stride" then
    let r := getnumattrib db attr
    (r.1, { res with stride := r.2 })
  else if attr.name = "prefix" then
    let r := getattrib db attr
    (r.1, { res with varinfo := { res.varinfo with prefixstr := some r.2 } })
  else if attr.name = "varset" then
    let r := getattrib db attr
    (r.1, { res with varinfo := { res.varinfo with varsetstr := some r.2 } })
  else if attr.name = "variants" then
    let r := getattrib db attr
    (r.1, { res with varinfo := { res.varinfo with variantsstr := some r.2 } })
  else (set_estatus db, res)

/-- One round of the attribute loop of the register branch of `trydelem`. An
`access` text other than `r`, `w`, `rw` is reported and nothing is stored. -/
def reg_attr (st : rnndb × rnndelem) (attr : xmlAttr) : rnndb × rnndelem :=
  let db := st.1
  let res := st.2
  if attr.name = "name" then
    let r := getattrib db attr
    (r.1, { res with name := some r.2 })
  else if attr.name = "offset" then
    let r := getnumattrib db attr
    (r.1, { res with offset := r.2 })
  else if attr.name = "length" then
    let r := getnumattrib db attr
    (r.1, { res with length := r.2 })
  else if attr.name = "stride" then
    let r := getnumattrib db attr
    (r.1, { res with stride := r.2 })
  else if attr.name = "varset" then
    let r := getattrib db attr
    (r.1, { res with varinfo := { res.varinfo with varsetstr := some r.2 } })
  else if attr.name = "variants" then
    let r := getattrib db attr
    (r.1, { res with varinfo := { res.varinfo with variantsstr := some r.2 } })
  else if attr.name = "access" then
    let r := getattrib db attr
    if r.2 = "r" then (r.1, { res with access := RNN_ACCESS_R })
    else if r.2 = "w" then (r.1, { res with access := RNN_ACCESS_W })
    else if r.2 = "rw" then (r.1, { res with access := RNN_ACCESS_RW })
    else (r.1, res)
  else
    let r := trytypeattr db attr res.typeinfo
    if r.2.2 then (r.1, { res with typeinfo := r.2.1 })
    else (set_estatus r.1, { res with typeinfo := r.2.1 })

/-- The width of the register tags `reg8`, `reg16`, `reg32`, `reg64`. -/
def reg_width (name : String) : Option Nat :=
  if name = "reg8" then some 8
  else if name = "reg16" then some 16
  else if name = "reg32" then some 32
  else if name = "reg64" then some 64
  else none

/-! ## The parser: merge by name -/

/-- The enum that `parseenum` allocates for a new name. -/
def new_rnnenum (name : String) (a : enum_attrs) : rnnenum :=
  { name := name, isinline := a.isinline, bare := a.bare,
    varinfo := { rnnvarinfo_zero with
      prefixstr := a.prefixstr, varsetstr := a.varsetstr, variantsstr := a.variantsstr },
    vals := [], fullname := none, prepared := false }

/-- The merge test of `parseenum`: whether the attributes of the declaration
differ from those of the enum `cur` of the same name. -/
def enum_mismatch (cur : rnnenum) (a : enum_attrs) : Bool :=
  strdiff cur.varinfo.prefixstr a.prefixstr ||
    strdiff cur.varinfo.varsetstr a.varsetstr ||
    strdiff cur.varinfo.variantsstr a.variantsstr ||
    cur.isinline != a.isinline || cur.bare != a.bare

/-- The part of `parseenum` between the attribute loop and the child loop:
the search for `name`, then the merge check on a hit or the allocation on a
miss. The result is the database and `cur`, as its index in `db->enums`. -/
def parseenum_cur (db : rnndb) (name : String) (a : enum_attrs) : rnndb × Nat :=
  match find_named rnnenum.name name db.enums 0 with
  | some (i, cur) => if enum_mismatch cur a then (set_estatus db, i) else (db, i)
  | none => ({ db with enums := db.enums ++ [new_rnnenum name a] }, db.enums.length)

/-- The bitset that `parsebitset` allocates for a new name. -/
def new_rnnbitset (name : String) (a : enum_attrs) : rnnbitset :=
  { name := name, isinline := a.isinline, bare := a.bare,
    varinfo := { rnnvarinfo_zero with
      prefixstr := a.prefixstr, varsetstr := a.varsetstr, variantsstr := a.variantsstr },
    bitfields := [], fullname := none }

/-- The merge test of `parsebitset`. -/
def bitset_mismatch (cur : rnnbitset) (a : enum_attrs) : Bool :=
  strdiff cur.varinfo.prefixstr a.prefixstr ||
    strdiff cur.varinfo.varsetstr a.varsetstr ||
    strdiff cur.varinfo.variantsstr a.variantsstr ||
    cur.isinline != a.isinline || cur.bare != a.bare

/-- The part of `parsebitset` between the attribute loop and the child loop. -/
def parsebitset_cur (db : rnndb) (name : String) (a : enum_attrs) : rnndb × Nat :=
  match find_named rnnbitset.name name db.bitsets 0 with
  | some (i, cur) => if bitset_mismatch cur a then (set_estatus db, i) else (db, i)
  | none => ({ db with bitsets := db.bitsets ++ [new_rnnbitset name a] }, db.bitsets.length)

/-- The part of `parsegroup` between the attribute loop and the child loop. -/
def parsegroup_cur (db : rnndb) (name : String) : rnndb × Nat :=
  match find_named rnngroup.name name db.groups 0 with
  | some (i, _) => (db, i)
  | none => ({ db with groups := db.groups ++ [{ name := name, subelems := [] }] },
      db.groups.length)

/-- The domain that `parsedomain` allocates for a new name. -/
def new_rnndomain (name : String) (a : domain_attrs) : rnndomain :=
  { name := name, bare := a.bare, width := a.width, size := a.size,
    varinfo := { rnnvarinfo_zero with
      prefixstr := a.prefixstr, varsetstr := a.varsetstr, variantsstr := a.variantsstr },
    subelems := [], fullname := none }

/-- The merge test of `parsedomain`. -/
def domain_mismatch (cur : rnndomain) (a : domain_attrs) : Bool :=
  strdiff cur.varinfo.prefixstr a.prefixstr ||
    strdiff cur.varinfo.varsetstr a.varsetstr ||
    strdiff cur.varinfo.variantsstr a.variantsstr ||
    cur.width != a.width || cur.bare != a.bare ||
    (a.size != 0 && cur.size != 0 && a.size != cur.size)

/-- The part of `parsedomain` between the attribute loop and the child loop. -/
def parsedomain_cur (db : rnndb) (name : String) (a : domain_attrs) : rnndb × Nat :=
  match find_named rnndomain.name name db.domains 0 with
  | some (i, cur) =>
    if domain_mismatch cur a then (set_estatus db, i)
    else if a.size != 0 then
      ({ db with domains := modify_at (fun d => { d with size := a.size }) db.domains i }, i)
    else (db, i)
  | none => ({ db with domains := db.domains ++ [new_rnndomain name a] }, db.domains.length)

/-- `RNN_ADDARRAY(cur->vals, val)` for the enum `cur`. -/
def enum_addval (db : rnndb) (cur : Nat) (val : rnnvalue) : rnndb :=
  { db with enums := modify_at (fun e => { e with vals := e.vals ++ [val] }) db.enums cur }

/-- `RNN_ADDARRAY(cur->bitfields, bf)` for the bitset `cur`. -/
def bitset_addbitfield (db : rnndb) (cur : Nat) (bf : rnnbitfield) : rnndb :=
  { db with bitsets :=
      modify_at (fun b => { b with bitfields := b.bitfields ++ [bf] }) db.bitsets cur }

/-- `RNN_ADDARRAY(cur->subelems, delem)` for the group `cur`. -/
def group_addsubelem (db : rnndb) (cur : Nat) (delem : rnndelem) : rnndb :=
  { db with groups :=
      modify_at (fun g => { g with subelems := g.subelems ++ [delem] }) db.groups cur }

/-- `RNN_ADDARRAY(cur->subelems, delem)` for the domain `cur`. -/
def domain_addsubelem (db : rnndb) (cur : Nat) (delem : rnndelem) : rnndb :=
  { db with domains :=
      modify_at (fun d => { d with subelems := d.subelems ++ [delem] }) db.domains cur }

/-- The value `calloc` returns in `parsevalue`. -/
def rnnvalue_tmp_zero : rnnvalue_tmp :=
  { name := none, valvalid := false, value := 0, varinfo := rnnvarinfo_zero }

/-- The bitfield `calloc` returns in `parsebitfield`, with `highok = lowok = 0`. -/
def rnnbitfield_tmp_zero : rnnbitfield_tmp :=
  { name := none, low := 0, high := 0, highok := false, lowok := false,
    varinfo := rnnvarinfo_zero, typeinfo := rnntypeinfo_zero }

/-- The element of the `use-group` branch of `trydelem` before its attribute
loop. -/
def new_usegroup : rnndelem := { rnndelem_zero with type := RNN_ETYPE_USE_GROUP }

/-- The element of the `stripe`/`array` branch of `trydelem` before its
attribute loop. -/
def new_stripe (tag : String) : rnndelem :=
  { rnndelem_zero with
    type := if tag = "stripe" then RNN_ETYPE_STRIPE else RNN_ETYPE_ARRAY, length := 1 }

/-- The element of the register branch of `trydelem` before its attribute
loop. -/
def new_reg (width : Nat) : rnndelem :=
  { rnndelem_zero with
    type := RNN_ETYPE_REG, width := width, length := 1, access := RNN_ACCESS_RW }

/-- The tail of a child loop round, `else if (!trytop(..) && !trydoc(..))
db->estatus = 1`, once `trytop` has returned `r`. -/
def wrong_tag (db : rnndb) (r : Bool) (chain : xmlNode) : rnndb :=
  if !r && !trydoc chain then set_estatus db else db

/-! ## The parser: child loops

One round of each child loop `while (chain) { .. chain = chain->next; }`, over
the functions it calls. A round returns `none` when a call runs out of
fuel. -/

/-- A round with the body `if (chain->type != XML_ELEMENT_NODE) {} else if
(!trytop(..) && !trydoc(..)) db->estatus = 1`: the loops of `parsevalue` and
of `rnn_parsefile`. -/
def top_child (top : rnndb → xmlNode → Option (rnndb × Bool)) (db : rnndb) (chain : xmlNode) :
    Option rnndb :=
  if chain.type ≠ xmlElementType.XML_ELEMENT_NODE then some db
  else
    match top db chain with
    | none => none
    | some (db, r) => some (wrong_tag db r chain)

/-- A round of the child loop of `parsebitfield` and of the register branch of
`trydelem`: `trytypetag` on `&bf->typeinfo`, then `trytop`, then `trydoc`. -/
def typetag_child
    (typetag : rnndb → xmlNode → rnntypeinfo → Option (rnndb × rnntypeinfo × Bool))
    (top : rnndb → xmlNode → Option (rnndb × Bool)) (s : rnndb × rnntypeinfo)
    (chain : xmlNode) : Option (rnndb × rnntypeinfo) :=
  if chain.type ≠ xmlElementType.XML_ELEMENT_NODE then some s
  else
    match typetag s.1 chain s.2 with
    | none => none
    | some (db, ti, true) => some (db, ti)
    | some (db, ti, false) =>
      match top db chain with
      | none => none
      | some (db, r) => some (wrong_tag db r chain, ti)

/-- A round of the child loop of `parseenum`, for the enum `cur`. -/
def enum_child (value : rnndb → xmlNode → Option (rnndb × Option rnnvalue))
    (top : rnndb → xmlNode → Option (rnndb × Bool)) (cur : Nat) (db : rnndb)
    (chain : xmlNode) : Option rnndb :=
  if chain.type ≠ xmlElementType.XML_ELEMENT_NODE then some db
  else if chain.name = "value" then
    match value db chain with
    | none => none
    | some (db, some val) => some (enum_addval db cur val)
    | some (db, none) => some db
  else
    match top db chain with
    | none => none
    | some (db, r) => some (wrong_tag db r chain)

/-- A round of the child loop of `parsebitset`, for the bitset `cur`. -/
def bitset_child (bitfield : rnndb → xmlNode → Option (rnndb × Option rnnbitfield))
    (top : rnndb → xmlNode → Option (rnndb × Bool)) (cur : Nat) (db : rnndb)
    (chain : xmlNode) : Option rnndb :=
  if chain.type ≠ xmlElementType.XML_ELEMENT_NODE then some db
  else if chain.name = "bitfield" then
    match bitfield db chain with
    | none => none
    | some (db, some bf) => some (bitset_addbitfield db cur bf)
    | some (db, none) => some db
  else
    match top db chain with
    | none => none
    | some (db, r) => some (wrong_tag db r chain)

/-- A round of the child loop of the `stripe`/`array` branch of `trydelem`,
which appends to `res->subelems`. -/
def stripe_child (delem : rnndb → xmlNode → Option (rnndb × Option rnndelem))
    (top : rnndb → xmlNode → Option (rnndb × Bool)) (s : rnndb × rnndelem)
    (chain : xmlNode) : Option (rnndb × rnndelem) :=
  if chain.type ≠ xmlElementType.XML_ELEMENT_NODE then some s
  else
    match delem s.1 chain with
    | none => none
    | some (db, some d) => some (db, { s.2 with subelems := s.2.subelems ++ [d] })
    | some (db, none) =>
      match top db chain with
      | none => none
      | some (db, r) => some (wrong_tag db r chain, s.2)

/-- A round of the child loop of `parsegroup` and of `parsedomain`; `add` is
`RNN_ADDARRAY(cur->subelems, delem)`. -/
def delem_child (delem : rnndb → xmlNode → Option (rnndb × Option rnndelem))
    (top : rnndb → xmlNode → Option (rnndb × Bool)) (add : rnndb → rnndelem → rnndb)
    (db : rnndb) (chain : xmlNode) : Option rnndb :=
  if chain.type ≠ xmlElementType.XML_ELEMENT_NODE then some db
  else
    match delem db chain with
    | none => none
    | some (db, some d) => some (add db d)
    | some (db, none) =>
      match top db chain with
      | none => none
      | some (db, r) => some (wrong_tag db r chain)

/-- A round of the loop of `rnn_parsefile` over the top nodes of the
document. -/
def root_child (top : rnndb → xmlNode → Option (rnndb × Bool)) (db : rnndb) (root : xmlNode) :
    Option rnndb :=
  if root.type ≠ xmlElementType.XML_ELEMENT_NODE then some db
  else if root.name ≠ "database" then some (set_estatus db)
  else root.children.foldlM (top_child top) db

/-! ## The parser: elements

Every function of the group takes the fuel first and returns `none` when it
runs out; a call passes the fuel that is left. The file name, used in
diagnostics only, is passed to `rnn_parsefile` alone. -/

mutual

/-- `trytypetag`. -/
def trytypetag : Nat → xmlFiles → rnndb → xmlNode → rnntypeinfo →
    Option (rnndb × rnntypeinfo × Bool)
  | 0, _, _, _, _ => none
  | fuel + 1, fs, db, node, ti =>
    if node.name = "value" then
      match parsevalue fuel fs db node with
      | none => none
      | some (db, some val) => some (db, { ti with vals := ti.vals ++ [val] }, true)
      | some (db, none) => some (db, ti, true)
    else if node.name = "bitfield" then
      match parsebitfield fuel fs db node with
      | none => none
      | some (db, some bf) => some (db, { ti with bitfields := ti.bitfields ++ [bf] }, true)
      | some (db, none) => some (db, ti, true)
    else some (db, ti, false)

/-- `parsevalue`: `none` in the result is the null pointer. -/
def parsevalue : Nat → xmlFiles → rnndb → xmlNode → Option (rnndb × Option rnnvalue)
  | 0, _, _, _ => none
  | fuel + 1, fs, db, node =>
    let st := node.properties.foldl parsevalue_attr (db, rnnvalue_tmp_zero)
    match node.children.foldlM (top_child (fun db chain => trytop fuel fs db chain)) st.1 with
    | none => none
    | some db =>
      match st.2.name with
      | none => some (set_estatus db, none)
      | some name =>
        some (db, some
          { name := name, valvalid := st.2.valvalid, value := st.2.value,
            varinfo := st.2.varinfo, fullname := none })

/-- `parsebitfield`: `none` in the result is the null pointer. -/
def parsebitfield : Nat → xmlFiles → rnndb → xmlNode → Option (rnndb × Option rnnbitfield)
  | 0, _, _, _ => none
  | fuel + 1, fs, db, node =>
    let st := node.properties.foldl parsebitfield_attr (db, rnnbitfield_tmp_zero)
    match node.children.foldlM
        (typetag_child (fun db chain ti => trytypetag fuel fs db chain ti)
          (fun db chain => trytop fuel fs db chain)) (st.1, st.2.typeinfo) with
    | none => none
    | some (db, ti) =>
      match st.2.name with
      | none => some (set_estatus db, none)
      | some name =>
        if !st.2.highok || !st.2.lowok || decide (st.2.high < st.2.low) then
          some (set_estatus db, none)
        else
          some (db, some
            { name := name, low := st.2.low, high := st.2.high, mask := 0,
              varinfo := st.2.varinfo, typeinfo := ti, fullname := none })

/-- `parseenum`. -/
def parseenum : Nat → xmlFiles → rnndb → xmlNode → Option rnndb
  | 0, _, _, _ => none
  | fuel + 1, fs, db, node =>
    let st := node.properties.foldl parseenum_attr (db, enum_attrs_zero)
    match st.2.name with
    | none => some (set_estatus st.1)
    | some name =>
      let c := parseenum_cur st.1 name st.2
      node.children.foldlM
        (enum_child (fun db chain => parsevalue fuel fs db chain)
          (fun db chain => trytop fuel fs db chain) c.2) c.1

/-- `parsebitset`. -/
def parsebitset : Nat → xmlFiles → rnndb → xmlNode → Option rnndb
  | 0, _, _, _ => none
  | fuel + 1, fs, db, node =>
    let st := node.properties.foldl parseenum_attr (db, enum_attrs_zero)
    match st.2.name with
    | none => some (set_estatus st.1)
    | some name =>
      let c := parsebitset_cur st.1 name st.2
      node.children.foldlM
        (bitset_child (fun db chain => parsebitfield fuel fs db chain)
          (fun db chain => trytop fuel fs db chain) c.2) c.1

/-- `trydelem`: `none` in the result is the null pointer. -/
def trydelem : Nat → xmlFiles → rnndb → xmlNode → Option (rnndb × Option rnndelem)
  | 0, _, _, _ => none
  | fuel + 1, fs, db, node =>
    if node.name = "use-group" then
      let st := node.properties.foldl usegroup_attr (db, new_usegroup)
      match st.2.name with
      | none => some (set_estatus st.1, none)
      | some _ => some (st.1, some st.2)
    else if node.name = "stripe" ∨ node.name = "array" then
      let st := node.properties.foldl stripe_attr (db, new_stripe node.name)
      (node.children.foldlM
        (stripe_child (fun db chain => trydelem fuel fs db chain)
          (fun db chain => trytop fuel fs db chain)) (st.1, st.2)).map
        (fun s => (s.1, some s.2))
    else
      match reg_width node.name with
      | none => some (db, none)
      | some width =>
        let st := node.properties.foldl reg_attr (db, new_reg width)
        match node.children.foldlM
            (typetag_child (fun db chain ti => trytypetag fuel fs db chain ti)
              (fun db chain => trytop fuel fs db chain)) (st.1, st.2.typeinfo) with
        | none => none
        | some (db, ti) =>
          match st.2.name with
          | none => some (set_estatus db, none)
          | some _ => some (db, some { st.2 with typeinfo := ti })

/-- `parsegroup`. -/
def parsegroup : Nat → xmlFiles → rnndb → xmlNode → Option rnndb
  | 0, _, _, _ => none
  | fuel + 1, fs, db, node =>
    let st := node.properties.foldl parsegroup_attr (db, none)
    match st.2 with
    | none => some (set_estatus st.1)
    | some name =>
      let c := parsegroup_cur st.1 name
      node.children.foldlM
        (delem_child (fun db chain => trydelem fuel fs db chain)
          (fun db chain => trytop fuel fs db chain)
          (fun db delem => group_addsubelem db c.2 delem)) c.1

/-- `parsedomain`. -/
def parsedomain : Nat → xmlFiles → rnndb → xmlNode → Option rnndb
  | 0, _, _, _ => none
  | fuel + 1, fs, db, node =>
    let st := node.properties.foldl parsedomain_attr (db, domain_attrs_zero)
    match st.2.name with
    | none => some (set_estatus st.1)
    | some name =>
      let c := parsedomain_cur st.1 name st.2
      node.children.foldlM
        (delem_child (fun db chain => trydelem fuel fs db chain)
          (fun db chain => trytop fuel fs db chain)
          (fun db delem => domain_addsubelem db c.2 delem)) c.1

/-- `trytop`. -/
def trytop : Nat → xmlFiles → rnndb → xmlNode → Option (rnndb × Bool)
  | 0, _, _, _ => none
  | fuel + 1, fs, db, node =>
    if node.name = "enum" then (parseenum fuel fs db node).map (fun db => (db, true))
    else if node.name = "bitset" then (parsebitset fuel fs db node).map (fun db => (db, true))
    else if node.name = "group" then (parsegroup fuel fs db node).map (fun db => (db, true))
    else if node.name = "domain" then (parsedomain fuel fs db node).map (fun db => (db, true))
    else if node.name = "import" then
      let st := node.properties.foldl import_attr (db, none)
      match st.2 with
      | none => some (set_estatus st.1, true)
      | some subfile => (rnn_parsefile fuel fs st.1 subfile).map (fun db => (db, true))
    else some (db, false)

/-- `rnn_parsefile`; `fs` stands for `xmlParseFile`. -/
def rnn_parsefile : Nat → xmlFiles → rnndb → String → Option rnndb
  | 0, _, _, _ => none
  | fuel + 1, fs, db, file =>
    if file ∈ db.files then some db
    else
      let db := { db with files := db.files ++ [file] }
      match fs file with
      | none => some (set_estatus db)
      | some doc => doc.foldlM (root_child (fun db chain => trytop fuel fs db chain)) db

end

/-! ## The preparer: copies -/

/-- `copyvalue`. The copy shares the (empty) variant sets of the original: the
originals are values of inline enums, which are never prepared. -/
def copyvalue (val : rnnvalue) : rnnvalue :=
  { name := val.name, valvalid := val.valvalid, value := val.value, varinfo := val.varinfo,
    fullname := none }

/-- `copytype`. -/
def copytype (t : rnntype) : rnntype :=
  { name := t.name, type := 0, eenum := none, ebitset := none }

mutual

/-- `copybitfield`. -/
def copybitfield : rnnbitfield → rnnbitfield
  | ⟨name, low, high, _, varinfo, typeinfo, _⟩ =>
    { name := name, low := low, high := high, mask := 0, varinfo := varinfo,
      typeinfo := copytypeinfo rnntypeinfo_zero typeinfo, fullname := none }

/-- `copytypeinfo`: the type info `dst` after the copy of `src` into it. -/
def copytypeinfo : rnntypeinfo → rnntypeinfo → rnntypeinfo
  | dst, ⟨shr, min, max, align, types, vals, bitfields⟩ =>
    { shr := shr, min := min, max := max, align := align,
      vals := dst.vals ++ vals.map copyvalue,
      types := dst.types ++ types.map copytype,
      bitfields := dst.bitfields ++ copybitfields bitfields }

/-- The loop of `copytypeinfo` over `src->bitfields`. -/
def copybitfields : List rnnbitfield → List rnnbitfield
  | [] => []
  | bf :: rest => copybitfield bf :: copybitfields rest

end

mutual

/-- `copydelem`. The field `type` is not copied and stays 0. -/
def copydelem : rnndelem → rnndelem
  | ⟨_, name, width, access, offset, length, stride, subelems, varinfo, typeinfo, _⟩ =>
    { type := 0, name := name, width := width, access := access, offset := offset,
      length := length, stride := stride, subelems := copydelems subelems,
      varinfo := varinfo, typeinfo := copytypeinfo rnntypeinfo_zero typeinfo,
      fullname := none }

/-- The loop of `copydelem` over `elem->subelems`. -/
def copydelems : List rnndelem → List rnndelem
  | [] => []
  | e :: rest => copydelem e :: copydelems rest

end

/-! ## The preparer: results -/

/-- The outcome of a preparer function: a result, a fault of the C program (a
null or out-of-bounds access, a shift by 64 or more, a division by zero), or
the end of the fuel. -/
inductive Res (α : Type) where
  | ok (a : α)
  | fault
  | nofuel
deriving Repr

/-- Sequencing of outcomes. -/
def Res.bind {α β : Type} (x : Res α) (f : α → Res β) : Res β :=
  match x with
  | .ok a => f a
  | .fault => .fault
  | .nofuel => .nofuel

/-- A loop `for (i = 0; i < n; i++) f(state, xs[i])` that updates every
element in place. -/
def Res.mapM_state {σ α : Type} (f : σ → α → Res (σ × α)) : σ → List α → Res (σ × List α)
  | s, [] => .ok (s, [])
  | s, x :: xs =>
    (f s x).bind (fun r => (Res.mapM_state f r.1 xs).bind (fun rs => .ok (rs.1, r.2 :: rs.2)))

/-! ## The preparer: the finders -/

/-- `rnn_findenum`: the enum found, as its index in `db->enums`. -/
def rnn_findenum (db : rnndb) (name : String) : Option Nat :=
  (find_named rnnenum.name name db.enums 0).map Prod.fst

/-- `rnn_findbitset`: the bitset found, as its index in `db->bitsets`. -/
def rnn_findbitset (db : rnndb) (name : String) : Option Nat :=
  (find_named rnnbitset.name name db.bitsets 0).map Prod.fst

/-- `rnn_finddomain`: the domain found, as its index in `db->domains`. -/
def rnn_finddomain (db : rnndb) (name : String) : Option Nat :=
  (find_named rnndomain.name name db.domains 0).map Prod.fst

/-! ## The preparer: variants -/

/-- `copyvarset`: the first `venum->valsnum` slots of `varset`. -/
def copyvarset (db : rnndb) (varset : rnnvarset) : Res rnnvarset :=
  match db.enums[varset.venum]? with
  | none => .fault
  | some en =>
    .ok { venum := varset.venum,
          variants := (List.range en.vals.length).map (fun i => varset.variants.getD i 0) }

/-- The loop of `prepvarinfo` over `parent->varsets`. -/
def copyvarsets (db : rnndb) : List rnnvarset → Res (List rnnvarset)
  | [] => .ok []
  | v :: rest =>
    (copyvarset db v).bind (fun c => (copyvarsets db rest).bind (fun cs => .ok (c :: cs)))

/-- `findvidx`: the index of the value `name` in `en`, or -1 with `estatus`
set. -/
def findvidx (db : rnndb) (en : rnnenum) (name : String) : rnndb × Int :=
  match find_named rnnvalue.name name en.vals 0 with
  | some (i, _) => (db, (i : Int))
  | none => (set_estatus db, -1)

/-- The stores `variants[i] |= 2` for `idx1 ≤ i < idx2`; `i` is the index of
the head of the list. -/
def mark_variants : List Nat → Nat → Int → Int → List Nat
  | [], _, _, _ => []
  | v :: vs, i, idx1, idx2 =>
    (if idx1 ≤ (i : Int) ∧ (i : Int) < idx2 then v ||| 2 else v) ::
      mark_variants vs (i + 1) idx1 idx2

/-- The scan `while (*split != ':' && *split != '-' && ...) split++` inside a
word: the text before the first `:` or `-`, and that character with the text
after it when there is one. -/
def split_term : List Char → List Char → List Char × Option (Char × List Char)
  | [], acc => (acc.reverse, none)
  | c :: cs, acc =>
    if c = ':' ∨ c = '-' then (acc.reverse, some (c, cs)) else split_term cs (c :: acc)

/-- One round of the loop of `prepvarinfo` over the terms of the variants
expression: the term `word` marks slots of `variants`. -/
def prepvarinfo_term (varset : rnnenum) (st : rnndb × List Nat) (word : String) :
    rnndb × List Nat :=
  let db := st.1
  let variants := st.2
  let nvars : Int := varset.vals.length
  match split_term word.toList [] with
  | (first, none) =>
    let r := findvidx db varset (String.mk first)
    if r.2 ≠ -1 then (r.1, mark_variants variants 0 r.2 (r.2 + 1)) else (r.1, variants)
  | (first, some (sep, second)) =>
    let r1 : rnndb × Int := if first ≠ [] then findvidx db varset (String.mk first) else (db, 0)
    let r2 : rnndb × Int :=
      if second ≠ [] then
        let r := findvidx r1.1 varset (String.mk second)
        if sep = '-' then (r.1, r.2 + 1) else r
      else (r1.1, nvars)
    if r1.2 ≠ -1 ∧ r2.2 ≠ -1 then (r2.1, mark_variants variants 0 r1.2 r2.2)
    else (r2.1, variants)

/-- The search `for (i = 0; i < vi->varsetsnum; i++) if (vi->varsets[i]->venum
== varset)`: the index of the first variant set for the enum `vidx`, counted
from `i`. -/
def find_varset (vidx : Nat) : List rnnvarset → Nat → Option Nat
  | [], _ => none
  | vs :: rest, i => if vs.venum = vidx then some i else find_varset vidx rest (i + 1)

/-- The closing loop of the variants branch: `variants[i] = (variants[i] == 3)`
for `i < nvars`. -/
def live_variants (variants : List Nat) (nvars : Nat) : List Nat :=
  (List.range nvars).map (fun i => if variants.getD i 0 = 3 then 1 else 0)

/-- The body of `if (vi->variantsstr)` in `prepvarinfo` once the varset enum
`varset`, at index `vidx`, is known: the variant set of `vi` for it is found,
or appended with every slot 1; the terms of `vars` mark its slots; a slot
stays live when it holds 3, and `dead` is set when none does. -/
def prepvarinfo_variants (db : rnndb) (vi : rnnvarinfo) (vidx : Nat) (varset : rnnenum)
    (vars : String) : rnndb × rnnvarinfo :=
  let nvars := varset.vals.length
  let s : List rnnvarset × Nat :=
    match find_varset vidx vi.varsets 0 with
    | some pos => (vi.varsets, pos)
    | none =>
      (vi.varsets ++ [{ venum := vidx, variants := List.replicate nvars 1 }],
        vi.varsets.length)
  let old : List Nat :=
    match s.1[s.2]? with
    | some vs => vs.variants
    | none => []
  let r := (split_spaces vars.toList []).foldl (prepvarinfo_term varset) (db, old)
  let final := live_variants r.2 nvars
  (r.1, { vi with
    varsets := modify_at (fun vs => { vs with variants := final }) s.1 s.2,
    dead := !(final.any (fun v => v != 0)) })

/-- The first live slot of `variants`, paired with the values of the enum: the
loop `for (i...) if (vs->variants[i]) { vi->prefix =
vi->prefenum->vals[i]->name; return; }`. -/
def first_live_name : List rnnvalue → List Nat → Option String
  | [], _ => none
  | val :: vals, variants =>
    if variants.headD 0 ≠ 0 then some val.name else first_live_name vals variants.tail

/-- The tail of `prepvarinfo`, from `if (vi->prefenum)`: the effective
prefix. The first value of an enum without values is a fault. -/
def prepvarinfo_prefixstr (db : rnndb) (vi : rnnvarinfo) : Res rnnvarinfo :=
  match vi.prefenum with
  | none => .ok vi
  | some pidx =>
    match db.enums[pidx]? with
    | none => .fault
    | some prefenum =>
      match find_varset pidx vi.varsets 0 with
      | some pos =>
        match vi.varsets[pos]? with
        | none => .fault
        | some vs =>
          match first_live_name prefenum.vals vs.variants with
          | some name => .ok { vi with prefix_ := some name }
          | none => .ok vi
      | none =>
        match prefenum.vals with
        | [] => .fault
        | val :: _ => .ok { vi with prefix_ := some val.name }

/-- `prepvarinfo`; `parent` is `none` for the null pointer. -/
def prepvarinfo (db : rnndb) (vi : rnnvarinfo) (parent : Option rnnvarinfo) :
    Res (rnndb × rnnvarinfo) :=
  let vi : rnnvarinfo :=
    match parent with
    | some p => { vi with prefenum := p.prefenum }
    | none => vi
  let vi : rnnvarinfo :=
    match vi.prefixstr with
    | some s =>
      if s = "none" then { vi with prefenum := none }
      else { vi with prefenum := rnn_findenum db s }
    | none => vi
  (match parent with
    | some p => copyvarsets db p.varsets
    | none => .ok []).bind (fun copies =>
  let vi : rnnvarinfo := { vi with varsets := vi.varsets ++ copies }
  let varset : Option Nat :=
    match vi.varsetstr with
    | some s => rnn_findenum db s
    | none => vi.prefenum
  match vi.variantsstr with
  | some vars =>
    match varset with
    | none => .ok (set_estatus db, vi)
    | some vidx =>
      match db.enums[vidx]? with
      | none => .fault
      | some en =>
        let r := prepvarinfo_variants db vi vidx en vars
        if r.2.dead then .ok r
        else (prepvarinfo_prefixstr r.1 r.2).bind (fun vi => .ok (r.1, vi))
  | none =>
    if vi.dead then .ok (db, vi)
    else (prepvarinfo_prefixstr db vi).bind (fun vi => .ok (db, vi)))

/-- `prepvalue`. -/
def prepvalue (db : rnndb) (val : rnnvalue) (pfx : Option String) (parvi : rnnvarinfo) :
    Res (rnndb × rnnvalue) :=
  let fullname := catstr pfx val.name
  (prepvarinfo db val.varinfo (some parvi)).bind (fun r =>
    if r.2.dead then .ok (r.1, { val with fullname := some fullname, varinfo := r.2 })
    else
      match r.2.prefix_ with
      | some p =>
        .ok (r.1, { val with fullname := some (catstr (some p) fullname), varinfo := r.2 })
      | none => .ok (r.1, { val with fullname := some fullname, varinfo := r.2 }))

/-! ## The preparer: types, bitfields and domain elements -/

/-- One round of the first loop of `preptypeinfo`: the type `t` is classified,
and the values or bitfields of an inline definition are appended to `ti`. -/
def preptype (db : rnndb) (ti : rnntypeinfo) (t : rnntype) : rnntypeinfo × rnntype :=
  let t : rnntype := { t with type := RNN_TTYPE_OTHER }
  let s1 : rnntypeinfo × rnntype :=
    match find_named rnnenum.name t.name db.enums 0 with
    | some (i, en) =>
      if en.isinline then
        ({ ti with vals := ti.vals ++ en.vals.map copyvalue },
          { t with type := RNN_TTYPE_INLINE_ENUM })
      else (ti, { t with type := RNN_TTYPE_ENUM, eenum := some i })
    | none => (ti, t)
  match find_named rnnbitset.name t.name db.bitsets 0 with
  | some (i, bs) =>
    if bs.isinline then
      ({ s1.1 with bitfields := s1.1.bitfields ++ copybitfields bs.bitfields },
        { s1.2 with type := RNN_TTYPE_INLINE_BITSET })
    else (s1.1, { s1.2 with type := RNN_TTYPE_BITSET, ebitset := some i })
  | none => s1

/-- The first loop of `preptypeinfo`, over `ti->types`: the type info, with the
types already classified kept aside in `done`. -/
def preptypes (db : rnndb) : rnntypeinfo → List rnntype → List rnntype → rnntypeinfo
  | ti, done, [] => { ti with types := done }
  | ti, done, t :: rest =>
    let r := preptype db ti t
    preptypes db r.1 (done ++ [r.2]) rest

/-- `1ULL << n`; a shift by 64 or more is a fault. -/
def shl64 (n : Nat) : Res Nat :=
  if n < 64 then .ok (2 ^ n % 2 ^ 64) else .fault

/-- The mask statement of `prepbitfield`: `-(1ULL << low)` when `high` is 63,
else `(1ULL << (high + 1)) - (1ULL << low)`, in 64-bit arithmetic. -/
def bitfield_mask (low high : Nat) : Res Nat :=
  if high = 63 then (shl64 low).bind (fun l => .ok ((2 ^ 64 - l) % 2 ^ 64))
  else (shl64 (high + 1)).bind (fun h => (shl64 low).bind (fun l =>
    .ok ((h + 2 ^ 64 - l) % 2 ^ 64)))

/-- The value of a 32-bit word as a C `int`. -/
def int_val (w : Nat) : Int :=
  if w % 2 ^ 32 < 2 ^ 31 then ((w % 2 ^ 32 : Nat) : Int) else ((w % 2 ^ 32 : Nat) : Int) - 2 ^ 32

/-- `a / b` on C `int`s, stored in a 64-bit unsigned field; a zero divisor and
the overflow of `INT_MIN / -1` are faults. -/
def int_div_u64 (a b : Nat) : Res Nat :=
  if int_val b = 0 then .fault
  else if int_val a = -(2 ^ 31) ∧ int_val b = -1 then .fault
  else .ok (((int_val a).tdiv (int_val b) % 2 ^ 64).toNat)

mutual

/-- `preptypeinfo`. -/
def preptypeinfo : Nat → rnndb → rnntypeinfo → Option String → rnnvarinfo →
    Res (rnndb × rnntypeinfo)
  | 0, _, _, _, _ => .nofuel
  | fuel + 1, db, ti, pfx, vi =>
    let ti := preptypes db ti [] ti.types
    (Res.mapM_state (fun db bf => prepbitfield fuel db bf pfx vi) db ti.bitfields).bind
      (fun rb =>
    (Res.mapM_state (fun db val => prepvalue db val pfx vi) rb.1 ti.vals).bind
      (fun rv => .ok (rv.1, { ti with bitfields := rb.2, vals := rv.2 })))

/-- `prepbitfield`. -/
def prepbitfield : Nat → rnndb → rnnbitfield → Option String → rnnvarinfo →
    Res (rnndb × rnnbitfield)
  | 0, _, _, _, _ => .nofuel
  | fuel + 1, db, bf, pfx, parvi =>
    let fullname := catstr pfx bf.name
    (prepvarinfo db bf.varinfo (some parvi)).bind (fun r =>
      if r.2.dead then .ok (r.1, { bf with fullname := some fullname, varinfo := r.2 })
      else
        (bitfield_mask bf.low bf.high).bind (fun mask =>
        (preptypeinfo fuel r.1 bf.typeinfo (some fullname) r.2).bind (fun rt =>
          .ok (rt.1, { bf with
            mask := mask, typeinfo := rt.2, varinfo := r.2,
            fullname := some (match r.2.prefix_ with
              | some p => catstr (some p) fullname
              | none => fullname) }))))

end

/-- The expansion at the head of `prepdelem` for an element of type
`RNN_ETYPE_USE_GROUP`: the copies of the group's subelements are appended, or
`estatus` is set when no group has the name; then the element becomes a
nameless stripe of length 1. -/
def expand_usegroup (db : rnndb) (elem : rnndelem) : Res (rnndb × rnndelem) :=
  match elem.name with
  | none => .fault
  | some name =>
    match find_named rnngroup.name name db.groups 0 with
    | some (_, gr) =>
      .ok (db, { elem with
        subelems := elem.subelems ++ copydelems gr.subelems,
        type := RNN_ETYPE_STRIPE, length := 1, name := none })
    | none =>
      .ok (set_estatus db, { elem with type := RNN_ETYPE_STRIPE, length := 1, name := none })

/-- The statement `if (elem->length != 1 && !elem->stride)` of `prepdelem`. -/
def prepdelem_stride (db : rnndb) (elem : rnndelem) (width : Nat) : Res (rnndb × rnndelem) :=
  if elem.length ≠ 1 ∧ elem.stride = 0 then
    if elem.type ≠ RNN_ETYPE_REG then .ok (set_estatus db, elem)
    else (int_div_u64 elem.width width).bind (fun q => .ok (db, { elem with stride := q }))
  else .ok (db, elem)

/-- `prepdelem`. -/
def prepdelem : Nat → rnndb → rnndelem → Option String → rnnvarinfo → Nat →
    Res (rnndb × rnndelem)
  | 0, _, _, _, _, _ => .nofuel
  | fuel + 1, db, elem, pfx, parvi, width =>
    (if elem.type = RNN_ETYPE_USE_GROUP then expand_usegroup db elem
      else .ok (db, elem)).bind (fun r0 =>
    let elem : rnndelem :=
      match r0.2.name with
      | some name => { r0.2 with fullname := some (catstr pfx name) }
      | none => r0.2
    (prepvarinfo r0.1 elem.varinfo (some parvi)).bind (fun r1 =>
    let elem : rnndelem := { elem with varinfo := r1.2 }
    if r1.2.dead then .ok (r1.1, elem)
    else
      (prepdelem_stride r1.1 elem width).bind (fun r2 =>
      let sub : Option String :=
        match r2.2.name with
        | some _ => r2.2.fullname
        | none => pfx
      (preptypeinfo fuel r2.1 r2.2.typeinfo sub r2.2.varinfo).bind (fun r3 =>
      (Res.mapM_state (fun db e => prepdelem fuel db e sub r2.2.varinfo width)
        r3.1 r2.2.subelems).bind (fun r4 =>
      let elem : rnndelem := { r2.2 with typeinfo := r3.2, subelems := r4.2 }
      match elem.varinfo.prefix_, elem.name, elem.fullname with
      | some p, some _, some fullname =>
        .ok (r4.1, { elem with fullname := some (catstr (some p) fullname) })
      | _, _, _ => .ok (r4.1, elem))))))

/-- `prepdomain`, on the domain at index `i` of `db->domains`. -/
def prepdomain (fuel : Nat) (db : rnndb) (i : Nat) : Res rnndb :=
  match db.domains[i]? with
  | none => .fault
  | some dom =>
    (prepvarinfo db dom.varinfo none).bind (fun r1 =>
    (Res.mapM_state (fun db e =>
        prepdelem fuel db e (if dom.bare then none else some dom.name) r1.2 dom.width)
      r1.1 dom.subelems).bind (fun r2 =>
    .ok { r2.1 with
      domains := modify_at (fun _ =>
        { dom with
          varinfo := r1.2, subelems := r2.2,
          fullname := some (catstr r1.2.prefix_ dom.name) }) r2.1.domains i }))

/-- `prepenum`, on the enum at index `i` of `db->enums`. -/
def prepenum (db : rnndb) (i : Nat) : Res rnndb :=
  match db.enums[i]? with
  | none => .fault
  | some en =>
    if en.prepared then .ok db
    else
      (prepvarinfo db en.varinfo none).bind (fun r1 =>
      if en.isinline then
        .ok { r1.1 with
          enums := modify_at (fun _ => { en with varinfo := r1.2 }) r1.1.enums i }
      else
        (Res.mapM_state (fun db val =>
            prepvalue db val (if en.bare then none else some en.name) r1.2)
          r1.1 en.vals).bind (fun r2 =>
        .ok { r2.1 with
          enums := modify_at (fun _ =>
            { en with
              varinfo := r1.2, vals := r2.2,
              fullname := some (catstr r1.2.prefix_ en.name), prepared := true })
            r2.1.enums i }))

/-- `prepbitset`, on the bitset at index `i` of `db->bitsets`. -/
def prepbitset (fuel : Nat) (db : rnndb) (i : Nat) : Res rnndb :=
  match db.bitsets[i]? with
  | none => .fault
  | some bs =>
    (prepvarinfo db bs.varinfo none).bind (fun r1 =>
    if bs.isinline then
      .ok { r1.1 with
        bitsets := modify_at (fun _ => { bs with varinfo := r1.2 }) r1.1.bitsets i }
    else
      (Res.mapM_state (fun db bf =>
          prepbitfield fuel db bf (if bs.bare then none else some bs.name) r1.2)
        r1.1 bs.bitfields).bind (fun r2 =>
      .ok { r2.1 with
        bitsets := modify_at (fun _ =>
          { bs with
            varinfo := r1.2, bitfields := r2.2,
            fullname := some (catstr r1.2.prefix_ bs.name) }) r2.1.bitsets i }))

/-- A loop `for (i = 0; i < n; i++) f(db, xs[i])` over the indices `i, i+1, ..`
for `n` more rounds. -/
def Res.for_indices (f : rnndb → Nat → Res rnndb) : Nat → Nat → rnndb → Res rnndb
  | 0, _, db => .ok db
  | n + 1, i, db => (f db i).bind (fun db => Res.for_indices f n (i + 1) db)

/-- `rnn_prepdb`. -/
def rnn_prepdb (fuel : Nat) (db : rnndb) : Res rnndb :=
  (Res.for_indices prepenum db.enums.length 0 db).bind (fun db1 =>
  (Res.for_indices (prepbitset fuel) db1.bitsets.length 0 db1).bind (fun db2 =>
  Res.for_indices (prepdomain fuel) db2.domains.length 0 db2))

/-! ## The properties of the specification, as predicates and inputs -/

/-- The number of bits set in a 64-bit word. -/
def popcount64 (n : Nat) : Nat :=
  ((List.range 64).filter (fun i => n.testBit i)).length

/-- A bitfield as `parsebitfield` returns it for
`<bitfield name=".." low=".." high=".."/>`. -/
def plain_bitfield (name : String) (low high : Nat) : rnnbitfield :=
  { name := name, low := low, high := high, mask := 0, varinfo := rnnvarinfo_zero,
    typeinfo := rnntypeinfo_zero, fullname := none }

/-- The database `db` after a step that may have set `estatus` and has done
nothing else. -/
def errset (err : Bool) (db : rnndb) : rnndb := if err then set_estatus db else db

/-- The list `l'` extends `l`: every element of `l` is still at its index,
related to the old one by `le`, and an element at a new index has a name that
no element of `l` has. -/
def list_ext {α : Type} (le : α → α → Prop) (nm : α → String) (l l' : List α) : Prop :=
  (∀ (i : Nat) (e : α), l[i]? = some e → ∃ e', l'[i]? = some e' ∧ le e e') ∧
  (∀ (j : Nat) (e' : α), l.length ≤ j → l'[j]? = some e' → ∀ e, e ∈ l → nm e ≠ nm e')

/-- An enum after further parsing: the scalars are the same, values have been
appended. -/
def enum_le (e e' : rnnenum) : Prop :=
  e'.name = e.name ∧ e'.bare = e.bare ∧ e'.isinline = e.isinline ∧ e'.varinfo = e.varinfo ∧
  e'.fullname = e.fullname ∧ e'.prepared = e.prepared ∧ e.vals <+: e'.vals

/-- A bitset after further parsing: the scalars are the same, bitfields have
been appended. -/
def bitset_le (e e' : rnnbitset) : Prop :=
  e'.name = e.name ∧ e'.bare = e.bare ∧ e'.isinline = e.isinline ∧ e'.varinfo = e.varinfo ∧
  e'.fullname = e.fullname ∧ e.bitfields <+: e'.bitfields

/-- A group after further parsing. -/
def group_le (e e' : rnngroup) : Prop :=
  e'.name = e.name ∧ e.subelems <+: e'.subelems

/-- A domain after further parsing: the scalars are the same, but for a size
that was 0; subelements have been appended. -/
def domain_le (e e' : rnndomain) : Prop :=
  e'.name = e.name ∧ e'.bare = e.bare ∧ e'.width = e.width ∧ e'.varinfo = e.varinfo ∧
  e'.fullname = e.fullname ∧ (e.size ≠ 0 → e'.size = e.size) ∧ e.subelems <+: e'.subelems

/-- The database after further parsing: the four arrays are extended, paths
have been appended to `files`, and `estatus` is as before or 1. -/
def db_ext (db db' : rnndb) : Prop :=
  list_ext enum_le rnnenum.name db.enums db'.enums ∧
  list_ext bitset_le rnnbitset.name db.bitsets db'.bitsets ∧
  list_ext group_le rnngroup.name db.groups db'.groups ∧
  list_ext domain_le rnndomain.name db.domains db'.domains ∧
  db.files <+: db'.files ∧
  (db'.estatus = db.estatus ∨ db'.estatus = 1)

/-- The attributes of an `<enum>` or `<bitset>` declaration as the attribute
loop of `parseenum` decodes them (the loop reads the database only to set
`estatus`). -/
def enum_decl_attrs (node : xmlNode) : enum_attrs :=
  (node.properties.foldl parseenum_attr (rnn_newdb, enum_attrs_zero)).2

/-- The attributes of a `<domain>` declaration as the attribute loop of
`parsedomain` decodes them. -/
def domain_decl_attrs (node : xmlNode) : domain_attrs :=
  (node.properties.foldl parsedomain_attr (rnn_newdb, domain_attrs_zero)).2

/-- An attribute `name="value"` as libxml2 hands it over: one text child. -/
def xml_attr (name value : String) : xmlAttr :=
  { name := name, children := [{ type := xmlElementType.XML_TEXT_NODE, content := value }] }

/-- An element node. -/
def xml_elem (name : String) (properties : List xmlAttr) (children : List xmlNode) : xmlNode :=
  { type := xmlElementType.XML_ELEMENT_NODE, name := name, properties := properties,
    children := children }

/-- The declaration `<enum name="E"><value name="X" value="1"/></enum>` of
scenario S2. -/
def decl_E_X : xmlNode :=
  xml_elem "enum" [xml_attr "name" "E"]
    [xml_elem "value" [xml_attr "name" "X", xml_attr "value" "1"] []]

/-- The declaration `<enum name="E"><value name="Y" value="2"/></enum>` of
scenario S2. -/
def decl_E_Y : xmlNode :=
  xml_elem "enum" [xml_attr "name" "E"]
    [xml_elem "value" [xml_attr "name" "Y", xml_attr "value" "2"] []]

/-- A declaration of `E` that differs from the two of S2 in `bare`:
`<enum name="E" bare="yes"><value name="Z" value="3"/></enum>`. -/
def decl_E_bare : xmlNode :=
  xml_elem "enum" [xml_attr "name" "E", xml_attr "bare" "yes"]
    [xml_elem "value" [xml_attr "name" "Z", xml_attr "value" "3"] []]

/-- The two files of scenario S2, each a `<database>` with one declaration
of `E`. -/
def files_s2 : xmlFiles := fun path =>
  if path = "a.xml" then some [xml_elem "database" [] [decl_E_X]]
  else if path = "b.xml" then some [xml_elem "database" [] [decl_E_Y]]
  else none

/-- The value `<value name=".." value=".."/>` as `parsevalue` returns it. -/
def plain_value (name : String) (value : Nat) : rnnvalue :=
  { name := name, valvalid := true, value := value, varinfo := rnnvarinfo_zero,
    fullname := none }

/-- The database that holds the enum `E` with the values `vals` and nothing
else. -/
def db_with_E (vals : List rnnvalue) : rnndb :=
  { rnn_newdb with enums := [{ new_rnnenum "E" enum_attrs_zero with vals := vals }] }

/-! ## Self-contained declarations -/

/-- Whether `name` is one of the tags that `trytop` handles. -/
def top_tag (name : String) : Bool :=
  name = "enum" || name = "bitset" || name = "group" || name = "domain" || name = "import"

mutual

/-- Whether no node at or below `node` carries a tag that `trytop` handles:
parsing such a subtree declares nothing and opens no file. -/
def plain : xmlNode → Bool
  | ⟨_, name, _, children⟩ => !top_tag name && plain_list children

/-- Whether every node of the chain is `plain`. -/
def plain_list : List xmlNode → Bool
  | [] => true
  | c :: cs => plain c && plain_list cs

end

mutual

/-- The height of the tree at `node`. -/
def depth : xmlNode → Nat
  | ⟨_, _, _, children⟩ => depth_list children + 1

/-- The largest height in a chain of nodes. -/
def depth_list : List xmlNode → Nat
  | [] => 0
  | c :: cs => max (depth c) (depth_list cs)

end

/-- The database after the declaration `node` has been parsed by `parse` on
its own: from the empty database, with no file to import, and with fuel for
its height. -/
def decl_alone (parse : Nat → xmlFiles → rnndb → xmlNode → Option rnndb) (node : xmlNode) :
    rnndb :=
  (parse (2 * depth node) (fun _ => none) rnn_newdb node).getD rnn_newdb

/-- Whether the declaration `node`, parsed on its own, sets `estatus`. -/
def decl_err (parse : Nat → xmlFiles → rnndb → xmlNode → Option rnndb) (node : xmlNode) :
    Bool :=
  (decl_alone parse node).estatus != 0

/-- The values of the `<enum>` declaration `node`: what `parseenum` collects
from it on its own. -/
def enum_decl_vals (node : xmlNode) : List rnnvalue :=
  (decl_alone parseenum node).enums.flatMap (fun e => e.vals)

/-- The bitfields of the `<bitset>` declaration `node`. -/
def bitset_decl_bitfields (node : xmlNode) : List rnnbitfield :=
  (decl_alone parsebitset node).bitsets.flatMap (fun b => b.bitfields)

/-- The subelements of the `<domain>` declaration `node`. -/
def domain_decl_subelems (node : xmlNode) : List rnndelem :=
  (decl_alone parsedomain node).domains.flatMap (fun d => d.subelems)

/-! ## Relations that every step of the parser respects -/

/-- A relation between the database before and after that holds across every
elementary store of the parser: the store to `estatus`, the merge steps, the
four `RNN_ADDARRAY` on an entry, and the recording of a path that is not yet
in `files`. -/
structure parser_closed (R : rnndb → rnndb → Prop) : Prop where
  refl : ∀ db, R db db
  trans : ∀ {a b c : rnndb}, R a b → R b c → R a c
  estatus : ∀ db, R db (set_estatus db)
  enum_cur : ∀ db name a, R db (parseenum_cur db name a).1
  bitset_cur : ∀ db name a, R db (parsebitset_cur db name a).1
  group_cur : ∀ db name, R db (parsegroup_cur db name).1
  domain_cur : ∀ db name a, R db (parsedomain_cur db name a).1
  addval : ∀ db cur val, R db (enum_addval db cur val)
  addbitfield : ∀ db cur bf, R db (bitset_addbitfield db cur bf)
  group_add : ∀ db cur delem, R db (group_addsubelem db cur delem)
  domain_add : ∀ db cur delem, R db (domain_addsubelem db cur delem)
  file : ∀ (db : rnndb) (file : String), file ∉ db.files →
    R db { db with files := db.files ++ [file] }

/-- An `<import file=".."/>` element. -/
def xml_import (file : String) : xmlNode := xml_elem "import" [xml_attr "file" file] []

/-- Four files whose imports form a diamond closed into a cycle: `a.xml`
imports `b.xml` and `c.xml`, each of which imports `d.xml`, which imports
`a.xml` and declares the enum `E` with the value `X`. -/
def files_diamond : xmlFiles := fun path =>
  if path = "a.xml" then
    some [xml_elem "database" [] [xml_import "b.xml", xml_import "c.xml"]]
  else if path = "b.xml" then some [xml_elem "database" [] [xml_import "d.xml"]]
  else if path = "c.xml" then some [xml_elem "database" [] [xml_import "d.xml"]]
  else if path = "d.xml" then some [xml_elem "database" [] [xml_import "a.xml", decl_E_X]]
  else none

/-- A file whose one register carries `access="x"`:
`<database><domain name="D"><reg32 name="R" access="x"/></domain></database>`. -/
def files_bad_access : xmlFiles := fun path =>
  if path = "a.xml" then
    some [xml_elem "database" []
      [xml_elem "domain" [xml_attr "name" "D"]
        [xml_elem "reg32" [xml_attr "name" "R", xml_attr "access" "x"] []]]]
  else none

/-- A file with a group that holds a stripe, and a domain that uses the group:
`<group name="G"><stripe name="S"><reg32 name="R"/></stripe></group>
<domain name="D"><use-group name="G"/></domain>`. -/
def files_usegroup : xmlFiles := fun path =>
  if path = "a.xml" then
    some [xml_elem "database" []
      [xml_elem "group" [xml_attr "name" "G"]
        [xml_elem "stripe" [xml_attr "name" "S"] [xml_elem "reg32" [xml_attr "name" "R"] []]],
       xml_elem "domain" [xml_attr "name" "D"] [xml_elem "use-group" [xml_attr "name" "G"] []]]]
  else none

/-- A file with a use-group below a stripe that its variants leave dead: the
domain `D` selects `A` of the enum `V`, the stripe `S` in it selects `B`.
`<enum name="V"><value name="A"/><value name="B"/></enum>
<group name="G"><reg32 name="R"/></group>
<domain name="D" varset="V" variants="A">
<stripe name="S" varset="V" variants="B"><use-group name="G"/></stripe></domain>`. -/
def files_dead_usegroup : xmlFiles := fun path =>
  if path = "a.xml" then
    some [xml_elem "database" []
      [xml_elem "enum" [xml_attr "name" "V"]
        [xml_elem "value" [xml_attr "name" "A"] [], xml_elem "value" [xml_attr "name" "B"] []],
       xml_elem "group" [xml_attr "name" "G"] [xml_elem "reg32" [xml_attr "name" "R"] []],
       xml_elem "domain" [xml_attr "name" "D", xml_attr "varset" "V", xml_attr "variants" "A"]
        [xml_elem "stripe" [xml_attr "name" "S", xml_attr "varset" "V", xml_attr "variants" "B"]
          [xml_elem "use-group" [xml_attr "name" "G"] []]]]]
  else none

/-- The loader on one file: `rnn_newdb`, `rnn_parsefile`, `rnn_prepdb`. -/
def rnn_load (fuel : Nat) (fs : xmlFiles) (file : String) : Res rnndb :=
  match rnn_parsefile fuel fs rnn_newdb file with
  | none => .nofuel
  | some db => rnn_prepdb fuel db

/-! ## The preparer: what the properties speak of -/

/-- The database `db'` is `db` but for `estatus`, which is as it was or has
been set. -/
def estatus_only (db db' : rnndb) : Prop := ∃ err : Bool, db' = errset err db

mutual

/-- Whether no element that the preparer has reached at or below `elem` is
of type `RNN_ETYPE_USE_GROUP`: the element itself and, unless it is dead, its
subelements in the same sense. -/
def expanded : rnndelem → Bool
  | ⟨type, _, _, _, _, _, _, subelems, varinfo, _, _⟩ =>
    type != RNN_ETYPE_USE_GROUP && (varinfo.dead || expanded_list subelems)

/-- Whether every element of the array is `expanded`. -/
def expanded_list : List rnndelem → Bool
  | [] => true
  | e :: rest => expanded e && expanded_list rest

end

/-- The `fullname` that `prepvalue` leaves in a value prepared under the
prefix `pfx`: `pfx_name`, behind the variant prefix when the value is live and
has one. -/
def value_named (pfx : Option String) (v : rnnvalue) : Prop :=
  v.fullname = some (if v.varinfo.dead then catstr pfx v.name
    else catstr v.varinfo.prefix_ (catstr pfx v.name))

/-- The `fullname` that `prepbitfield` leaves in a bitfield prepared under the
prefix `pfx`. -/
def bitfield_named (pfx : Option String) (bf : rnnbitfield) : Prop :=
  bf.fullname = some (if bf.varinfo.dead then catstr pfx bf.name
    else catstr bf.varinfo.prefix_ (catstr pfx bf.name))

/-- An enum as `prepenum` leaves it: inline, or named, with named values. -/
def enum_done (e : rnnenum) : Prop :=
  e.isinline = false →
    e.fullname = some (catstr e.varinfo.prefix_ e.name) ∧
    ∀ v, v ∈ e.vals → value_named (if e.bare then none else some e.name) v

/-- A bitset as `prepbitset` leaves it: inline, or named, with named
bitfields. -/
def bitset_done (b : rnnbitset) : Prop :=
  b.isinline = false →
    b.fullname = some (catstr b.varinfo.prefix_ b.name) ∧
    ∀ bf, bf ∈ b.bitfields → bitfield_named (if b.bare then none else some b.name) bf

/-- A domain as `prepdomain` leaves it: named, its subelements expanded. -/
def domain_done (d : rnndomain) : Prop :=
  d.fullname = some (catstr d.varinfo.prefix_ d.name) ∧ expanded_list d.subelems = true

/-- What the loops of `rnn_prepdb` over one array leave of the rest of the
database: the other arrays and `files` are the same, `estatus` is as it was or
set. -/
structure prep_rest (db db' : rnndb) : Prop where
  groups : db'.groups = db.groups
  files : db'.files = db.files
  estatus : db'.estatus = db.estatus ∨ db'.estatus = 1

mutual

/-- Whether neither `elem` nor any element below it, dead or not, is of type
`RNN_ETYPE_USE_GROUP`. -/
def no_usegroup : rnndelem → Bool
  | ⟨type, _, _, _, _, _, _, subelems, _, _, _⟩ =>
    type != RNN_ETYPE_USE_GROUP && no_usegroup_list subelems

/-- Whether `no_usegroup` holds of every element of the array. -/
def no_usegroup_list : List rnndelem → Bool
  | [] => true
  | e :: rest => no_usegroup e && no_usegroup_list rest

end

/-- Once `estatus` is set in `db`, it is set in `db'`. -/
def estatus_kept (db db' : rnndb) : Prop := db.estatus ≠ 0 → db'.estatus ≠ 0

/-- The file of scenario S1:
`<enum name="E" bare="yes"><value name="A" value="0x1"/><value name="B" value="2"/></enum>`. -/
def files_s1 : xmlFiles := fun path =>
  if path = "a.xml" then
    some [xml_elem "database" []
      [xml_elem "enum" [xml_attr "name" "E", xml_attr "bare" "yes"]
        [xml_elem "value" [xml_attr "name" "A", xml_attr "value" "0x1"] [],
         xml_elem "value" [xml_attr "name" "B", xml_attr "value" "2"] []]]]
  else none

/-- The file of scenario S3:
`<bitset name="B"><bitfield name="F" low="4" high="7"/></bitset>`. -/
def files_s3 : xmlFiles := fun path =>
  if path = "a.xml" then
    some [xml_elem "database" []
      [xml_elem "bitset" [xml_attr "name" "B"]
        [xml_elem "bitfield" [xml_attr "name" "F", xml_attr "low" "4", xml_attr "high" "7"]
          []]]]
  else none

/-- A file with an enum whose variants select nothing, the range from `B` to
`A` being empty:
`<enum name="V"><value name="A"/><value name="B"/></enum>
<enum name="E" varset="V" variants="B:A"><value name="X"/></enum>`. -/
def files_dead_enum : xmlFiles := fun path =>
  if path = "a.xml" then
    some [xml_elem "database" []
      [xml_elem "enum" [xml_attr "name" "V"]
        [xml_elem "value" [xml_attr "name" "A"] [], xml_elem "value" [xml_attr "name" "B"] []],
       xml_elem "enum" [xml_attr "name" "E", xml_attr "varset" "V", xml_attr "variants" "B:A"]
        [xml_elem "value" [xml_attr "name" "X"] []]]]
  else none

/-- Whether the outcome is a result. -/
def Res.isOk {α : Type} : Res α → Bool
  | .ok _ => true
  | _ => false

/-- The result of the outcome, or `d` when there is none. -/
def Res.getD {α : Type} : Res α → α → α
  | .ok a, _ => a
  | _, d => d

/-- The database the loader leaves for the file `file`, or the empty one when
it does not return. -/
def rnn_loaded (fuel : Nat) (fs : xmlFiles) (file : String) : rnndb :=
  (rnn_load fuel fs file).getD rnn_newdb

/-- A file in which a value, a bitfield and a stripe select nothing of the
enum `V`, the range from `B` to `A` being empty:
`<enum name="V"><value name="A"/><value name="B"/></enum>
<enum name="E"><value name="X" varset="V" variants="B:A"/></enum>
<bitset name="T"><bitfield name="F" low="0" high="3" varset="V" variants="B:A">
<value name="Y"/></bitfield></bitset>
<domain name="D"><stripe name="S" varset="V" variants="B:A"><reg32 name="R"/></stripe>
</domain>`. -/
def files_dead_members : xmlFiles := fun path =>
  if path = "a.xml" then
    some [xml_elem "database" []
      [xml_elem "enum" [xml_attr "name" "V"]
        [xml_elem "value" [xml_attr "name" "A"] [], xml_elem "value" [xml_attr "name" "B"] []],
       xml_elem "enum" [xml_attr "name" "E"]
        [xml_elem "value"
          [xml_attr "name" "X", xml_attr "varset" "V", xml_attr "variants" "B:A"] []],
       xml_elem "bitset" [xml_attr "name" "T"]
        [xml_elem "bitfield"
          [xml_attr "name" "F", xml_attr "low" "0", xml_attr "high" "3",
            xml_attr "varset" "V", xml_attr "variants" "B:A"]
          [xml_elem "value" [xml_attr "name" "Y"] []]],
       xml_elem "domain" [xml_attr "name" "D"]
        [xml_elem "stripe"
          [xml_attr "name" "S", xml_attr "varset" "V", xml_attr "variants" "B:A"]
          [xml_elem "reg32" [xml_attr "name" "R"] []]]]]
  else none

/-- The database that holds the enum `V` with the values `A` and `B` and
nothing else. -/
def db_V : rnndb :=
  { rnn_newdb with
    enums := [{ new_rnnenum "V" enum_attrs_zero with
      vals := [{ plain_value "A" 0 with valvalid := false },
        { plain_value "B" 0 with valvalid := false }] }] }

/-- The variant info of a definition parsed with `varset` and `variants`. -/
def varinfo_of (varset variants : String) : rnnvarinfo :=
  { rnnvarinfo_zero with varsetstr := some varset, variantsstr := some variants }

/-- The value `<value name="X" varset="V" variants="B:A"/>` as parsed. -/
def value_X_dead : rnnvalue :=
  { name := "X", valvalid := false, value := 0, varinfo := varinfo_of "V" "B:A",
    fullname := none }

/-- The bitfield `<bitfield name="F" low="0" high="3" varset="V"
variants="B:A"><value name="Y"/></bitfield>` as parsed. -/
def bitfield_F_dead : rnnbitfield :=
  { plain_bitfield "F" 0 3 with
    varinfo := varinfo_of "V" "B:A",
    typeinfo := { rnntypeinfo_zero with
      vals := [{ plain_value "Y" 0 with valvalid := false }] } }

/-- The stripe `<stripe name="S" varset="V" variants="B:A"><reg32
name="R"/></stripe>` as parsed. -/
def stripe_S_dead : rnndelem :=
  { new_stripe "stripe" with
    name := some "S", varinfo := varinfo_of "V" "B:A",
    subelems := [{ new_reg 32 with name := some "R" }] }

/-! ## The variants expression in the words of the specification -/

/-- The varset enum `prepvarinfo` works with, as its index in `db->enums`: the
prefix enum inherited from `parent`, replaced by the enum named by `prefixstr`
(none for the name "none"), and overridden by the enum named by `varsetstr`
(lines 749-756 and 761-763 of `prepvarinfo`). -/
def prepvarinfo_varset (db : rnndb) (vi : rnnvarinfo) (parent : Option rnnvarinfo) :
    Option Nat :=
  let prefenum : Option Nat :=
    match parent with
    | some p => p.prefenum
    | none => vi.prefenum
  let prefenum : Option Nat :=
    match vi.prefixstr with
    | some s => if s = "none" then none else rnn_findenum db s
    | none => prefenum
  match vi.varsetstr with
  | some s => rnn_findenum db s
  | none => prefenum

/-- The specification's "value index": the position of the first value of the
enum called `name`. -/
def spec_value_index (en : rnnenum) (name : List Char) : Option Nat :=
  List.findIdx? (fun v => v.name.toList == name) en.vals

/-- The range `[lo, hi)` of value indices that one term of a variants
expression denotes, in the words of the specification: a bare `A` is just the
index of A, `A:B` is `[A, B)`, `A-B` is `[A, B]`, and an omitted endpoint is 0
or the number of values. A term that names no value of the enum denotes no
range. -/
def spec_term_range (en : rnnenum) (term : List Char) : Option (Nat × Nat) :=
  let a := term.takeWhile (fun c => c != ':' && c != '-')
  match term.dropWhile (fun c => c != ':' && c != '-') with
  | [] => (spec_value_index en a).map (fun i => (i, i + 1))
  | sep :: b =>
    let lo : Option Nat := if a = [] then some 0 else spec_value_index en a
    let hi : Option Nat :=
      if b = [] then some en.vals.length
      else (spec_value_index en b).map (fun i => if sep = '-' then i + 1 else i)
    match lo, hi with
    | some lo, some hi => some (lo, hi)
    | _, _ => none

/-- The terms of a variants expression: "space-separated terms". -/
def spec_terms (expr : String) : List (List Char) :=
  (expr.toList.splitOn ' ').filter (fun t => t ≠ [])

/-- The term `term` matches slot `i`: the range it denotes holds `i`. -/
def spec_term_selects (en : rnnenum) (term : List Char) (i : Nat) : Bool :=
  match spec_term_range en term with
  | some (lo, hi) => decide (lo ≤ i ∧ i < hi)
  | none => false

/-- Slot `i` is selected by the expression `expr` over the enum `en`: some
term of the expression matches it. -/
def spec_selected (en : rnnenum) (expr : String) (i : Nat) : Bool :=
  (spec_terms expr).any (fun t => spec_term_selects en t i)

/-- Slot `i` of the varset enum `vidx` is inheritable from `parent`, in the
words of the specification: it is live in the VarSet the parent holds for that
enum, or there is no such VarSet (no parent, or none for that enum), so that
the VarSet is freshly created for the definition. -/
def spec_inheritable (parent : Option rnnvarinfo) (vidx i : Nat) : Bool :=
  match parent.bind (fun p => p.varsets.find? (fun vs => vs.venum == vidx)) with
  | some pvs => pvs.variants.getD i 0 != 0
  | none => true

/-- The VarSet a prepared definition holds for the enum `vidx`: the first one
the search of `prepvarinfo` finds. -/
def varset_for (vi : rnnvarinfo) (vidx : Nat) : Option rnnvarset :=
  (find_varset vidx vi.varsets 0).bind (fun pos => vi.varsets[pos]?)

/-- The enum `CHIP` of scenario S6, with the values A, B and C. -/
def db_CHIP : rnndb :=
  { rnn_newdb with
    enums := [{ new_rnnenum "CHIP" enum_attrs_zero with
      vals := [{ plain_value "A" 0 with valvalid := false },
        { plain_value "B" 0 with valvalid := false },
        { plain_value "C" 0 with valvalid := false }] }] }

/-- The variant info of a parent prepared with `varset="CHIP" variants="A-B"`:
slots A and B are live. -/
def varinfo_AB : rnnvarinfo :=
  { varinfo_of "CHIP" "A-B" with varsets := [{ venum := 0, variants := [1, 1, 0] }] }

/-- The enum `CHIP` of `db_CHIP`. -/
def enum_CHIP : rnnenum :=
  { new_rnnenum "CHIP" enum_attrs_zero with
    vals := [{ plain_value "A" 0 with valvalid := false },
      { plain_value "B" 0 with valvalid := false },
      { plain_value "C" 0 with valvalid := false }] }

/-- Every slot of every VarSet of `vi` holds 0 or 1, as `prepvarinfo` leaves
them. -/
def varsets_boolean (vi : rnnvarinfo) : Prop :=
  ∀ vs, vs ∈ vi.varsets → ∀ v, v ∈ vs.variants → v ≤ 1

/-! ## The finders in the words of the specification -/

/-- The entry at index `i` of `l` is the first one, in order of appearance,
whose name equals `name` exactly. -/
def first_named {α : Type} (nm : α → String) (name : String) (l : List α) (i : Nat) : Prop :=
  (∃ e, l[i]? = some e ∧ nm e = name) ∧ ∀ j e, j < i → l[j]? = some e → nm e ≠ name

/-- The declaration `<enum name="E" inline="yes"><value name="A"
value="1"/></enum>`. -/
def decl_E_inline : xmlNode :=
  xml_elem "enum" [xml_attr "name" "E", xml_attr "inline" "yes"]
    [xml_elem "value" [xml_attr "name" "A", xml_attr "value" "1"] []]

/-- A file that declares the inline enum `E`. -/
def files_inline_enum : xmlFiles := fun path =>
  if path = "a.xml" then some [xml_elem "database" [] [decl_E_inline]] else none

/-! ## Numbers in the words of the specification -/

/-- A decimal digit. -/
def is_dec_digit (c : Char) : Bool := decide ('0' ≤ c ∧ c ≤ '9')

/-- A hexadecimal digit, in either case. -/
def is_hex_digit (c : Char) : Bool :=
  is_dec_digit c || decide ('a' ≤ c ∧ c ≤ 'f') || decide ('A' ≤ c ∧ c ≤ 'F')

/-- The value of a hexadecimal digit. -/
def hex_digit_value (c : Char) : Nat :=
  if is_dec_digit c then c.toNat - '0'.toNat
  else if 'a' ≤ c ∧ c ≤ 'f' then c.toNat - 'a'.toNat + 10
  else c.toNat - 'A'.toNat + 10

/-- The number that the digits `ds` denote in base `base`. -/
def digits_value (base : Nat) (ds : List Char) : Nat :=
  ds.foldl (fun acc c => acc * base + hex_digit_value c) 0

/-- A well-formed decimal literal: decimal digits, at least one. -/
def decimal_literal (s : List Char) : Bool := !s.isEmpty && s.all is_dec_digit

/-- A well-formed hexadecimal literal: `0x` or `0X`, then hexadecimal digits,
at least one. -/
def hex_literal : List Char → Bool
  | '0' :: x :: ds => (x == 'x' || x == 'X') && !ds.isEmpty && ds.all is_hex_digit
  | _ => false

/-- The base the specification gives for a literal: "hex when the literal
contains `x` or `X`, else decimal". -/
def literal_base (s : List Char) : Nat := if 'x' ∈ s ∨ 'X' ∈ s then 16 else 10

/-- The number a well-formed literal denotes. -/
def literal_value (s : List Char) : Nat :=
  if hex_literal s then digits_value 16 (s.drop 2) else digits_value 10 s

/-- The node `<value name="A" value=".."/>`. -/
def value_node (value : String) : xmlNode :=
  xml_elem "value" [xml_attr "name" "A", xml_attr "value" value] []

/-! ## The attributes of an element -/

/-- The attribute of `node` named `nm`, if it has one; of several attributes of
one name the attribute loops keep the last. -/
def given_attr (node : xmlNode) (nm : String) : Option xmlAttr :=
  (node.properties.filter (fun a => a.name = nm)).getLast?

/-- The text of an attribute: what `getattrib` returns for it. -/
def attr_text (a : xmlAttr) : String := (getattrib rnn_newdb a).2

/-- The number of an attribute: what `getnumattrib` returns for it. -/
def attr_number (a : xmlAttr) : Nat := (getnumattrib rnn_newdb a).2

/-- The text of the attribute `nm` of `node`, `""` without one. -/
def given_text (node : xmlNode) (nm : String) : String :=
  ((given_attr node nm).map attr_text).getD ""

/-- The number of the attribute `nm` of `node`, 0 without one. -/
def given_number (node : xmlNode) (nm : String) : Nat :=
  ((given_attr node nm).map attr_number).getD 0

/-- The node `<bitfield name="F" low=".." high=".."/>`. -/
def decl_F (low high : String) : xmlNode :=
  xml_elem "bitfield" [xml_attr "name" "F", xml_attr "low" low, xml_attr "high" high] []

/-- Whether the outcome is a fault of the C program. -/
def Res.isFault {α : Type} : Res α → Bool
  | .fault => true
  | _ => false

/-- A file whose domain has width 0 and a register with a length and no
stride:
`<domain name="D" width="0"><reg32 name="R" length="2"/></domain>`. -/
def files_width_zero : xmlFiles := fun path =>
  if path = "a.xml" then
    some [xml_elem "database" []
      [xml_elem "domain" [xml_attr "name" "D", xml_attr "width" "0"]
        [xml_elem "reg32" [xml_attr "name" "R", xml_attr "length" "2"] []]]]
  else none

/-- A file whose enum `E` takes its prefix from an enum without values:
`<enum name="P"/><enum name="E" prefix="P"><value name="X"/></enum>`. -/
def files_empty_prefenum : xmlFiles := fun path =>
  if path = "a.xml" then
    some [xml_elem "database" []
      [xml_elem "enum" [xml_attr "name" "P"] [],
       xml_elem "enum" [xml_attr "name" "E", xml_attr "prefix" "P"]
        [xml_elem "value" [xml_attr "name" "X"] []]]]
  else none

/-! ## Type names, in the words of the specification -/

/-- The enum named `name` that `rnn_findenum` returns, with its index. -/
def enum_named (db : rnndb) (name : String) : Option (Nat × rnnenum) :=
  (rnn_findenum db name).bind (fun i => db.enums[i]?.map (fun en => (i, en)))

/-- The bitset named `name` that `rnn_findbitset` returns, with its index. -/
def bitset_named (db : rnndb) (name : String) : Option (Nat × rnnbitset) :=
  (rnn_findbitset db name).bind (fun i => db.bitsets[i]?.map (fun bs => (i, bs)))

/-- The kind of a type name: that of the bitset of the name when there is one,
else that of the enum of the name, else `OTHER`. -/
def spec_type_kind (db : rnndb) (name : String) : Nat :=
  match bitset_named db name, enum_named db name with
  | some (_, bs), _ => if bs.isinline then RNN_TTYPE_INLINE_BITSET else RNN_TTYPE_BITSET
  | none, some (_, en) => if en.isinline then RNN_TTYPE_INLINE_ENUM else RNN_TTYPE_ENUM
  | none, none => RNN_TTYPE_OTHER

/-- The enum bound to the type `t`: the enum of its name when that is not
inline, else what `t` held. -/
def spec_eenum (db : rnndb) (t : rnntype) : Option Nat :=
  match enum_named db t.name with
  | some (i, en) => if en.isinline then t.eenum else some i
  | none => t.eenum

/-- The bitset bound to the type `t`: the bitset of its name when that is not
inline, else what `t` held. -/
def spec_ebitset (db : rnndb) (t : rnntype) : Option Nat :=
  match bitset_named db t.name with
  | some (i, bs) => if bs.isinline then t.ebitset else some i
  | none => t.ebitset

/-- The type `t` with its kind and bindings. -/
def spec_resolve (db : rnndb) (t : rnntype) : rnntype :=
  { name := t.name, type := spec_type_kind db t.name, eenum := spec_eenum db t,
    ebitset := spec_ebitset db t }

/-- The values that the type name brings: those of the inline enum of the
name. -/
def spec_inline_vals (db : rnndb) (name : String) : List rnnvalue :=
  match enum_named db name with
  | some (_, en) => if en.isinline then en.vals else []
  | none => []

/-- The bitfields that the type name brings: those of the inline bitset of the
name. -/
def spec_inline_bitfields (db : rnndb) (name : String) : List rnnbitfield :=
  match bitset_named db name with
  | some (_, bs) => if bs.isinline then bs.bitfields else []
  | none => []

/-- A file in which an enum and a bitset share the name `T`, and a bitfield of
the bitset `B` has the type `T`:
`<enum name="T"><value name="A" value="1"/></enum>
<bitset name="T"><bitfield name="G" low="0" high="0"/></bitset>
<bitset name="B"><bitfield name="F" low="0" high="3" type="T"/></bitset>`. -/
def files_shared_name : xmlFiles := fun path =>
  if path = "a.xml" then
    some [xml_elem "database" []
      [xml_elem "enum" [xml_attr "name" "T"]
        [xml_elem "value" [xml_attr "name" "A", xml_attr "value" "1"] []],
       xml_elem "bitset" [xml_attr "name" "T"]
        [xml_elem "bitfield" [xml_attr "name" "G", xml_attr "low" "0", xml_attr "high" "0"] []],
       xml_elem "bitset" [xml_attr "name" "B"]
        [xml_elem "bitfield"
          [xml_attr "name" "F", xml_attr "low" "0", xml_attr "high" "3", xml_attr "type" "T"]
          []]]]
  else none

/-- A database with an inline enum `T` of one value `A = 1` and a bitset
`T`. -/
def db_T_shared : rnndb :=
  { rnn_newdb with
    enums := [{ name := "T", bare := false, isinline := true, varinfo := rnnvarinfo_zero,
                vals := [plain_value "A" 1], fullname := none, prepared := false }],
    bitsets := [{ name := "T", bare := false, isinline := false, varinfo := rnnvarinfo_zero,
                  bitfields := [], fullname := none }] }

/-- A type info that declares the one type `T`. -/
def typeinfo_T : rnntypeinfo := { rnntypeinfo_zero with types := [new_rnntype "T"] }

/-! ## Terms of a variants expression, in the words of the specification -/

/-- A term of a variants expression: a bare name `A`, a range `A:B`, which
leaves its second endpoint out, or a range `A-B`, which holds it; either
endpoint of a range may be omitted. -/
inductive variants_term where
  | one (a : String)
  | upto (a b : Option String)
  | thru (a b : Option String)
deriving Repr, DecidableEq

/-- The names that a term holds. -/
def variants_term.names : variants_term → List String
  | .one a => [a]
  | .upto a b => a.toList ++ b.toList
  | .thru a b => a.toList ++ b.toList

/-- The text of a term. -/
def variants_term.chars : variants_term → List Char
  | .one a => a.toList
  | .upto a b => (a.getD "").toList ++ ':' :: (b.getD "").toList
  | .thru a b => (a.getD "").toList ++ '-' :: (b.getD "").toList

/-- The index of the first value of the enum named `a`. -/
def value_idx (en : rnnenum) (a : String) : Nat :=
  en.vals.findIdx (fun v => v.name == a)

/-- The slots `[lo, hi)` that a term stands for: `{idx(A)}` for `A`,
`[idx(A), idx(B))` for `A:B`, `[idx(A), idx(B)]` for `A-B`, with 0 for an
omitted first endpoint and the number of values for an omitted second one. -/
def variants_term.range (en : rnnenum) : variants_term → Nat × Nat
  | .one a => (value_idx en a, value_idx en a + 1)
  | .upto a b => ((a.map (value_idx en)).getD 0, (b.map (value_idx en)).getD en.vals.length)
  | .thru a b =>
    ((a.map (value_idx en)).getD 0,
      (b.map (fun x => value_idx en x + 1)).getD en.vals.length)

/-- A name as a term may hold it: not empty, without `:` and `-`, and the name
of a value of the enum. -/
def term_name_ok (en : rnnenum) (a : String) : Prop :=
  a ≠ "" ∧ (∀ c, c ∈ a.toList → c ≠ ':' ∧ c ≠ '-') ∧ ∃ v, v ∈ en.vals ∧ v.name = a

/-- Slot `i` lies in the union of the ranges of the terms `ts`. -/
def terms_select (en : rnnenum) (ts : List variants_term) (i : Nat) : Prop :=
  ∃ t, t ∈ ts ∧ (t.range en).1 ≤ i ∧ i < (t.range en).2

/-! ## Names in the top-level sequences -/

/-- No two entries of `db->enums` share a name, and likewise for
`db->bitsets`, `db->groups` and `db->domains`. -/
def names_unique (db : rnndb) : Prop :=
  (db.enums.map rnnenum.name).Nodup ∧ (db.bitsets.map rnnbitset.name).Nodup ∧
  (db.groups.map rnngroup.name).Nodup ∧ (db.domains.map rnndomain.name).Nodup

/-- A sequence of calls of `rnn_parsefile` on one database, each with its fuel,
the documents it can open and its path; `none` when a call runs out of fuel. -/
def rnn_parsefiles (db : rnndb) (calls : List (Nat × xmlFiles × String)) : Option rnndb :=
  calls.foldlM (fun db c => rnn_parsefile c.1 c.2.1 db c.2.2) db

/-- Two files that declare an enum `E`, a bitset `E`, a group `G` and a domain
`D`, `a.xml` twice over and `b.xml` once more:
`<enum name="E"/><bitset name="E"/><group name="G"/><domain name="D"/>
<enum name="E"/><bitset name="E"/><group name="G"/><domain name="D"/>` and
`<enum name="E"/><enum name="F"/><bitset name="E"/><group name="G"/>
<domain name="D"/>`. -/
def files_declared_again : xmlFiles := fun path =>
  if path = "a.xml" then
    some [xml_elem "database" []
      [xml_elem "enum" [xml_attr "name" "E"] [],
       xml_elem "bitset" [xml_attr "name" "E"] [],
       xml_elem "group" [xml_attr "name" "G"] [],
       xml_elem "domain" [xml_attr "name" "D"] [],
       xml_elem "enum" [xml_attr "name" "E"] [],
       xml_elem "bitset" [xml_attr "name" "E"] [],
       xml_elem "group" [xml_attr "name" "G"] [],
       xml_elem "domain" [xml_attr "name" "D"] []]]
  else if path = "b.xml" then
    some [xml_elem "database" []
      [xml_elem "enum" [xml_attr "name" "E"] [],
       xml_elem "enum" [xml_attr "name" "F"] [],
       xml_elem "bitset" [xml_attr "name" "E"] [],
       xml_elem "group" [xml_attr "name" "G"] [],
       xml_elem "domain" [xml_attr "name" "D"] []]]
  else none

end Rnn

/-! # Properties -/

namespace Nvbios

/-! ## The error word -/

theorem errWord_zero : ErrWord 0 := Or.inl rfl

theorem errWord_lor {a b : Nat} (ha : ErrWord a) (hb : ErrWord b) :
    ErrWord (a ||| b) ∧ (a ||| b = 0 ↔ a = 0 ∧ b = 0) := by
  rcases ha with rfl | rfl <;> rcases hb with rfl | rfl <;> (unfold ErrWord; decide)

theorem bios_u8_status (bios : envy_bios) (o : Nat) :
    ErrWord (bios_u8 bios o).1 ∧ ((bios_u8 bios o).1 = 0 ↔ o < bios.length) := by
  unfold bios_u8
  by_cases h : o < bios.length
  · simp [h, ErrWord]
  · simp [h, ErrWord, EFAULT, neg32]

theorem bios_u16_status (bios : envy_bios) (o : Nat) :
    ErrWord (bios_u16 bios o).1 ∧ ((bios_u16 bios o).1 = 0 ↔ o + 1 < bios.length) := by
  unfold bios_u16
  by_cases h : o + 1 < bios.length
  · simp [h, ErrWord]
  · simp [h, ErrWord, EFAULT, neg32]

theorem bios_u8_value (bios : envy_bios) (o : Nat) (h : o < bios.length) :
    (bios_u8 bios o).2 = bios.byte o := by
  simp [bios_u8, h]

theorem bios_u16_value (bios : envy_bios) (o : Nat) (h : o + 1 < bios.length) :
    (bios_u16 bios o).2 = bios.byte o + 256 * bios.byte (o + 1) := by
  simp [bios_u16, h]

/-! ## One level entry -/

theorem parse_dp_info_level_entry_spec (bios : envy_bios) (version off err : Nat)
    (hv : dp_info_version_known version) (he : ErrWord err) :
    ∃ le err1, parse_dp_info_level_entry bios version off err = some (le, err1) ∧
      ErrWord err1 ∧ (err1 = 0 ↔ err = 0 ∧ level_entry_in_range bios version off) ∧
      le.offset = off ∧ le.valid = decide (err1 = 0) ∧
      level_entry_fields bios version off le := by
  have s0 := bios_u8_status bios (off + 0)
  have s1 := bios_u8_status bios (off + 1)
  have s2 := bios_u8_status bios (off + 2)
  have s3 := bios_u8_status bios (off + 3)
  have l0 := errWord_lor he s0.1
  have l1 := errWord_lor l0.1 s1.1
  have l2 := errWord_lor l1.1 s2.1
  have l3 := errWord_lor l2.1 s3.1
  rcases hv with h | h | h
  · have hc : version = 0x40 ∨ version = 0x41 := Or.inl h
    unfold parse_dp_info_level_entry
    rw [if_pos hc]
    refine ⟨_, _, rfl, l3.1, ?_, rfl, rfl, ?_⟩
    · rw [l3.2, l2.2, l1.2, l0.2, s0.2, s1.2, s2.2, s3.2]
      simp [level_entry_in_range, h]; omega
    · simp only [level_entry_fields, h]
      exact ⟨bios_u8_value bios _, bios_u8_value bios _, bios_u8_value bios _, bios_u8_value bios _⟩
  · have hc : version = 0x40 ∨ version = 0x41 := Or.inr h
    unfold parse_dp_info_level_entry
    rw [if_pos hc]
    refine ⟨_, _, rfl, l3.1, ?_, rfl, rfl, ?_⟩
    · rw [l3.2, l2.2, l1.2, l0.2, s0.2, s1.2, s2.2, s3.2]
      simp [level_entry_in_range, h]; omega
    · simp only [level_entry_fields, h]
      exact ⟨bios_u8_value bios _, bios_u8_value bios _, bios_u8_value bios _, bios_u8_value bios _⟩
  · have hc : ¬ (version = 0x40 ∨ version = 0x41) := by omega
    unfold parse_dp_info_level_entry
    rw [if_neg hc, if_pos h]
    refine ⟨_, _, rfl, l2.1, ?_, rfl, rfl, ?_⟩
    · rw [l2.2, l1.2, l0.2, s0.2, s1.2, s2.2]
      simp [level_entry_in_range, h]; omega
    · simp only [level_entry_fields, h]
      exact ⟨trivial, bios_u8_value bios _, bios_u8_value bios _, bios_u8_value bios _⟩

/-! ## The loops over the level entries -/

theorem parse_dp_info_level_entries_spec (bios : envy_bios) (dp : envy_bios_d_dp_info)
    (letoff : Nat) (hv : dp_info_version_known dp.version) :
    ∀ (n j err : Nat), ErrWord err →
      (parse_dp_info_level_entries bios dp letoff n j err).2.2 = false ∧
      (parse_dp_info_level_entries bios dp letoff n j err).1.length = n ∧
      ErrWord (parse_dp_info_level_entries bios dp letoff n j err).2.1 ∧
      ((parse_dp_info_level_entries bios dp letoff n j err).2.1 = 0 ↔
        err = 0 ∧ ∀ m, m < n →
          level_entry_in_range bios dp.version (letoff + (j + m) * dp.levelentry_size)) ∧
      ∀ m, m < n → ∃ le,
        (parse_dp_info_level_entries bios dp letoff n j err).1[m]? = some le ∧
        le.offset = letoff + (j + m) * dp.levelentry_size ∧
        (le.valid = true ↔ err = 0 ∧ ∀ m', m' ≤ m →
          level_entry_in_range bios dp.version (letoff + (j + m') * dp.levelentry_size)) ∧
        level_entry_fields bios dp.version le.offset le := by
  intro n
  induction n with
  | zero =>
    intro j err he
    simp [parse_dp_info_level_entries, he]
  | succ n ih =>
    intro j err he
    obtain ⟨le, err1, hle, he1, hz1, hoff, hvalid, hfields⟩ :=
      parse_dp_info_level_entry_spec bios dp.version (letoff + j * dp.levelentry_size) err hv he
    obtain ⟨ha, hlen, hew, hz, hget⟩ := ih (j + 1) err1 he1
    simp only [parse_dp_info_level_entries, hle]
    refine ⟨ha, by simp [hlen], hew, ?_, ?_⟩
    · rw [hz, hz1]
      constructor
      · rintro ⟨⟨h0, hr⟩, hall⟩
        refine ⟨h0, ?_⟩
        intro m hm
        cases m with
        | zero => simpa using hr
        | succ m =>
          have := hall m (by omega)
          rwa [show j + 1 + m = j + (m + 1) by omega] at this
      · rintro ⟨h0, hall⟩
        refine ⟨⟨h0, by simpa using hall 0 (by omega)⟩, ?_⟩
        intro m hm
        have := hall (m + 1) (by omega)
        rwa [show j + (m + 1) = j + 1 + m by omega] at this
    · intro m hm
      cases m with
      | zero =>
        refine ⟨le, by simp, by simpa using hoff, ?_, by rw [hoff]; exact hfields⟩
        rw [hvalid, decide_eq_true_iff, hz1]
        constructor
        · rintro ⟨h0, hr⟩
          refine ⟨h0, ?_⟩
          intro m' hm'
          have : m' = 0 := by omega
          subst this
          simpa using hr
        · rintro ⟨h0, hall⟩
          exact ⟨h0, by simpa using hall 0 (le_refl 0)⟩
      | succ m =>
        obtain ⟨le', hget', hoff', hvalid', hfields'⟩ := hget m (by omega)
        refine ⟨le', by simpa using hget', ?_, ?_, hfields'⟩
        · rw [hoff']; congr 2; omega
        · rw [hvalid', hz1]
          constructor
          · rintro ⟨⟨h0, hr⟩, hall⟩
            refine ⟨h0, ?_⟩
            intro m' hm'
            cases m' with
            | zero => simpa using hr
            | succ m' =>
              have := hall m' (by omega)
              rwa [show j + 1 + m' = j + (m' + 1) by omega] at this
          · rintro ⟨h0, hall⟩
            refine ⟨⟨h0, by simpa using hall 0 (by omega)⟩, ?_⟩
            intro m' hm'
            have := hall (m' + 1) (by omega)
            rwa [show j + (m' + 1) = j + 1 + m' by omega] at this

theorem parse_dp_info_level_entry_tables_spec (bios : envy_bios) (dp : envy_bios_d_dp_info)
    (hv : dp_info_version_known dp.version) :
    ∀ (n i err : Nat), ErrWord err →
      (parse_dp_info_level_entry_tables bios dp n i err).2.2 = false ∧
      (parse_dp_info_level_entry_tables bios dp n i err).1.length = n ∧
      ErrWord (parse_dp_info_level_entry_tables bios dp n i err).2.1 ∧
      ((parse_dp_info_level_entry_tables bios dp n i err).2.1 = 0 ↔
        err = 0 ∧ ∀ k, k < n → ∀ j, j < dp.levelentry_count →
          level_entry_in_range bios dp.version (level_entry_offset dp (i + k) j)) ∧
      ∀ k, k < n → ∃ t,
        (parse_dp_info_level_entry_tables bios dp n i err).1[k]? = some t ∧
        t.offset = level_entry_offset dp (i + k) 0 ∧
        t.level_entries.length = dp.levelentry_count ∧
        ∀ j, j < dp.levelentry_count → ∃ le,
          t.level_entries[j]? = some le ∧
          le.offset = level_entry_offset dp (i + k) j ∧
          (le.valid = true ↔ err = 0 ∧
            (∀ k', k' < k → ∀ j', j' < dp.levelentry_count →
              level_entry_in_range bios dp.version (level_entry_offset dp (i + k') j')) ∧
            ∀ j', j' ≤ j →
              level_entry_in_range bios dp.version (level_entry_offset dp (i + k) j')) ∧
          level_entry_fields bios dp.version le.offset le := by
  intro n
  induction n with
  | zero =>
    intro i err he
    simp [parse_dp_info_level_entry_tables, he]
  | succ n ih =>
    intro i err he
    obtain ⟨ha, hlen, hew, hz, hget⟩ :=
      parse_dp_info_level_entries_spec bios dp
        (dp.offset + dp.hlen + dp.entriesnum * dp.rlen +
          i * dp.levelentry_count * dp.levelentry_size) hv dp.levelentry_count 0 err he
    obtain ⟨ha2, hlen2, hew2, hz2, hget2⟩ :=
      ih (i + 1) _ hew
    have hoffs : ∀ m, dp.offset + dp.hlen + dp.entriesnum * dp.rlen +
        i * dp.levelentry_count * dp.levelentry_size + (0 + m) * dp.levelentry_size =
        level_entry_offset dp i m := by
      intro m; simp [level_entry_offset]
    simp only [hoffs] at hz hget
    simp only [parse_dp_info_level_entry_tables, ha]
    refine ⟨ha2, by simp [hlen2], hew2, ?_, ?_⟩
    · simp only [Bool.false_eq_true, if_false]
      rw [hz2, hz]
      constructor
      · rintro ⟨⟨h0, hr⟩, hall⟩
        refine ⟨h0, ?_⟩
        intro k hk j hj
        cases k with
        | zero => simpa using hr j hj
        | succ k =>
          have := hall k (by omega) j hj
          rwa [show i + 1 + k = i + (k + 1) by omega] at this
      · rintro ⟨h0, hall⟩
        refine ⟨⟨h0, fun j hj => by simpa using hall 0 (by omega) j hj⟩, ?_⟩
        intro k hk j hj
        have := hall (k + 1) (by omega) j hj
        rwa [show i + (k + 1) = i + 1 + k by omega] at this
    · intro k hk
      simp only [Bool.false_eq_true, if_false]
      cases k with
      | zero =>
        refine ⟨_, by simp; rfl, by simp [level_entry_offset], hlen, ?_⟩
        intro j hj
        obtain ⟨le, hg, ho, hvl, hf⟩ := hget j hj
        refine ⟨le, hg, by simpa using ho, ?_, hf⟩
        rw [hvl]
        constructor
        · rintro ⟨h0, hr⟩
          exact ⟨h0, fun k' hk' => absurd hk' (by omega), by simpa using hr⟩
        · rintro ⟨h0, _, hr⟩
          exact ⟨h0, by simpa using hr⟩
      | succ k =>
        obtain ⟨t, hg, ho, hl, hrest⟩ := hget2 k (by omega)
        refine ⟨t, by simpa using hg, ?_, hl, ?_⟩
        · rw [ho, show i + 1 + k = i + (k + 1) by omega]
        · intro j hj
          obtain ⟨le, hg', ho', hvl', hf'⟩ := hrest j hj
          refine ⟨le, hg', ?_, ?_, hf'⟩
          · rw [ho', show i + 1 + k = i + (k + 1) by omega]
          · rw [hvl', hz]
            constructor
            · rintro ⟨⟨h0, hr⟩, hall, hlast⟩
              refine ⟨h0, ?_, ?_⟩
              · intro k' hk' j' hj'
                cases k' with
                | zero => simpa using hr j' hj'
                | succ k' =>
                  have := hall k' (by omega) j' hj'
                  rwa [show i + 1 + k' = i + (k' + 1) by omega] at this
              · intro j' hj'
                have := hlast j' hj'
                rwa [show i + 1 + k = i + (k + 1) by omega] at this
            · rintro ⟨h0, hall, hlast⟩
              refine ⟨⟨h0, fun j' hj' => by simpa using hall 0 (by omega) j' hj'⟩, ?_, ?_⟩
              · intro k' hk' j' hj'
                have := hall (k' + 1) (by omega) j' hj'
                rwa [show i + (k' + 1) = i + 1 + k' by omega] at this
              · intro j' hj'
                have := hlast j' hj'
                rwa [show i + (k + 1) = i + 1 + k by omega] at this

/-! ## The header -/

theorem parse_dp_info_header_v40_err (bios : envy_bios) (dp : envy_bios_d_dp_info) :
    ErrWord (parse_dp_info_header_v40 bios dp 0).2 ∧
    ((parse_dp_info_header_v40 bios dp 0).2 = 0 ↔ dp.offset + 0x8 < bios.length) ∧
    (parse_dp_info_header_v40 bios dp 0).1.valid =
      decide ((parse_dp_info_header_v40 bios dp 0).2 = 0) := by
  have s1 := bios_u8_status bios (dp.offset + 1)
  have s2 := bios_u8_status bios (dp.offset + 2)
  have s3 := bios_u8_status bios (dp.offset + 3)
  have s4 := bios_u8_status bios (dp.offset + 4)
  have s5 := bios_u8_status bios (dp.offset + 5)
  have s6 := bios_u8_status bios (dp.offset + 6)
  have s7 := bios_u8_status bios (dp.offset + 7)
  have s8 := bios_u8_status bios (dp.offset + 8)
  have l1 := errWord_lor errWord_zero s1.1
  have l2 := errWord_lor l1.1 s2.1
  have l3 := errWord_lor l2.1 s3.1
  have l4 := errWord_lor l3.1 s4.1
  have l5 := errWord_lor l4.1 s5.1
  have l6 := errWord_lor l5.1 s6.1
  have l7 := errWord_lor l6.1 s7.1
  have l8 := errWord_lor l7.1 s8.1
  refine ⟨l8.1, ?_, rfl⟩
  show (0 ||| (bios_u8 bios (dp.offset + 1)).1 ||| (bios_u8 bios (dp.offset + 2)).1 |||
      (bios_u8 bios (dp.offset + 3)).1 ||| (bios_u8 bios (dp.offset + 4)).1 |||
      (bios_u8 bios (dp.offset + 5)).1 ||| (bios_u8 bios (dp.offset + 6)).1 |||
      (bios_u8 bios (dp.offset + 7)).1 ||| (bios_u8 bios (dp.offset + 8)).1) = 0 ↔ _
  rw [l8.2, l7.2, l6.2, l5.2, l4.2, l3.2, l2.2, l1.2, s1.2, s2.2, s3.2, s4.2, s5.2, s6.2,
    s7.2, s8.2]
  omega

theorem parse_dp_info_header_v42_err (bios : envy_bios) (dp : envy_bios_d_dp_info) :
    ErrWord (parse_dp_info_header_v42 bios dp 0).2 ∧
    ((parse_dp_info_header_v42 bios dp 0).2 = 0 ↔ dp.offset + 0xc < bios.length) ∧
    (parse_dp_info_header_v42 bios dp 0).1.valid =
      decide ((parse_dp_info_header_v42 bios dp 0).2 = 0) := by
  have s1 := bios_u8_status bios (dp.offset + 1)
  have s2 := bios_u8_status bios (dp.offset + 2)
  have s3 := bios_u8_status bios (dp.offset + 3)
  have s4 := bios_u8_status bios (dp.offset + 4)
  have s5 := bios_u8_status bios (dp.offset + 5)
  have s6 := bios_u8_status bios (dp.offset + 6)
  have s7 := bios_u8_status bios (dp.offset + 7)
  have s8 := bios_u8_status bios (dp.offset + 8)
  have s9 := bios_u16_status bios (dp.offset + 9)
  have sb := bios_u16_status bios (dp.offset + 0xb)
  have l1 := errWord_lor errWord_zero s1.1
  have l2 := errWord_lor l1.1 s2.1
  have l3 := errWord_lor l2.1 s3.1
  have l4 := errWord_lor l3.1 s4.1
  have l5 := errWord_lor l4.1 s5.1
  have l6 := errWord_lor l5.1 s6.1
  have l7 := errWord_lor l6.1 s7.1
  have l8 := errWord_lor l7.1 s8.1
  have l9 := errWord_lor l8.1 s9.1
  have lb := errWord_lor l9.1 sb.1
  refine ⟨lb.1, ?_, rfl⟩
  show (0 ||| (bios_u8 bios (dp.offset + 1)).1 ||| (bios_u8 bios (dp.offset + 2)).1 |||
      (bios_u8 bios (dp.offset + 3)).1 ||| (bios_u8 bios (dp.offset + 4)).1 |||
      (bios_u8 bios (dp.offset + 5)).1 ||| (bios_u8 bios (dp.offset + 6)).1 |||
      (bios_u8 bios (dp.offset + 7)).1 ||| (bios_u8 bios (dp.offset + 8)).1 |||
      (bios_u16 bios (dp.offset + 9)).1 ||| (bios_u16 bios (dp.offset + 0xb)).1) = 0 ↔ _
  rw [lb.2, l9.2, l8.2, l7.2, l6.2, l5.2, l4.2, l3.2, l2.2, l1.2, s1.2, s2.2, s3.2, s4.2,
    s5.2, s6.2, s7.2, s8.2, s9.2, sb.2]
  omega

theorem parse_d_dp_info_known (bios : envy_bios) (dp : envy_bios_d_dp_info)
    (ho : dp.offset ≠ 0) (hv : dp_info_version_known (bios_u8 bios dp.offset).2) :
    parse_d_dp_info bios dp =
      parse_dp_info_records bios (parse_dp_info_header bios dp).1
        (parse_dp_info_header bios dp).2 := by
  unfold parse_d_dp_info parse_dp_info_header
  simp only [if_neg ho]
  rcases hv with h | h | h <;> simp [h]

theorem parse_dp_info_header_spec (bios : envy_bios) (dp : envy_bios_d_dp_info) :
    ErrWord (parse_dp_info_header bios dp).2 ∧
    ((parse_dp_info_header bios dp).2 = 0 ↔
      header_in_range bios (bios_u8 bios dp.offset).2 dp.offset) ∧
    (parse_dp_info_header bios dp).1.valid = decide ((parse_dp_info_header bios dp).2 = 0) ∧
    (parse_dp_info_header bios dp).1.offset = dp.offset ∧
    (parse_dp_info_header bios dp).1.version = (bios_u8 bios dp.offset).2 := by
  unfold parse_dp_info_header header_in_range
  by_cases h : (bios_u8 bios dp.offset).2 = 0x42
  · simp only [h, if_true]
    have := parse_dp_info_header_v42_err bios { dp with version := 0x42 }
    exact ⟨this.1, this.2.1, this.2.2, rfl, rfl⟩
  · simp only [h, if_false]
    have := parse_dp_info_header_v40_err bios { dp with version := (bios_u8 bios dp.offset).2 }
    exact ⟨this.1, this.2.1, this.2.2, rfl, rfl⟩

/-! ## The whole parser on a supported version -/

theorem parse_dp_info_entries_spec (dp : envy_bios_d_dp_info) :
    ∀ (n i : Nat), (parse_dp_info_entries dp n i).length = n ∧
      ∀ m, m < n → (parse_dp_info_entries dp n i)[m]? =
        some { offset := dp.offset + dp.hlen + (i + m) * dp.rlen } := by
  intro n
  induction n with
  | zero => intro i; simp [parse_dp_info_entries]
  | succ n ih =>
    intro i
    refine ⟨by simp [parse_dp_info_entries, (ih (i + 1)).1], ?_⟩
    intro m hm
    cases m with
    | zero => simp [parse_dp_info_entries]
    | succ m =>
      simp only [parse_dp_info_entries, List.getElem?_cons_succ]
      rw [(ih (i + 1)).2 m (by omega), show i + 1 + m = i + (m + 1) by omega]

theorem parse_d_dp_info_spec (bios : envy_bios) (dp : envy_bios_d_dp_info)
    (ho : dp.offset ≠ 0) (hv : dp_info_version_known (bios_u8 bios dp.offset).2) :
    ∃ es ts,
      parse_d_dp_info bios dp =
        { (parse_dp_info_header bios dp).1 with
            entries := some es, level_entry_tables := some ts } ∧
      es.length = (parse_dp_info_header bios dp).1.entriesnum ∧
      (∀ i, i < (parse_dp_info_header bios dp).1.entriesnum →
        es[i]? = some { offset := dp.offset + (parse_dp_info_header bios dp).1.hlen +
          i * (parse_dp_info_header bios dp).1.rlen }) ∧
      ts.length = (parse_dp_info_header bios dp).1.levelentrytables_count ∧
      ∀ k, k < (parse_dp_info_header bios dp).1.levelentrytables_count → ∃ t,
        ts[k]? = some t ∧
        t.offset = level_entry_offset (parse_dp_info_header bios dp).1 k 0 ∧
        t.level_entries.length = (parse_dp_info_header bios dp).1.levelentry_count ∧
        ∀ j, j < (parse_dp_info_header bios dp).1.levelentry_count → ∃ le,
          t.level_entries[j]? = some le ∧
          le.offset = level_entry_offset (parse_dp_info_header bios dp).1 k j ∧
          (le.valid = true ↔
            header_in_range bios (bios_u8 bios dp.offset).2 dp.offset ∧
            (∀ k', k' < k → ∀ j', j' < (parse_dp_info_header bios dp).1.levelentry_count →
              level_entry_in_range bios (bios_u8 bios dp.offset).2
                (level_entry_offset (parse_dp_info_header bios dp).1 k' j')) ∧
            ∀ j', j' ≤ j →
              level_entry_in_range bios (bios_u8 bios dp.offset).2
                (level_entry_offset (parse_dp_info_header bios dp).1 k j')) ∧
          level_entry_fields bios (bios_u8 bios dp.offset).2 le.offset le := by
  obtain ⟨hew, hz, _, hoff, hver⟩ := parse_dp_info_header_spec bios dp
  rw [parse_d_dp_info_known bios dp ho hv]
  generalize parse_dp_info_header bios dp = H at *
  obtain ⟨H, e⟩ := H
  simp only at hew hz hoff hver ⊢
  have hv' : dp_info_version_known
      ({ H with entries := some (parse_dp_info_entries H H.entriesnum 0) } :
        envy_bios_d_dp_info).version := by
    show dp_info_version_known H.version
    rw [hver]; exact hv
  obtain ⟨_, hlen, _, _, hget⟩ :=
    parse_dp_info_level_entry_tables_spec bios
      { H with entries := some (parse_dp_info_entries H H.entriesnum 0) } hv'
      H.levelentrytables_count 0 e hew
  obtain ⟨elen, eget⟩ := parse_dp_info_entries_spec H H.entriesnum 0
  refine ⟨_, _, rfl, elen, ?_, hlen, ?_⟩
  · intro i hi
    rw [eget i hi, hoff]; simp
  · intro k hk
    obtain ⟨t, hg, ho', hl, hrest⟩ := hget k hk
    refine ⟨t, hg, by simpa [level_entry_offset] using ho', hl, ?_⟩
    intro j hj
    obtain ⟨le, hg', ho'', hvl, hf⟩ := hrest j hj
    refine ⟨le, hg', by simpa [level_entry_offset] using ho'', ?_, ?_⟩
    · rw [hvl, hz]
      simp only [level_entry_offset, zero_add, hver]
    · have : ({ H with entries := some (parse_dp_info_entries H H.entriesnum 0) } :
        envy_bios_d_dp_info).version = (bios_u8 bios dp.offset).2 := hver
      rw [this] at hf
      exact hf

/-! ## The claims on the DP INFO parser -/

/-- C3: for every BIOS image and every DP INFO table at a non-zero offset whose
version is 0x40, 0x41 or 0x42, after `envy_bios_parse_d_dp_info` the array
`entries` has `entriesnum` elements, `level_entry_tables` has
`levelentrytables_count` elements of `levelentry_count` level entries each,
entry `i` has offset `offset + hlen + i*rlen`, and level entry `j` of table `k`
has offset `offset + hlen + entriesnum*rlen +
k*levelentry_count*levelentry_size + j*levelentry_size`. -/
theorem dp_info_record_offsets (bios : envy_bios) (ho : bios.d.dp_info.offset ≠ 0)
    (hv : dp_info_version_known (bios_u8 bios bios.d.dp_info.offset).2) :
    dp_info_records_laid_out (envy_bios_parse_d_dp_info bios).d.dp_info := by
  obtain ⟨es, ts, hr, elen, eget, tlen, tget⟩ := parse_d_dp_info_spec bios bios.d.dp_info ho hv
  obtain ⟨_, _, _, hoff, _⟩ := parse_dp_info_header_spec bios bios.d.dp_info
  show dp_info_records_laid_out (parse_d_dp_info bios bios.d.dp_info)
  rw [hr]
  refine ⟨es, ts, rfl, rfl, elen, tlen, ?_, ?_⟩
  · intro i hi
    exact ⟨_, eget i hi, by simp [hoff]⟩
  · intro k hk
    obtain ⟨t, hg, _, hl, hrest⟩ := tget k hk
    refine ⟨t, hg, hl, ?_⟩
    intro j hj
    obtain ⟨le, hg', ho', _, _⟩ := hrest j hj
    exact ⟨le, hg', by rw [ho']; rfl⟩

set_option maxRecDepth 100000 in
/-- C3 at the image of scenario S5 (version 0x42 at offset 0x100). -/
theorem dp_info_record_offsets_witness :
    bios_s5.d.dp_info.offset ≠ 0 ∧
    dp_info_version_known (bios_u8 bios_s5 bios_s5.d.dp_info.offset).2 ∧
    dp_info_records_laid_out (envy_bios_parse_d_dp_info bios_s5).d.dp_info :=
  ⟨by decide, by decide, dp_info_record_offsets bios_s5 (by decide) (by decide)⟩

/-- C4: for every BIOS image in which the header bytes of the DP INFO table at
the non-zero offset `o` are readable (9 bytes for the versions 0x40 and 0x41,
13 bytes for 0x42), the parser sets version to byte `o`, the eight one-byte
fields to the bytes `o+1 .. o+8` in order, both vswing words to 0 for 0x40 and
0x41 and to the little-endian words at `o+9` and `o+0xb` for 0x42, and `valid`
to true. -/
theorem dp_info_header_decode (bios : envy_bios) (ho : bios.d.dp_info.offset ≠ 0)
    (hv : dp_info_version_known (bios.byte bios.d.dp_info.offset))
    (hr : header_in_range bios (bios.byte bios.d.dp_info.offset) bios.d.dp_info.offset) :
    dp_info_header_decoded bios bios.d.dp_info.offset
      (envy_bios_parse_d_dp_info bios).d.dp_info := by
  have hlt : bios.d.dp_info.offset < bios.length := by
    unfold header_in_range at hr; split at hr <;> omega
  have hv8 : (bios_u8 bios bios.d.dp_info.offset).2 = bios.byte bios.d.dp_info.offset :=
    bios_u8_value bios _ hlt
  obtain ⟨es, ts, hres, _⟩ := parse_d_dp_info_spec bios bios.d.dp_info ho (hv8 ▸ hv)
  obtain ⟨_, hz, hvalid, _, _⟩ := parse_dp_info_header_spec bios bios.d.dp_info
  rw [hv8] at hz
  have hvt : (parse_dp_info_header bios bios.d.dp_info).1.valid = true := by
    rw [hvalid, decide_eq_true_iff]; exact hz.2 hr
  show dp_info_header_decoded bios _ (parse_d_dp_info bios bios.d.dp_info)
  rw [hres]
  unfold dp_info_header_decoded
  refine ⟨?_, ?_, ?_, ?_, ?_, ?_, ?_, ?_, ?_, ?_, ?_, hvt⟩
  all_goals
    simp only [parse_dp_info_header, hv8]
    unfold header_in_range at hr
    by_cases h42 : bios.byte bios.d.dp_info.offset = 0x42
    · rw [if_pos h42] at hr
      simp only [h42, if_true, parse_dp_info_header_v42]
      try first
        | rfl
        | (apply bios_u8_value; omega)
        | (intro h; omega)
        | (intro _; exact ⟨bios_u16_value bios _ (by omega), bios_u16_value bios _ (by omega)⟩)
    · rw [if_neg h42] at hr
      simp only [h42, if_false, parse_dp_info_header_v40]
      try first
        | rfl
        | (apply bios_u8_value; omega)
        | (intro _; trivial)

set_option maxRecDepth 100000 in
/-- C4 at the image of scenario S5: the bytes
`42 09 04 02 01 03 04 02 05 11 22 33 44` at offset 0x100 give version 0x42,
hlen 9, rlen 4, entriesnum 2, target_size 1, levelentrytables_count 3,
levelentry_size 4, levelentry_count 2, flags 5, regular_vswing 0x2211 and
low_vswing 0x4433. -/
theorem dp_info_header_decode_witness :
    (bios_s5.d.dp_info.offset = 0x100 ∧
      (envy_bios_parse_d_dp_info bios_s5).d.dp_info.version = 0x42 ∧
      (envy_bios_parse_d_dp_info bios_s5).d.dp_info.hlen = 9 ∧
      (envy_bios_parse_d_dp_info bios_s5).d.dp_info.rlen = 4 ∧
      (envy_bios_parse_d_dp_info bios_s5).d.dp_info.entriesnum = 2 ∧
      (envy_bios_parse_d_dp_info bios_s5).d.dp_info.target_size = 1 ∧
      (envy_bios_parse_d_dp_info bios_s5).d.dp_info.levelentrytables_count = 3 ∧
      (envy_bios_parse_d_dp_info bios_s5).d.dp_info.levelentry_size = 4 ∧
      (envy_bios_parse_d_dp_info bios_s5).d.dp_info.levelentry_count = 2 ∧
      (envy_bios_parse_d_dp_info bios_s5).d.dp_info.flags = 5 ∧
      (envy_bios_parse_d_dp_info bios_s5).d.dp_info.regular_vswing = 0x2211 ∧
      (envy_bios_parse_d_dp_info bios_s5).d.dp_info.low_vswing = 0x4433) ∧
    dp_info_header_decoded bios_s5 0x100 (envy_bios_parse_d_dp_info bios_s5).d.dp_info :=
  ⟨by decide, dp_info_header_decode bios_s5 (by decide) (by decide) (by decide)⟩

/-- C5: for every level entry at offset `p` of a DP INFO table of a supported
version, the parser sets, with version 0x40 or 0x41, `post_cursor_2`,
`drive_current`, `pre_emphasis`, `tx_pu` to the bytes at `p+0 .. p+3`, and with
version 0x42 `post_cursor_2` to 0 and `drive_current`, `pre_emphasis`, `tx_pu`
to the bytes at `p+0 .. p+2` (each field whose byte lies inside the image). -/
theorem dp_info_level_entry_decode (bios : envy_bios) (ho : bios.d.dp_info.offset ≠ 0)
    (hv : dp_info_version_known (bios_u8 bios bios.d.dp_info.offset).2) :
    dp_info_level_entries_decoded bios (envy_bios_parse_d_dp_info bios).d.dp_info := by
  obtain ⟨es, ts, hr, _, _, tlen, tget⟩ := parse_d_dp_info_spec bios bios.d.dp_info ho hv
  obtain ⟨_, _, _, _, hver⟩ := parse_dp_info_header_spec bios bios.d.dp_info
  show dp_info_level_entries_decoded bios (parse_d_dp_info bios bios.d.dp_info)
  rw [hr]
  refine ⟨ts, rfl, tlen, ?_⟩
  intro t ht
  obtain ⟨k, hk⟩ := List.mem_iff_getElem?.1 ht
  obtain ⟨hklt, _⟩ := List.getElem?_eq_some.1 hk
  obtain ⟨t', hg, _, hl, hrest⟩ := tget k (by omega)
  have : t' = t := by rw [hk] at hg; exact (Option.some.inj hg).symm
  subst this
  refine ⟨hl, ?_⟩
  intro le hle
  obtain ⟨j, hj⟩ := List.mem_iff_getElem?.1 hle
  obtain ⟨hjlt, _⟩ := List.getElem?_eq_some.1 hj
  obtain ⟨le', hg', _, _, hf⟩ := hrest j (by omega)
  have : le' = le := by rw [hj] at hg'; exact (Option.some.inj hg').symm
  subst this
  show level_entry_fields bios (parse_dp_info_header bios bios.d.dp_info).1.version _ _
  rw [hver]
  exact hf

set_option maxRecDepth 100000 in
/-- C5 at the image of scenario S5; the first level entry of its first table
is read from the bytes `01 02 03` at 0x111. -/
theorem dp_info_level_entry_decode_witness :
    (bios_s5.d.dp_info.offset ≠ 0 ∧
      dp_info_version_known (bios_u8 bios_s5 bios_s5.d.dp_info.offset).2 ∧
      ((envy_bios_parse_d_dp_info bios_s5).d.dp_info.level_entry_tables.map
          (fun ts => ts.head?.map (fun t => t.level_entries.head?))) =
        some (some (some
          { offset := 0x111, post_cursor_2 := 0, drive_current := 1, pre_emphasis := 2,
            tx_pu := 3, valid := true }))) ∧
    dp_info_level_entries_decoded bios_s5 (envy_bios_parse_d_dp_info bios_s5).d.dp_info :=
  ⟨by decide, dp_info_level_entry_decode bios_s5 (by decide) (by decide)⟩

/-- C6: for every DP INFO table at a non-zero offset whose version byte is not
0x40, 0x41 or 0x42, `envy_bios_parse_d_dp_info` writes the version and nothing
else: `valid` keeps its value (false in a fresh record), no other header field
is written and no array is allocated; the rest of the BIOS state is
untouched. -/
theorem dp_info_unknown_version (bios : envy_bios) (ho : bios.d.dp_info.offset ≠ 0)
    (hv : ¬ dp_info_version_known (bios_u8 bios bios.d.dp_info.offset).2) :
    envy_bios_parse_d_dp_info bios =
      { bios with d := { bios.d with dp_info :=
          { bios.d.dp_info with version := (bios_u8 bios bios.d.dp_info.offset).2 } } } ∧
    (envy_bios_parse_d_dp_info bios).d.dp_info.valid = bios.d.dp_info.valid ∧
    (envy_bios_parse_d_dp_info bios).d.dp_info.entries = bios.d.dp_info.entries ∧
    (envy_bios_parse_d_dp_info bios).d.dp_info.level_entry_tables =
      bios.d.dp_info.level_entry_tables := by
  have h : parse_d_dp_info bios bios.d.dp_info =
      { bios.d.dp_info with version := (bios_u8 bios bios.d.dp_info.offset).2 } := by
    unfold dp_info_version_known at hv
    unfold parse_d_dp_info
    simp only [if_neg ho]
    rw [if_neg (by intro h; exact hv (by rcases h with h | h <;> simp [h])),
      if_neg (by intro h; exact hv (by simp [h]))]
  unfold envy_bios_parse_d_dp_info
  rw [h]
  exact ⟨rfl, rfl, rfl, rfl⟩

/-- C6 at a fresh record: a table of version 0x30 leaves `valid` false and the
arrays unallocated. -/
theorem dp_info_unknown_version_witness :
    (envy_bios_parse_d_dp_info (bios_at [0, 0x30, 1, 2, 3, 4, 5, 6, 7, 8] 1)).d.dp_info =
      { dp_info_zero with offset := 1, version := 0x30 } ∧
    (envy_bios_parse_d_dp_info (bios_at [0, 0x30, 1, 2, 3, 4, 5, 6, 7, 8] 1)).d.dp_info.valid =
      false :=
  ⟨by rw [(dp_info_unknown_version (bios_at [0, 0x30, 1, 2, 3, 4, 5, 6, 7, 8] 1)
      (by decide) (by decide)).1]; decide,
    by rw [(dp_info_unknown_version (bios_at [0, 0x30, 1, 2, 3, 4, 5, 6, 7, 8] 1)
      (by decide) (by decide)).2.1]; decide⟩

/-- C7, as claimed, fails: in `bios_short_header` the read of `flags` is out of
range while the four reads of the only level entry (at offset 1) are in range,
and the entry is marked invalid all the same. -/
theorem dp_info_valid_per_record_counterexample :
    ¬ dp_info_valid_per_record bios_short_header
        (envy_bios_parse_d_dp_info bios_short_header).d.dp_info := by
  intro h
  have h1 := h [{ offset := 1, level_entries :=
      [{ offset := 1, post_cursor_2 := 0x40, drive_current := 0, pre_emphasis := 0,
         tx_pu := 0, valid := false }] }] (by decide)
    _ (List.mem_singleton.2 rfl) _ (List.mem_singleton.2 rfl)
  revert h1
  decide

/-- C7, amended: for every DP INFO table of a supported version no read
failure aborts the parse, every level entry is visited, and level entry `j` of
table `k` is valid exactly when the header reads, the reads of all entries of
the earlier tables and the reads of the entries `0..j` of table `k` are all in
range (the error word is shared, so an earlier failure also clears `valid`). -/
theorem dp_info_valid_latch (bios : envy_bios) (ho : bios.d.dp_info.offset ≠ 0)
    (hv : dp_info_version_known (bios_u8 bios bios.d.dp_info.offset).2) :
    dp_info_valid_latched bios (envy_bios_parse_d_dp_info bios).d.dp_info := by
  obtain ⟨es, ts, hr, _, _, tlen, tget⟩ := parse_d_dp_info_spec bios bios.d.dp_info ho hv
  obtain ⟨_, _, _, hoff, hver⟩ := parse_dp_info_header_spec bios bios.d.dp_info
  show dp_info_valid_latched bios (parse_d_dp_info bios bios.d.dp_info)
  rw [hr]
  refine ⟨ts, rfl, tlen, ?_⟩
  intro k hk
  obtain ⟨t, hg, _, hl, hrest⟩ := tget k hk
  refine ⟨t, hg, hl, ?_⟩
  intro j hj
  obtain ⟨le, hg', _, hvl, _⟩ := hrest j hj
  refine ⟨le, hg', ?_⟩
  rw [hvl]
  simp only [hver, hoff, level_entry_offset]

set_option maxRecDepth 100000 in
/-- C7, amended, at the image of scenario S5, where every read is in range and
the last level entry of the last table is valid. -/
theorem dp_info_valid_latch_witness :
    (bios_s5.d.dp_info.offset ≠ 0 ∧
      dp_info_version_known (bios_u8 bios_s5 bios_s5.d.dp_info.offset).2 ∧
      ((envy_bios_parse_d_dp_info bios_s5).d.dp_info.level_entry_tables.map
          (fun ts => ts.getLast?.map (fun t => t.level_entries.getLast?))) =
        some (some (some
          { offset := 0x125, post_cursor_2 := 0, drive_current := 16, pre_emphasis := 17,
            tx_pu := 18, valid := true }))) ∧
    dp_info_valid_latched bios_s5 (envy_bios_parse_d_dp_info bios_s5).d.dp_info :=
  ⟨by decide, dp_info_valid_latch bios_s5 (by decide) (by decide)⟩

/-! ## The index walk -/

theorem parse_at_slot0_skipped (bios : envy_bios) (bit : envy_bios_bit_entry)
    (h : bit.t_len < 2) :
    parse_at (set_bit bios bit) 0 = (neg32 ENOENT, set_bit bios bit) := by
  have : 0 + 2 > bit.t_len := by omega
  simp [parse_at, set_bit, d_known_tables_offset, this]

theorem parse_at_slot0_read (bios : envy_bios) (bit : envy_bios_bit_entry)
    (h : 2 ≤ bit.t_len) :
    parse_at (set_bit bios bit) 0 =
      ((bios_u16 bios bit.t_offset).1,
        set_dp_info_offset (set_bit bios bit) (bios_u16 bios bit.t_offset).2) := by
  have : ¬ (0 + 2 > bit.t_len) := by omega
  simp [parse_at, set_bit, d_known_tables_offset, this, set_dp_info_offset, bios_u16,
    envy_bios.length, envy_bios.byte]

theorem parse_at_slot1 (bios : envy_bios) (idx : Nat) (h : 1 ≤ idx) :
    parse_at bios idx = (neg32 ENOENT, bios) := by
  unfold parse_at
  cases bios.d.bit with
  | none => rfl
  | some bit =>
    have : idx ≥ d_known_tables_offset.length := h
    simp [this]

theorem parse_at_loop_spec (fuel : Nat) (bios : envy_bios) (bit : envy_bios_bit_entry) :
    (bit.t_len < 2 →
      parse_at_loop (fuel + 1) (set_bit bios bit) 0 = some (set_bit bios bit, 0)) ∧
    (2 ≤ bit.t_len → bit.t_offset + 1 < bios.length →
      parse_at_loop (fuel + 2) (set_bit bios bit) 0 =
        some (set_dp_info_offset (set_bit bios bit)
          (bios.byte bit.t_offset + 256 * bios.byte (bit.t_offset + 1)), 1)) ∧
    (2 ≤ bit.t_len → ¬ bit.t_offset + 1 < bios.length →
      parse_at_loop (fuel + 1) (set_bit bios bit) 0 =
        some (set_dp_info_offset (set_bit bios bit) (bios_u16 bios bit.t_offset).2, 0)) := by
  refine ⟨?_, ?_, ?_⟩
  · intro h
    simp [parse_at_loop, parse_at_slot0_skipped bios bit h, neg32, ENOENT]
  · intro h hr
    have hs := (bios_u16_status bios bit.t_offset).2.2 hr
    simp only [parse_at_loop, parse_at_slot0_read bios bit h, hs, if_true,
      parse_at_slot1 _ (0 + 1) (le_refl 1), bios_u16_value bios _ hr]
    simp [neg32, ENOENT]
  · intro h hr
    have hs : (bios_u16 bios bit.t_offset).1 ≠ 0 := fun h0 =>
      hr ((bios_u16_status bios bit.t_offset).2.1 h0)
    simp only [parse_at_loop, parse_at_slot0_read bios bit h, hs, if_false]

/-- C8, as claimed, fails: the index of `bios_index_at_4` has
`t_offset + 0*2 + 2 > t_len`, so that the claim lets the walk stop at slot 0
without a read, while the code reads slot 0 (its test is `0 + 2 > t_len`),
stores 0x1234 and stops at slot 1, whatever the fuel. -/
theorem d_index_walk_counterexample :
    ¬ ∃ fuel, d_index_walk_spec fuel bios_index_at_4 bit_index_at_4 := by
  rintro ⟨fuel, b, s, h1, h2, _⟩
  have hs : s = 0 := by rw [h2]; decide
  subst hs
  match fuel, h1 with
  | 0, h1 => simp [parse_at_loop] at h1
  | 1, h1 =>
    have hn : parse_at_loop 1 (set_bit bios_index_at_4 bit_index_at_4) 0 = none := by decide
    rw [hn] at h1
    exact Option.noConfusion h1
  | fuel + 2, h1 =>
    rw [(parse_at_loop_spec fuel bios_index_at_4 bit_index_at_4).2.1 (by decide) (by decide)] at h1
    have := congrArg (fun r => r.map Prod.snd) h1
    simp at this

/-- C8, amended: the index walk of `envy_bios_parse_bit_d` stops at slot 0
without reading it when `0*2 + 2 > t_len` (the slot's offset inside the index
is tested against the length of the index; `t_offset` is not part of the
test); otherwise it reads the little-endian u16 at `t_offset` into
`dp_info.offset` and stops at slot 1, which exceeds the known table and is
never read; a slot 0 whose read is out of the image's range ends the walk at
slot 0. Two rounds of fuel are enough. -/
theorem d_index_walk (fuel : Nat) (bios : envy_bios) (bit : envy_bios_bit_entry)
    (hf : 2 ≤ fuel) :
    (bit.t_len < 2 →
      parse_at_loop fuel (set_bit bios bit) 0 = some (set_bit bios bit, 0)) ∧
    (2 ≤ bit.t_len → bit.t_offset + 1 < bios.length →
      parse_at_loop fuel (set_bit bios bit) 0 =
        some (set_dp_info_offset (set_bit bios bit)
          (bios.byte bit.t_offset + 256 * bios.byte (bit.t_offset + 1)), 1)) ∧
    (2 ≤ bit.t_len → ¬ bit.t_offset + 1 < bios.length →
      parse_at_loop fuel (set_bit bios bit) 0 =
        some (set_dp_info_offset (set_bit bios bit) (bios_u16 bios bit.t_offset).2, 0)) := by
  obtain ⟨n, rfl⟩ : ∃ n, fuel = n + 2 := ⟨fuel - 2, by omega⟩
  exact ⟨(parse_at_loop_spec (n + 1) bios bit).1, (parse_at_loop_spec n bios bit).2.1,
    (parse_at_loop_spec (n + 1) bios bit).2.2⟩

/-- C8, amended, at `bios_index_at_4`: slot 0 is read and the walk stops at
slot 1. -/
theorem d_index_walk_witness :
    2 ≤ 2 ∧ parse_at_loop 2 (set_bit bios_index_at_4 bit_index_at_4) 0 =
      some (set_dp_info_offset (set_bit bios_index_at_4 bit_index_at_4) 0x1234, 1) :=
  ⟨le_refl 2, (d_index_walk 2 bios_index_at_4 bit_index_at_4 (le_refl 2)).2.1
    (by decide) (by decide)⟩

/-! ## The error latch -/

/-- C30: for every image and every DP INFO table of a supported version at a
non-zero offset, the error word is a latch shared by the header and all level
entries. Every level entry is decoded, and in table-major, entry-minor order:
once a level entry is invalid, every later one is; a failed read of the header
invalidates every level entry; a failed read of level entry `j` of table `k`
invalidates that entry and every later one; and when `dp_info.valid` is false
every level entry is invalid. -/
theorem dp_info_error_latch (bios : envy_bios) (ho : bios.d.dp_info.offset ≠ 0)
    (hv : dp_info_version_known (bios_u8 bios bios.d.dp_info.offset).2) :
    (∀ k j, k < (envy_bios_parse_d_dp_info bios).d.dp_info.levelentrytables_count →
      j < (envy_bios_parse_d_dp_info bios).d.dp_info.levelentry_count →
      ∃ le, dp_info_level_entry_at (envy_bios_parse_d_dp_info bios).d.dp_info k j = some le) ∧
    (∀ k j k' j' le le',
      dp_info_level_entry_at (envy_bios_parse_d_dp_info bios).d.dp_info k j = some le →
      dp_info_level_entry_at (envy_bios_parse_d_dp_info bios).d.dp_info k' j' = some le' →
      decoded_before k j k' j' → le.valid = false → le'.valid = false) ∧
    (¬ header_in_range bios (envy_bios_parse_d_dp_info bios).d.dp_info.version
        (envy_bios_parse_d_dp_info bios).d.dp_info.offset →
      ∀ k j le,
        dp_info_level_entry_at (envy_bios_parse_d_dp_info bios).d.dp_info k j = some le →
        le.valid = false) ∧
    (∀ k j k' j' le',
      k < (envy_bios_parse_d_dp_info bios).d.dp_info.levelentrytables_count →
      j < (envy_bios_parse_d_dp_info bios).d.dp_info.levelentry_count →
      ¬ level_entry_in_range bios (envy_bios_parse_d_dp_info bios).d.dp_info.version
        (level_entry_offset (envy_bios_parse_d_dp_info bios).d.dp_info k j) →
      dp_info_level_entry_at (envy_bios_parse_d_dp_info bios).d.dp_info k' j' = some le' →
      decoded_before k j k' j' → le'.valid = false) ∧
    ((envy_bios_parse_d_dp_info bios).d.dp_info.valid = false →
      ∀ k j le,
        dp_info_level_entry_at (envy_bios_parse_d_dp_info bios).d.dp_info k j = some le →
        le.valid = false) := by
  obtain ⟨es, ts, hr, _, _, tlen, tget⟩ := parse_d_dp_info_spec bios bios.d.dp_info ho hv
  obtain ⟨_, hz, hvalid, hoff, hver⟩ := parse_dp_info_header_spec bios bios.d.dp_info
  have hrr : (envy_bios_parse_d_dp_info bios).d.dp_info =
      { (parse_dp_info_header bios bios.d.dp_info).1 with
        entries := some es, level_entry_tables := some ts } := hr
  rw [hrr]
  generalize parse_dp_info_header bios bios.d.dp_info = H at *
  obtain ⟨H, e⟩ := H
  simp only at hz hvalid hoff hver tlen tget ⊢
  have hat : ∀ k j le,
      dp_info_level_entry_at { H with entries := some es, level_entry_tables := some ts } k j =
        some le →
      k < H.levelentrytables_count ∧ j < H.levelentry_count ∧
      (le.valid = true ↔
        header_in_range bios (bios_u8 bios bios.d.dp_info.offset).2 bios.d.dp_info.offset ∧
        (∀ k', k' < k → ∀ j', j' < H.levelentry_count →
          level_entry_in_range bios (bios_u8 bios bios.d.dp_info.offset).2
            (level_entry_offset H k' j')) ∧
        ∀ j', j' ≤ j →
          level_entry_in_range bios (bios_u8 bios bios.d.dp_info.offset).2
            (level_entry_offset H k j')) := by
    intro k j le h
    unfold dp_info_level_entry_at at h
    simp only [Option.bind] at h
    cases hk : ts[k]? with
    | none => rw [hk] at h; exact absurd h (by simp)
    | some t =>
      rw [hk] at h
      simp only at h
      have hk' : k < H.levelentrytables_count := by
        rw [← tlen]; exact (List.getElem?_eq_some.1 hk).1
      obtain ⟨t0, hg, _, hl, hrest⟩ := tget k hk'
      rw [hk] at hg
      injection hg with hg
      subst hg
      have hj' : j < H.levelentry_count := by
        rw [← hl]; exact (List.getElem?_eq_some.1 h).1
      obtain ⟨le0, hg', _, hvl, _⟩ := hrest j hj'
      rw [h] at hg'
      injection hg' with hg'
      subst hg'
      exact ⟨hk', hj', hvl⟩
  have hhead : ¬ header_in_range bios (bios_u8 bios bios.d.dp_info.offset).2
      bios.d.dp_info.offset →
      ∀ k j le,
        dp_info_level_entry_at { H with entries := some es, level_entry_tables := some ts } k j =
          some le → le.valid = false := by
    intro hh k j le h
    cases hvl : le.valid with
    | false => rfl
    | true => exact absurd (((hat k j le h).2.2).1 hvl).1 hh
  refine ⟨?_, ?_, ?_, ?_, ?_⟩
  · intro k j hk hj
    obtain ⟨t, hg, _, _, hrest⟩ := tget k hk
    obtain ⟨le, hg', _⟩ := hrest j hj
    exact ⟨le, by simp [dp_info_level_entry_at, hg, hg']⟩
  · intro k j k' j' le le' h h' hord hinv
    cases hvl : le'.valid with
    | false => rfl
    | true =>
      obtain ⟨_, hjc, h1⟩ := hat k j le h
      obtain ⟨_, _, h2⟩ := hat k' j' le' h'
      obtain ⟨hh, hprev, hcur⟩ := h2.1 hvl
      have : le.valid = true := by
        refine h1.2 ⟨hh, ?_, ?_⟩
        · intro k0 hk0 j0 hj0
          rcases hord with hlt | ⟨heq, hle⟩
          · exact hprev k0 (by omega) j0 hj0
          · exact hprev k0 (by omega) j0 hj0
        · intro j0 hj0
          rcases hord with hlt | ⟨heq, hle⟩
          · exact hprev k hlt j0 (by omega)
          · subst heq; exact hcur j0 (by omega)
      rw [this] at hinv
      exact absurd hinv (by decide)
  · rw [hver, hoff]
    exact hhead
  · intro k j k' j' le' hk hj hbad h' hord
    rw [hver] at hbad
    cases hvl : le'.valid with
    | false => rfl
    | true =>
      obtain ⟨_, _, h2⟩ := hat k' j' le' h'
      obtain ⟨_, hprev, hcur⟩ := h2.1 hvl
      rcases hord with hlt | ⟨heq, hle⟩
      · exact absurd (hprev k hlt j hj) hbad
      · subst heq; exact absurd (hcur j hle) hbad
  · intro hinv
    refine hhead ?_
    intro hh
    rw [hvalid, decide_eq_false_iff_not] at hinv
    exact hinv (hz.2 hh)

set_option maxRecDepth 100000 in
/-- C30 at `bios_short_header`: the read of `flags` in the header fails, so
`dp_info.valid` is false, and the only level entry, whose own four reads are
in range, is invalid. -/
theorem dp_info_error_latch_witness :
    (envy_bios_parse_d_dp_info bios_short_header).d.dp_info.valid = false ∧
    level_entry_in_range bios_short_header 0x40 1 ∧
    (dp_info_level_entry_at (envy_bios_parse_d_dp_info bios_short_header).d.dp_info 0 0).map
      (fun le => (le.offset, le.valid)) = some (1, false) := by
  obtain ⟨h1, _, _, _, h5⟩ := dp_info_error_latch bios_short_header (by decide) (by decide)
  obtain ⟨le, hle⟩ := h1 0 0 (by decide) (by decide)
  have hv := h5 (by decide) 0 0 le hle
  have ho : (dp_info_level_entry_at (envy_bios_parse_d_dp_info bios_short_header).d.dp_info
      0 0).map (fun le => le.offset) = some 1 := by decide
  rw [hle] at ho ⊢
  injection ho with ho
  simp only [Option.map_some'] at ho ⊢
  rw [ho, hv]
  exact ⟨by decide, by decide, rfl⟩

end Nvbios

namespace Rnn

/-! ## Outcomes -/

theorem Res.bind_eq_ok {α β : Type} {x : Res α} {f : α → Res β} {b : β} :
    x.bind f = .ok b ↔ ∃ a, x = .ok a ∧ f a = .ok b := by
  cases x <;> simp [Res.bind]

/-! ## The mask of a bitfield -/

theorem bitfield_mask_value (low high : Nat) (hlh : low ≤ high) (hh : high ≤ 63) :
    bitfield_mask low high = .ok (2 ^ (high + 1) - 2 ^ low) := by
  have hl : low < 64 := by omega
  have h1 : 2 ^ low ≤ 2 ^ (high + 1) := Nat.pow_le_pow_right (by decide) (by omega)
  have h2 : 2 ^ (high + 1) ≤ 2 ^ 64 := Nat.pow_le_pow_right (by decide) (by omega)
  have h3 : 2 ^ low < 2 ^ 64 := Nat.pow_lt_pow_right (by decide) hl
  have h4 : 0 < 2 ^ low := Nat.two_pow_pos low
  unfold bitfield_mask shl64
  by_cases h63 : high = 63
  · subst h63
    simp only [if_true, hl, Res.bind, Nat.mod_eq_of_lt h3]
    rw [Nat.mod_eq_of_lt (by omega)]
  · have hh1 : high + 1 < 64 := by omega
    have h5 : 2 ^ (high + 1) < 2 ^ 64 := Nat.pow_lt_pow_right (by decide) hh1
    simp only [if_neg h63, hl, hh1, if_true, Res.bind, Nat.mod_eq_of_lt h3,
      Nat.mod_eq_of_lt h5]
    congr 1
    have : 2 ^ (high + 1) + 2 ^ 64 - 2 ^ low = 2 ^ 64 + (2 ^ (high + 1) - 2 ^ low) := by omega
    rw [this, Nat.add_mod_left, Nat.mod_eq_of_lt (by omega)]

theorem prepbitfield_live (fuel : Nat) (db : rnndb) (bf : rnnbitfield) (pfx : Option String)
    (parvi : rnnvarinfo) (r : rnndb × rnnbitfield)
    (hr : prepbitfield fuel db bf pfx parvi = .ok r) (hlive : r.2.varinfo.dead = false) :
    bitfield_mask bf.low bf.high = .ok r.2.mask ∧ r.2.low = bf.low ∧ r.2.high = bf.high ∧
      r.2.name = bf.name := by
  cases fuel with
  | zero => simp [prepbitfield] at hr
  | succ fuel =>
    rw [prepbitfield] at hr
    obtain ⟨r1, _, hr⟩ := Res.bind_eq_ok.1 hr
    by_cases hd : r1.2.dead = true
    · rw [if_pos hd] at hr
      injection hr with hr
      subst hr
      simp [hd] at hlive
    · rw [if_neg hd] at hr
      obtain ⟨mask, hm, hr⟩ := Res.bind_eq_ok.1 hr
      obtain ⟨rt, _, hr⟩ := Res.bind_eq_ok.1 hr
      injection hr with hr
      subst hr
      exact ⟨hm, rfl, rfl, rfl⟩

/-- C1: for every bitfield with `0 ≤ low ≤ high ≤ 63` that `prepbitfield`
prepares and finds live, the 64-bit mask is `(1 << (high+1)) - (1 << low)`
when `high < 63` and `-(1 << low)` modulo `2^64` when `high = 63`. -/
theorem prepbitfield_mask (fuel : Nat) (db : rnndb) (bf : rnnbitfield) (pfx : Option String)
    (parvi : rnnvarinfo) (r : rnndb × rnnbitfield)
    (hlh : bf.low ≤ bf.high) (hh : bf.high ≤ 63)
    (hr : prepbitfield fuel db bf pfx parvi = .ok r) (hlive : r.2.varinfo.dead = false) :
    (bf.high < 63 → r.2.mask = 2 ^ (bf.high + 1) - 2 ^ bf.low) ∧
    (bf.high = 63 → r.2.mask = (2 ^ 64 - 2 ^ bf.low) % 2 ^ 64) ∧
    r.2.mask < 2 ^ 64 := by
  have hm := (prepbitfield_live fuel db bf pfx parvi r hr hlive).1
  rw [bitfield_mask_value bf.low bf.high hlh hh] at hm
  injection hm with hm
  have h2 : 2 ^ (bf.high + 1) ≤ 2 ^ 64 := Nat.pow_le_pow_right (by decide) (by omega)
  have h4 : 0 < 2 ^ bf.low := Nat.two_pow_pos bf.low
  refine ⟨fun _ => hm.symm, ?_, by omega⟩
  intro h63
  rw [← hm, h63, Nat.mod_eq_of_lt (by omega)]

/-- C1 at the bitfields of the scenarios S3 and S4: `low=4, high=7` gives 0xF0,
`low=60, high=63` gives 0xF000000000000000 and `low=0, high=63` gives
0xFFFFFFFFFFFFFFFF. -/
theorem prepbitfield_mask_witness :
    (∃ r, prepbitfield 2 rnn_newdb (plain_bitfield "F" 4 7) (some "B") rnnvarinfo_zero = .ok r ∧
      r.2.varinfo.dead = false ∧ r.2.mask = 0xF0) ∧
    (∃ r, prepbitfield 2 rnn_newdb (plain_bitfield "G" 60 63) none rnnvarinfo_zero = .ok r ∧
      r.2.varinfo.dead = false ∧ r.2.mask = 0xF000000000000000) ∧
    (∃ r, prepbitfield 2 rnn_newdb (plain_bitfield "G" 0 63) none rnnvarinfo_zero = .ok r ∧
      r.2.varinfo.dead = false ∧ r.2.mask = 0xFFFFFFFFFFFFFFFF) :=
  ⟨⟨_, rfl, rfl,
      (prepbitfield_mask 2 rnn_newdb (plain_bitfield "F" 4 7) (some "B") rnnvarinfo_zero _
        (by decide) (by decide) rfl rfl).1 (by decide)⟩,
    ⟨_, rfl, rfl,
      (prepbitfield_mask 2 rnn_newdb (plain_bitfield "G" 60 63) none rnnvarinfo_zero _
        (by decide) (by decide) rfl rfl).2.1 rfl⟩,
    ⟨_, rfl, rfl,
      (prepbitfield_mask 2 rnn_newdb (plain_bitfield "G" 0 63) none rnnvarinfo_zero _
        (by decide) (by decide) rfl rfl).2.1 rfl⟩⟩

theorem testBit_two_pow_sub_two_pow (low high i : Nat) (hlh : low ≤ high) :
    (2 ^ (high + 1) - 2 ^ low).testBit i = decide (low ≤ i ∧ i ≤ high) := by
  have hfac : 2 ^ (high + 1) - 2 ^ low = 2 ^ low * (2 ^ (high + 1 - low) - 1) := by
    rw [Nat.mul_sub, ← Nat.pow_add, Nat.mul_one]
    congr 2
    omega
  rw [hfac, Nat.testBit_mul_pow_two, Nat.testBit_two_pow_sub_one]
  by_cases h1 : low ≤ i
  · by_cases h2 : i ≤ high
    · have : i - low < high + 1 - low := by omega
      simp [h1, h2, this]
    · have : ¬ i - low < high + 1 - low := by omega
      simp [h1, h2, this]
  · simp [h1]

theorem count_range_interval (low high : Nat) :
    ∀ n, ((List.range n).filter (fun i => decide (low ≤ i ∧ i ≤ high))).length =
      min n (high + 1) - min n low := by
  intro n
  induction n with
  | zero => simp
  | succ n ih =>
    rw [List.range_succ, List.filter_append, List.length_append, ih]
    by_cases h : low ≤ n ∧ n ≤ high
    · simp only [List.filter_cons, h, and_self, decide_True, if_true, List.filter_nil,
        List.length_singleton]
      omega
    · simp only [List.filter_cons, h, decide_False, List.filter_nil, List.length_nil]
      simp only [Bool.false_eq_true, if_false, List.length_nil]
      omega

/-- C2: for every prepared (live) bitfield with `0 ≤ low ≤ high ≤ 63`, bit `i`
of the mask is set exactly when `low ≤ i ≤ high`, and the mask has
`high - low + 1` bits set. -/
theorem prepbitfield_mask_bits (fuel : Nat) (db : rnndb) (bf : rnnbitfield)
    (pfx : Option String) (parvi : rnnvarinfo) (r : rnndb × rnnbitfield)
    (hlh : bf.low ≤ bf.high) (hh : bf.high ≤ 63)
    (hr : prepbitfield fuel db bf pfx parvi = .ok r) (hlive : r.2.varinfo.dead = false) :
    (∀ i, r.2.mask.testBit i = decide (bf.low ≤ i ∧ i ≤ bf.high)) ∧
    popcount64 r.2.mask = bf.high - bf.low + 1 := by
  have hm := (prepbitfield_live fuel db bf pfx parvi r hr hlive).1
  rw [bitfield_mask_value bf.low bf.high hlh hh] at hm
  injection hm with hm
  have hbits : ∀ i, r.2.mask.testBit i = decide (bf.low ≤ i ∧ i ≤ bf.high) := by
    intro i
    rw [← hm]
    exact testBit_two_pow_sub_two_pow bf.low bf.high i hlh
  refine ⟨hbits, ?_⟩
  unfold popcount64
  simp only [hbits]
  rw [count_range_interval]
  omega

/-- C2 at the bitfield of scenario S3 (`low=4, high=7`): the bits 4 to 7 and
no others are set, four in all. -/
theorem prepbitfield_mask_bits_witness :
    ∃ r, prepbitfield 2 rnn_newdb (plain_bitfield "F" 4 7) (some "B") rnnvarinfo_zero = .ok r ∧
      r.2.varinfo.dead = false ∧
      (∀ i, r.2.mask.testBit i = decide (4 ≤ i ∧ i ≤ 7)) ∧ popcount64 r.2.mask = 4 :=
  ⟨_, rfl, rfl,
    prepbitfield_mask_bits 2 rnn_newdb (plain_bitfield "F" 4 7) (some "B") rnnvarinfo_zero _
      (by decide) (by decide) rfl rfl⟩

/-! ## Lists that only grow -/

theorem modify_at_length {α : Type} (f : α → α) :
    ∀ (l : List α) (i : Nat), (modify_at f l i).length = l.length := by
  intro l
  induction l with
  | nil => intro i; rfl
  | cons x xs ih =>
    intro i
    cases i with
    | zero => rfl
    | succ i => simp [modify_at, ih]

theorem modify_at_getElem? {α : Type} (f : α → α) :
    ∀ (l : List α) (i k : Nat),
      (modify_at f l i)[k]? = if k = i then l[k]?.map f else l[k]? := by
  intro l
  induction l with
  | nil => intro i k; simp [modify_at]
  | cons x xs ih =>
    intro i k
    cases i with
    | zero =>
      cases k with
      | zero => simp [modify_at]
      | succ k => simp [modify_at]
    | succ i =>
      cases k with
      | zero => simp [modify_at]
      | succ k => simp [modify_at, ih]

theorem find_named_none {α : Type} (nm : α → String) (name : String) :
    ∀ (l : List α) (k : Nat), find_named nm name l k = none → ∀ e, e ∈ l → nm e ≠ name := by
  intro l
  induction l with
  | nil => intro k _ e he; simp at he
  | cons x xs ih =>
    intro k h e he
    unfold find_named at h
    by_cases hx : nm x = name
    · simp [hx] at h
    · simp only [hx, if_false] at h
      rcases List.mem_cons.1 he with rfl | he
      · exact hx
      · exact ih (k + 1) h e he

theorem find_named_some {α : Type} (nm : α → String) (name : String) :
    ∀ (l : List α) (k i : Nat) (x : α), find_named nm name l k = some (i, x) →
      k ≤ i ∧ l[i - k]? = some x ∧ nm x = name ∧
      ∀ m e, m < i - k → l[m]? = some e → nm e ≠ name := by
  intro l
  induction l with
  | nil => intro k i x h; simp [find_named] at h
  | cons y ys ih =>
    intro k i x h
    unfold find_named at h
    by_cases hy : nm y = name
    · simp only [hy, if_true, Option.some.injEq, Prod.mk.injEq] at h
      obtain ⟨rfl, rfl⟩ := h
      refine ⟨le_refl _, by simp, hy, ?_⟩
      intro m e hm
      omega
    · simp only [hy, if_false] at h
      obtain ⟨hk, hget, hnm, hbefore⟩ := ih (k + 1) i x h
      have hik : i - k = (i - (k + 1)) + 1 := by omega
      refine ⟨by omega, ?_, hnm, ?_⟩
      · rw [hik, List.getElem?_cons_succ]; exact hget
      · intro m e hm hme
        cases m with
        | zero =>
          simp at hme
          subst hme
          exact hy
        | succ m =>
          rw [List.getElem?_cons_succ] at hme
          exact hbefore m e (by omega) hme

theorem list_ext_refl {α : Type} {le : α → α → Prop} {nm : α → String}
    (hrefl : ∀ e, le e e) (l : List α) : list_ext le nm l l := by
  refine ⟨fun i e h => ⟨e, h, hrefl e⟩, ?_⟩
  intro j e' hj h
  rw [List.getElem?_eq_none hj] at h
  exact Option.noConfusion h

theorem list_ext_length {α : Type} {le : α → α → Prop} {nm : α → String} {l l' : List α}
    (h : list_ext le nm l l') : l.length ≤ l'.length := by
  by_contra hlt
  have hlt : l'.length < l.length := by omega
  obtain ⟨e', he', _⟩ := h.1 l'.length (l[l'.length]) (List.getElem?_eq_getElem hlt)
  rw [List.getElem?_eq_none (le_refl _)] at he'
  exact Option.noConfusion he'

theorem list_ext_trans {α : Type} {le : α → α → Prop} {nm : α → String}
    (htr : ∀ a b c, le a b → le b c → le a c) (hnm : ∀ a b, le a b → nm b = nm a)
    {l l' l'' : List α} (h1 : list_ext le nm l l') (h2 : list_ext le nm l' l'') :
    list_ext le nm l l'' := by
  refine ⟨?_, ?_⟩
  · intro i e he
    obtain ⟨e', he', hle⟩ := h1.1 i e he
    obtain ⟨e'', he'', hle'⟩ := h2.1 i e' he'
    exact ⟨e'', he'', htr _ _ _ hle hle'⟩
  · intro j e'' hj he'' e he
    by_cases hj' : j < l'.length
    · obtain ⟨e1, he1, hle1⟩ := h2.1 j (l'[j]) (List.getElem?_eq_getElem hj')
      rw [he''] at he1
      injection he1 with he1
      subst he1
      rw [hnm _ _ hle1]
      exact h1.2 j (l'[j]) hj (List.getElem?_eq_getElem hj') e he
    · obtain ⟨i, hi⟩ := List.mem_iff_getElem?.1 he
      obtain ⟨e', he', hle⟩ := h1.1 i e hi
      have hmem : e' ∈ l' := List.mem_iff_getElem?.2 ⟨i, he'⟩
      rw [← hnm _ _ hle]
      exact h2.2 j e'' (by omega) he'' e' hmem

theorem list_ext_append_fresh {α : Type} {le : α → α → Prop} {nm : α → String}
    (hrefl : ∀ e, le e e) (l : List α) (x : α) (hfresh : ∀ e, e ∈ l → nm e ≠ nm x) :
    list_ext le nm l (l ++ [x]) := by
  refine ⟨?_, ?_⟩
  · intro i e he
    have hi : i < l.length := (List.getElem?_eq_some.1 he).1
    exact ⟨e, by rw [List.getElem?_append_left hi]; exact he, hrefl e⟩
  · intro j e' hj he' e he
    have hj' : j < (l ++ [x]).length := (List.getElem?_eq_some.1 he').1
    simp at hj'
    have : j = l.length := by omega
    subst this
    simp at he'
    subst he'
    exact hfresh e he

theorem list_ext_modify_at {α : Type} {le : α → α → Prop} {nm : α → String}
    (hrefl : ∀ e, le e e) (f : α → α) (hf : ∀ e, le e (f e)) (l : List α) (i : Nat) :
    list_ext le nm l (modify_at f l i) := by
  refine ⟨?_, ?_⟩
  · intro k e he
    rw [modify_at_getElem?]
    by_cases hk : k = i
    · simp only [hk, if_true]
      rw [hk] at he
      exact ⟨f e, by simp [he], hf e⟩
    · simp only [hk, if_false]
      exact ⟨e, he, hrefl e⟩
  · intro j e' hj he'
    have := (List.getElem?_eq_some.1 he').1
    rw [modify_at_length] at this
    omega
/-! ## Steps that only set `estatus` -/

theorem errset_errset (e1 e2 : Bool) (db : rnndb) :
    errset e2 (errset e1 db) = errset (e1 || e2) db := by
  cases e1 <;> cases e2 <;> rfl

theorem errset_false (db : rnndb) : errset false db = db := rfl

theorem errset_true (db : rnndb) : errset true db = set_estatus db := rfl

theorem set_estatus_errset (e : Bool) (db : rnndb) :
    set_estatus (errset e db) = errset true db := by
  cases e <;> rfl

theorem getattrib_chain_uniform :
    ∀ (l : List xmlAttrNode), ∃ err s, ∀ db, getattrib_chain db l = (errset err db, s) := by
  intro l
  induction l with
  | nil => exact ⟨false, "", fun db => rfl⟩
  | cons c rest ih =>
    obtain ⟨err, s, h⟩ := ih
    by_cases hc : c.type ≠ xmlElementType.XML_TEXT_NODE
    · refine ⟨true, s, fun db => ?_⟩
      rw [getattrib_chain, if_pos hc, h, ← errset_true, errset_errset]
      rfl
    · exact ⟨false, c.content, fun db => by rw [getattrib_chain, if_neg hc]; rfl⟩

theorem getattrib_uniform (attr : xmlAttr) :
    ∃ err s, ∀ db, getattrib db attr = (errset err db, s) :=
  getattrib_chain_uniform attr.children

theorem getboolattrib_uniform (attr : xmlAttr) :
    ∃ err b, ∀ db, getboolattrib db attr = (errset err db, b) := by
  obtain ⟨err, s, h⟩ := getattrib_uniform attr
  by_cases h1 : s = "yes" ∨ s = "1"
  · exact ⟨err, true, fun db => by simp only [getboolattrib, h, if_pos h1]⟩
  · by_cases h2 : s = "no" ∨ s = "0"
    · exact ⟨err, false, fun db => by simp only [getboolattrib, h, if_neg h1, if_pos h2]⟩
    · exact ⟨true, false, fun db => by
        simp only [getboolattrib, h, if_neg h1, if_neg h2, set_estatus_errset]⟩

theorem getnumattrib_uniform (attr : xmlAttr) :
    ∃ err n, ∀ db, getnumattrib db attr = (errset err db, n) := by
  obtain ⟨err, s, h⟩ := getattrib_uniform attr
  by_cases hp : (if s.toList.contains 'x' ∨ s.toList.contains 'X' then strtoull s.toList 16
      else strtoull s.toList 10).2 ≠ []
  · exact ⟨true, _, fun db => by
      simp only [getnumattrib, h, if_pos hp, set_estatus_errset]; rfl⟩
  · exact ⟨err, _, fun db => by simp only [getnumattrib, h, if_neg hp]; rfl⟩

theorem trytypeattr_uniform (attr : xmlAttr) (ti : rnntypeinfo) :
    ∃ err ti' r, ∀ db, trytypeattr db attr ti = (errset err db, ti', r) := by
  unfold trytypeattr
  by_cases h1 : attr.name = "shr"
  · obtain ⟨err, n, h⟩ := getnumattrib_uniform attr
    exact ⟨err, _, true, fun db => by simp only [if_pos h1, h]; rfl⟩
  · by_cases h2 : attr.name = "type"
    · obtain ⟨err, s, h⟩ := getattrib_uniform attr
      exact ⟨err, _, true, fun db => by simp only [if_neg h1, if_pos h2, h]; rfl⟩
    · exact ⟨false, ti, false, fun db => by simp only [if_neg h1, if_neg h2]; rfl⟩

theorem foldl_uniform {S A : Type} (step : rnndb × S → A → rnndb × S)
    (h : ∀ s a, ∃ err s', ∀ db, step (db, s) a = (errset err db, s')) :
    ∀ (l : List A) (s : S), ∃ err s', ∀ db, l.foldl step (db, s) = (errset err db, s') := by
  intro l
  induction l with
  | nil => intro s; exact ⟨false, s, fun db => rfl⟩
  | cons a rest ih =>
    intro s
    obtain ⟨e1, s1, h1⟩ := h s a
    obtain ⟨e2, s2, h2⟩ := ih s1
    exact ⟨e1 || e2, s2, fun db => by rw [List.foldl_cons, h1, h2, errset_errset]⟩

theorem parsevalue_attr_uniform (val : rnnvalue_tmp) (attr : xmlAttr) :
    ∃ err val', ∀ db, parsevalue_attr (db, val) attr = (errset err db, val') := by
  unfold parsevalue_attr
  obtain ⟨e1, s1, h1⟩ := getattrib_uniform attr
  obtain ⟨e2, n2, h2⟩ := getnumattrib_uniform attr
  by_cases c1 : attr.name = "name"
  · exact ⟨e1, _, fun db => by simp only [if_pos c1, h1]; rfl⟩
  by_cases c2 : attr.name = "value"
  · exact ⟨e2, _, fun db => by simp only [if_neg c1, if_pos c2, h2]; rfl⟩
  by_cases c3 : attr.name = "varset"
  · exact ⟨e1, _, fun db => by simp only [if_neg c1, if_neg c2, if_pos c3, h1]; rfl⟩
  by_cases c4 : attr.name = "variants"
  · exact ⟨e1, _, fun db => by simp only [if_neg c1, if_neg c2, if_neg c3, if_pos c4, h1]; rfl⟩
  exact ⟨true, val, fun db => by simp only [if_neg c1, if_neg c2, if_neg c3, if_neg c4]; rfl⟩

theorem parsebitfield_attr_uniform (bf : rnnbitfield_tmp) (attr : xmlAttr) :
    ∃ err bf', ∀ db, parsebitfield_attr (db, bf) attr = (errset err db, bf') := by
  unfold parsebitfield_attr
  obtain ⟨e1, s1, h1⟩ := getattrib_uniform attr
  obtain ⟨e2, n2, h2⟩ := getnumattrib_uniform attr
  obtain ⟨e3, ti3, r3, h3⟩ := trytypeattr_uniform attr bf.typeinfo
  by_cases c1 : attr.name = "name"
  · exact ⟨e1, _, fun db => by simp only [if_pos c1, h1]; rfl⟩
  by_cases c2 : attr.name = "high"
  · exact ⟨e2, _, fun db => by simp only [if_neg c1, if_pos c2, h2]; rfl⟩
  by_cases c3 : attr.name = "low"
  · exact ⟨e2, _, fun db => by simp only [if_neg c1, if_neg c2, if_pos c3, h2]; rfl⟩
  by_cases c4 : attr.name = "varset"
  · exact ⟨e1, _, fun db => by simp only [if_neg c1, if_neg c2, if_neg c3, if_pos c4, h1]; rfl⟩
  by_cases c5 : attr.name = "variants"
  · exact ⟨e1, _, fun db => by
      simp only [if_neg c1, if_neg c2, if_neg c3, if_neg c4, if_pos c5, h1]; rfl⟩
  cases r3 with
  | true =>
    exact ⟨e3, _, fun db => by
      simp only [if_neg c1, if_neg c2, if_neg c3, if_neg c4, if_neg c5, h3, if_true]; rfl⟩
  | false =>
    exact ⟨true, _, fun db => by
      simp only [if_neg c1, if_neg c2, if_neg c3, if_neg c4, if_neg c5, h3,
        Bool.false_eq_true, if_false, set_estatus_errset]; rfl⟩

theorem parseenum_attr_uniform (a : enum_attrs) (attr : xmlAttr) :
    ∃ err a', ∀ db, parseenum_attr (db, a) attr = (errset err db, a') := by
  unfold parseenum_attr
  obtain ⟨e1, s1, h1⟩ := getattrib_uniform attr
  obtain ⟨e2, b2, h2⟩ := getboolattrib_uniform attr
  by_cases c1 : attr.name = "name"
  · exact ⟨e1, _, fun db => by simp only [if_pos c1, h1]; rfl⟩
  by_cases c2 : attr.name = "bare"
  · exact ⟨e2, _, fun db => by simp only [if_neg c1, if_pos c2, h2]; rfl⟩
  by_cases c3 : attr.name = "inline"
  · exact ⟨e2, _, fun db => by simp only [if_neg c1, if_neg c2, if_pos c3, h2]; rfl⟩
  by_cases c4 : attr.name = "prefix"
  · exact ⟨e1, _, fun db => by simp only [if_neg c1, if_neg c2, if_neg c3, if_pos c4, h1]; rfl⟩
  by_cases c5 : attr.name = "varset"
  · exact ⟨e1, _, fun db => by
      simp only [if_neg c1, if_neg c2, if_neg c3, if_neg c4, if_pos c5, h1]; rfl⟩
  by_cases c6 : attr.name = "variants"
  · exact ⟨e1, _, fun db => by
      simp only [if_neg c1, if_neg c2, if_neg c3, if_neg c4, if_neg c5, if_pos c6, h1]; rfl⟩
  exact ⟨true, a, fun db => by
    simp only [if_neg c1, if_neg c2, if_neg c3, if_neg c4, if_neg c5, if_neg c6]; rfl⟩

theorem parsedomain_attr_uniform (a : domain_attrs) (attr : xmlAttr) :
    ∃ err a', ∀ db, parsedomain_attr (db, a) attr = (errset err db, a') := by
  unfold parsedomain_attr
  obtain ⟨e1, s1, h1⟩ := getattrib_uniform attr
  obtain ⟨e2, b2, h2⟩ := getboolattrib_uniform attr
  obtain ⟨e3, n3, h3⟩ := getnumattrib_uniform attr
  by_cases c1 : attr.name = "name"
  · exact ⟨e1, _, fun db => by simp only [if_pos c1, h1]; rfl⟩
  by_cases c2 : attr.name = "bare"
  · exact ⟨e2, _, fun db => by simp only [if_neg c1, if_pos c2, h2]; rfl⟩
  by_cases c3 : attr.name = "size"
  · exact ⟨e3, _, fun db => by simp only [if_neg c1, if_neg c2, if_pos c3, h3]; rfl⟩
  by_cases c4 : attr.name = "width"
  · exact ⟨e3, _, fun db => by simp only [if_neg c1, if_neg c2, if_neg c3, if_pos c4, h3]; rfl⟩
  by_cases c5 : attr.name = "prefix"
  · exact ⟨e1, _, fun db => by
      simp only [if_neg c1, if_neg c2, if_neg c3, if_neg c4, if_pos c5, h1]; rfl⟩
  by_cases c6 : attr.name = "varset"
  · exact ⟨e1, _, fun db => by
      simp only [if_neg c1, if_neg c2, if_neg c3, if_neg c4, if_neg c5, if_pos c6, h1]; rfl⟩
  by_cases c7 : attr.name = "variants"
  · exact ⟨e1, _, fun db => by
      simp only [if_neg c1, if_neg c2, if_neg c3, if_neg c4, if_neg c5, if_neg c6,
        if_pos c7, h1]; rfl⟩
  exact ⟨true, a, fun db => by
    simp only [if_neg c1, if_neg c2, if_neg c3, if_neg c4, if_neg c5, if_neg c6,
      if_neg c7]; rfl⟩

theorem parsegroup_attr_uniform (n : Option String) (attr : xmlAttr) :
    ∃ err n', ∀ db, parsegroup_attr (db, n) attr = (errset err db, n') := by
  unfold parsegroup_attr
  obtain ⟨e1, s1, h1⟩ := getattrib_uniform attr
  by_cases c1 : attr.name = "name"
  · exact ⟨e1, _, fun db => by simp only [if_pos c1, h1]; rfl⟩
  exact ⟨true, n, fun db => by simp only [if_neg c1]; rfl⟩

theorem import_attr_uniform (n : Option String) (attr : xmlAttr) :
    ∃ err n', ∀ db, import_attr (db, n) attr = (errset err db, n') := by
  unfold import_attr
  obtain ⟨e1, s1, h1⟩ := getattrib_uniform attr
  by_cases c1 : attr.name = "file"
  · exact ⟨e1, _, fun db => by simp only [if_pos c1, h1]; rfl⟩
  exact ⟨true, n, fun db => by simp only [if_neg c1]; rfl⟩

theorem usegroup_attr_uniform (res : rnndelem) (attr : xmlAttr) :
    ∃ err res', ∀ db, usegroup_attr (db, res) attr = (errset err db, res') := by
  unfold usegroup_attr
  obtain ⟨e1, s1, h1⟩ := getattrib_uniform attr
  by_cases c1 : attr.name = "name"
  · exact ⟨e1, _, fun db => by simp only [if_pos c1, h1]; rfl⟩
  exact ⟨true, res, fun db => by simp only [if_neg c1]; rfl⟩

theorem stripe_attr_uniform (res : rnndelem) (attr : xmlAttr) :
    ∃ err res', ∀ db, stripe_attr (db, res) attr = (errset err db, res') := by
  unfold stripe_attr
  obtain ⟨e1, s1, h1⟩ := getattrib_uniform attr
  obtain ⟨e3, n3, h3⟩ := getnumattrib_uniform attr
  by_cases c1 : attr.name = "name"
  · exact ⟨e1, _, fun db => by simp only [if_pos c1, h1]; rfl⟩
  by_cases c2 : attr.name = "offset"
  · exact ⟨e3, _, fun db => by simp only [if_neg c1, if_pos c2, h3]; rfl⟩
  by_cases c3 : attr.name = "length"
  · exact ⟨e3, _, fun db => by simp only [if_neg c1, if_neg c2, if_pos c3, h3]; rfl⟩
  by_cases c4 : attr.name = "stride"
  · exact ⟨e3, _, fun db => by simp only [if_neg c1, if_neg c2, if_neg c3, if_pos c4, h3]; rfl⟩
  by_cases c5 : attr.name = "prefix"
  · exact ⟨e1, _, fun db => by
      simp only [if_neg c1, if_neg c2, if_neg c3, if_neg c4, if_pos c5, h1]; rfl⟩
  by_cases c6 : attr.name = "varset"
  · exact ⟨e1, _, fun db => by
      simp only [if_neg c1, if_neg c2, if_neg c3, if_neg c4, if_neg c5, if_pos c6, h1]; rfl⟩
  by_cases c7 : attr.name = "variants"
  · exact ⟨e1, _, fun db => by
      simp only [if_neg c1, if_neg c2, if_neg c3, if_neg c4, if_neg c5, if_neg c6,
        if_pos c7, h1]; rfl⟩
  exact ⟨true, res, fun db => by
    simp only [if_neg c1, if_neg c2, if_neg c3, if_neg c4, if_neg c5, if_neg c6,
      if_neg c7]; rfl⟩

theorem reg_attr_uniform (res : rnndelem) (attr : xmlAttr) :
    ∃ err res', ∀ db, reg_attr (db, res) attr = (errset err db, res') := by
  unfold reg_attr
  obtain ⟨e1, s1, h1⟩ := getattrib_uniform attr
  obtain ⟨e3, n3, h3⟩ := getnumattrib_uniform attr
  obtain ⟨e4, ti4, r4, h4⟩ := trytypeattr_uniform attr res.typeinfo
  by_cases c1 : attr.name = "name"
  · exact ⟨e1, _, fun db => by simp only [if_pos c1, h1]; rfl⟩
  by_cases c2 : attr.name = "offset"
  · exact ⟨e3, _, fun db => by simp only [if_neg c1, if_pos c2, h3]; rfl⟩
  by_cases c3 : attr.name = "length"
  · exact ⟨e3, _, fun db => by simp only [if_neg c1, if_neg c2, if_pos c3, h3]; rfl⟩
  by_cases c4 : attr.name = "stride"
  · exact ⟨e3, _, fun db => by simp only [if_neg c1, if_neg c2, if_neg c3, if_pos c4, h3]; rfl⟩
  by_cases c5 : attr.name = "varset"
  · exact ⟨e1, _, fun db => by
      simp only [if_neg c1, if_neg c2, if_neg c3, if_neg c4, if_pos c5, h1]; rfl⟩
  by_cases c6 : attr.name = "variants"
  · exact ⟨e1, _, fun db => by
      simp only [if_neg c1, if_neg c2, if_neg c3, if_neg c4, if_neg c5, if_pos c6, h1]; rfl⟩
  by_cases c7 : attr.name = "access"
  · by_cases a1 : s1 = "r"
    · exact ⟨e1, _, fun db => by
        simp only [if_neg c1, if_neg c2, if_neg c3, if_neg c4, if_neg c5, if_neg c6,
          if_pos c7, h1, if_pos a1]; rfl⟩
    by_cases a2 : s1 = "w"
    · exact ⟨e1, _, fun db => by
        simp only [if_neg c1, if_neg c2, if_neg c3, if_neg c4, if_neg c5, if_neg c6,
          if_pos c7, h1, if_neg a1, if_pos a2]; rfl⟩
    by_cases a3 : s1 = "rw"
    · exact ⟨e1, _, fun db => by
        simp only [if_neg c1, if_neg c2, if_neg c3, if_neg c4, if_neg c5, if_neg c6,
          if_pos c7, h1, if_neg a1, if_neg a2, if_pos a3]; rfl⟩
    exact ⟨e1, res, fun db => by
      simp only [if_neg c1, if_neg c2, if_neg c3, if_neg c4, if_neg c5, if_neg c6,
        if_pos c7, h1, if_neg a1, if_neg a2, if_neg a3]⟩
  cases r4 with
  | true =>
    exact ⟨e4, _, fun db => by
      simp only [if_neg c1, if_neg c2, if_neg c3, if_neg c4, if_neg c5, if_neg c6,
        if_neg c7, h4, if_true]; rfl⟩
  | false =>
    exact ⟨true, _, fun db => by
      simp only [if_neg c1, if_neg c2, if_neg c3, if_neg c4, if_neg c5, if_neg c6,
        if_neg c7, h4, Bool.false_eq_true, if_false, set_estatus_errset]; rfl⟩
/-! ## The database only grows -/

theorem enum_le_refl (e : rnnenum) : enum_le e e :=
  ⟨rfl, rfl, rfl, rfl, rfl, rfl, List.prefix_refl _⟩

theorem enum_le_trans (a b c : rnnenum) (h1 : enum_le a b) (h2 : enum_le b c) : enum_le a c :=
  ⟨h2.1.trans h1.1, h2.2.1.trans h1.2.1, h2.2.2.1.trans h1.2.2.1,
    h2.2.2.2.1.trans h1.2.2.2.1, h2.2.2.2.2.1.trans h1.2.2.2.2.1,
    h2.2.2.2.2.2.1.trans h1.2.2.2.2.2.1, h1.2.2.2.2.2.2.trans h2.2.2.2.2.2.2⟩

theorem bitset_le_refl (e : rnnbitset) : bitset_le e e :=
  ⟨rfl, rfl, rfl, rfl, rfl, List.prefix_refl _⟩

theorem bitset_le_trans (a b c : rnnbitset) (h1 : bitset_le a b) (h2 : bitset_le b c) :
    bitset_le a c :=
  ⟨h2.1.trans h1.1, h2.2.1.trans h1.2.1, h2.2.2.1.trans h1.2.2.1,
    h2.2.2.2.1.trans h1.2.2.2.1, h2.2.2.2.2.1.trans h1.2.2.2.2.1,
    h1.2.2.2.2.2.trans h2.2.2.2.2.2⟩

theorem group_le_refl (e : rnngroup) : group_le e e := ⟨rfl, List.prefix_refl _⟩

theorem group_le_trans (a b c : rnngroup) (h1 : group_le a b) (h2 : group_le b c) :
    group_le a c :=
  ⟨h2.1.trans h1.1, h1.2.trans h2.2⟩

theorem domain_le_refl (e : rnndomain) : domain_le e e :=
  ⟨rfl, rfl, rfl, rfl, rfl, fun _ => rfl, List.prefix_refl _⟩

theorem domain_le_trans (a b c : rnndomain) (h1 : domain_le a b) (h2 : domain_le b c) :
    domain_le a c := by
  refine ⟨h2.1.trans h1.1, h2.2.1.trans h1.2.1, h2.2.2.1.trans h1.2.2.1,
    h2.2.2.2.1.trans h1.2.2.2.1, h2.2.2.2.2.1.trans h1.2.2.2.2.1, ?_,
    h1.2.2.2.2.2.2.trans h2.2.2.2.2.2.2⟩
  intro ha
  have hb := h1.2.2.2.2.2.1 ha
  rw [h2.2.2.2.2.2.1 (by rw [hb]; exact ha), hb]

theorem db_ext_refl (db : rnndb) : db_ext db db :=
  ⟨list_ext_refl enum_le_refl _, list_ext_refl bitset_le_refl _,
    list_ext_refl group_le_refl _, list_ext_refl domain_le_refl _, List.prefix_refl _,
    Or.inl rfl⟩

theorem db_ext_trans {a b c : rnndb} (h1 : db_ext a b) (h2 : db_ext b c) : db_ext a c := by
  obtain ⟨e1, b1, g1, d1, f1, s1⟩ := h1
  obtain ⟨e2, b2, g2, d2, f2, s2⟩ := h2
  refine ⟨list_ext_trans enum_le_trans (fun _ _ h => h.1) e1 e2,
    list_ext_trans bitset_le_trans (fun _ _ h => h.1) b1 b2,
    list_ext_trans group_le_trans (fun _ _ h => h.1) g1 g2,
    list_ext_trans domain_le_trans (fun _ _ h => h.1) d1 d2, f1.trans f2, ?_⟩
  rcases s2 with s2 | s2
  · rcases s1 with s1 | s1
    · exact Or.inl (s2.trans s1)
    · exact Or.inr (s2.trans s1)
  · exact Or.inr s2

theorem db_ext_set_estatus (db : rnndb) : db_ext db (set_estatus db) :=
  ⟨list_ext_refl enum_le_refl _, list_ext_refl bitset_le_refl _,
    list_ext_refl group_le_refl _, list_ext_refl domain_le_refl _, List.prefix_refl _,
    Or.inr rfl⟩

theorem db_ext_errset (err : Bool) (db : rnndb) : db_ext db (errset err db) := by
  cases err
  · exact db_ext_refl db
  · exact db_ext_set_estatus db

theorem db_ext_wrong_tag (db : rnndb) (r : Bool) (chain : xmlNode) :
    db_ext db (wrong_tag db r chain) := by
  unfold wrong_tag
  split
  · exact db_ext_set_estatus db
  · exact db_ext_refl db

theorem db_ext_enum_addval (db : rnndb) (cur : Nat) (val : rnnvalue) :
    db_ext db (enum_addval db cur val) :=
  ⟨list_ext_modify_at enum_le_refl (fun e => { e with vals := e.vals ++ [val] })
      (fun _ => ⟨rfl, rfl, rfl, rfl, rfl, rfl, List.prefix_append _ _⟩) _ _,
    list_ext_refl bitset_le_refl _, list_ext_refl group_le_refl _,
    list_ext_refl domain_le_refl _, List.prefix_refl _, Or.inl rfl⟩

theorem db_ext_bitset_addbitfield (db : rnndb) (cur : Nat) (bf : rnnbitfield) :
    db_ext db (bitset_addbitfield db cur bf) :=
  ⟨list_ext_refl enum_le_refl _,
    list_ext_modify_at bitset_le_refl (fun b => { b with bitfields := b.bitfields ++ [bf] })
      (fun _ => ⟨rfl, rfl, rfl, rfl, rfl, List.prefix_append _ _⟩) _ _,
    list_ext_refl group_le_refl _, list_ext_refl domain_le_refl _, List.prefix_refl _,
    Or.inl rfl⟩

theorem db_ext_group_addsubelem (db : rnndb) (cur : Nat) (delem : rnndelem) :
    db_ext db (group_addsubelem db cur delem) :=
  ⟨list_ext_refl enum_le_refl _, list_ext_refl bitset_le_refl _,
    list_ext_modify_at group_le_refl (fun g => { g with subelems := g.subelems ++ [delem] })
      (fun _ => ⟨rfl, List.prefix_append _ _⟩) _ _,
    list_ext_refl domain_le_refl _, List.prefix_refl _, Or.inl rfl⟩

theorem db_ext_domain_addsubelem (db : rnndb) (cur : Nat) (delem : rnndelem) :
    db_ext db (domain_addsubelem db cur delem) :=
  ⟨list_ext_refl enum_le_refl _, list_ext_refl bitset_le_refl _,
    list_ext_refl group_le_refl _,
    list_ext_modify_at domain_le_refl (fun d => { d with subelems := d.subelems ++ [delem] })
      (fun _ => ⟨rfl, rfl, rfl, rfl, rfl, fun _ => rfl, List.prefix_append _ _⟩) _ _,
    List.prefix_refl _, Or.inl rfl⟩

theorem db_ext_parseenum_cur (db : rnndb) (name : String) (a : enum_attrs) :
    db_ext db (parseenum_cur db name a).1 := by
  unfold parseenum_cur
  split
  · split
    · exact db_ext_set_estatus db
    · exact db_ext_refl db
  · next h =>
    exact ⟨list_ext_append_fresh enum_le_refl _ _ (find_named_none _ _ _ _ h),
      list_ext_refl bitset_le_refl _, list_ext_refl group_le_refl _,
      list_ext_refl domain_le_refl _, List.prefix_refl _, Or.inl rfl⟩

theorem db_ext_parsebitset_cur (db : rnndb) (name : String) (a : enum_attrs) :
    db_ext db (parsebitset_cur db name a).1 := by
  unfold parsebitset_cur
  split
  · split
    · exact db_ext_set_estatus db
    · exact db_ext_refl db
  · next h =>
    exact ⟨list_ext_refl enum_le_refl _,
      list_ext_append_fresh bitset_le_refl _ _ (find_named_none _ _ _ _ h),
      list_ext_refl group_le_refl _, list_ext_refl domain_le_refl _, List.prefix_refl _,
      Or.inl rfl⟩

theorem db_ext_parsegroup_cur (db : rnndb) (name : String) :
    db_ext db (parsegroup_cur db name).1 := by
  unfold parsegroup_cur
  split
  · exact db_ext_refl db
  · next h =>
    exact ⟨list_ext_refl enum_le_refl _, list_ext_refl bitset_le_refl _,
      list_ext_append_fresh group_le_refl _ _ (find_named_none _ _ _ _ h),
      list_ext_refl domain_le_refl _, List.prefix_refl _, Or.inl rfl⟩

theorem domain_mismatch_size {cur : rnndomain} {a : domain_attrs}
    (h : domain_mismatch cur a = false) (ha : a.size ≠ 0) (hc : cur.size ≠ 0) :
    a.size = cur.size := by
  unfold domain_mismatch at h
  simp only [Bool.or_eq_false_iff, Bool.and_eq_false_iff] at h
  rcases h.2 with (h | h) | h
  · simp at h; exact absurd h ha
  · simp at h; exact absurd h hc
  · simpa using h

theorem db_ext_parsedomain_cur (db : rnndb) (name : String) (a : domain_attrs) :
    db_ext db (parsedomain_cur db name a).1 := by
  unfold parsedomain_cur
  split
  · next i cur hfind =>
    split
    · exact db_ext_set_estatus db
    · next hmis =>
      have hmis : domain_mismatch cur a = false := by simpa using hmis
      split
      · next hsz =>
        have hsz : a.size ≠ 0 := by simpa using hsz
        refine ⟨list_ext_refl enum_le_refl _, list_ext_refl bitset_le_refl _,
          list_ext_refl group_le_refl _, ?_, List.prefix_refl _, Or.inl rfl⟩
        refine ⟨?_, ?_⟩
        · intro k e he
          show ∃ e', (modify_at _ db.domains i)[k]? = some e' ∧ domain_le e e'
          rw [modify_at_getElem?]
          by_cases hk : k = i
          · subst hk
            simp only [if_true, he, Option.map_some']
            have hcur : e = cur := by
              have := (find_named_some _ _ _ _ _ _ hfind).2.1
              simp at this
              rw [he] at this
              exact Option.some.inj this
            subst hcur
            exact ⟨_, rfl, rfl, rfl, rfl, rfl, rfl,
              fun hc => domain_mismatch_size hmis hsz hc, List.prefix_refl _⟩
          · simp only [hk, if_false]
            exact ⟨e, he, domain_le_refl e⟩
        · intro j e' hj he'
          have : j < (modify_at (fun d => { d with size := a.size }) db.domains i).length :=
            (List.getElem?_eq_some.1 he').1
          rw [modify_at_length] at this
          omega
      · exact db_ext_refl db
  · next h =>
    exact ⟨list_ext_refl enum_le_refl _, list_ext_refl bitset_le_refl _,
      list_ext_refl group_le_refl _,
      list_ext_append_fresh domain_le_refl _ _ (find_named_none _ _ _ _ h),
      List.prefix_refl _, Or.inl rfl⟩

theorem foldlM_rel {σ β : Type} (R : σ → σ → Prop) (hrefl : ∀ s, R s s)
    (htrans : ∀ a b c, R a b → R b c → R a c) (f : σ → β → Option σ)
    (hstep : ∀ s x s', f s x = some s' → R s s') :
    ∀ (l : List β) (s s' : σ), l.foldlM f s = some s' → R s s' := by
  intro l
  induction l with
  | nil =>
    intro s s' h
    simp at h
    subst h
    exact hrefl s
  | cons x xs ih =>
    intro s s' h
    rw [List.foldlM_cons] at h
    obtain ⟨s1, h1, h2⟩ := Option.bind_eq_some.1 h
    exact htrans _ _ _ (hstep s x s1 h1) (ih s1 s' h2)

theorem db_ext_top_child (top : rnndb → xmlNode → Option (rnndb × Bool))
    (ihT : ∀ db node r, top db node = some r → db_ext db r.1)
    (db : rnndb) (chain : xmlNode) (s' : rnndb)
    (h : top_child top db chain = some s') : db_ext db s' := by
  unfold top_child at h
  split at h
  · injection h with h; subst h; exact db_ext_refl db
  · split at h
    · exact Option.noConfusion h
    · next db1 r1 h1 =>
      injection h with h; subst h
      exact db_ext_trans (ihT _ _ _ h1) (db_ext_wrong_tag _ _ _)

theorem db_ext_typetag_child
    (typetag : rnndb → xmlNode → rnntypeinfo → Option (rnndb × rnntypeinfo × Bool))
    (top : rnndb → xmlNode → Option (rnndb × Bool))
    (ihTT : ∀ db node ti r, typetag db node ti = some r → db_ext db r.1)
    (ihT : ∀ db node r, top db node = some r → db_ext db r.1)
    (s : rnndb × rnntypeinfo) (chain : xmlNode) (s' : rnndb × rnntypeinfo)
    (h : typetag_child typetag top s chain = some s') : db_ext s.1 s'.1 := by
  unfold typetag_child at h
  split at h
  · injection h with h; subst h; exact db_ext_refl _
  · split at h
    · exact Option.noConfusion h
    · next db1 ti1 h1 =>
      injection h with h; subst h
      exact ihTT _ _ _ _ h1
    · next db1 ti1 h1 =>
      split at h
      · exact Option.noConfusion h
      · next db2 r2 h2 =>
        injection h with h; subst h
        exact db_ext_trans (ihTT _ _ _ _ h1)
          (db_ext_trans (ihT _ _ _ h2) (db_ext_wrong_tag _ _ _))

theorem db_ext_enum_child (value : rnndb → xmlNode → Option (rnndb × Option rnnvalue))
    (top : rnndb → xmlNode → Option (rnndb × Bool)) (cur : Nat)
    (ihV : ∀ db node r, value db node = some r → db_ext db r.1)
    (ihT : ∀ db node r, top db node = some r → db_ext db r.1)
    (db : rnndb) (chain : xmlNode) (s' : rnndb)
    (h : enum_child value top cur db chain = some s') : db_ext db s' := by
  unfold enum_child at h
  split at h
  · injection h with h; subst h; exact db_ext_refl _
  · split at h
    · split at h
      · exact Option.noConfusion h
      · next db1 v1 h1 =>
        injection h with h; subst h
        exact db_ext_trans (ihV _ _ _ h1) (db_ext_enum_addval _ _ _)
      · next db1 h1 =>
        injection h with h; subst h
        exact ihV _ _ _ h1
    · split at h
      · exact Option.noConfusion h
      · next db1 r1 h1 =>
        injection h with h; subst h
        exact db_ext_trans (ihT _ _ _ h1) (db_ext_wrong_tag _ _ _)

theorem db_ext_bitset_child
    (bitfield : rnndb → xmlNode → Option (rnndb × Option rnnbitfield))
    (top : rnndb → xmlNode → Option (rnndb × Bool)) (cur : Nat)
    (ihB : ∀ db node r, bitfield db node = some r → db_ext db r.1)
    (ihT : ∀ db node r, top db node = some r → db_ext db r.1)
    (db : rnndb) (chain : xmlNode) (s' : rnndb)
    (h : bitset_child bitfield top cur db chain = some s') : db_ext db s' := by
  unfold bitset_child at h
  split at h
  · injection h with h; subst h; exact db_ext_refl _
  · split at h
    · split at h
      · exact Option.noConfusion h
      · next db1 v1 h1 =>
        injection h with h; subst h
        exact db_ext_trans (ihB _ _ _ h1) (db_ext_bitset_addbitfield _ _ _)
      · next db1 h1 =>
        injection h with h; subst h
        exact ihB _ _ _ h1
    · split at h
      · exact Option.noConfusion h
      · next db1 r1 h1 =>
        injection h with h; subst h
        exact db_ext_trans (ihT _ _ _ h1) (db_ext_wrong_tag _ _ _)

theorem db_ext_stripe_child (delem : rnndb → xmlNode → Option (rnndb × Option rnndelem))
    (top : rnndb → xmlNode → Option (rnndb × Bool))
    (ihD : ∀ db node r, delem db node = some r → db_ext db r.1)
    (ihT : ∀ db node r, top db node = some r → db_ext db r.1)
    (s : rnndb × rnndelem) (chain : xmlNode) (s' : rnndb × rnndelem)
    (h : stripe_child delem top s chain = some s') : db_ext s.1 s'.1 := by
  unfold stripe_child at h
  split at h
  · injection h with h; subst h; exact db_ext_refl _
  · split at h
    · exact Option.noConfusion h
    · next db1 d1 h1 =>
      injection h with h; subst h
      exact ihD _ _ _ h1
    · next db1 h1 =>
      split at h
      · exact Option.noConfusion h
      · next db2 r2 h2 =>
        injection h with h; subst h
        exact db_ext_trans (ihD _ _ _ h1)
          (db_ext_trans (ihT _ _ _ h2) (db_ext_wrong_tag _ _ _))

theorem db_ext_delem_child (delem : rnndb → xmlNode → Option (rnndb × Option rnndelem))
    (top : rnndb → xmlNode → Option (rnndb × Bool)) (add : rnndb → rnndelem → rnndb)
    (hadd : ∀ db d, db_ext db (add db d))
    (ihD : ∀ db node r, delem db node = some r → db_ext db r.1)
    (ihT : ∀ db node r, top db node = some r → db_ext db r.1)
    (db : rnndb) (chain : xmlNode) (s' : rnndb)
    (h : delem_child delem top add db chain = some s') : db_ext db s' := by
  unfold delem_child at h
  split at h
  · injection h with h; subst h; exact db_ext_refl _
  · split at h
    · exact Option.noConfusion h
    · next db1 d1 h1 =>
      injection h with h; subst h
      exact db_ext_trans (ihD _ _ _ h1) (hadd _ _)
    · next db1 h1 =>
      split at h
      · exact Option.noConfusion h
      · next db2 r2 h2 =>
        injection h with h; subst h
        exact db_ext_trans (ihD _ _ _ h1)
          (db_ext_trans (ihT _ _ _ h2) (db_ext_wrong_tag _ _ _))

theorem db_ext_root_child (top : rnndb → xmlNode → Option (rnndb × Bool))
    (ihT : ∀ db node r, top db node = some r → db_ext db r.1)
    (db : rnndb) (root : xmlNode) (s' : rnndb)
    (h : root_child top db root = some s') : db_ext db s' := by
  unfold root_child at h
  split at h
  · injection h with h; subst h; exact db_ext_refl _
  · split at h
    · injection h with h; subst h; exact db_ext_set_estatus _
    · exact foldlM_rel db_ext db_ext_refl (fun _ _ _ => db_ext_trans) _
        (fun s x s' hs => db_ext_top_child top ihT s x s' hs) _ _ _ h

theorem db_ext_fst_refl (S : Type) (s : rnndb × S) : db_ext s.1 s.1 := db_ext_refl _

theorem db_ext_attrs {S A : Type} (step : rnndb × S → A → rnndb × S)
    (h : ∀ s a, ∃ err s', ∀ db, step (db, s) a = (errset err db, s'))
    (l : List A) (db : rnndb) (s : S) : db_ext db (l.foldl step (db, s)).1 := by
  obtain ⟨err, s', hf⟩ := foldl_uniform step h l s
  rw [hf]
  exact db_ext_errset err db

/-- Every function of the parser leaves a database that extends the one it
was given. -/
theorem parser_db_ext : ∀ fuel : Nat,
    (∀ fs db node ti r, trytypetag fuel fs db node ti = some r → db_ext db r.1) ∧
    (∀ fs db node r, parsevalue fuel fs db node = some r → db_ext db r.1) ∧
    (∀ fs db node r, parsebitfield fuel fs db node = some r → db_ext db r.1) ∧
    (∀ fs db node r, parseenum fuel fs db node = some r → db_ext db r) ∧
    (∀ fs db node r, parsebitset fuel fs db node = some r → db_ext db r) ∧
    (∀ fs db node r, trydelem fuel fs db node = some r → db_ext db r.1) ∧
    (∀ fs db node r, parsegroup fuel fs db node = some r → db_ext db r) ∧
    (∀ fs db node r, parsedomain fuel fs db node = some r → db_ext db r) ∧
    (∀ fs db node r, trytop fuel fs db node = some r → db_ext db r.1) ∧
    (∀ fs db file r, rnn_parsefile fuel fs db file = some r → db_ext db r) := by
  intro fuel
  induction fuel with
  | zero =>
    refine ⟨?_, ?_, ?_, ?_, ?_, ?_, ?_, ?_, ?_, ?_⟩
    · intro fs db node ti r h; simp [trytypetag] at h
    · intro fs db node r h; simp [parsevalue] at h
    · intro fs db node r h; simp [parsebitfield] at h
    · intro fs db node r h; simp [parseenum] at h
    · intro fs db node r h; simp [parsebitset] at h
    · intro fs db node r h; simp [trydelem] at h
    · intro fs db node r h; simp [parsegroup] at h
    · intro fs db node r h; simp [parsedomain] at h
    · intro fs db node r h; simp [trytop] at h
    · intro fs db node r h; simp [rnn_parsefile] at h
  | succ fuel ih =>
    obtain ⟨ihTT, ihV, ihB, ihE, ihBS, ihD, ihG, ihDom, ihT, ihF⟩ := ih
    refine ⟨?_, ?_, ?_, ?_, ?_, ?_, ?_, ?_, ?_, ?_⟩
    · -- trytypetag
      intro fs db node ti r h
      rw [trytypetag] at h
      split at h
      · split at h
        · exact Option.noConfusion h
        · next db1 v1 h1 => injection h with h; subst h; exact ihV _ _ _ _ h1
        · next db1 h1 => injection h with h; subst h; exact ihV _ _ _ _ h1
      · split at h
        · split at h
          · exact Option.noConfusion h
          · next db1 v1 h1 => injection h with h; subst h; exact ihB _ _ _ _ h1
          · next db1 h1 => injection h with h; subst h; exact ihB _ _ _ _ h1
        · injection h with h; subst h; exact db_ext_refl db
    · -- parsevalue
      intro fs db node r h
      rw [parsevalue] at h
      have hattr := db_ext_attrs parsevalue_attr parsevalue_attr_uniform node.properties db
        rnnvalue_tmp_zero
      split at h
      · exact Option.noConfusion h
      · next db1 h1 =>
        have hloop := foldlM_rel db_ext db_ext_refl (fun _ _ _ => db_ext_trans) _
          (fun s x s' hs => db_ext_top_child _ (ihT fs) s x s' hs) _ _ _ h1
        split at h
        · injection h with h; subst h
          exact db_ext_trans hattr (db_ext_trans hloop (db_ext_set_estatus _))
        · injection h with h; subst h
          exact db_ext_trans hattr hloop
    · -- parsebitfield
      intro fs db node r h
      rw [parsebitfield] at h
      have hattr := db_ext_attrs parsebitfield_attr parsebitfield_attr_uniform
        node.properties db rnnbitfield_tmp_zero
      split at h
      · exact Option.noConfusion h
      · next db1 ti1 h1 =>
        have hloop := foldlM_rel (fun (a b : rnndb × rnntypeinfo) => db_ext a.1 b.1)
          (fun _ => db_ext_refl _) (fun _ _ _ => db_ext_trans) _
          (fun s x s' hs => db_ext_typetag_child _ _ (ihTT fs) (ihT fs) s x s' hs) _ _ _ h1
        split at h
        · injection h with h; subst h
          exact db_ext_trans hattr (db_ext_trans hloop (db_ext_set_estatus _))
        · split at h
          · injection h with h; subst h
            exact db_ext_trans hattr (db_ext_trans hloop (db_ext_set_estatus _))
          · injection h with h; subst h
            exact db_ext_trans hattr hloop
    · -- parseenum
      intro fs db node r h
      rw [parseenum] at h
      have hattr := db_ext_attrs parseenum_attr parseenum_attr_uniform node.properties db
        enum_attrs_zero
      split at h
      · injection h with h; subst h
        exact db_ext_trans hattr (db_ext_set_estatus _)
      · next name hname =>
        dsimp only at h
        exact db_ext_trans hattr (db_ext_trans (db_ext_parseenum_cur _ name _)
          (foldlM_rel db_ext db_ext_refl (fun _ _ _ => db_ext_trans) _
            (fun s x s' hs => db_ext_enum_child _ _ _ (ihV fs) (ihT fs) s x s' hs) _ _ _ h))
    · -- parsebitset
      intro fs db node r h
      rw [parsebitset] at h
      have hattr := db_ext_attrs parseenum_attr parseenum_attr_uniform node.properties db
        enum_attrs_zero
      split at h
      · injection h with h; subst h
        exact db_ext_trans hattr (db_ext_set_estatus _)
      · next name hname =>
        dsimp only at h
        exact db_ext_trans hattr (db_ext_trans (db_ext_parsebitset_cur _ name _)
          (foldlM_rel db_ext db_ext_refl (fun _ _ _ => db_ext_trans) _
            (fun s x s' hs => db_ext_bitset_child _ _ _ (ihB fs) (ihT fs) s x s' hs)
            _ _ _ h))
    · -- trydelem
      intro fs db node r h
      rw [trydelem] at h
      split at h
      · have hattr := db_ext_attrs usegroup_attr usegroup_attr_uniform node.properties db
          new_usegroup
        dsimp only at h
        split at h
        · injection h with h; subst h
          exact db_ext_trans hattr (db_ext_set_estatus _)
        · injection h with h; subst h
          exact hattr
      · split at h
        · have hattr := db_ext_attrs stripe_attr stripe_attr_uniform node.properties db
            (new_stripe node.name)
          dsimp only at h
          obtain ⟨s1, h1, h2⟩ := Option.map_eq_some'.1 h
          subst h2
          refine db_ext_trans hattr ?_
          exact foldlM_rel (fun (a b : rnndb × rnndelem) => db_ext a.1 b.1)
            (fun _ => db_ext_refl _) (fun _ _ _ => db_ext_trans) _
            (fun s x s' hs => db_ext_stripe_child _ _ (ihD fs) (ihT fs) s x s' hs) _ _ _ h1
        · split at h
          · injection h with h; subst h; exact db_ext_refl _
          · next width hw =>
            have hattr := db_ext_attrs reg_attr reg_attr_uniform node.properties db
              (new_reg width)
            dsimp only at h
            split at h
            · exact Option.noConfusion h
            · next db1 ti1 h1 =>
              have hloop := foldlM_rel (fun (a b : rnndb × rnntypeinfo) => db_ext a.1 b.1)
                (fun _ => db_ext_refl _) (fun _ _ _ => db_ext_trans) _
                (fun s x s' hs => db_ext_typetag_child _ _ (ihTT fs) (ihT fs) s x s' hs)
                _ _ _ h1
              split at h
              · injection h with h; subst h
                exact db_ext_trans hattr (db_ext_trans hloop (db_ext_set_estatus _))
              · injection h with h; subst h
                exact db_ext_trans hattr hloop
    · -- parsegroup
      intro fs db node r h
      rw [parsegroup] at h
      have hattr := db_ext_attrs parsegroup_attr parsegroup_attr_uniform node.properties db
        none
      split at h
      · injection h with h; subst h
        exact db_ext_trans hattr (db_ext_set_estatus _)
      · next name hname =>
        dsimp only at h
        exact db_ext_trans hattr (db_ext_trans (db_ext_parsegroup_cur _ name)
          (foldlM_rel db_ext db_ext_refl (fun _ _ _ => db_ext_trans) _
            (fun s x s' hs => db_ext_delem_child _ _ _
              (fun db d => db_ext_group_addsubelem db _ d) (ihD fs) (ihT fs) s x s' hs)
            _ _ _ h))
    · -- parsedomain
      intro fs db node r h
      rw [parsedomain] at h
      have hattr := db_ext_attrs parsedomain_attr parsedomain_attr_uniform node.properties db
        domain_attrs_zero
      split at h
      · injection h with h; subst h
        exact db_ext_trans hattr (db_ext_set_estatus _)
      · next name hname =>
        dsimp only at h
        exact db_ext_trans hattr (db_ext_trans (db_ext_parsedomain_cur _ name _)
          (foldlM_rel db_ext db_ext_refl (fun _ _ _ => db_ext_trans) _
            (fun s x s' hs => db_ext_delem_child _ _ _
              (fun db d => db_ext_domain_addsubelem db _ d) (ihD fs) (ihT fs) s x s' hs)
            _ _ _ h))
    · -- trytop
      intro fs db node r h
      rw [trytop] at h
      split at h
      · obtain ⟨s1, h1, h2⟩ := Option.map_eq_some'.1 h
        subst h2; exact ihE _ _ _ _ h1
      · split at h
        · obtain ⟨s1, h1, h2⟩ := Option.map_eq_some'.1 h
          subst h2; exact ihBS _ _ _ _ h1
        · split at h
          · obtain ⟨s1, h1, h2⟩ := Option.map_eq_some'.1 h
            subst h2; exact ihG _ _ _ _ h1
          · split at h
            · obtain ⟨s1, h1, h2⟩ := Option.map_eq_some'.1 h
              subst h2; exact ihDom _ _ _ _ h1
            · split at h
              · have hattr := db_ext_attrs import_attr import_attr_uniform node.properties
                  db none
                dsimp only at h
                split at h
                · injection h with h; subst h
                  exact db_ext_trans hattr (db_ext_set_estatus _)
                · obtain ⟨s1, h1, h2⟩ := Option.map_eq_some'.1 h
                  subst h2
                  exact db_ext_trans hattr (ihF _ _ _ _ h1)
              · injection h with h; subst h; exact db_ext_refl _
    · -- rnn_parsefile
      intro fs db file r h
      rw [rnn_parsefile] at h
      split at h
      · injection h with h; subst h; exact db_ext_refl _
      · have hfiles : db_ext db { db with files := db.files ++ [file] } :=
          ⟨list_ext_refl enum_le_refl _, list_ext_refl bitset_le_refl _,
            list_ext_refl group_le_refl _, list_ext_refl domain_le_refl _,
            List.prefix_append _ _, Or.inl rfl⟩
        dsimp only at h
        split at h
        · injection h with h; subst h
          exact db_ext_trans hfiles (db_ext_set_estatus _)
        · next doc hdoc =>
          refine db_ext_trans hfiles ?_
          exact foldlM_rel db_ext db_ext_refl (fun _ _ _ => db_ext_trans) _
            (fun s x s' hs => db_ext_root_child _ (ihT fs) s x s' hs) _ _ _ h

theorem parseenum_attrs_eq (node : xmlNode) (db : rnndb) :
    ∃ err, node.properties.foldl parseenum_attr (db, enum_attrs_zero) =
      (errset err db, enum_decl_attrs node) := by
  obtain ⟨err, a, h⟩ := foldl_uniform parseenum_attr parseenum_attr_uniform node.properties
    enum_attrs_zero
  refine ⟨err, ?_⟩
  rw [h db, enum_decl_attrs, h rnn_newdb]

theorem parsedomain_attrs_eq (node : xmlNode) (db : rnndb) :
    ∃ err, node.properties.foldl parsedomain_attr (db, domain_attrs_zero) =
      (errset err db, domain_decl_attrs node) := by
  obtain ⟨err, a, h⟩ := foldl_uniform parsedomain_attr parsedomain_attr_uniform
    node.properties domain_attrs_zero
  refine ⟨err, ?_⟩
  rw [h db, domain_decl_attrs, h rnn_newdb]

theorem errset_enums (err : Bool) (db : rnndb) : (errset err db).enums = db.enums := by
  cases err <;> rfl

theorem errset_bitsets (err : Bool) (db : rnndb) : (errset err db).bitsets = db.bitsets := by
  cases err <;> rfl

theorem errset_domains (err : Bool) (db : rnndb) : (errset err db).domains = db.domains := by
  cases err <;> rfl

theorem errset_groups (err : Bool) (db : rnndb) : (errset err db).groups = db.groups := by
  cases err <;> rfl

theorem errset_files (err : Bool) (db : rnndb) : (errset err db).files = db.files := by
  cases err <;> rfl

theorem strdiff_eq_true {a b : Option String} : strdiff a b = true ↔ a ≠ b := by
  cases a <;> cases b <;> simp [strdiff]

theorem enum_mismatch_iff (cur : rnnenum) (a : enum_attrs) :
    enum_mismatch cur a = true ↔
      (cur.varinfo.prefixstr ≠ a.prefixstr ∨ cur.varinfo.varsetstr ≠ a.varsetstr ∨
        cur.varinfo.variantsstr ≠ a.variantsstr ∨ cur.isinline ≠ a.isinline ∨
        cur.bare ≠ a.bare) := by
  simp only [enum_mismatch, Bool.or_eq_true, strdiff_eq_true, bne_iff_ne, or_assoc]

theorem bitset_mismatch_iff (cur : rnnbitset) (a : enum_attrs) :
    bitset_mismatch cur a = true ↔
      (cur.varinfo.prefixstr ≠ a.prefixstr ∨ cur.varinfo.varsetstr ≠ a.varsetstr ∨
        cur.varinfo.variantsstr ≠ a.variantsstr ∨ cur.isinline ≠ a.isinline ∨
        cur.bare ≠ a.bare) := by
  simp only [bitset_mismatch, Bool.or_eq_true, strdiff_eq_true, bne_iff_ne, or_assoc]

theorem domain_mismatch_iff (cur : rnndomain) (a : domain_attrs) :
    domain_mismatch cur a = true ↔
      (cur.varinfo.prefixstr ≠ a.prefixstr ∨ cur.varinfo.varsetstr ≠ a.varsetstr ∨
        cur.varinfo.variantsstr ≠ a.variantsstr ∨ cur.width ≠ a.width ∨
        cur.bare ≠ a.bare ∨ (a.size ≠ 0 ∧ cur.size ≠ 0 ∧ a.size ≠ cur.size)) := by
  simp only [domain_mismatch, Bool.or_eq_true, Bool.and_eq_true, strdiff_eq_true, bne_iff_ne,
    or_assoc, and_assoc]

theorem estatus_one_of_ext {db db' : rnndb} (h : db_ext db db') (h1 : db.estatus = 1) :
    db'.estatus = 1 := by
  rcases h.2.2.2.2.2 with h | h
  · rw [h, h1]
  · exact h

theorem find_named_getElem? {α : Type} (nm : α → String) (name : String) (l : List α)
    (i : Nat) (x : α) (h : find_named nm name l 0 = some (i, x)) :
    l[i]? = some x ∧ nm x = name := by
  have := find_named_some nm name l 0 i x h
  simpa using ⟨this.2.1, this.2.2.1⟩

/-- A declaration of an enum under an existing name with a differing attribute:
`estatus` is 1 afterwards, no entry of that name is added, and the scalars of
the existing entry are as before. -/
theorem parseenum_mismatch (fuel : Nat) (fs : xmlFiles) (db db' : rnndb) (node : xmlNode)
    (name : String) (i : Nat) (cur : rnnenum)
    (hname : (enum_decl_attrs node).name = some name)
    (hfind : find_named rnnenum.name name db.enums 0 = some (i, cur))
    (hdiff : enum_mismatch cur (enum_decl_attrs node) = true)
    (hr : parseenum fuel fs db node = some db') :
    db'.estatus = 1 ∧
    (∀ j e, db.enums.length ≤ j → db'.enums[j]? = some e → e.name ≠ name) ∧
    ∃ cur', db'.enums[i]? = some cur' ∧ cur'.name = cur.name ∧
      cur'.isinline = cur.isinline ∧ cur'.bare = cur.bare ∧ cur'.varinfo = cur.varinfo := by
  have hext := (parser_db_ext fuel).2.2.2.1 fs db node db' hr
  obtain ⟨hget, hnm⟩ := find_named_getElem? _ _ _ _ _ hfind
  refine ⟨?_, ?_, ?_⟩
  · cases fuel with
    | zero => simp [parseenum] at hr
    | succ fuel =>
      rw [parseenum] at hr
      obtain ⟨err, hattr⟩ := parseenum_attrs_eq node db
      rw [hattr] at hr
      simp only [hname] at hr
      have hcur : parseenum_cur (errset err db) name (enum_decl_attrs node) =
          (set_estatus (errset err db), i) := by
        unfold parseenum_cur
        rw [errset_enums, hfind]
        simp only [hdiff, if_true]
      rw [hcur] at hr
      have hloop := foldlM_rel db_ext db_ext_refl (fun _ _ _ => db_ext_trans) _
        (fun s x s' hs => db_ext_enum_child _ _ _ ((parser_db_ext fuel).2.1 fs)
          ((parser_db_ext fuel).2.2.2.2.2.2.2.2.1 fs) s x s' hs) _ _ _ hr
      exact estatus_one_of_ext hloop rfl
  · intro j e hj he hen
    have := hext.1.2 j e hj he cur (List.mem_iff_getElem?.2 ⟨i, hget⟩)
    exact this (by rw [hnm, hen])
  · obtain ⟨cur', hc, hle⟩ := hext.1.1 i cur hget
    exact ⟨cur', hc, hle.1, hle.2.2.1, hle.2.1, hle.2.2.2.1⟩

/-- A declaration of a bitset under an existing name with a differing
attribute. -/
theorem parsebitset_mismatch (fuel : Nat) (fs : xmlFiles) (db db' : rnndb) (node : xmlNode)
    (name : String) (i : Nat) (cur : rnnbitset)
    (hname : (enum_decl_attrs node).name = some name)
    (hfind : find_named rnnbitset.name name db.bitsets 0 = some (i, cur))
    (hdiff : bitset_mismatch cur (enum_decl_attrs node) = true)
    (hr : parsebitset fuel fs db node = some db') :
    db'.estatus = 1 ∧
    (∀ j e, db.bitsets.length ≤ j → db'.bitsets[j]? = some e → e.name ≠ name) ∧
    ∃ cur', db'.bitsets[i]? = some cur' ∧ cur'.name = cur.name ∧
      cur'.isinline = cur.isinline ∧ cur'.bare = cur.bare ∧ cur'.varinfo = cur.varinfo := by
  have hext := (parser_db_ext fuel).2.2.2.2.1 fs db node db' hr
  obtain ⟨hget, hnm⟩ := find_named_getElem? _ _ _ _ _ hfind
  refine ⟨?_, ?_, ?_⟩
  · cases fuel with
    | zero => simp [parsebitset] at hr
    | succ fuel =>
      rw [parsebitset] at hr
      obtain ⟨err, hattr⟩ := parseenum_attrs_eq node db
      rw [hattr] at hr
      simp only [hname] at hr
      have hcur : parsebitset_cur (errset err db) name (enum_decl_attrs node) =
          (set_estatus (errset err db), i) := by
        unfold parsebitset_cur
        rw [errset_bitsets, hfind]
        simp only [hdiff, if_true]
      rw [hcur] at hr
      have hloop := foldlM_rel db_ext db_ext_refl (fun _ _ _ => db_ext_trans) _
        (fun s x s' hs => db_ext_bitset_child _ _ _ ((parser_db_ext fuel).2.2.1 fs)
          ((parser_db_ext fuel).2.2.2.2.2.2.2.2.1 fs) s x s' hs) _ _ _ hr
      exact estatus_one_of_ext hloop rfl
  · intro j e hj he hen
    have := hext.2.1.2 j e hj he cur (List.mem_iff_getElem?.2 ⟨i, hget⟩)
    exact this (by rw [hnm, hen])
  · obtain ⟨cur', hc, hle⟩ := hext.2.1.1 i cur hget
    exact ⟨cur', hc, hle.1, hle.2.2.1, hle.2.1, hle.2.2.2.1⟩

/-- A declaration of a domain under an existing name with a differing
attribute. -/
theorem parsedomain_mismatch (fuel : Nat) (fs : xmlFiles) (db db' : rnndb) (node : xmlNode)
    (name : String) (i : Nat) (cur : rnndomain)
    (hname : (domain_decl_attrs node).name = some name)
    (hfind : find_named rnndomain.name name db.domains 0 = some (i, cur))
    (hdiff : domain_mismatch cur (domain_decl_attrs node) = true)
    (hr : parsedomain fuel fs db node = some db') :
    db'.estatus = 1 ∧
    (∀ j e, db.domains.length ≤ j → db'.domains[j]? = some e → e.name ≠ name) ∧
    ∃ cur', db'.domains[i]? = some cur' ∧ cur'.name = cur.name ∧
      cur'.width = cur.width ∧ cur'.bare = cur.bare ∧ cur'.varinfo = cur.varinfo ∧
      (cur.size ≠ 0 → cur'.size = cur.size) := by
  have hext := (parser_db_ext fuel).2.2.2.2.2.2.2.1 fs db node db' hr
  obtain ⟨hget, hnm⟩ := find_named_getElem? _ _ _ _ _ hfind
  refine ⟨?_, ?_, ?_⟩
  · cases fuel with
    | zero => simp [parsedomain] at hr
    | succ fuel =>
      rw [parsedomain] at hr
      obtain ⟨err, hattr⟩ := parsedomain_attrs_eq node db
      rw [hattr] at hr
      simp only [hname] at hr
      have hcur : parsedomain_cur (errset err db) name (domain_decl_attrs node) =
          (set_estatus (errset err db), i) := by
        unfold parsedomain_cur
        rw [errset_domains, hfind]
        simp only [hdiff, if_true]
      rw [hcur] at hr
      have hloop := foldlM_rel db_ext db_ext_refl (fun _ _ _ => db_ext_trans) _
        (fun s x s' hs => db_ext_delem_child _ _ _
          (fun db d => db_ext_domain_addsubelem db _ d)
          ((parser_db_ext fuel).2.2.2.2.2.1 fs) ((parser_db_ext fuel).2.2.2.2.2.2.2.2.1 fs)
          s x s' hs) _ _ _ hr
      exact estatus_one_of_ext hloop rfl
  · intro j e hj he hen
    have := hext.2.2.2.1.2 j e hj he cur (List.mem_iff_getElem?.2 ⟨i, hget⟩)
    exact this (by rw [hnm, hen])
  · obtain ⟨cur', hc, hle⟩ := hext.2.2.2.1.1 i cur hget
    exact ⟨cur', hc, hle.1, hle.2.2.1, hle.2.1, hle.2.2.2.1, hle.2.2.2.2.2.1⟩

/-- The merge step of `parsedomain` on an existing name: a mismatch changes
`estatus` alone, and the size of the existing domain is replaced only without
a mismatch, by a new size that is not 0, when the old size is 0. -/
theorem parsedomain_cur_size (db : rnndb) (name : String) (a : domain_attrs) (i : Nat)
    (cur : rnndomain) (hfind : find_named rnndomain.name name db.domains 0 = some (i, cur)) :
    (domain_mismatch cur a = true → parsedomain_cur db name a = (set_estatus db, i)) ∧
    ∀ cur', (parsedomain_cur db name a).1.domains[i]? = some cur' → cur'.size ≠ cur.size →
      domain_mismatch cur a = false ∧ a.size ≠ 0 ∧ cur'.size = a.size ∧ cur.size = 0 := by
  obtain ⟨hget, _⟩ := find_named_getElem? _ _ _ _ _ hfind
  refine ⟨?_, ?_⟩
  · intro h
    unfold parsedomain_cur
    rw [hfind]
    simp only [h, if_true]
  · intro cur' hc hne
    unfold parsedomain_cur at hc
    rw [hfind] at hc
    by_cases hm : domain_mismatch cur a = true
    · simp only [hm, if_true] at hc
      have : (set_estatus db).domains[i]? = some cur := hget
      rw [this] at hc
      injection hc with hc
      subst hc
      exact absurd rfl hne
    · have hm' : domain_mismatch cur a = false := by simpa using hm
      simp only [hm', Bool.false_eq_true, if_false] at hc
      by_cases hs : a.size = 0
      · simp only [hs, bne_self_eq_false, Bool.false_eq_true, if_false] at hc
        rw [hget] at hc
        injection hc with hc
        subst hc
        exact absurd rfl hne
      · have hs' : (a.size != 0) = true := by simpa using hs
        simp only [hs', if_true] at hc
        rw [modify_at_getElem?] at hc
        simp only [if_true, hget, Option.map_some'] at hc
        injection hc with hc
        subst hc
        refine ⟨hm', hs, rfl, ?_⟩
        by_contra hc0
        exact hne (domain_mismatch_size hm' hs hc0)
/-- C10: when an enum, bitset or domain is declared again under an existing
name with a differing scalar attribute (enum and bitset: prefix, varset,
variants, inline, bare; domain: prefix, varset, variants, width, bare, or a
non-zero size that differs from a non-zero existing size), `estatus` is 1
after the declaration, no entry of that name has been added, and the scalar
attributes of the existing entry are as before; the merge step of a domain
changes `estatus` alone on a mismatch, and replaces the size only without a
mismatch, by a non-zero new size. -/
theorem redeclaration_mismatch :
    (∀ (fuel : Nat) (fs : xmlFiles) (db db' : rnndb) (node : xmlNode) (name : String)
        (i : Nat) (cur : rnnenum),
      (enum_decl_attrs node).name = some name →
      find_named rnnenum.name name db.enums 0 = some (i, cur) →
      (cur.varinfo.prefixstr ≠ (enum_decl_attrs node).prefixstr ∨
        cur.varinfo.varsetstr ≠ (enum_decl_attrs node).varsetstr ∨
        cur.varinfo.variantsstr ≠ (enum_decl_attrs node).variantsstr ∨
        cur.isinline ≠ (enum_decl_attrs node).isinline ∨
        cur.bare ≠ (enum_decl_attrs node).bare) →
      parseenum fuel fs db node = some db' →
      db'.estatus = 1 ∧
      (∀ j e, db.enums.length ≤ j → db'.enums[j]? = some e → e.name ≠ name) ∧
      ∃ cur', db'.enums[i]? = some cur' ∧ cur'.name = cur.name ∧
        cur'.isinline = cur.isinline ∧ cur'.bare = cur.bare ∧ cur'.varinfo = cur.varinfo) ∧
    (∀ (fuel : Nat) (fs : xmlFiles) (db db' : rnndb) (node : xmlNode) (name : String)
        (i : Nat) (cur : rnnbitset),
      (enum_decl_attrs node).name = some name →
      find_named rnnbitset.name name db.bitsets 0 = some (i, cur) →
      (cur.varinfo.prefixstr ≠ (enum_decl_attrs node).prefixstr ∨
        cur.varinfo.varsetstr ≠ (enum_decl_attrs node).varsetstr ∨
        cur.varinfo.variantsstr ≠ (enum_decl_attrs node).variantsstr ∨
        cur.isinline ≠ (enum_decl_attrs node).isinline ∨
        cur.bare ≠ (enum_decl_attrs node).bare) →
      parsebitset fuel fs db node = some db' →
      db'.estatus = 1 ∧
      (∀ j e, db.bitsets.length ≤ j → db'.bitsets[j]? = some e → e.name ≠ name) ∧
      ∃ cur', db'.bitsets[i]? = some cur' ∧ cur'.name = cur.name ∧
        cur'.isinline = cur.isinline ∧ cur'.bare = cur.bare ∧ cur'.varinfo = cur.varinfo) ∧
    (∀ (fuel : Nat) (fs : xmlFiles) (db db' : rnndb) (node : xmlNode) (name : String)
        (i : Nat) (cur : rnndomain),
      (domain_decl_attrs node).name = some name →
      find_named rnndomain.name name db.domains 0 = some (i, cur) →
      (cur.varinfo.prefixstr ≠ (domain_decl_attrs node).prefixstr ∨
        cur.varinfo.varsetstr ≠ (domain_decl_attrs node).varsetstr ∨
        cur.varinfo.variantsstr ≠ (domain_decl_attrs node).variantsstr ∨
        cur.width ≠ (domain_decl_attrs node).width ∨
        cur.bare ≠ (domain_decl_attrs node).bare ∨
        ((domain_decl_attrs node).size ≠ 0 ∧ cur.size ≠ 0 ∧
          (domain_decl_attrs node).size ≠ cur.size)) →
      parsedomain fuel fs db node = some db' →
      db'.estatus = 1 ∧
      (∀ j e, db.domains.length ≤ j → db'.domains[j]? = some e → e.name ≠ name) ∧
      ∃ cur', db'.domains[i]? = some cur' ∧ cur'.name = cur.name ∧
        cur'.width = cur.width ∧ cur'.bare = cur.bare ∧ cur'.varinfo = cur.varinfo ∧
        (cur.size ≠ 0 → cur'.size = cur.size)) ∧
    (∀ (db : rnndb) (name : String) (a : domain_attrs) (i : Nat) (cur : rnndomain),
      find_named rnndomain.name name db.domains 0 = some (i, cur) →
      (domain_mismatch cur a = true → parsedomain_cur db name a = (set_estatus db, i)) ∧
      ∀ cur', (parsedomain_cur db name a).1.domains[i]? = some cur' →
        cur'.size ≠ cur.size →
        domain_mismatch cur a = false ∧ a.size ≠ 0 ∧ cur'.size = a.size ∧ cur.size = 0) :=
  ⟨fun fuel fs db db' node name i cur hname hfind hdiff hr =>
      parseenum_mismatch fuel fs db db' node name i cur hname hfind
        ((enum_mismatch_iff _ _).2 hdiff) hr,
    fun fuel fs db db' node name i cur hname hfind hdiff hr =>
      parsebitset_mismatch fuel fs db db' node name i cur hname hfind
        ((bitset_mismatch_iff _ _).2 hdiff) hr,
    fun fuel fs db db' node name i cur hname hfind hdiff hr =>
      parsedomain_mismatch fuel fs db db' node name i cur hname hfind
        ((domain_mismatch_iff _ _).2 hdiff) hr,
    fun db name a i cur hfind => parsedomain_cur_size db name a i cur hfind⟩

/-- C10 at the enum `E` of scenario S2 declared again with `bare="yes"`:
`estatus` is 1 and `E`, still the only entry, is not bare. -/
theorem redeclaration_mismatch_witness :
    ∃ db', parseenum 3 files_s2 (db_with_E [plain_value "X" 1]) decl_E_bare = some db' ∧
      db'.estatus = 1 ∧ db'.enums.map (fun e => (e.name, e.bare)) = [("E", false)] :=
  ⟨_, rfl,
    (redeclaration_mismatch.1 3 files_s2 (db_with_E [plain_value "X" 1]) _ decl_E_bare "E" 0
      _ rfl rfl (by decide) rfl).1, rfl⟩

theorem plain_of_mem : ∀ (cs : List xmlNode), plain_list cs = true →
    ∀ c, c ∈ cs → plain c = true := by
  intro cs
  induction cs with
  | nil => intro _ c hc; simp at hc
  | cons x xs ih =>
    intro h c hc
    rw [plain_list, Bool.and_eq_true] at h
    rcases List.mem_cons.1 hc with rfl | hc
    · exact h.1
    · exact ih h.2 c hc

theorem depth_le_of_mem : ∀ (cs : List xmlNode) (c : xmlNode), c ∈ cs →
    depth c ≤ depth_list cs := by
  intro cs
  induction cs with
  | nil => intro c hc; simp at hc
  | cons x xs ih =>
    intro c hc
    rw [depth_list]
    rcases List.mem_cons.1 hc with rfl | hc
    · exact le_max_left _ _
    · exact le_trans (ih c hc) (le_max_right _ _)

theorem plain_children (node : xmlNode) (h : plain node = true) :
    top_tag node.name = false ∧ plain_list node.children = true := by
  cases node with
  | mk type name properties children =>
    rw [plain, Bool.and_eq_true] at h
    exact ⟨by simpa using h.1, h.2⟩

theorem depth_eq (node : xmlNode) : depth node = depth_list node.children + 1 := by
  cases node with
  | mk type name properties children => rw [depth]

theorem depth_child_lt (node c : xmlNode) (hc : c ∈ node.children) :
    depth c + 1 ≤ depth node := by
  rw [depth_eq node]
  exact Nat.succ_le_succ (depth_le_of_mem _ _ hc)

theorem top_tag_false {name : String} (h : top_tag name = false) :
    name ≠ "enum" ∧ name ≠ "bitset" ∧ name ≠ "group" ∧ name ≠ "domain" ∧ name ≠ "import" := by
  unfold top_tag at h
  simp only [Bool.or_eq_false_iff, decide_eq_false_iff_not] at h
  exact ⟨h.1.1.1.1, h.1.1.1.2, h.1.1.2, h.1.2, h.2⟩

/-! ## Loops over self-contained children -/

theorem foldlM_errs (ok : Nat → Prop) (g : Nat → xmlFiles → rnndb → xmlNode → Option rnndb) :
    ∀ (cs : List xmlNode),
      (∀ c, c ∈ cs → ∃ err, ∀ fuel fs db, ok fuel → g fuel fs db c = some (errset err db)) →
      ∃ err, ∀ fuel fs db, ok fuel → cs.foldlM (g fuel fs) db = some (errset err db) := by
  intro cs
  induction cs with
  | nil => intro _; exact ⟨false, fun fuel fs db _ => rfl⟩
  | cons c cs ih =>
    intro h
    obtain ⟨e1, h1⟩ := h c (List.mem_cons_self _ _)
    obtain ⟨e2, h2⟩ := ih (fun c hc => h c (List.mem_cons_of_mem _ hc))
    refine ⟨e1 || e2, fun fuel fs db hok => ?_⟩
    rw [List.foldlM_cons, h1 fuel fs db hok]
    simp only [Option.some_bind, Option.bind_eq_bind]
    rw [h2 fuel fs _ hok, errset_errset]

theorem foldlM_uniform {S : Type} (ok : Nat → Prop)
    (g : Nat → xmlFiles → rnndb × S → xmlNode → Option (rnndb × S)) :
    ∀ (cs : List xmlNode),
      (∀ c, c ∈ cs → ∀ s, ∃ err s', ∀ fuel fs db, ok fuel →
        g fuel fs (db, s) c = some (errset err db, s')) →
      ∀ s, ∃ err s', ∀ fuel fs db, ok fuel →
        cs.foldlM (g fuel fs) (db, s) = some (errset err db, s') := by
  intro cs
  induction cs with
  | nil => intro _ s; exact ⟨false, s, fun fuel fs db _ => rfl⟩
  | cons c cs ih =>
    intro h s
    obtain ⟨e1, s1, h1⟩ := h c (List.mem_cons_self _ _) s
    obtain ⟨e2, s2, h2⟩ := ih (fun c hc => h c (List.mem_cons_of_mem _ hc)) s1
    refine ⟨e1 || e2, s2, fun fuel fs db hok => ?_⟩
    rw [List.foldlM_cons, h1 fuel fs db hok]
    simp only [Option.some_bind, Option.bind_eq_bind]
    rw [h2 fuel fs _ hok, errset_errset]

theorem foldl_add_errset {X : Type} (add : rnndb → X → rnndb)
    (hadd : ∀ e db x, add (errset e db) x = errset e (add db x)) :
    ∀ (xs : List X) (e : Bool) (db : rnndb),
      xs.foldl add (errset e db) = errset e (xs.foldl add db) := by
  intro xs
  induction xs with
  | nil => intro e db; rfl
  | cons x xs ih => intro e db; rw [List.foldl_cons, hadd, ih, List.foldl_cons]

theorem foldlM_adds {X : Type} (ok : Nat → Prop) (add : rnndb → Nat → X → rnndb)
    (hadd : ∀ cur e db x, add (errset e db) cur x = errset e (add db cur x))
    (g : Nat → xmlFiles → Nat → rnndb → xmlNode → Option rnndb) :
    ∀ (cs : List xmlNode),
      (∀ c, c ∈ cs → ∃ (err : Bool) (xs : List X), ∀ fuel fs cur db, ok fuel →
        g fuel fs cur db c = some (errset err (xs.foldl (fun db x => add db cur x) db))) →
      ∃ (err : Bool) (xs : List X), ∀ fuel fs cur db, ok fuel →
        cs.foldlM (g fuel fs cur) db =
          some (errset err (xs.foldl (fun db x => add db cur x) db)) := by
  intro cs
  induction cs with
  | nil => intro _; exact ⟨false, [], fun fuel fs cur db _ => rfl⟩
  | cons c cs ih =>
    intro h
    obtain ⟨e1, xs1, h1⟩ := h c (List.mem_cons_self _ _)
    obtain ⟨e2, xs2, h2⟩ := ih (fun c hc => h c (List.mem_cons_of_mem _ hc))
    refine ⟨e1 || e2, xs1 ++ xs2, fun fuel fs cur db hok => ?_⟩
    rw [List.foldlM_cons, h1 fuel fs cur db hok]
    simp only [Option.some_bind, Option.bind_eq_bind]
    rw [h2 fuel fs cur _ hok,
      foldl_add_errset (fun db x => add db cur x) (fun e db x => hadd cur e db x),
      errset_errset, List.foldl_append]

theorem trytop_plain (node : xmlNode) (hp : plain node = true) (fuel : Nat) (fs : xmlFiles)
    (db : rnndb) (hf : 1 ≤ fuel) : trytop fuel fs db node = some (db, false) := by
  obtain ⟨f, rfl⟩ : ∃ f, fuel = f + 1 := ⟨fuel - 1, by omega⟩
  obtain ⟨h1, h2, h3, h4, h5⟩ := top_tag_false (plain_children node hp).1
  rw [trytop]
  simp only [if_neg h1, if_neg h2, if_neg h3, if_neg h4, if_neg h5]

theorem wrong_tag_false (db : rnndb) (chain : xmlNode) :
    wrong_tag db false chain = errset (!trydoc chain) db := by
  unfold wrong_tag errset
  simp

theorem top_child_plain (chain : xmlNode) (hp : plain chain = true) :
    ∃ err, ∀ fuel fs db, 1 ≤ fuel →
      top_child (fun db chain => trytop fuel fs db chain) db chain = some (errset err db) := by
  by_cases ht : chain.type ≠ xmlElementType.XML_ELEMENT_NODE
  · exact ⟨false, fun fuel fs db _ => by unfold top_child; rw [if_pos ht]; rfl⟩
  · refine ⟨!trydoc chain, fun fuel fs db hf => ?_⟩
    unfold top_child
    rw [if_neg ht]
    simp only [trytop_plain chain hp fuel fs db hf, wrong_tag_false]

theorem typetag_child_plain (chain : xmlNode) (hp : plain chain = true) (bound : Nat)
    (hb : 1 ≤ bound)
    (hTT : ∀ ti, ∃ err ti' r, ∀ fuel fs db, bound ≤ fuel →
      trytypetag fuel fs db chain ti = some (errset err db, ti', r)) (ti : rnntypeinfo) :
    ∃ err ti', ∀ fuel fs db, bound ≤ fuel →
      typetag_child (fun db chain ti => trytypetag fuel fs db chain ti)
        (fun db chain => trytop fuel fs db chain) (db, ti) chain =
        some (errset err db, ti') := by
  by_cases ht : chain.type ≠ xmlElementType.XML_ELEMENT_NODE
  · exact ⟨false, ti, fun fuel fs db _ => by unfold typetag_child; rw [if_pos ht]; rfl⟩
  · obtain ⟨e1, ti1, r, h1⟩ := hTT ti
    cases r with
    | true =>
      refine ⟨e1, ti1, fun fuel fs db hf => ?_⟩
      unfold typetag_child
      rw [if_neg ht]
      simp only [h1 fuel fs db hf]
    | false =>
      refine ⟨e1 || !trydoc chain, ti1, fun fuel fs db hf => ?_⟩
      unfold typetag_child
      rw [if_neg ht]
      simp only [h1 fuel fs db hf,
        trytop_plain chain hp fuel fs _ (le_trans hb hf), wrong_tag_false, errset_errset]

theorem enum_addval_errset (cur : Nat) (e : Bool) (db : rnndb) (v : rnnvalue) :
    enum_addval (errset e db) cur v = errset e (enum_addval db cur v) := by
  cases e <;> rfl

theorem bitset_addbitfield_errset (cur : Nat) (e : Bool) (db : rnndb) (v : rnnbitfield) :
    bitset_addbitfield (errset e db) cur v = errset e (bitset_addbitfield db cur v) := by
  cases e <;> rfl

theorem domain_addsubelem_errset (cur : Nat) (e : Bool) (db : rnndb) (v : rnndelem) :
    domain_addsubelem (errset e db) cur v = errset e (domain_addsubelem db cur v) := by
  cases e <;> rfl

theorem enum_child_plain (chain : xmlNode) (hp : plain chain = true) (bound : Nat)
    (hb : 1 ≤ bound)
    (hV : ∃ err v, ∀ fuel fs db, bound ≤ fuel →
      parsevalue fuel fs db chain = some (errset err db, v)) :
    ∃ (err : Bool) (xs : List rnnvalue), ∀ fuel fs cur db, bound ≤ fuel →
      enum_child (fun db chain => parsevalue fuel fs db chain)
        (fun db chain => trytop fuel fs db chain) cur db chain =
        some (errset err (xs.foldl (fun db v => enum_addval db cur v) db)) := by
  by_cases ht : chain.type ≠ xmlElementType.XML_ELEMENT_NODE
  · exact ⟨false, [], fun fuel fs cur db _ => by unfold enum_child; rw [if_pos ht]; rfl⟩
  · by_cases hn : chain.name = "value"
    · obtain ⟨e1, v, h1⟩ := hV
      cases v with
      | none =>
        refine ⟨e1, [], fun fuel fs cur db hf => ?_⟩
        unfold enum_child
        rw [if_neg ht, if_pos hn]
        simp only [h1 fuel fs db hf, List.foldl_nil]
      | some v =>
        refine ⟨e1, [v], fun fuel fs cur db hf => ?_⟩
        unfold enum_child
        rw [if_neg ht, if_pos hn]
        simp only [h1 fuel fs db hf, List.foldl_cons, List.foldl_nil, enum_addval_errset]
    · refine ⟨!trydoc chain, [], fun fuel fs cur db hf => ?_⟩
      unfold enum_child
      rw [if_neg ht, if_neg hn]
      simp only [trytop_plain chain hp fuel fs _ (le_trans hb hf), wrong_tag_false,
        List.foldl_nil]

theorem bitset_child_plain (chain : xmlNode) (hp : plain chain = true) (bound : Nat)
    (hb : 1 ≤ bound)
    (hB : ∃ err v, ∀ fuel fs db, bound ≤ fuel →
      parsebitfield fuel fs db chain = some (errset err db, v)) :
    ∃ (err : Bool) (xs : List rnnbitfield), ∀ fuel fs cur db, bound ≤ fuel →
      bitset_child (fun db chain => parsebitfield fuel fs db chain)
        (fun db chain => trytop fuel fs db chain) cur db chain =
        some (errset err (xs.foldl (fun db v => bitset_addbitfield db cur v) db)) := by
  by_cases ht : chain.type ≠ xmlElementType.XML_ELEMENT_NODE
  · exact ⟨false, [], fun fuel fs cur db _ => by unfold bitset_child; rw [if_pos ht]; rfl⟩
  · by_cases hn : chain.name = "bitfield"
    · obtain ⟨e1, v, h1⟩ := hB
      cases v with
      | none =>
        refine ⟨e1, [], fun fuel fs cur db hf => ?_⟩
        unfold bitset_child
        rw [if_neg ht, if_pos hn]
        simp only [h1 fuel fs db hf, List.foldl_nil]
      | some v =>
        refine ⟨e1, [v], fun fuel fs cur db hf => ?_⟩
        unfold bitset_child
        rw [if_neg ht, if_pos hn]
        simp only [h1 fuel fs db hf, List.foldl_cons, List.foldl_nil,
          bitset_addbitfield_errset]
    · refine ⟨!trydoc chain, [], fun fuel fs cur db hf => ?_⟩
      unfold bitset_child
      rw [if_neg ht, if_neg hn]
      simp only [trytop_plain chain hp fuel fs _ (le_trans hb hf), wrong_tag_false,
        List.foldl_nil]

theorem stripe_child_plain (chain : xmlNode) (hp : plain chain = true) (bound : Nat)
    (hb : 1 ≤ bound)
    (hD : ∃ err d, ∀ fuel fs db, bound ≤ fuel →
      trydelem fuel fs db chain = some (errset err db, d)) (res : rnndelem) :
    ∃ err res', ∀ fuel fs db, bound ≤ fuel →
      stripe_child (fun db chain => trydelem fuel fs db chain)
        (fun db chain => trytop fuel fs db chain) (db, res) chain =
        some (errset err db, res') := by
  by_cases ht : chain.type ≠ xmlElementType.XML_ELEMENT_NODE
  · exact ⟨false, res, fun fuel fs db _ => by unfold stripe_child; rw [if_pos ht]; rfl⟩
  · obtain ⟨e1, d, h1⟩ := hD
    cases d with
    | some d =>
      refine ⟨e1, { res with subelems := res.subelems ++ [d] }, fun fuel fs db hf => ?_⟩
      unfold stripe_child
      rw [if_neg ht]
      simp only [h1 fuel fs db hf]
    | none =>
      refine ⟨e1 || !trydoc chain, res, fun fuel fs db hf => ?_⟩
      unfold stripe_child
      rw [if_neg ht]
      simp only [h1 fuel fs db hf,
        trytop_plain chain hp fuel fs _ (le_trans hb hf), wrong_tag_false, errset_errset]

theorem delem_child_plain (add : rnndb → Nat → rnndelem → rnndb)
    (hadd : ∀ cur e db x, add (errset e db) cur x = errset e (add db cur x))
    (chain : xmlNode) (hp : plain chain = true) (bound : Nat) (hb : 1 ≤ bound)
    (hD : ∃ err d, ∀ fuel fs db, bound ≤ fuel →
      trydelem fuel fs db chain = some (errset err db, d)) :
    ∃ (err : Bool) (xs : List rnndelem), ∀ fuel fs cur db, bound ≤ fuel →
      delem_child (fun db chain => trydelem fuel fs db chain)
        (fun db chain => trytop fuel fs db chain) (fun db delem => add db cur delem) db
        chain = some (errset err (xs.foldl (fun db v => add db cur v) db)) := by
  by_cases ht : chain.type ≠ xmlElementType.XML_ELEMENT_NODE
  · exact ⟨false, [], fun fuel fs cur db _ => by unfold delem_child; rw [if_pos ht]; rfl⟩
  · obtain ⟨e1, d, h1⟩ := hD
    cases d with
    | some d =>
      refine ⟨e1, [d], fun fuel fs cur db hf => ?_⟩
      unfold delem_child
      rw [if_neg ht]
      simp only [h1 fuel fs db hf, List.foldl_cons, List.foldl_nil, hadd]
    | none =>
      refine ⟨e1 || !trydoc chain, [], fun fuel fs cur db hf => ?_⟩
      unfold delem_child
      rw [if_neg ht]
      simp only [h1 fuel fs db hf,
        trytop_plain chain hp fuel fs _ (le_trans hb hf), wrong_tag_false, errset_errset,
        List.foldl_nil]

theorem depth_pos (node : xmlNode) : 1 ≤ depth node := by
  rw [depth_eq]; exact Nat.le_add_left _ _

/-- A subtree without top-level tags is parsed in the same way in every
database, whatever the files and the fuel beyond twice its height: the
result is the same, and `estatus` alone may change. -/
theorem plain_uniform : ∀ (n : Nat) (node : xmlNode), plain node = true → depth node ≤ n →
    (∃ err v, ∀ fuel fs db, 2 * depth node ≤ fuel →
      parsevalue fuel fs db node = some (errset err db, v)) ∧
    (∃ err b, ∀ fuel fs db, 2 * depth node ≤ fuel →
      parsebitfield fuel fs db node = some (errset err db, b)) ∧
    (∃ err d, ∀ fuel fs db, 2 * depth node ≤ fuel →
      trydelem fuel fs db node = some (errset err db, d)) ∧
    (∀ ti, ∃ err ti' r, ∀ fuel fs db, 2 * depth node + 1 ≤ fuel →
      trytypetag fuel fs db node ti = some (errset err db, ti', r)) := by
  intro n
  induction n with
  | zero => intro node _ hd; have := depth_pos node; omega
  | succ n ih =>
    intro node hp hd
    have hpc : ∀ c, c ∈ node.children → plain c = true :=
      plain_of_mem _ (plain_children node hp).2
    have hdc : ∀ c, c ∈ node.children → depth c + 1 ≤ depth node :=
      fun c hc => depth_child_lt node c hc
    have hpos := depth_pos node
    -- the loops over the children
    obtain ⟨eT, hloopT⟩ := foldlM_errs (fun fuel => 2 * depth node ≤ fuel + 1)
      (fun fuel fs => top_child (fun db chain => trytop fuel fs db chain)) node.children
      (fun c hc => by
        obtain ⟨e, h⟩ := top_child_plain c (hpc c hc)
        exact ⟨e, fun fuel fs db hok => h fuel fs db (by have := hdc c hc; omega)⟩)
    have hloopTT := foldlM_uniform (fun fuel => 2 * depth node ≤ fuel + 1)
      (fun fuel fs => typetag_child (fun db chain ti => trytypetag fuel fs db chain ti)
        (fun db chain => trytop fuel fs db chain)) node.children
      (fun c hc ti => by
        obtain ⟨e, ti', h⟩ := typetag_child_plain c (hpc c hc) (2 * depth c + 1) (by omega)
          (ih c (hpc c hc) (by have := hdc c hc; omega)).2.2.2 ti
        exact ⟨e, ti', fun fuel fs db hok => h fuel fs db (by have := hdc c hc; omega)⟩)
    have hloopD := foldlM_uniform (fun fuel => 2 * depth node ≤ fuel + 1)
      (fun fuel fs => stripe_child (fun db chain => trydelem fuel fs db chain)
        (fun db chain => trytop fuel fs db chain)) node.children
      (fun c hc res => by
        have hc1 := depth_pos c
        obtain ⟨e, res', h⟩ := stripe_child_plain c (hpc c hc) (2 * depth c) (by omega)
          (ih c (hpc c hc) (by have := hdc c hc; omega)).2.2.1 res
        exact ⟨e, res', fun fuel fs db hok => h fuel fs db (by have := hdc c hc; omega)⟩)
    have hV : ∃ err v, ∀ fuel fs db, 2 * depth node ≤ fuel →
        parsevalue fuel fs db node = some (errset err db, v) := by
      obtain ⟨e1, tmp, hattr⟩ := foldl_uniform parsevalue_attr parsevalue_attr_uniform
        node.properties rnnvalue_tmp_zero
      cases hn : tmp.name with
      | none =>
        refine ⟨true, none, fun fuel fs db hf => ?_⟩
        obtain ⟨f, rfl⟩ : ∃ f, fuel = f + 1 := ⟨fuel - 1, by omega⟩
        rw [parsevalue]
        simp only [hattr db, hloopT f fs _ hf, hn, errset_errset, set_estatus_errset]
      | some name =>
        refine ⟨e1 || eT, some
          { name := name, valvalid := tmp.valvalid, value := tmp.value,
            varinfo := tmp.varinfo, fullname := none }, fun fuel fs db hf => ?_⟩
        obtain ⟨f, rfl⟩ : ∃ f, fuel = f + 1 := ⟨fuel - 1, by omega⟩
        rw [parsevalue]
        simp only [hattr db, hloopT f fs _ hf, hn, errset_errset]
    have hB : ∃ err b, ∀ fuel fs db, 2 * depth node ≤ fuel →
        parsebitfield fuel fs db node = some (errset err db, b) := by
      obtain ⟨e1, tmp, hattr⟩ := foldl_uniform parsebitfield_attr parsebitfield_attr_uniform
        node.properties rnnbitfield_tmp_zero
      obtain ⟨e2, ti2, hloop⟩ := hloopTT tmp.typeinfo
      cases hn : tmp.name with
      | none =>
        refine ⟨true, none, fun fuel fs db hf => ?_⟩
        obtain ⟨f, rfl⟩ : ∃ f, fuel = f + 1 := ⟨fuel - 1, by omega⟩
        rw [parsebitfield]
        simp only [hattr db, hloop f fs _ hf, hn, errset_errset, set_estatus_errset]
      | some name =>
        cases hc : (!tmp.highok || !tmp.lowok || decide (tmp.high < tmp.low)) with
        | true =>
          refine ⟨true, none, fun fuel fs db hf => ?_⟩
          obtain ⟨f, rfl⟩ : ∃ f, fuel = f + 1 := ⟨fuel - 1, by omega⟩
          rw [parsebitfield]
          simp only [hattr db, hloop f fs _ hf, hn, hc, errset_errset, set_estatus_errset,
            if_true]
        | false =>
          refine ⟨e1 || e2, some
            { name := name, low := tmp.low, high := tmp.high, mask := 0,
              varinfo := tmp.varinfo, typeinfo := ti2, fullname := none },
            fun fuel fs db hf => ?_⟩
          obtain ⟨f, rfl⟩ : ∃ f, fuel = f + 1 := ⟨fuel - 1, by omega⟩
          rw [parsebitfield]
          simp only [hattr db, hloop f fs _ hf, hn, hc, errset_errset, Bool.false_eq_true,
            if_false]
    have hD : ∃ err d, ∀ fuel fs db, 2 * depth node ≤ fuel →
        trydelem fuel fs db node = some (errset err db, d) := by
      by_cases c1 : node.name = "use-group"
      · obtain ⟨e1, res, hattr⟩ := foldl_uniform usegroup_attr usegroup_attr_uniform
          node.properties new_usegroup
        cases hn : res.name with
        | none =>
          refine ⟨true, none, fun fuel fs db hf => ?_⟩
          obtain ⟨f, rfl⟩ : ∃ f, fuel = f + 1 := ⟨fuel - 1, by omega⟩
          rw [trydelem]
          simp only [if_pos c1, hattr db, hn, set_estatus_errset]
        | some name =>
          refine ⟨e1, some res, fun fuel fs db hf => ?_⟩
          obtain ⟨f, rfl⟩ : ∃ f, fuel = f + 1 := ⟨fuel - 1, by omega⟩
          rw [trydelem]
          simp only [if_pos c1, hattr db, hn]
      · by_cases c2 : node.name = "stripe" ∨ node.name = "array"
        · obtain ⟨e1, res, hattr⟩ := foldl_uniform stripe_attr stripe_attr_uniform
            node.properties (new_stripe node.name)
          obtain ⟨e2, res2, hloop⟩ := hloopD res
          refine ⟨e1 || e2, some res2, fun fuel fs db hf => ?_⟩
          obtain ⟨f, rfl⟩ : ∃ f, fuel = f + 1 := ⟨fuel - 1, by omega⟩
          rw [trydelem]
          simp only [if_neg c1, if_pos c2, hattr db, hloop f fs _ hf, Option.map_some',
            errset_errset]
        · cases hw : reg_width node.name with
          | none =>
            refine ⟨false, none, fun fuel fs db hf => ?_⟩
            obtain ⟨f, rfl⟩ : ∃ f, fuel = f + 1 := ⟨fuel - 1, by omega⟩
            rw [trydelem]
            simp only [if_neg c1, if_neg c2, hw, errset_false]
          | some width =>
            obtain ⟨e1, res, hattr⟩ := foldl_uniform reg_attr reg_attr_uniform
              node.properties (new_reg width)
            obtain ⟨e2, ti2, hloop⟩ := hloopTT res.typeinfo
            cases hn : res.name with
            | none =>
              refine ⟨true, none, fun fuel fs db hf => ?_⟩
              obtain ⟨f, rfl⟩ : ∃ f, fuel = f + 1 := ⟨fuel - 1, by omega⟩
              rw [trydelem]
              simp only [if_neg c1, if_neg c2, hw, hattr db, hloop f fs _ hf, hn,
                errset_errset, set_estatus_errset]
            | some name =>
              refine ⟨e1 || e2, some { res with typeinfo := ti2 }, fun fuel fs db hf => ?_⟩
              obtain ⟨f, rfl⟩ : ∃ f, fuel = f + 1 := ⟨fuel - 1, by omega⟩
              rw [trydelem]
              simp only [if_neg c1, if_neg c2, hw, hattr db, hloop f fs _ hf, hn,
                errset_errset]
    refine ⟨hV, hB, hD, fun ti => ?_⟩
    by_cases c1 : node.name = "value"
    · obtain ⟨e, v, h⟩ := hV
      cases v with
      | none =>
        refine ⟨e, ti, true, fun fuel fs db hf => ?_⟩
        obtain ⟨f, rfl⟩ : ∃ f, fuel = f + 1 := ⟨fuel - 1, by omega⟩
        rw [trytypetag]
        simp only [if_pos c1, h f fs db (by omega)]
      | some v =>
        refine ⟨e, { ti with vals := ti.vals ++ [v] }, true, fun fuel fs db hf => ?_⟩
        obtain ⟨f, rfl⟩ : ∃ f, fuel = f + 1 := ⟨fuel - 1, by omega⟩
        rw [trytypetag]
        simp only [if_pos c1, h f fs db (by omega)]
    · by_cases c2 : node.name = "bitfield"
      · obtain ⟨e, v, h⟩ := hB
        cases v with
        | none =>
          refine ⟨e, ti, true, fun fuel fs db hf => ?_⟩
          obtain ⟨f, rfl⟩ : ∃ f, fuel = f + 1 := ⟨fuel - 1, by omega⟩
          rw [trytypetag]
          simp only [if_neg c1, if_pos c2, h f fs db (by omega)]
        | some v =>
          refine ⟨e, { ti with bitfields := ti.bitfields ++ [v] }, true,
            fun fuel fs db hf => ?_⟩
          obtain ⟨f, rfl⟩ : ∃ f, fuel = f + 1 := ⟨fuel - 1, by omega⟩
          rw [trytypetag]
          simp only [if_neg c1, if_pos c2, h f fs db (by omega)]
      · refine ⟨false, ti, false, fun fuel fs db hf => ?_⟩
        obtain ⟨f, rfl⟩ : ∃ f, fuel = f + 1 := ⟨fuel - 1, by omega⟩
        rw [trytypetag]
        simp only [if_neg c1, if_neg c2, errset_false]

/-! ## Stores through an index -/

theorem modify_at_comp {α : Type} (f g : α → α) :
    ∀ (l : List α) (i : Nat),
      modify_at g (modify_at f l i) i = modify_at (fun x => g (f x)) l i := by
  intro l
  induction l with
  | nil => intro i; rfl
  | cons x xs ih =>
    intro i
    cases i with
    | zero => rfl
    | succ i => simp only [modify_at, ih]

theorem modify_at_id {α : Type} (f : α → α) (hf : ∀ x, f x = x) :
    ∀ (l : List α) (i : Nat), modify_at f l i = l := by
  intro l
  induction l with
  | nil => intro i; rfl
  | cons x xs ih =>
    intro i
    cases i with
    | zero => simp only [modify_at, hf]
    | succ i => simp only [modify_at, ih]

theorem modify_at_append_length {α : Type} (f : α → α) (x : α) :
    ∀ (l : List α), modify_at f (l ++ [x]) l.length = l ++ [f x] := by
  intro l
  induction l with
  | nil => rfl
  | cons y ys ih =>
    show y :: modify_at f (ys ++ [x]) ys.length = y :: (ys ++ [f x])
    rw [ih]

theorem find_named_append {α : Type} (nm : α → String) (name : String) (x : α)
    (hx : nm x = name) :
    ∀ (l : List α) (k : Nat), find_named nm name l k = none →
      find_named nm name (l ++ [x]) k = some (k + l.length, x) := by
  intro l
  induction l with
  | nil => intro k _; simp [find_named, hx]
  | cons y ys ih =>
    intro k h
    unfold find_named at h
    split at h
    · exact Option.noConfusion h
    · next hy =>
      rw [List.cons_append, find_named, if_neg hy, ih (k + 1) h, List.length_cons]
      congr 2
      omega

theorem strdiff_self (a : Option String) : strdiff a a = false := by
  cases a <;> simp [strdiff]

/-! ## A self-contained declaration of an enum -/

theorem foldl_enum_addval (cur : Nat) :
    ∀ (vs : List rnnvalue) (db : rnndb),
      vs.foldl (fun db v => enum_addval db cur v) db =
        { db with enums := modify_at (fun e => { e with vals := e.vals ++ vs }) db.enums cur } := by
  intro vs
  induction vs with
  | nil =>
    intro db
    rw [List.foldl_nil, modify_at_id _ (fun e => by rw [List.append_nil])]
  | cons v vs ih =>
    intro db
    rw [List.foldl_cons, ih]
    unfold enum_addval
    simp only [modify_at_comp, List.append_assoc, List.singleton_append]

theorem parseenum_cur_errset (e : Bool) (db : rnndb) (name : String) (a : enum_attrs) :
    parseenum_cur (errset e db) name a =
      (errset e (parseenum_cur db name a).1, (parseenum_cur db name a).2) := by
  unfold parseenum_cur
  rw [errset_enums]
  split
  · split
    · rw [set_estatus_errset]; cases e <;> rfl
    · rfl
  · cases e <;> rfl

/-- The run of `parseenum` on a declaration with self-contained children:
the merge step, then the values of the declaration appended to the enum. -/
theorem parseenum_plain (node : xmlNode) (name : String)
    (hp : plain_list node.children = true)
    (hname : (enum_decl_attrs node).name = some name) :
    ∃ (err : Bool) (vals : List rnnvalue), ∀ fuel fs db, 2 * depth node ≤ fuel →
      parseenum fuel fs db node = some (errset err
        { (parseenum_cur db name (enum_decl_attrs node)).1 with
          enums := modify_at (fun e => { e with vals := e.vals ++ vals })
            (parseenum_cur db name (enum_decl_attrs node)).1.enums
            (parseenum_cur db name (enum_decl_attrs node)).2 }) := by
  have hpc : ∀ c, c ∈ node.children → plain c = true := plain_of_mem _ hp
  have hdc : ∀ c, c ∈ node.children → depth c + 1 ≤ depth node :=
    fun c hc => depth_child_lt node c hc
  have hpos := depth_pos node
  obtain ⟨e2, vals, hloop⟩ := foldlM_adds (fun fuel => 2 * depth node ≤ fuel + 1)
    enum_addval enum_addval_errset
    (fun fuel fs cur => enum_child (fun db chain => parsevalue fuel fs db chain)
      (fun db chain => trytop fuel fs db chain) cur) node.children
    (fun c hc => by
      have hc1 := depth_pos c
      obtain ⟨e, xs, h⟩ := enum_child_plain c (hpc c hc) (2 * depth c) (by omega)
        (plain_uniform (depth c) c (hpc c hc) (le_refl _)).1
      exact ⟨e, xs, fun fuel fs cur db hok => h fuel fs cur db (by have := hdc c hc; omega)⟩)
  obtain ⟨e1, a, hattr⟩ := foldl_uniform parseenum_attr parseenum_attr_uniform
    node.properties enum_attrs_zero
  have ha : enum_decl_attrs node = a := by rw [enum_decl_attrs, hattr rnn_newdb]
  rw [ha] at hname ⊢
  refine ⟨e1 || e2, vals, fun fuel fs db hf => ?_⟩
  obtain ⟨f, rfl⟩ : ∃ f, fuel = f + 1 := ⟨fuel - 1, by omega⟩
  rw [parseenum]
  simp only [hattr db, hname, parseenum_cur_errset, hloop f fs _ _ hf, foldl_enum_addval]
  cases e1 <;> cases e2 <;> rfl

theorem errset_estatus_newdb (err : Bool) (db : rnndb) (h : db.estatus = 0) :
    ((errset err db).estatus != 0) = err := by
  cases err
  · simp [errset, h]
  · simp [errset, set_estatus]

/-- The two cases of `parseenum` on a declaration with self-contained
children, with the values and the error flag of the declaration on its own:
under a new name the enum is appended with these values; under an existing
name without a mismatch the values are appended to the existing enum. -/
theorem parseenum_cases (node : xmlNode) (name : String)
    (hp : plain_list node.children = true)
    (hname : (enum_decl_attrs node).name = some name) :
    (∀ fuel fs db, 2 * depth node ≤ fuel →
      find_named rnnenum.name name db.enums 0 = none →
      parseenum fuel fs db node = some (errset (decl_err parseenum node)
        { db with
          enums := db.enums ++
            [{ new_rnnenum name (enum_decl_attrs node) with vals := enum_decl_vals node }] })) ∧
    (∀ fuel fs db i cur, 2 * depth node ≤ fuel →
      find_named rnnenum.name name db.enums 0 = some (i, cur) →
      enum_mismatch cur (enum_decl_attrs node) = false →
      parseenum fuel fs db node = some (errset (decl_err parseenum node)
        { db with
          enums := modify_at (fun e => { e with vals := e.vals ++ enum_decl_vals node })
            db.enums i })) := by
  obtain ⟨err, vals, h⟩ := parseenum_plain node name hp hname
  have hfresh : ∀ fuel fs db, 2 * depth node ≤ fuel →
      find_named rnnenum.name name db.enums 0 = none →
      parseenum fuel fs db node = some (errset err
        { db with
          enums := db.enums ++
            [{ new_rnnenum name (enum_decl_attrs node) with vals := vals }] }) := by
    intro fuel fs db hf hfind
    rw [h fuel fs db hf]
    have hc : parseenum_cur db name (enum_decl_attrs node) =
        ({ db with enums := db.enums ++ [new_rnnenum name (enum_decl_attrs node)] },
          db.enums.length) := by
      unfold parseenum_cur; rw [hfind]
    rw [hc]
    simp only [modify_at_append_length]
    rfl
  have halone := hfresh (2 * depth node) (fun _ => none) rnn_newdb (le_refl _) rfl
  have hv : enum_decl_vals node = vals := by
    unfold enum_decl_vals decl_alone
    rw [halone]
    cases err <;> simp [errset, set_estatus, rnn_newdb, new_rnnenum]
  have he : decl_err parseenum node = err := by
    unfold decl_err decl_alone
    rw [halone]
    exact errset_estatus_newdb err _ rfl
  rw [hv, he]
  refine ⟨hfresh, ?_⟩
  intro fuel fs db i cur hf hfind hm
  rw [h fuel fs db hf]
  have hc : parseenum_cur db name (enum_decl_attrs node) = (db, i) := by
    unfold parseenum_cur; rw [hfind]; simp only [hm, Bool.false_eq_true, if_false]
  rw [hc]

theorem enum_mismatch_new (name : String) (a : enum_attrs) (vals : List rnnvalue) :
    enum_mismatch { new_rnnenum name a with vals := vals } a = false := by
  simp [enum_mismatch, new_rnnenum, strdiff_self]

/-- Two declarations of an enum with the same attributes and self-contained
children, the first under a new name. -/
theorem parseenum_merge (n1 n2 : xmlNode) (name : String) (fuel : Nat) (fs : xmlFiles)
    (db0 : rnndb) (hp1 : plain_list n1.children = true) (hp2 : plain_list n2.children = true)
    (hattrs : enum_decl_attrs n1 = enum_decl_attrs n2)
    (hname : (enum_decl_attrs n1).name = some name)
    (hf1 : 2 * depth n1 ≤ fuel) (hf2 : 2 * depth n2 ≤ fuel)
    (hfresh : find_named rnnenum.name name db0.enums 0 = none) :
    parseenum fuel fs db0 n1 = some (errset (decl_err parseenum n1)
      { db0 with
        enums := db0.enums ++
          [{ new_rnnenum name (enum_decl_attrs n1) with vals := enum_decl_vals n1 }] }) ∧
    ∀ db1 : rnndb,
      db1.enums = db0.enums ++
          [{ new_rnnenum name (enum_decl_attrs n1) with vals := enum_decl_vals n1 }] →
      parseenum fuel fs db1 n2 = some (errset (decl_err parseenum n2)
        { db1 with
          enums := db0.enums ++
            [{ new_rnnenum name (enum_decl_attrs n1) with
                vals := enum_decl_vals n1 ++ enum_decl_vals n2 }] }) := by
  refine ⟨(parseenum_cases n1 name hp1 hname).1 fuel fs db0 hf1 hfresh, fun db1 hdb1 => ?_⟩
  have hfind : find_named rnnenum.name name db1.enums 0 = some (db0.enums.length,
      { new_rnnenum name (enum_decl_attrs n1) with vals := enum_decl_vals n1 }) := by
    rw [hdb1, find_named_append rnnenum.name name _ rfl db0.enums 0 hfresh, Nat.zero_add]
  rw [(parseenum_cases n2 name hp2 (hattrs ▸ hname)).2 fuel fs db1 _ _ hf2 hfind
    (hattrs ▸ enum_mismatch_new name _ _), hdb1, modify_at_append_length]

/-! ## A self-contained declaration of a bitset -/

theorem foldl_bitset_addbitfield (cur : Nat) :
    ∀ (vs : List rnnbitfield) (db : rnndb),
      vs.foldl (fun db v => bitset_addbitfield db cur v) db =
        { db with bitsets := modify_at (fun e => { e with bitfields := e.bitfields ++ vs }) db.bitsets cur } := by
  intro vs
  induction vs with
  | nil =>
    intro db
    rw [List.foldl_nil, modify_at_id _ (fun e => by rw [List.append_nil])]
  | cons v vs ih =>
    intro db
    rw [List.foldl_cons, ih]
    unfold bitset_addbitfield
    simp only [modify_at_comp, List.append_assoc, List.singleton_append]

theorem parsebitset_cur_errset (e : Bool) (db : rnndb) (name : String) (a : enum_attrs) :
    parsebitset_cur (errset e db) name a =
      (errset e (parsebitset_cur db name a).1, (parsebitset_cur db name a).2) := by
  unfold parsebitset_cur
  rw [errset_bitsets]
  split
  · split
    · rw [set_estatus_errset]; cases e <;> rfl
    · rfl
  · cases e <;> rfl

/-- The run of `parsebitset` on a declaration with self-contained children:
the merge step, then the bitfields of the declaration appended to the bitset. -/
theorem parsebitset_plain (node : xmlNode) (name : String)
    (hp : plain_list node.children = true)
    (hname : (enum_decl_attrs node).name = some name) :
    ∃ (err : Bool) (vals : List rnnbitfield), ∀ fuel fs db, 2 * depth node ≤ fuel →
      parsebitset fuel fs db node = some (errset err
        { (parsebitset_cur db name (enum_decl_attrs node)).1 with
          bitsets := modify_at (fun e => { e with bitfields := e.bitfields ++ vals })
            (parsebitset_cur db name (enum_decl_attrs node)).1.bitsets
            (parsebitset_cur db name (enum_decl_attrs node)).2 }) := by
  have hpc : ∀ c, c ∈ node.children → plain c = true := plain_of_mem _ hp
  have hdc : ∀ c, c ∈ node.children → depth c + 1 ≤ depth node :=
    fun c hc => depth_child_lt node c hc
  have hpos := depth_pos node
  obtain ⟨e2, vals, hloop⟩ := foldlM_adds (fun fuel => 2 * depth node ≤ fuel + 1)
    bitset_addbitfield bitset_addbitfield_errset
    (fun fuel fs cur => bitset_child (fun db chain => parsebitfield fuel fs db chain)
      (fun db chain => trytop fuel fs db chain) cur) node.children
    (fun c hc => by
      have hc1 := depth_pos c
      obtain ⟨e, xs, h⟩ := bitset_child_plain c (hpc c hc) (2 * depth c) (by omega)
        (plain_uniform (depth c) c (hpc c hc) (le_refl _)).2.1
      exact ⟨e, xs, fun fuel fs cur db hok => h fuel fs cur db (by have := hdc c hc; omega)⟩)
  obtain ⟨e1, a, hattr⟩ := foldl_uniform parseenum_attr parseenum_attr_uniform
    node.properties enum_attrs_zero
  have ha : enum_decl_attrs node = a := by rw [enum_decl_attrs, hattr rnn_newdb]
  rw [ha] at hname ⊢
  refine ⟨e1 || e2, vals, fun fuel fs db hf => ?_⟩
  obtain ⟨f, rfl⟩ : ∃ f, fuel = f + 1 := ⟨fuel - 1, by omega⟩
  rw [parsebitset]
  simp only [hattr db, hname, parsebitset_cur_errset, hloop f fs _ _ hf, foldl_bitset_addbitfield]
  cases e1 <;> cases e2 <;> rfl
/-- The two cases of `parsebitset` on a declaration with self-contained
children, with the bitfields and the error flag of the declaration on its own:
under a new name the bitset is appended with these bitfields; under an existing
name without a mismatch the bitfields are appended to the existing bitset. -/
theorem parsebitset_cases (node : xmlNode) (name : String)
    (hp : plain_list node.children = true)
    (hname : (enum_decl_attrs node).name = some name) :
    (∀ fuel fs db, 2 * depth node ≤ fuel →
      find_named rnnbitset.name name db.bitsets 0 = none →
      parsebitset fuel fs db node = some (errset (decl_err parsebitset node)
        { db with
          bitsets := db.bitsets ++
            [{ new_rnnbitset name (enum_decl_attrs node) with bitfields := bitset_decl_bitfields node }] })) ∧
    (∀ fuel fs db i cur, 2 * depth node ≤ fuel →
      find_named rnnbitset.name name db.bitsets 0 = some (i, cur) →
      bitset_mismatch cur (enum_decl_attrs node) = false →
      parsebitset fuel fs db node = some (errset (decl_err parsebitset node)
        { db with
          bitsets := modify_at (fun e => { e with bitfields := e.bitfields ++ bitset_decl_bitfields node })
            db.bitsets i })) := by
  obtain ⟨err, vals, h⟩ := parsebitset_plain node name hp hname
  have hfresh : ∀ fuel fs db, 2 * depth node ≤ fuel →
      find_named rnnbitset.name name db.bitsets 0 = none →
      parsebitset fuel fs db node = some (errset err
        { db with
          bitsets := db.bitsets ++
            [{ new_rnnbitset name (enum_decl_attrs node) with bitfields := vals }] }) := by
    intro fuel fs db hf hfind
    rw [h fuel fs db hf]
    have hc : parsebitset_cur db name (enum_decl_attrs node) =
        ({ db with bitsets := db.bitsets ++ [new_rnnbitset name (enum_decl_attrs node)] },
          db.bitsets.length) := by
      unfold parsebitset_cur; rw [hfind]
    rw [hc]
    simp only [modify_at_append_length]
    rfl
  have halone := hfresh (2 * depth node) (fun _ => none) rnn_newdb (le_refl _) rfl
  have hv : bitset_decl_bitfields node = vals := by
    unfold bitset_decl_bitfields decl_alone
    rw [halone]
    cases err <;> simp [errset, set_estatus, rnn_newdb, new_rnnbitset]
  have he : decl_err parsebitset node = err := by
    unfold decl_err decl_alone
    rw [halone]
    exact errset_estatus_newdb err _ rfl
  rw [hv, he]
  refine ⟨hfresh, ?_⟩
  intro fuel fs db i cur hf hfind hm
  rw [h fuel fs db hf]
  have hc : parsebitset_cur db name (enum_decl_attrs node) = (db, i) := by
    unfold parsebitset_cur; rw [hfind]; simp only [hm, Bool.false_eq_true, if_false]
  rw [hc]

theorem bitset_mismatch_new (name : String) (a : enum_attrs) (vals : List rnnbitfield) :
    bitset_mismatch { new_rnnbitset name a with bitfields := vals } a = false := by
  simp [bitset_mismatch, new_rnnbitset, strdiff_self]

/-- Two declarations of a bitset with the same attributes and self-contained
children, the first under a new name. -/
theorem parsebitset_merge (n1 n2 : xmlNode) (name : String) (fuel : Nat) (fs : xmlFiles)
    (db0 : rnndb) (hp1 : plain_list n1.children = true) (hp2 : plain_list n2.children = true)
    (hattrs : enum_decl_attrs n1 = enum_decl_attrs n2)
    (hname : (enum_decl_attrs n1).name = some name)
    (hf1 : 2 * depth n1 ≤ fuel) (hf2 : 2 * depth n2 ≤ fuel)
    (hfresh : find_named rnnbitset.name name db0.bitsets 0 = none) :
    parsebitset fuel fs db0 n1 = some (errset (decl_err parsebitset n1)
      { db0 with
        bitsets := db0.bitsets ++
          [{ new_rnnbitset name (enum_decl_attrs n1) with bitfields := bitset_decl_bitfields n1 }] }) ∧
    ∀ db1 : rnndb,
      db1.bitsets = db0.bitsets ++
          [{ new_rnnbitset name (enum_decl_attrs n1) with bitfields := bitset_decl_bitfields n1 }] →
      parsebitset fuel fs db1 n2 = some (errset (decl_err parsebitset n2)
        { db1 with
          bitsets := db0.bitsets ++
            [{ new_rnnbitset name (enum_decl_attrs n1) with
                bitfields := bitset_decl_bitfields n1 ++ bitset_decl_bitfields n2 }] }) := by
  refine ⟨(parsebitset_cases n1 name hp1 hname).1 fuel fs db0 hf1 hfresh, fun db1 hdb1 => ?_⟩
  have hfind : find_named rnnbitset.name name db1.bitsets 0 = some (db0.bitsets.length,
      { new_rnnbitset name (enum_decl_attrs n1) with bitfields := bitset_decl_bitfields n1 }) := by
    rw [hdb1, find_named_append rnnbitset.name name _ rfl db0.bitsets 0 hfresh, Nat.zero_add]
  rw [(parsebitset_cases n2 name hp2 (hattrs ▸ hname)).2 fuel fs db1 _ _ hf2 hfind
    (hattrs ▸ bitset_mismatch_new name _ _), hdb1, modify_at_append_length]

/-! ## A self-contained declaration of a domain -/

theorem foldl_domain_addsubelem (cur : Nat) :
    ∀ (vs : List rnndelem) (db : rnndb),
      vs.foldl (fun db v => domain_addsubelem db cur v) db =
        { db with
          domains := modify_at (fun e => { e with subelems := e.subelems ++ vs })
            db.domains cur } := by
  intro vs
  induction vs with
  | nil =>
    intro db
    rw [List.foldl_nil, modify_at_id _ (fun e => by rw [List.append_nil])]
  | cons v vs ih =>
    intro db
    rw [List.foldl_cons, ih]
    unfold domain_addsubelem
    simp only [modify_at_comp, List.append_assoc, List.singleton_append]

theorem parsedomain_cur_errset (e : Bool) (db : rnndb) (name : String) (a : domain_attrs) :
    parsedomain_cur (errset e db) name a =
      (errset e (parsedomain_cur db name a).1, (parsedomain_cur db name a).2) := by
  unfold parsedomain_cur
  rw [errset_domains]
  split
  · split
    · rw [set_estatus_errset]; cases e <;> rfl
    · split
      · cases e <;> rfl
      · rfl
  · cases e <;> rfl

/-- The run of `parsedomain` on a declaration with self-contained children:
the merge step, then the subelements of the declaration appended to the
domain. -/
theorem parsedomain_plain (node : xmlNode) (name : String)
    (hp : plain_list node.children = true)
    (hname : (domain_decl_attrs node).name = some name) :
    ∃ (err : Bool) (subs : List rnndelem), ∀ fuel fs db, 2 * depth node ≤ fuel →
      parsedomain fuel fs db node = some (errset err
        { (parsedomain_cur db name (domain_decl_attrs node)).1 with
          domains := modify_at (fun e => { e with subelems := e.subelems ++ subs })
            (parsedomain_cur db name (domain_decl_attrs node)).1.domains
            (parsedomain_cur db name (domain_decl_attrs node)).2 }) := by
  have hpc : ∀ c, c ∈ node.children → plain c = true := plain_of_mem _ hp
  have hdc : ∀ c, c ∈ node.children → depth c + 1 ≤ depth node :=
    fun c hc => depth_child_lt node c hc
  have hpos := depth_pos node
  obtain ⟨e2, subs, hloop⟩ := foldlM_adds (fun fuel => 2 * depth node ≤ fuel + 1)
    domain_addsubelem domain_addsubelem_errset
    (fun fuel fs cur => delem_child (fun db chain => trydelem fuel fs db chain)
      (fun db chain => trytop fuel fs db chain)
      (fun db delem => domain_addsubelem db cur delem)) node.children
    (fun c hc => by
      have hc1 := depth_pos c
      obtain ⟨e, xs, h⟩ := delem_child_plain domain_addsubelem domain_addsubelem_errset c
        (hpc c hc) (2 * depth c) (by omega)
        (plain_uniform (depth c) c (hpc c hc) (le_refl _)).2.2.1
      exact ⟨e, xs, fun fuel fs cur db hok => h fuel fs cur db (by have := hdc c hc; omega)⟩)
  obtain ⟨e1, a, hattr⟩ := foldl_uniform parsedomain_attr parsedomain_attr_uniform
    node.properties domain_attrs_zero
  have ha : domain_decl_attrs node = a := by rw [domain_decl_attrs, hattr rnn_newdb]
  rw [ha] at hname ⊢
  refine ⟨e1 || e2, subs, fun fuel fs db hf => ?_⟩
  obtain ⟨f, rfl⟩ : ∃ f, fuel = f + 1 := ⟨fuel - 1, by omega⟩
  rw [parsedomain]
  simp only [hattr db, hname, parsedomain_cur_errset, hloop f fs _ _ hf,
    foldl_domain_addsubelem]
  cases e1 <;> cases e2 <;> rfl

/-- The two cases of `parsedomain` on a declaration with self-contained
children, with the subelements and the error flag of the declaration on its
own: under a new name the domain is appended with these subelements; under an
existing name without a mismatch the subelements are appended to the existing
domain, whose size is replaced by a non-zero size of the declaration. -/
theorem parsedomain_cases (node : xmlNode) (name : String)
    (hp : plain_list node.children = true)
    (hname : (domain_decl_attrs node).name = some name) :
    (∀ fuel fs db, 2 * depth node ≤ fuel →
      find_named rnndomain.name name db.domains 0 = none →
      parsedomain fuel fs db node = some (errset (decl_err parsedomain node)
        { db with
          domains := db.domains ++
            [{ new_rnndomain name (domain_decl_attrs node) with
                subelems := domain_decl_subelems node }] })) ∧
    (∀ fuel fs db i cur, 2 * depth node ≤ fuel →
      find_named rnndomain.name name db.domains 0 = some (i, cur) →
      domain_mismatch cur (domain_decl_attrs node) = false →
      parsedomain fuel fs db node = some (errset (decl_err parsedomain node)
        { db with
          domains := modify_at (fun e =>
            { e with
              size := if (domain_decl_attrs node).size != 0 then (domain_decl_attrs node).size
                else e.size,
              subelems := e.subelems ++ domain_decl_subelems node })
            db.domains i })) := by
  obtain ⟨err, subs, h⟩ := parsedomain_plain node name hp hname
  have hfresh : ∀ fuel fs db, 2 * depth node ≤ fuel →
      find_named rnndomain.name name db.domains 0 = none →
      parsedomain fuel fs db node = some (errset err
        { db with
          domains := db.domains ++
            [{ new_rnndomain name (domain_decl_attrs node) with subelems := subs }] }) := by
    intro fuel fs db hf hfind
    rw [h fuel fs db hf]
    have hc : parsedomain_cur db name (domain_decl_attrs node) =
        ({ db with domains := db.domains ++ [new_rnndomain name (domain_decl_attrs node)] },
          db.domains.length) := by
      unfold parsedomain_cur; rw [hfind]
    rw [hc]
    simp only [modify_at_append_length]
    rfl
  have halone := hfresh (2 * depth node) (fun _ => none) rnn_newdb (le_refl _) rfl
  have hv : domain_decl_subelems node = subs := by
    unfold domain_decl_subelems decl_alone
    rw [halone]
    cases err <;> simp [errset, set_estatus, rnn_newdb, new_rnndomain]
  have he : decl_err parsedomain node = err := by
    unfold decl_err decl_alone
    rw [halone]
    exact errset_estatus_newdb err _ rfl
  rw [hv, he]
  refine ⟨hfresh, ?_⟩
  intro fuel fs db i cur hf hfind hm
  rw [h fuel fs db hf]
  by_cases hs : ((domain_decl_attrs node).size != 0) = true
  · have hc : parsedomain_cur db name (domain_decl_attrs node) =
        ({ db with
            domains := modify_at (fun d => { d with size := (domain_decl_attrs node).size })
              db.domains i }, i) := by
      unfold parsedomain_cur; rw [hfind]
      simp only [hm, hs, Bool.false_eq_true, if_false, if_true]
    rw [hc]
    simp only [modify_at_comp, hs, if_true]
  · have hc : parsedomain_cur db name (domain_decl_attrs node) = (db, i) := by
      unfold parsedomain_cur; rw [hfind]
      simp only [hm, hs, Bool.false_eq_true, if_false]
    rw [hc]
    simp only [hs, Bool.false_eq_true, if_false]

theorem domain_mismatch_new (name : String) (a : domain_attrs) (subs : List rnndelem) :
    domain_mismatch { new_rnndomain name a with subelems := subs } a = false := by
  simp [domain_mismatch, new_rnndomain, strdiff_self]

/-- Two declarations of a domain with the same attributes and self-contained
children, the first under a new name. -/
theorem parsedomain_merge (n1 n2 : xmlNode) (name : String) (fuel : Nat) (fs : xmlFiles)
    (db0 : rnndb) (hp1 : plain_list n1.children = true) (hp2 : plain_list n2.children = true)
    (hattrs : domain_decl_attrs n1 = domain_decl_attrs n2)
    (hname : (domain_decl_attrs n1).name = some name)
    (hf1 : 2 * depth n1 ≤ fuel) (hf2 : 2 * depth n2 ≤ fuel)
    (hfresh : find_named rnndomain.name name db0.domains 0 = none) :
    parsedomain fuel fs db0 n1 = some (errset (decl_err parsedomain n1)
      { db0 with
        domains := db0.domains ++
          [{ new_rnndomain name (domain_decl_attrs n1) with
              subelems := domain_decl_subelems n1 }] }) ∧
    ∀ db1 : rnndb,
      db1.domains = db0.domains ++
          [{ new_rnndomain name (domain_decl_attrs n1) with
              subelems := domain_decl_subelems n1 }] →
      parsedomain fuel fs db1 n2 = some (errset (decl_err parsedomain n2)
        { db1 with
          domains := db0.domains ++
            [{ new_rnndomain name (domain_decl_attrs n1) with
                subelems := domain_decl_subelems n1 ++ domain_decl_subelems n2 }] }) := by
  refine ⟨(parsedomain_cases n1 name hp1 hname).1 fuel fs db0 hf1 hfresh, fun db1 hdb1 => ?_⟩
  have hfind : find_named rnndomain.name name db1.domains 0 = some (db0.domains.length,
      { new_rnndomain name (domain_decl_attrs n1) with
        subelems := domain_decl_subelems n1 }) := by
    rw [hdb1, find_named_append rnndomain.name name _ rfl db0.domains 0 hfresh, Nat.zero_add]
  rw [(parsedomain_cases n2 name hp2 (hattrs ▸ hname)).2 fuel fs db1 _ _ hf2 hfind
    (hattrs ▸ domain_mismatch_new name _ _), hdb1, modify_at_append_length, ← hattrs]
  simp [new_rnndomain]

/-! ## Merge consistency -/

/-- C9: two declarations of an enum with the same name and the same decoded
attributes (prefix, varset, variants, inline, bare), whose children hold no
nested top-level tag, parsed with enough fuel, the first into a database
without that name: after the first the database holds, appended, one enum of
that name with the values of the first declaration; after the second, parsed
into any database with that list of enums, the list is the old one followed
by that one enum, whose values are those of the first declaration followed
by those of the second, and nothing else has changed but `estatus`, which is
set exactly when the second declaration sets it on its own, so the merge sets
nothing. The same for bitsets with their bitfields and for domains (same
prefix, varset, variants, width, bare and size) with their subelements. -/
theorem merge_consistency :
    (∀ (n1 n2 : xmlNode) (name : String) (fuel : Nat) (fs : xmlFiles) (db0 : rnndb),
      plain_list n1.children = true → plain_list n2.children = true →
      enum_decl_attrs n1 = enum_decl_attrs n2 →
      (enum_decl_attrs n1).name = some name →
      2 * depth n1 ≤ fuel → 2 * depth n2 ≤ fuel →
      find_named rnnenum.name name db0.enums 0 = none →
      parseenum fuel fs db0 n1 = some (errset (decl_err parseenum n1)
        { db0 with
          enums := db0.enums ++
            [{ new_rnnenum name (enum_decl_attrs n1) with vals := enum_decl_vals n1 }] }) ∧
      ∀ db1 : rnndb,
        db1.enums = db0.enums ++
            [{ new_rnnenum name (enum_decl_attrs n1) with vals := enum_decl_vals n1 }] →
        parseenum fuel fs db1 n2 = some (errset (decl_err parseenum n2)
          { db1 with
            enums := db0.enums ++
              [{ new_rnnenum name (enum_decl_attrs n1) with
                  vals := enum_decl_vals n1 ++ enum_decl_vals n2 }] })) ∧
    (∀ (n1 n2 : xmlNode) (name : String) (fuel : Nat) (fs : xmlFiles) (db0 : rnndb),
      plain_list n1.children = true → plain_list n2.children = true →
      enum_decl_attrs n1 = enum_decl_attrs n2 →
      (enum_decl_attrs n1).name = some name →
      2 * depth n1 ≤ fuel → 2 * depth n2 ≤ fuel →
      find_named rnnbitset.name name db0.bitsets 0 = none →
      parsebitset fuel fs db0 n1 = some (errset (decl_err parsebitset n1)
        { db0 with
          bitsets := db0.bitsets ++
            [{ new_rnnbitset name (enum_decl_attrs n1) with
                bitfields := bitset_decl_bitfields n1 }] }) ∧
      ∀ db1 : rnndb,
        db1.bitsets = db0.bitsets ++
            [{ new_rnnbitset name (enum_decl_attrs n1) with
                bitfields := bitset_decl_bitfields n1 }] →
        parsebitset fuel fs db1 n2 = some (errset (decl_err parsebitset n2)
          { db1 with
            bitsets := db0.bitsets ++
              [{ new_rnnbitset name (enum_decl_attrs n1) with
                  bitfields := bitset_decl_bitfields n1 ++ bitset_decl_bitfields n2 }] })) ∧
    (∀ (n1 n2 : xmlNode) (name : String) (fuel : Nat) (fs : xmlFiles) (db0 : rnndb),
      plain_list n1.children = true → plain_list n2.children = true →
      domain_decl_attrs n1 = domain_decl_attrs n2 →
      (domain_decl_attrs n1).name = some name →
      2 * depth n1 ≤ fuel → 2 * depth n2 ≤ fuel →
      find_named rnndomain.name name db0.domains 0 = none →
      parsedomain fuel fs db0 n1 = some (errset (decl_err parsedomain n1)
        { db0 with
          domains := db0.domains ++
            [{ new_rnndomain name (domain_decl_attrs n1) with
                subelems := domain_decl_subelems n1 }] }) ∧
      ∀ db1 : rnndb,
        db1.domains = db0.domains ++
            [{ new_rnndomain name (domain_decl_attrs n1) with
                subelems := domain_decl_subelems n1 }] →
        parsedomain fuel fs db1 n2 = some (errset (decl_err parsedomain n2)
          { db1 with
            domains := db0.domains ++
              [{ new_rnndomain name (domain_decl_attrs n1) with
                  subelems := domain_decl_subelems n1 ++ domain_decl_subelems n2 }] })) :=
  ⟨fun n1 n2 name fuel fs db0 hp1 hp2 hattrs hname hf1 hf2 hfresh =>
      parseenum_merge n1 n2 name fuel fs db0 hp1 hp2 hattrs hname hf1 hf2 hfresh,
    fun n1 n2 name fuel fs db0 hp1 hp2 hattrs hname hf1 hf2 hfresh =>
      parsebitset_merge n1 n2 name fuel fs db0 hp1 hp2 hattrs hname hf1 hf2 hfresh,
    fun n1 n2 name fuel fs db0 hp1 hp2 hattrs hname hf1 hf2 hfresh =>
      parsedomain_merge n1 n2 name fuel fs db0 hp1 hp2 hattrs hname hf1 hf2 hfresh⟩

set_option maxRecDepth 100000 in
/-- C9 at scenario S2: `E` with `X` in `a.xml`, then `E` with `Y` in `b.xml`.
After the first declaration the database holds `E` with `X`; after the
second, `E` with `X, Y`; so does the run of `rnn_parsefile` over the two
files, and `estatus` is 0. -/
theorem merge_consistency_witness :
    parseenum 4 files_s2 { rnn_newdb with files := ["a.xml"] } decl_E_X =
      some { db_with_E [plain_value "X" 1] with files := ["a.xml"] } ∧
    parseenum 4 files_s2 { db_with_E [plain_value "X" 1] with files := ["a.xml", "b.xml"] }
        decl_E_Y =
      some
        { db_with_E [plain_value "X" 1, plain_value "Y" 2] with
          files := ["a.xml", "b.xml"] } ∧
    (rnn_parsefile 6 files_s2 rnn_newdb "a.xml").bind
        (fun db => rnn_parsefile 6 files_s2 db "b.xml") =
      some
        { db_with_E [plain_value "X" 1, plain_value "Y" 2] with
          files := ["a.xml", "b.xml"] } ∧
    (db_with_E [plain_value "X" 1, plain_value "Y" 2]).estatus = 0 :=
  ⟨(merge_consistency.1 decl_E_X decl_E_Y "E" 4 files_s2
      { rnn_newdb with files := ["a.xml"] } rfl rfl rfl rfl (by decide) (by decide) rfl).1.trans
      rfl,
    ((merge_consistency.1 decl_E_X decl_E_Y "E" 4 files_s2
      { rnn_newdb with files := ["a.xml"] } rfl rfl rfl rfl (by decide) (by decide) rfl).2
      { db_with_E [plain_value "X" 1] with files := ["a.xml", "b.xml"] } rfl).trans rfl,
    rfl, rfl⟩

theorem rel_errset {R : rnndb → rnndb → Prop} (hR : parser_closed R) (err : Bool)
    (db : rnndb) : R db (errset err db) := by
  cases err
  · exact hR.refl db
  · exact hR.estatus db

theorem rel_wrong_tag {R : rnndb → rnndb → Prop} (hR : parser_closed R) (db : rnndb) (r : Bool)
    (chain : xmlNode) : R db (wrong_tag db r chain) := by
  unfold wrong_tag
  split
  · exact hR.estatus db
  · exact hR.refl db

theorem rel_top_child {R : rnndb → rnndb → Prop} (hR : parser_closed R)
    (top : rnndb → xmlNode → Option (rnndb × Bool))
    (ihT : ∀ db node r, top db node = some r → R db r.1)
    (db : rnndb) (chain : xmlNode) (s' : rnndb)
    (h : top_child top db chain = some s') : R db s' := by
  unfold top_child at h
  split at h
  · injection h with h; subst h; exact hR.refl db
  · split at h
    · exact Option.noConfusion h
    · next db1 r1 h1 =>
      injection h with h; subst h
      exact hR.trans (ihT _ _ _ h1) (rel_wrong_tag hR _ _ _)

theorem rel_typetag_child {R : rnndb → rnndb → Prop} (hR : parser_closed R)
    (typetag : rnndb → xmlNode → rnntypeinfo → Option (rnndb × rnntypeinfo × Bool))
    (top : rnndb → xmlNode → Option (rnndb × Bool))
    (ihTT : ∀ db node ti r, typetag db node ti = some r → R db r.1)
    (ihT : ∀ db node r, top db node = some r → R db r.1)
    (s : rnndb × rnntypeinfo) (chain : xmlNode) (s' : rnndb × rnntypeinfo)
    (h : typetag_child typetag top s chain = some s') : R s.1 s'.1 := by
  unfold typetag_child at h
  split at h
  · injection h with h; subst h; exact hR.refl _
  · split at h
    · exact Option.noConfusion h
    · next db1 ti1 h1 =>
      injection h with h; subst h
      exact ihTT _ _ _ _ h1
    · next db1 ti1 h1 =>
      split at h
      · exact Option.noConfusion h
      · next db2 r2 h2 =>
        injection h with h; subst h
        exact hR.trans (ihTT _ _ _ _ h1)
          (hR.trans (ihT _ _ _ h2) (rel_wrong_tag hR _ _ _))

theorem rel_enum_child {R : rnndb → rnndb → Prop} (hR : parser_closed R)
    (value : rnndb → xmlNode → Option (rnndb × Option rnnvalue))
    (top : rnndb → xmlNode → Option (rnndb × Bool)) (cur : Nat)
    (ihV : ∀ db node r, value db node = some r → R db r.1)
    (ihT : ∀ db node r, top db node = some r → R db r.1)
    (db : rnndb) (chain : xmlNode) (s' : rnndb)
    (h : enum_child value top cur db chain = some s') : R db s' := by
  unfold enum_child at h
  split at h
  · injection h with h; subst h; exact hR.refl _
  · split at h
    · split at h
      · exact Option.noConfusion h
      · next db1 v1 h1 =>
        injection h with h; subst h
        exact hR.trans (ihV _ _ _ h1) (hR.addval _ _ _)
      · next db1 h1 =>
        injection h with h; subst h
        exact ihV _ _ _ h1
    · split at h
      · exact Option.noConfusion h
      · next db1 r1 h1 =>
        injection h with h; subst h
        exact hR.trans (ihT _ _ _ h1) (rel_wrong_tag hR _ _ _)

theorem rel_bitset_child {R : rnndb → rnndb → Prop} (hR : parser_closed R)
    (bitfield : rnndb → xmlNode → Option (rnndb × Option rnnbitfield))
    (top : rnndb → xmlNode → Option (rnndb × Bool)) (cur : Nat)
    (ihB : ∀ db node r, bitfield db node = some r → R db r.1)
    (ihT : ∀ db node r, top db node = some r → R db r.1)
    (db : rnndb) (chain : xmlNode) (s' : rnndb)
    (h : bitset_child bitfield top cur db chain = some s') : R db s' := by
  unfold bitset_child at h
  split at h
  · injection h with h; subst h; exact hR.refl _
  · split at h
    · split at h
      · exact Option.noConfusion h
      · next db1 v1 h1 =>
        injection h with h; subst h
        exact hR.trans (ihB _ _ _ h1) (hR.addbitfield _ _ _)
      · next db1 h1 =>
        injection h with h; subst h
        exact ihB _ _ _ h1
    · split at h
      · exact Option.noConfusion h
      · next db1 r1 h1 =>
        injection h with h; subst h
        exact hR.trans (ihT _ _ _ h1) (rel_wrong_tag hR _ _ _)

theorem rel_stripe_child {R : rnndb → rnndb → Prop} (hR : parser_closed R)
    (delem : rnndb → xmlNode → Option (rnndb × Option rnndelem))
    (top : rnndb → xmlNode → Option (rnndb × Bool))
    (ihD : ∀ db node r, delem db node = some r → R db r.1)
    (ihT : ∀ db node r, top db node = some r → R db r.1)
    (s : rnndb × rnndelem) (chain : xmlNode) (s' : rnndb × rnndelem)
    (h : stripe_child delem top s chain = some s') : R s.1 s'.1 := by
  unfold stripe_child at h
  split at h
  · injection h with h; subst h; exact hR.refl _
  · split at h
    · exact Option.noConfusion h
    · next db1 d1 h1 =>
      injection h with h; subst h
      exact ihD _ _ _ h1
    · next db1 h1 =>
      split at h
      · exact Option.noConfusion h
      · next db2 r2 h2 =>
        injection h with h; subst h
        exact hR.trans (ihD _ _ _ h1)
          (hR.trans (ihT _ _ _ h2) (rel_wrong_tag hR _ _ _))

theorem rel_delem_child {R : rnndb → rnndb → Prop} (hR : parser_closed R)
    (delem : rnndb → xmlNode → Option (rnndb × Option rnndelem))
    (top : rnndb → xmlNode → Option (rnndb × Bool)) (add : rnndb → rnndelem → rnndb)
    (hadd : ∀ db d, R db (add db d))
    (ihD : ∀ db node r, delem db node = some r → R db r.1)
    (ihT : ∀ db node r, top db node = some r → R db r.1)
    (db : rnndb) (chain : xmlNode) (s' : rnndb)
    (h : delem_child delem top add db chain = some s') : R db s' := by
  unfold delem_child at h
  split at h
  · injection h with h; subst h; exact hR.refl _
  · split at h
    · exact Option.noConfusion h
    · next db1 d1 h1 =>
      injection h with h; subst h
      exact hR.trans (ihD _ _ _ h1) (hadd _ _)
    · next db1 h1 =>
      split at h
      · exact Option.noConfusion h
      · next db2 r2 h2 =>
        injection h with h; subst h
        exact hR.trans (ihD _ _ _ h1)
          (hR.trans (ihT _ _ _ h2) (rel_wrong_tag hR _ _ _))

theorem rel_root_child {R : rnndb → rnndb → Prop} (hR : parser_closed R)
    (top : rnndb → xmlNode → Option (rnndb × Bool))
    (ihT : ∀ db node r, top db node = some r → R db r.1)
    (db : rnndb) (root : xmlNode) (s' : rnndb)
    (h : root_child top db root = some s') : R db s' := by
  unfold root_child at h
  split at h
  · injection h with h; subst h; exact hR.refl _
  · split at h
    · injection h with h; subst h; exact hR.estatus _
    · exact foldlM_rel R hR.refl (fun _ _ _ => hR.trans) _
        (fun s x s' hs => rel_top_child hR top ihT s x s' hs) _ _ _ h

theorem rel_attrs {R : rnndb → rnndb → Prop} (hR : parser_closed R) {S A : Type} (step : rnndb × S → A → rnndb × S)
    (h : ∀ s a, ∃ err s', ∀ db, step (db, s) a = (errset err db, s'))
    (l : List A) (db : rnndb) (s : S) : R db (l.foldl step (db, s)).1 := by
  obtain ⟨err, s', hf⟩ := foldl_uniform step h l s
  rw [hf]
  exact rel_errset hR err db

/-- Every function of the parser relates the database it is given to the one
it leaves, for every relation that its elementary stores respect. -/
theorem parser_rel {R : rnndb → rnndb → Prop} (hR : parser_closed R) : ∀ fuel : Nat,
    (∀ fs db node ti r, trytypetag fuel fs db node ti = some r → R db r.1) ∧
    (∀ fs db node r, parsevalue fuel fs db node = some r → R db r.1) ∧
    (∀ fs db node r, parsebitfield fuel fs db node = some r → R db r.1) ∧
    (∀ fs db node r, parseenum fuel fs db node = some r → R db r) ∧
    (∀ fs db node r, parsebitset fuel fs db node = some r → R db r) ∧
    (∀ fs db node r, trydelem fuel fs db node = some r → R db r.1) ∧
    (∀ fs db node r, parsegroup fuel fs db node = some r → R db r) ∧
    (∀ fs db node r, parsedomain fuel fs db node = some r → R db r) ∧
    (∀ fs db node r, trytop fuel fs db node = some r → R db r.1) ∧
    (∀ fs db file r, rnn_parsefile fuel fs db file = some r → R db r) := by
  intro fuel
  induction fuel with
  | zero =>
    refine ⟨?_, ?_, ?_, ?_, ?_, ?_, ?_, ?_, ?_, ?_⟩
    · intro fs db node ti r h; simp [trytypetag] at h
    · intro fs db node r h; simp [parsevalue] at h
    · intro fs db node r h; simp [parsebitfield] at h
    · intro fs db node r h; simp [parseenum] at h
    · intro fs db node r h; simp [parsebitset] at h
    · intro fs db node r h; simp [trydelem] at h
    · intro fs db node r h; simp [parsegroup] at h
    · intro fs db node r h; simp [parsedomain] at h
    · intro fs db node r h; simp [trytop] at h
    · intro fs db node r h; simp [rnn_parsefile] at h
  | succ fuel ih =>
    obtain ⟨ihTT, ihV, ihB, ihE, ihBS, ihD, ihG, ihDom, ihT, ihF⟩ := ih
    refine ⟨?_, ?_, ?_, ?_, ?_, ?_, ?_, ?_, ?_, ?_⟩
    · -- trytypetag
      intro fs db node ti r h
      rw [trytypetag] at h
      split at h
      · split at h
        · exact Option.noConfusion h
        · next db1 v1 h1 => injection h with h; subst h; exact ihV _ _ _ _ h1
        · next db1 h1 => injection h with h; subst h; exact ihV _ _ _ _ h1
      · split at h
        · split at h
          · exact Option.noConfusion h
          · next db1 v1 h1 => injection h with h; subst h; exact ihB _ _ _ _ h1
          · next db1 h1 => injection h with h; subst h; exact ihB _ _ _ _ h1
        · injection h with h; subst h; exact hR.refl db
    · -- parsevalue
      intro fs db node r h
      rw [parsevalue] at h
      have hattr := rel_attrs hR parsevalue_attr parsevalue_attr_uniform node.properties db
        rnnvalue_tmp_zero
      split at h
      · exact Option.noConfusion h
      · next db1 h1 =>
        have hloop := foldlM_rel R hR.refl (fun _ _ _ => hR.trans) _
          (fun s x s' hs => rel_top_child hR _ (ihT fs) s x s' hs) _ _ _ h1
        split at h
        · injection h with h; subst h
          exact hR.trans hattr (hR.trans hloop (hR.estatus _))
        · injection h with h; subst h
          exact hR.trans hattr hloop
    · -- parsebitfield
      intro fs db node r h
      rw [parsebitfield] at h
      have hattr := rel_attrs hR parsebitfield_attr parsebitfield_attr_uniform
        node.properties db rnnbitfield_tmp_zero
      split at h
      · exact Option.noConfusion h
      · next db1 ti1 h1 =>
        have hloop := foldlM_rel (fun (a b : rnndb × rnntypeinfo) => R a.1 b.1)
          (fun _ => hR.refl _) (fun _ _ _ => hR.trans) _
          (fun s x s' hs => rel_typetag_child hR _ _ (ihTT fs) (ihT fs) s x s' hs) _ _ _ h1
        split at h
        · injection h with h; subst h
          exact hR.trans hattr (hR.trans hloop (hR.estatus _))
        · split at h
          · injection h with h; subst h
            exact hR.trans hattr (hR.trans hloop (hR.estatus _))
          · injection h with h; subst h
            exact hR.trans hattr hloop
    · -- parseenum
      intro fs db node r h
      rw [parseenum] at h
      have hattr := rel_attrs hR parseenum_attr parseenum_attr_uniform node.properties db
        enum_attrs_zero
      split at h
      · injection h with h; subst h
        exact hR.trans hattr (hR.estatus _)
      · next name hname =>
        dsimp only at h
        exact hR.trans hattr (hR.trans (hR.enum_cur _ name _)
          (foldlM_rel R hR.refl (fun _ _ _ => hR.trans) _
            (fun s x s' hs => rel_enum_child hR _ _ _ (ihV fs) (ihT fs) s x s' hs) _ _ _ h))
    · -- parsebitset
      intro fs db node r h
      rw [parsebitset] at h
      have hattr := rel_attrs hR parseenum_attr parseenum_attr_uniform node.properties db
        enum_attrs_zero
      split at h
      · injection h with h; subst h
        exact hR.trans hattr (hR.estatus _)
      · next name hname =>
        dsimp only at h
        exact hR.trans hattr (hR.trans (hR.bitset_cur _ name _)
          (foldlM_rel R hR.refl (fun _ _ _ => hR.trans) _
            (fun s x s' hs => rel_bitset_child hR _ _ _ (ihB fs) (ihT fs) s x s' hs)
            _ _ _ h))
    · -- trydelem
      intro fs db node r h
      rw [trydelem] at h
      split at h
      · have hattr := rel_attrs hR usegroup_attr usegroup_attr_uniform node.properties db
          new_usegroup
        dsimp only at h
        split at h
        · injection h with h; subst h
          exact hR.trans hattr (hR.estatus _)
        · injection h with h; subst h
          exact hattr
      · split at h
        · have hattr := rel_attrs hR stripe_attr stripe_attr_uniform node.properties db
            (new_stripe node.name)
          dsimp only at h
          obtain ⟨s1, h1, h2⟩ := Option.map_eq_some'.1 h
          subst h2
          refine hR.trans hattr ?_
          exact foldlM_rel (fun (a b : rnndb × rnndelem) => R a.1 b.1)
            (fun _ => hR.refl _) (fun _ _ _ => hR.trans) _
            (fun s x s' hs => rel_stripe_child hR _ _ (ihD fs) (ihT fs) s x s' hs) _ _ _ h1
        · split at h
          · injection h with h; subst h; exact hR.refl _
          · next width hw =>
            have hattr := rel_attrs hR reg_attr reg_attr_uniform node.properties db
              (new_reg width)
            dsimp only at h
            split at h
            · exact Option.noConfusion h
            · next db1 ti1 h1 =>
              have hloop := foldlM_rel (fun (a b : rnndb × rnntypeinfo) => R a.1 b.1)
                (fun _ => hR.refl _) (fun _ _ _ => hR.trans) _
                (fun s x s' hs => rel_typetag_child hR _ _ (ihTT fs) (ihT fs) s x s' hs)
                _ _ _ h1
              split at h
              · injection h with h; subst h
                exact hR.trans hattr (hR.trans hloop (hR.estatus _))
              · injection h with h; subst h
                exact hR.trans hattr hloop
    · -- parsegroup
      intro fs db node r h
      rw [parsegroup] at h
      have hattr := rel_attrs hR parsegroup_attr parsegroup_attr_uniform node.properties db
        none
      split at h
      · injection h with h; subst h
        exact hR.trans hattr (hR.estatus _)
      · next name hname =>
        dsimp only at h
        exact hR.trans hattr (hR.trans (hR.group_cur _ name)
          (foldlM_rel R hR.refl (fun _ _ _ => hR.trans) _
            (fun s x s' hs => rel_delem_child hR _ _ _
              (fun db d => hR.group_add db _ d) (ihD fs) (ihT fs) s x s' hs)
            _ _ _ h))
    · -- parsedomain
      intro fs db node r h
      rw [parsedomain] at h
      have hattr := rel_attrs hR parsedomain_attr parsedomain_attr_uniform node.properties db
        domain_attrs_zero
      split at h
      · injection h with h; subst h
        exact hR.trans hattr (hR.estatus _)
      · next name hname =>
        dsimp only at h
        exact hR.trans hattr (hR.trans (hR.domain_cur _ name _)
          (foldlM_rel R hR.refl (fun _ _ _ => hR.trans) _
            (fun s x s' hs => rel_delem_child hR _ _ _
              (fun db d => hR.domain_add db _ d) (ihD fs) (ihT fs) s x s' hs)
            _ _ _ h))
    · -- trytop
      intro fs db node r h
      rw [trytop] at h
      split at h
      · obtain ⟨s1, h1, h2⟩ := Option.map_eq_some'.1 h
        subst h2; exact ihE _ _ _ _ h1
      · split at h
        · obtain ⟨s1, h1, h2⟩ := Option.map_eq_some'.1 h
          subst h2; exact ihBS _ _ _ _ h1
        · split at h
          · obtain ⟨s1, h1, h2⟩ := Option.map_eq_some'.1 h
            subst h2; exact ihG _ _ _ _ h1
          · split at h
            · obtain ⟨s1, h1, h2⟩ := Option.map_eq_some'.1 h
              subst h2; exact ihDom _ _ _ _ h1
            · split at h
              · have hattr := rel_attrs hR import_attr import_attr_uniform node.properties
                  db none
                dsimp only at h
                split at h
                · injection h with h; subst h
                  exact hR.trans hattr (hR.estatus _)
                · obtain ⟨s1, h1, h2⟩ := Option.map_eq_some'.1 h
                  subst h2
                  exact hR.trans hattr (ihF _ _ _ _ h1)
              · injection h with h; subst h; exact hR.refl _
    · -- rnn_parsefile
      intro fs db file r h
      rw [rnn_parsefile] at h
      split at h
      · injection h with h; subst h; exact hR.refl _
      · next hmem =>
        have hfiles : R db { db with files := db.files ++ [file] } := hR.file db file hmem
        dsimp only at h
        split at h
        · injection h with h; subst h
          exact hR.trans hfiles (hR.estatus _)
        · next doc hdoc =>
          refine hR.trans hfiles ?_
          exact foldlM_rel R hR.refl (fun _ _ _ => hR.trans) _
            (fun s x s' hs => rel_root_child hR _ (ihT fs) s x s' hs) _ _ _ h


/-! ## Idempotent import -/

theorem parseenum_cur_files (db : rnndb) (name : String) (a : enum_attrs) :
    (parseenum_cur db name a).1.files = db.files := by
  unfold parseenum_cur
  split
  · split <;> rfl
  · rfl

theorem parsebitset_cur_files (db : rnndb) (name : String) (a : enum_attrs) :
    (parsebitset_cur db name a).1.files = db.files := by
  unfold parsebitset_cur
  split
  · split <;> rfl
  · rfl

theorem parsegroup_cur_files (db : rnndb) (name : String) :
    (parsegroup_cur db name).1.files = db.files := by
  unfold parsegroup_cur
  split <;> rfl

theorem parsedomain_cur_files (db : rnndb) (name : String) (a : domain_attrs) :
    (parsedomain_cur db name a).1.files = db.files := by
  unfold parsedomain_cur
  split
  · split
    · rfl
    · split <;> rfl
  · rfl

/-- Every store of the parser keeps `files` free of duplicates. -/
theorem files_nodup_closed :
    parser_closed (fun db db' => db.files.Nodup → db'.files.Nodup) where
  refl := fun _ h => h
  trans := fun h1 h2 h => h2 (h1 h)
  estatus := fun _ h => h
  enum_cur := fun db name a h => by rw [parseenum_cur_files]; exact h
  bitset_cur := fun db name a h => by rw [parsebitset_cur_files]; exact h
  group_cur := fun db name h => by rw [parsegroup_cur_files]; exact h
  domain_cur := fun db name a h => by rw [parsedomain_cur_files]; exact h
  addval := fun _ _ _ h => h
  addbitfield := fun _ _ _ h => h
  group_add := fun _ _ _ h => h
  domain_add := fun _ _ _ h => h
  file := fun db file hmem h => by
    show (db.files ++ [file]).Nodup
    rw [List.nodup_append]
    refine ⟨h, List.nodup_singleton _, ?_⟩
    intro a ha hb
    rw [List.mem_singleton] at hb
    subst hb
    exact hmem ha

theorem rnn_parsefile_recorded (fuel : Nat) (fs : xmlFiles) (db db' : rnndb) (file : String)
    (h : rnn_parsefile fuel fs db file = some db') : file ∈ db'.files := by
  cases fuel with
  | zero => simp [rnn_parsefile] at h
  | succ fuel =>
    rw [rnn_parsefile] at h
    split at h
    · next hmem => injection h with h; subst h; exact hmem
    · dsimp only at h
      have hin : file ∈ db.files ++ [file] := by simp
      split at h
      · injection h with h; subst h; exact hin
      · next doc hdoc =>
        have hext := foldlM_rel db_ext db_ext_refl (fun _ _ _ => db_ext_trans) _
          (fun s x s' hs => db_ext_root_child _ ((parser_db_ext fuel).2.2.2.2.2.2.2.2.1 fs)
            s x s' hs) _ _ _ h
        exact hext.2.2.2.2.1.subset hin

/-- C11: `rnn_parsefile` on a path already in `db->files` returns the
database as it is; on a new path it records the path first and then, from the
database with the path recorded, processes the document (or sets `estatus`
when the file cannot be read); every call leaves the old `files` as a prefix
of the new, with the path among them and, when the old list had no duplicate,
without a duplicate; and a second call on the same path, with any files and
fuel, changes nothing. -/
theorem rnn_parsefile_idempotent :
    (∀ (fuel : Nat) (fs : xmlFiles) (db : rnndb) (file : String), file ∈ db.files →
      rnn_parsefile (fuel + 1) fs db file = some db) ∧
    (∀ (fuel : Nat) (fs : xmlFiles) (db : rnndb) (file : String), file ∉ db.files →
      rnn_parsefile (fuel + 1) fs db file =
        match fs file with
        | none => some (set_estatus { db with files := db.files ++ [file] })
        | some doc =>
          doc.foldlM (root_child (fun db chain => trytop fuel fs db chain))
            { db with files := db.files ++ [file] }) ∧
    (∀ (fuel : Nat) (fs : xmlFiles) (db db' : rnndb) (file : String),
      rnn_parsefile fuel fs db file = some db' →
      db.files <+: db'.files ∧ file ∈ db'.files ∧ (db.files.Nodup → db'.files.Nodup) ∧
      ∀ (fuel' : Nat) (fs' : xmlFiles), rnn_parsefile (fuel' + 1) fs' db' file = some db') := by
  have h1 : ∀ (fuel : Nat) (fs : xmlFiles) (db : rnndb) (file : String), file ∈ db.files →
      rnn_parsefile (fuel + 1) fs db file = some db := by
    intro fuel fs db file hmem
    rw [rnn_parsefile, if_pos hmem]
  refine ⟨h1, ?_, ?_⟩
  · intro fuel fs db file hmem
    rw [rnn_parsefile, if_neg hmem]
  · intro fuel fs db db' file h
    have hrec := rnn_parsefile_recorded fuel fs db db' file h
    exact ⟨((parser_db_ext fuel).2.2.2.2.2.2.2.2.2 fs db file db' h).2.2.2.2.1, hrec,
      (parser_rel files_nodup_closed fuel).2.2.2.2.2.2.2.2.2 fs db file db' h,
      fun fuel' fs' => h1 fuel' fs' db' file hrec⟩

/-- C11 on the diamond with a cycle: `a.xml` is parsed into the empty
database; the four paths are recorded once each, in the order they are first
met, the enum of `d.xml` holds its value once, and parsing `d.xml` again
changes nothing. -/
theorem rnn_parsefile_idempotent_witness :
    rnn_parsefile 10 files_diamond rnn_newdb "a.xml" =
      some { db_with_E [plain_value "X" 1] with
        files := ["a.xml", "b.xml", "d.xml", "c.xml"] } ∧
    ["a.xml", "b.xml", "d.xml", "c.xml"].Nodup ∧
    rnn_parsefile 1 files_diamond
        { db_with_E [plain_value "X" 1] with files := ["a.xml", "b.xml", "d.xml", "c.xml"] }
        "d.xml" =
      some { db_with_E [plain_value "X" 1] with
        files := ["a.xml", "b.xml", "d.xml", "c.xml"] } :=
  ⟨rfl,
    (rnn_parsefile_idempotent.2.2 10 files_diamond rnn_newdb
      { db_with_E [plain_value "X" 1] with files := ["a.xml", "b.xml", "d.xml", "c.xml"] }
      "a.xml" rfl).2.2.1 List.nodup_nil,
    rnn_parsefile_idempotent.1 0 files_diamond _ "d.xml" (by decide)⟩

/-! ## The access attribute of a register -/

/-- C20, at the register `<reg32 name="R" access="x"/>`: the branch of the
attribute loop that reports the wrong access type stores nothing, `estatus`
included, and the file with that register is parsed with `estatus` 0; an
unknown attribute in the same loop sets `estatus` to 1. -/
theorem access_error_estatus :
    reg_attr (rnn_newdb, new_reg 32) (xml_attr "access" "x") = (rnn_newdb, new_reg 32) ∧
    (rnn_parsefile 6 files_bad_access rnn_newdb "a.xml").map (fun db => db.estatus) =
      some 0 ∧
    (reg_attr (rnn_newdb, new_reg 32) (xml_attr "bogus" "x")).1.estatus = 1 :=
  ⟨rfl, rfl, rfl⟩

/-! ## The preparer changes `estatus` alone in the database it threads -/

theorem estatus_only_refl (db : rnndb) : estatus_only db db := ⟨false, rfl⟩

theorem estatus_only_trans {a b c : rnndb} (h1 : estatus_only a b) (h2 : estatus_only b c) :
    estatus_only a c := by
  obtain ⟨e1, rfl⟩ := h1
  obtain ⟨e2, rfl⟩ := h2
  exact ⟨e1 || e2, errset_errset e1 e2 a⟩

theorem estatus_only_set (db : rnndb) : estatus_only db (set_estatus db) := ⟨true, rfl⟩

theorem estatus_only_estatus {db db' : rnndb} (h : estatus_only db db') :
    db'.estatus = db.estatus ∨ db'.estatus = 1 := by
  obtain ⟨e, rfl⟩ := h
  cases e
  · exact Or.inl rfl
  · exact Or.inr rfl

theorem estatus_only_fields {db db' : rnndb} (h : estatus_only db db') :
    db'.enums = db.enums ∧ db'.bitsets = db.bitsets ∧ db'.domains = db.domains ∧
      db'.groups = db.groups ∧ db'.files = db.files := by
  obtain ⟨e, rfl⟩ := h
  cases e <;> exact ⟨rfl, rfl, rfl, rfl, rfl⟩

/-- A loop that prepares the elements of an array one after the other: a
relation on the state that every round respects holds across the loop, and
what a round establishes of its element holds of every element. -/
theorem Res.mapM_state_rel {σ α : Type} (f : σ → α → Res (σ × α)) (R : σ → σ → Prop)
    (Q : α → α → Prop) (hrefl : ∀ s, R s s) (htrans : ∀ a b c, R a b → R b c → R a c)
    (hstep : ∀ s x r, f s x = .ok r → R s r.1 ∧ Q x r.2) :
    ∀ (xs : List α) (s : σ) (rs : σ × List α), Res.mapM_state f s xs = .ok rs →
      R s rs.1 ∧ List.Forall₂ Q xs rs.2 := by
  intro xs
  induction xs with
  | nil =>
    intro s rs h
    rw [Res.mapM_state] at h
    injection h with h
    subst h
    exact ⟨hrefl s, List.Forall₂.nil⟩
  | cons x xs ih =>
    intro s rs h
    rw [Res.mapM_state] at h
    obtain ⟨r, hr, h⟩ := Res.bind_eq_ok.1 h
    obtain ⟨rs1, hrs1, h⟩ := Res.bind_eq_ok.1 h
    injection h with h
    subst h
    obtain ⟨h1, h2⟩ := hstep s x r hr
    obtain ⟨h3, h4⟩ := ih r.1 rs1 hrs1
    exact ⟨htrans _ _ _ h1 h3, List.Forall₂.cons h2 h4⟩

theorem findvidx_uniform (en : rnnenum) (name : String) :
    ∃ err idx, ∀ db, findvidx db en name = (errset err db, idx) := by
  unfold findvidx
  cases find_named rnnvalue.name name en.vals 0 with
  | none => exact ⟨true, -1, fun db => rfl⟩
  | some p => exact ⟨false, (p.1 : Int), fun db => rfl⟩

theorem prepvarinfo_term_uniform (varset : rnnenum) (variants : List Nat) (word : String) :
    ∃ err variants', ∀ db,
      prepvarinfo_term varset (db, variants) word = (errset err db, variants') := by
  unfold prepvarinfo_term
  cases hs : split_term word.toList [] with
  | mk first rest =>
    cases rest with
    | none =>
      obtain ⟨e, idx, h⟩ := findvidx_uniform varset (String.mk first)
      by_cases hi : idx ≠ -1
      · exact ⟨e, _, fun db => by simp only [h, if_pos hi]; rfl⟩
      · exact ⟨e, _, fun db => by simp only [h, if_neg hi]; rfl⟩
    | some p =>
      obtain ⟨sep, second⟩ := p
      obtain ⟨e1, idx1, h1⟩ := findvidx_uniform varset (String.mk first)
      obtain ⟨e2, idx2, h2⟩ := findvidx_uniform varset (String.mk second)
      by_cases c1 : first ≠ []
      · by_cases c2 : second ≠ []
        · by_cases c3 : sep = '-'
          · by_cases c4 : idx1 ≠ -1 ∧ idx2 + 1 ≠ -1
            · exact ⟨e1 || e2, _, fun db => by
                simp only [if_pos c1, if_pos c2, if_pos c3, h1, h2, if_pos c4, errset_errset]; rfl⟩
            · exact ⟨e1 || e2, _, fun db => by
                simp only [if_pos c1, if_pos c2, if_pos c3, h1, h2, if_neg c4, errset_errset]; rfl⟩
          · by_cases c4 : idx1 ≠ -1 ∧ idx2 ≠ -1
            · exact ⟨e1 || e2, _, fun db => by
                simp only [if_pos c1, if_pos c2, if_neg c3, h1, h2, if_pos c4, errset_errset]; rfl⟩
            · exact ⟨e1 || e2, _, fun db => by
                simp only [if_pos c1, if_pos c2, if_neg c3, h1, h2, if_neg c4, errset_errset]; rfl⟩
        · by_cases c4 : idx1 ≠ -1 ∧ (varset.vals.length : Int) ≠ -1
          · exact ⟨e1, _, fun db => by
              simp only [if_pos c1, if_neg c2, h1, if_pos c4]; rfl⟩
          · exact ⟨e1, _, fun db => by
              simp only [if_pos c1, if_neg c2, h1, if_neg c4]; rfl⟩
      · by_cases c2 : second ≠ []
        · by_cases c3 : sep = '-'
          · by_cases c4 : (0 : Int) ≠ -1 ∧ idx2 + 1 ≠ -1
            · exact ⟨e2, _, fun db => by
                simp only [if_neg c1, if_pos c2, if_pos c3, h2, if_pos c4]; rfl⟩
            · exact ⟨e2, _, fun db => by
                simp only [if_neg c1, if_pos c2, if_pos c3, h2, if_neg c4]; rfl⟩
          · by_cases c4 : (0 : Int) ≠ -1 ∧ idx2 ≠ -1
            · exact ⟨e2, _, fun db => by
                simp only [if_neg c1, if_pos c2, if_neg c3, h2, if_pos c4]; rfl⟩
            · exact ⟨e2, _, fun db => by
                simp only [if_neg c1, if_pos c2, if_neg c3, h2, if_neg c4]; rfl⟩
        · by_cases c4 : (0 : Int) ≠ -1 ∧ (varset.vals.length : Int) ≠ -1
          · exact ⟨false, _, fun db => by
              simp only [if_neg c1, if_neg c2, if_pos c4, errset_false]; rfl⟩
          · exact ⟨false, _, fun db => by
              simp only [if_neg c1, if_neg c2, if_neg c4, errset_false]; rfl⟩

theorem prepvarinfo_terms_frame (varset : rnnenum) (words : List String) (db : rnndb)
    (old : List Nat) :
    estatus_only db (words.foldl (prepvarinfo_term varset) (db, old)).1 := by
  obtain ⟨err, fin, h⟩ := foldl_uniform (prepvarinfo_term varset)
    (fun s a => prepvarinfo_term_uniform varset s a) words old
  rw [h db]
  exact ⟨err, rfl⟩

theorem prepvarinfo_variants_frame (db : rnndb) (vi : rnnvarinfo) (vidx : Nat)
    (varset : rnnenum) (vars : String) :
    estatus_only db (prepvarinfo_variants db vi vidx varset vars).1 := by
  unfold prepvarinfo_variants
  exact prepvarinfo_terms_frame _ _ _ _

theorem prepvarinfo_frame (db : rnndb) (vi : rnnvarinfo) (parent : Option rnnvarinfo)
    (r : rnndb × rnnvarinfo) (h : prepvarinfo db vi parent = .ok r) :
    estatus_only db r.1 := by
  unfold prepvarinfo at h
  obtain ⟨copies, _, h⟩ := Res.bind_eq_ok.1 h
  dsimp only at h
  split at h
  · split at h
    · injection h with h; subst h; exact estatus_only_set db
    · split at h
      · exact Res.noConfusion h
      · split at h
        · injection h with h; subst h; exact prepvarinfo_variants_frame _ _ _ _ _
        · obtain ⟨vi', _, h⟩ := Res.bind_eq_ok.1 h
          injection h with h; subst h; exact prepvarinfo_variants_frame _ _ _ _ _
  · split at h
    · injection h with h; subst h; exact estatus_only_refl db
    · obtain ⟨vi', _, h⟩ := Res.bind_eq_ok.1 h
      injection h with h; subst h; exact estatus_only_refl db

theorem prepvalue_frame (db : rnndb) (val : rnnvalue) (pfx : Option String)
    (parvi : rnnvarinfo) (r : rnndb × rnnvalue) (h : prepvalue db val pfx parvi = .ok r) :
    estatus_only db r.1 := by
  unfold prepvalue at h
  obtain ⟨r1, h1, h⟩ := Res.bind_eq_ok.1 h
  have hf := prepvarinfo_frame _ _ _ _ h1
  split at h
  · injection h with h; subst h; exact hf
  · split at h <;> (injection h with h; subst h; exact hf)

theorem Res.mapM_state_frame {α : Type} (f : rnndb → α → Res (rnndb × α))
    (hstep : ∀ s x r, f s x = .ok r → estatus_only s r.1) (xs : List α) (s : rnndb)
    (rs : rnndb × List α) (h : Res.mapM_state f s xs = .ok rs) : estatus_only s rs.1 :=
  (Res.mapM_state_rel f estatus_only (fun _ _ => True) estatus_only_refl
    (fun _ _ _ => estatus_only_trans) (fun s x r hr => ⟨hstep s x r hr, trivial⟩) xs s rs h).1

/-- The type info, the bitfield and the domain element preparers change
`estatus` alone in the database. -/
theorem preptypeinfo_frame : ∀ fuel : Nat,
    (∀ db ti pfx vi r, preptypeinfo fuel db ti pfx vi = .ok r → estatus_only db r.1) ∧
    (∀ db bf pfx parvi r, prepbitfield fuel db bf pfx parvi = .ok r →
      estatus_only db r.1) := by
  intro fuel
  induction fuel with
  | zero =>
    exact ⟨fun db ti pfx vi r h => by simp [preptypeinfo] at h,
      fun db bf pfx parvi r h => by simp [prepbitfield] at h⟩
  | succ fuel ih =>
    obtain ⟨ihT, ihB⟩ := ih
    refine ⟨?_, ?_⟩
    · intro db ti pfx vi r h
      rw [preptypeinfo] at h
      obtain ⟨rb, hb, h⟩ := Res.bind_eq_ok.1 h
      obtain ⟨rv, hv, h⟩ := Res.bind_eq_ok.1 h
      injection h with h; subst h
      exact estatus_only_trans
        (Res.mapM_state_frame _ (fun s x r hr => ihB s x pfx vi r hr) _ _ _ hb)
        (Res.mapM_state_frame _ (fun s x r hr => prepvalue_frame s x pfx vi r hr) _ _ _ hv)
    · intro db bf pfx parvi r h
      rw [prepbitfield] at h
      obtain ⟨r1, h1, h⟩ := Res.bind_eq_ok.1 h
      have hf := prepvarinfo_frame _ _ _ _ h1
      split at h
      · injection h with h; subst h; exact hf
      · obtain ⟨mask, _, h⟩ := Res.bind_eq_ok.1 h
        obtain ⟨rt, ht, h⟩ := Res.bind_eq_ok.1 h
        injection h with h; subst h
        exact estatus_only_trans hf (ihT _ _ _ _ _ ht)

theorem expand_usegroup_frame (db : rnndb) (elem : rnndelem) (r : rnndb × rnndelem)
    (h : expand_usegroup db elem = .ok r) : estatus_only db r.1 := by
  unfold expand_usegroup at h
  split at h
  · exact Res.noConfusion h
  · split at h
    · injection h with h; subst h; exact estatus_only_refl db
    · injection h with h; subst h; exact estatus_only_set db

theorem prepdelem_stride_frame (db : rnndb) (elem : rnndelem) (width : Nat)
    (r : rnndb × rnndelem) (h : prepdelem_stride db elem width = .ok r) :
    estatus_only db r.1 := by
  unfold prepdelem_stride at h
  split at h
  · split at h
    · injection h with h; subst h; exact estatus_only_set db
    · obtain ⟨q, _, h⟩ := Res.bind_eq_ok.1 h
      injection h with h; subst h; exact estatus_only_refl db
  · injection h with h; subst h; exact estatus_only_refl db

theorem prepdelem_frame : ∀ (fuel : Nat) (db : rnndb) (elem : rnndelem) (pfx : Option String)
    (parvi : rnnvarinfo) (width : Nat) (r : rnndb × rnndelem),
    prepdelem fuel db elem pfx parvi width = .ok r → estatus_only db r.1 := by
  intro fuel
  induction fuel with
  | zero => intro db elem pfx parvi width r h; simp [prepdelem] at h
  | succ fuel ih =>
    intro db elem pfx parvi width r h
    rw [prepdelem] at h
    obtain ⟨r0, h0, h⟩ := Res.bind_eq_ok.1 h
    have hf0 : estatus_only db r0.1 := by
      split at h0
      · exact expand_usegroup_frame _ _ _ h0
      · injection h0 with h0; subst h0; exact estatus_only_refl db
    obtain ⟨r1, h1, h⟩ := Res.bind_eq_ok.1 h
    have hf1 := estatus_only_trans hf0 (prepvarinfo_frame _ _ _ _ h1)
    dsimp only at h
    split at h
    · injection h with h; subst h; exact hf1
    · obtain ⟨r2, h2, h⟩ := Res.bind_eq_ok.1 h
      obtain ⟨r3, h3, h⟩ := Res.bind_eq_ok.1 h
      obtain ⟨r4, h4, h⟩ := Res.bind_eq_ok.1 h
      have hf4 := estatus_only_trans hf1 (estatus_only_trans
        (prepdelem_stride_frame _ _ _ _ h2) (estatus_only_trans
        ((preptypeinfo_frame fuel).1 _ _ _ _ _ h3)
        (Res.mapM_state_frame _ (fun s x r hr => ih s x _ _ _ r hr) _ _ _ h4)))
      split at h <;> (injection h with h; subst h; exact hf4)

/-! ## What the preparer leaves in a definition -/

theorem forall₂_right {α : Type} (P : α → Prop) :
    ∀ (xs ys : List α), List.Forall₂ (fun _ y => P y) xs ys → ∀ y, y ∈ ys → P y := by
  intro xs ys h
  induction h with
  | nil => intro y hy; simp at hy
  | cons hxy _ ih =>
    intro y hy
    rcases List.mem_cons.1 hy with rfl | hy
    · exact hxy
    · exact ih y hy

theorem expanded_eq (e : rnndelem) :
    expanded e = (e.type != RNN_ETYPE_USE_GROUP && (e.varinfo.dead || expanded_list e.subelems)) := by
  cases e with
  | mk type name width access offset length stride subelems varinfo typeinfo fullname =>
    rw [expanded]

theorem expanded_list_iff : ∀ (l : List rnndelem),
    expanded_list l = true ↔ ∀ e, e ∈ l → expanded e = true := by
  intro l
  induction l with
  | nil => simp [expanded_list]
  | cons x xs ih => simp [expanded_list, ih]

/-- `prepvalue` keeps the name and leaves the `fullname` that `value_named`
describes. -/
theorem prepvalue_named (db : rnndb) (val : rnnvalue) (pfx : Option String)
    (parvi : rnnvarinfo) (r : rnndb × rnnvalue) (h : prepvalue db val pfx parvi = .ok r) :
    r.2.name = val.name ∧ value_named pfx r.2 := by
  unfold prepvalue at h
  obtain ⟨r1, h1, h⟩ := Res.bind_eq_ok.1 h
  unfold value_named
  split at h
  · next hd =>
    injection h with h; subst h
    exact ⟨rfl, by simp only [hd, if_true]⟩
  · next hd =>
    split at h
    · next p hp =>
      injection h with h; subst h
      exact ⟨rfl, by simp only [hd, hp, Bool.false_eq_true, if_false]⟩
    · next hp =>
      injection h with h; subst h
      exact ⟨rfl, by simp only [hd, hp, Bool.false_eq_true, if_false, catstr]⟩

/-- `prepbitfield` keeps the name and leaves the `fullname` that
`bitfield_named` describes; a bitfield it finds dead keeps its type info and
its mask. -/
theorem prepbitfield_named (fuel : Nat) (db : rnndb) (bf : rnnbitfield) (pfx : Option String)
    (parvi : rnnvarinfo) (r : rnndb × rnnbitfield)
    (h : prepbitfield fuel db bf pfx parvi = .ok r) :
    r.2.name = bf.name ∧ bitfield_named pfx r.2 ∧
      (r.2.varinfo.dead = true → r.2.typeinfo = bf.typeinfo ∧ r.2.mask = bf.mask) := by
  cases fuel with
  | zero => simp [prepbitfield] at h
  | succ fuel =>
    rw [prepbitfield] at h
    obtain ⟨r1, h1, h⟩ := Res.bind_eq_ok.1 h
    unfold bitfield_named
    split at h
    · next hd =>
      injection h with h; subst h
      exact ⟨rfl, by simp only [hd, if_true], fun _ => ⟨rfl, rfl⟩⟩
    · next hd =>
      obtain ⟨mask, _, h⟩ := Res.bind_eq_ok.1 h
      obtain ⟨rt, _, h⟩ := Res.bind_eq_ok.1 h
      injection h with h; subst h
      refine ⟨rfl, ?_, fun hd' => absurd hd' hd⟩
      cases hp : r1.2.prefix_ <;> simp only [hd, hp, Bool.false_eq_true, if_false, catstr]

theorem expand_step_type (db : rnndb) (elem : rnndelem) (r0 : rnndb × rnndelem)
    (h : (if elem.type = RNN_ETYPE_USE_GROUP then expand_usegroup db elem
      else .ok (db, elem)) = .ok r0) :
    r0.2.type ≠ RNN_ETYPE_USE_GROUP ∧ r0.2.typeinfo = elem.typeinfo ∧
      r0.2.stride = elem.stride ∧ r0.2.varinfo = elem.varinfo ∧
      r0.2.fullname = elem.fullname := by
  split at h
  · unfold expand_usegroup at h
    split at h
    · exact Res.noConfusion h
    · split at h <;>
        (injection h with h; subst h
         exact ⟨show RNN_ETYPE_STRIPE ≠ RNN_ETYPE_USE_GROUP by decide, rfl, rfl, rfl, rfl⟩)
  · next hne =>
    injection h with h; subst h
    exact ⟨hne, rfl, rfl, rfl, rfl⟩

theorem prepdelem_stride_fields (db : rnndb) (elem : rnndelem) (width : Nat)
    (r : rnndb × rnndelem) (h : prepdelem_stride db elem width = .ok r) :
    r.2.type = elem.type ∧ r.2.name = elem.name ∧ r.2.subelems = elem.subelems ∧
      r.2.varinfo = elem.varinfo ∧ r.2.typeinfo = elem.typeinfo ∧
      r.2.fullname = elem.fullname := by
  unfold prepdelem_stride at h
  split at h
  · split at h
    · injection h with h; subst h; exact ⟨rfl, rfl, rfl, rfl, rfl, rfl⟩
    · obtain ⟨q, _, h⟩ := Res.bind_eq_ok.1 h
      injection h with h; subst h; exact ⟨rfl, rfl, rfl, rfl, rfl, rfl⟩
  · injection h with h; subst h; exact ⟨rfl, rfl, rfl, rfl, rfl, rfl⟩

/-- `prepdelem` leaves no element of type use-group at the element or below
it, as far as it descends. -/
theorem prepdelem_expanded : ∀ (fuel : Nat) (db : rnndb) (elem : rnndelem)
    (pfx : Option String) (parvi : rnnvarinfo) (width : Nat) (r : rnndb × rnndelem),
    prepdelem fuel db elem pfx parvi width = .ok r → expanded r.2 = true := by
  intro fuel
  induction fuel with
  | zero => intro db elem pfx parvi width r h; simp [prepdelem] at h
  | succ fuel ih =>
    intro db elem pfx parvi width r h
    rw [prepdelem] at h
    obtain ⟨r0, h0, h⟩ := Res.bind_eq_ok.1 h
    have ht0 := (expand_step_type db elem r0 h0).1
    obtain ⟨r1, h1, h⟩ := Res.bind_eq_ok.1 h
    dsimp only at h
    split at h
    · next hd =>
      injection h with h; subst h
      rw [expanded_eq]
      simp only [hd, Bool.true_or, Bool.and_true, bne_iff_ne, ne_eq]
      cases hn : r0.2.name <;> exact ht0
    · obtain ⟨r2, h2, h⟩ := Res.bind_eq_ok.1 h
      obtain ⟨r3, h3, h⟩ := Res.bind_eq_ok.1 h
      obtain ⟨r4, h4, h⟩ := Res.bind_eq_ok.1 h
      have hf := prepdelem_stride_fields _ _ _ _ h2
      have hsub : expanded_list r4.2 = true :=
        (expanded_list_iff _).2 (forall₂_right (fun y => expanded y = true) _ _
          (Res.mapM_state_rel _ (fun _ _ => True) (fun _ y => expanded y = true)
            (fun _ => trivial) (fun _ _ _ _ _ => trivial)
            (fun s x r hr => ⟨trivial, ih s x _ _ _ r hr⟩) _ _ _ h4).2)
      have ht2 : r2.2.type ≠ RNN_ETYPE_USE_GROUP := by
        rw [hf.1]
        cases hn : r0.2.name <;> exact ht0
      split at h <;>
        (injection h with h; subst h; rw [expanded_eq]
         simp only [hsub, Bool.or_true, Bool.and_true, bne_iff_ne, ne_eq]
         exact ht2)

/-- An element that `prepdelem` finds dead: nothing below it has been
prepared. Its type info, its stride and its subelements are as they were (for
a use-group: the subelements are the copies the expansion has just appended),
and the `fullname` is the one assigned before the variant check. -/
theorem prepdelem_dead (fuel : Nat) (db : rnndb) (elem : rnndelem) (pfx : Option String)
    (parvi : rnnvarinfo) (width : Nat) (r : rnndb × rnndelem)
    (h : prepdelem fuel db elem pfx parvi width = .ok r) (hd : r.2.varinfo.dead = true) :
    r.2.typeinfo = elem.typeinfo ∧ r.2.stride = elem.stride ∧
    (elem.type ≠ RNN_ETYPE_USE_GROUP →
      r.2.type = elem.type ∧ r.2.name = elem.name ∧ r.2.subelems = elem.subelems ∧
      r.2.fullname = (match elem.name with
        | some name => some (catstr pfx name)
        | none => elem.fullname)) ∧
    (elem.type = RNN_ETYPE_USE_GROUP →
      r.2.type = RNN_ETYPE_STRIPE ∧ r.2.name = none ∧ r.2.fullname = elem.fullname ∧
      ∀ name, elem.name = some name →
        r.2.subelems = elem.subelems ++
          (match find_named rnngroup.name name db.groups 0 with
            | some (_, gr) => copydelems gr.subelems
            | none => [])) := by
  cases fuel with
  | zero => simp [prepdelem] at h
  | succ fuel =>
    rw [prepdelem] at h
    obtain ⟨r0, h0, h⟩ := Res.bind_eq_ok.1 h
    obtain ⟨r1, h1, h⟩ := Res.bind_eq_ok.1 h
    dsimp only at h
    split at h
    · next hd1 =>
      injection h with h; subst h
      by_cases hug : elem.type = RNN_ETYPE_USE_GROUP
      · rw [if_pos hug] at h0
        unfold expand_usegroup at h0
        split at h0
        · exact Res.noConfusion h0
        · next name hname =>
          split at h0
          · next i gr hfind =>
            injection h0 with h0; subst h0
            refine ⟨rfl, rfl, fun hne => absurd hug hne, fun _ => ⟨rfl, rfl, rfl, ?_⟩⟩
            intro name' hname'
            rw [hname] at hname'
            injection hname' with hname'
            subst hname'
            rw [hfind]
          · next hfind =>
            injection h0 with h0; subst h0
            refine ⟨rfl, rfl, fun hne => absurd hug hne, fun _ => ⟨rfl, rfl, rfl, ?_⟩⟩
            intro name' hname'
            rw [hname] at hname'
            injection hname' with hname'
            subst hname'
            rw [hfind]
            simp
      · rw [if_neg hug] at h0
        injection h0 with h0; subst h0
        refine ⟨?_, ?_, fun _ => ⟨?_, ?_, ?_, ?_⟩, fun hu => absurd hu hug⟩ <;>
          cases hn : elem.name <;> first | rfl | exact hn
    · next hd1 =>
      obtain ⟨r2, h2, h⟩ := Res.bind_eq_ok.1 h
      obtain ⟨r3, h3, h⟩ := Res.bind_eq_ok.1 h
      obtain ⟨r4, h4, h⟩ := Res.bind_eq_ok.1 h
      have hf := (prepdelem_stride_fields _ _ _ _ h2).2.2.2.1
      exfalso
      apply hd1
      have hv : r.2.varinfo = r2.2.varinfo := by
        split at h <;> (injection h with h; subst h; rfl)
      rw [hv, hf] at hd
      exact hd

/-! ## The loops of `rnn_prepdb` -/

theorem modify_at_self {α : Type} (x : α) :
    ∀ (l : List α) (i : Nat), l[i]? = some x → modify_at (fun _ => x) l i = l := by
  intro l
  induction l with
  | nil => intro i h; simp at h
  | cons y ys ih =>
    intro i h
    cases i with
    | zero =>
      simp only [List.getElem?_cons_zero, Option.some.injEq] at h
      subst h; rfl
    | succ i =>
      simp only [List.getElem?_cons_succ] at h
      simp only [modify_at, ih i h]

/-- A loop of `rnn_prepdb` over the indices of one array, each round of which
replaces the entry at its index: the entries below the last index are as the
rounds leave them, the others are untouched. -/
theorem Res.for_indices_done {α : Type} (f : rnndb → Nat → Res rnndb) (get : rnndb → List α)
    (Pre Done : α → Prop) (Rest : rnndb → rnndb → Prop) (hrefl : ∀ db, Rest db db)
    (htrans : ∀ a b c, Rest a b → Rest b c → Rest a c)
    (hstep : ∀ db i db', f db i = .ok db' → Rest db db' ∧
      ∃ x x', (get db)[i]? = some x ∧ get db' = modify_at (fun _ => x') (get db) i ∧
        (Pre x → Done x')) :
    ∀ (n i : Nat) (db db' : rnndb),
      (∀ (j : Nat) (x : α), i ≤ j → (get db)[j]? = some x → Pre x) →
      (∀ (j : Nat) (x : α), j < i → (get db)[j]? = some x → Done x) →
      Res.for_indices f n i db = .ok db' →
      Rest db db' ∧ (get db').length = (get db).length ∧
        (∀ (j : Nat) (x : α), j < i + n → (get db')[j]? = some x → Done x) ∧
        (∀ (j : Nat), i + n ≤ j → (get db')[j]? = (get db)[j]?) := by
  intro n
  induction n with
  | zero =>
    intro i db db' _ hdone h
    rw [Res.for_indices] at h
    injection h with h; subst h
    exact ⟨hrefl _, rfl, fun j x hj => hdone j x hj, fun _ _ => rfl⟩
  | succ n ih =>
    intro i db db' hpre hdone h
    rw [Res.for_indices] at h
    obtain ⟨db1, h1, h⟩ := Res.bind_eq_ok.1 h
    obtain ⟨hr1, x, x', hx, hget, hd⟩ := hstep db i db1 h1
    have hpre1 : ∀ (j : Nat) (y : α), i + 1 ≤ j → (get db1)[j]? = some y → Pre y := by
      intro j y hj hy
      rw [hget, modify_at_getElem?, if_neg (by omega)] at hy
      exact hpre j y (by omega) hy
    have hdone1 : ∀ (j : Nat) (y : α), j < i + 1 → (get db1)[j]? = some y → Done y := by
      intro j y hj hy
      rw [hget, modify_at_getElem?] at hy
      by_cases hji : j = i
      · subst hji
        rw [if_pos rfl, hx] at hy
        simp only [Option.map_some', Option.some.injEq] at hy
        subst hy
        exact hd (hpre j x (le_refl _) hx)
      · rw [if_neg hji] at hy
        exact hdone j y (by omega) hy
    obtain ⟨hr2, hlen, hd2, hrest⟩ := ih (i + 1) db1 db' hpre1 hdone1 h
    refine ⟨htrans _ _ _ hr1 hr2, ?_, ?_, ?_⟩
    · rw [hlen, hget, modify_at_length]
    · intro j y hj hy
      exact hd2 j y (by omega) hy
    · intro j hj
      rw [hrest j (by omega), hget, modify_at_getElem?, if_neg (by omega)]

theorem prep_rest_refl (db : rnndb) : prep_rest db db := ⟨rfl, rfl, Or.inl rfl⟩

theorem prep_rest_trans {a b c : rnndb} (h1 : prep_rest a b) (h2 : prep_rest b c) :
    prep_rest a c := by
  refine ⟨h2.groups.trans h1.groups, h2.files.trans h1.files, ?_⟩
  rcases h2.estatus with h | h
  · rcases h1.estatus with h' | h'
    · exact Or.inl (h.trans h')
    · exact Or.inr (h.trans h')
  · exact Or.inr h

theorem prep_rest_of_estatus_only {db db' : rnndb} (h : estatus_only db db') :
    prep_rest db db' :=
  ⟨(estatus_only_fields h).2.2.2.1, (estatus_only_fields h).2.2.2.2, estatus_only_estatus h⟩

theorem prep_rest_of_fields {db db1 db' : rnndb} (h : estatus_only db db1)
    (hg : db'.groups = db1.groups) (hf : db'.files = db1.files)
    (he : db'.estatus = db1.estatus) : prep_rest db db' := by
  have h1 := prep_rest_of_estatus_only h
  exact ⟨hg.trans h1.groups, hf.trans h1.files, by rw [he]; exact h1.estatus⟩

/-- One round of the loop over the enums. -/
theorem prepenum_effect (db : rnndb) (i : Nat) (db' : rnndb) (h : prepenum db i = .ok db') :
    (prep_rest db db' ∧ db'.bitsets = db.bitsets ∧ db'.domains = db.domains) ∧
    ∃ x x', db.enums[i]? = some x ∧ db'.enums = modify_at (fun _ => x') db.enums i ∧
      (x.prepared = false → enum_done x') := by
  unfold prepenum at h
  split at h
  · exact Res.noConfusion h
  · next en hen =>
    split at h
    · next hp =>
      injection h with h; subst h
      exact ⟨⟨prep_rest_refl _, rfl, rfl⟩, en, en, hen, (modify_at_self en _ _ hen).symm,
        fun hn => by rw [hp] at hn; exact absurd hn (by decide)⟩
    · obtain ⟨r1, h1, h⟩ := Res.bind_eq_ok.1 h
      have hf1 := prepvarinfo_frame _ _ _ _ h1
      split at h
      · next hin =>
        injection h with h; subst h
        have hfl := estatus_only_fields hf1
        refine ⟨⟨prep_rest_of_fields hf1 rfl rfl rfl, hfl.2.1, hfl.2.2.1⟩,
          en, { en with varinfo := r1.2 }, hen, ?_, fun _ hi => ?_⟩
        · show modify_at _ r1.1.enums i = _
          rw [hfl.1]
        · rw [show ({ en with varinfo := r1.2 } : rnnenum).isinline = en.isinline from rfl,
            hin] at hi
          exact absurd hi (by decide)
      · obtain ⟨r2, h2, h⟩ := Res.bind_eq_ok.1 h
        injection h with h; subst h
        obtain ⟨hf2, hq⟩ := Res.mapM_state_rel _ estatus_only
          (fun _ y => value_named (if en.bare then none else some en.name) y)
          estatus_only_refl (fun _ _ _ => estatus_only_trans)
          (fun s x r hr => ⟨prepvalue_frame _ _ _ _ _ hr, (prepvalue_named _ _ _ _ _ hr).2⟩)
          _ _ _ h2
        have hf := estatus_only_trans hf1 hf2
        have hfl := estatus_only_fields hf
        refine ⟨⟨prep_rest_of_fields hf rfl rfl rfl, hfl.2.1, hfl.2.2.1⟩,
          en,
          { en with
            varinfo := r1.2, vals := r2.2,
            fullname := some (catstr r1.2.prefix_ en.name), prepared := true },
          hen, ?_, fun _ _ => ⟨rfl, forall₂_right _ _ _ hq⟩⟩
        show modify_at _ r2.1.enums i = _
        rw [hfl.1]

/-- One round of the loop over the bitsets. -/
theorem prepbitset_effect (fuel : Nat) (db : rnndb) (i : Nat) (db' : rnndb)
    (h : prepbitset fuel db i = .ok db') :
    (prep_rest db db' ∧ db'.enums = db.enums ∧ db'.domains = db.domains) ∧
    ∃ x x', db.bitsets[i]? = some x ∧ db'.bitsets = modify_at (fun _ => x') db.bitsets i ∧
      (True → bitset_done x') := by
  unfold prepbitset at h
  split at h
  · exact Res.noConfusion h
  · next bs hbs =>
    obtain ⟨r1, h1, h⟩ := Res.bind_eq_ok.1 h
    have hf1 := prepvarinfo_frame _ _ _ _ h1
    split at h
    · next hin =>
      injection h with h; subst h
      have hfl := estatus_only_fields hf1
      refine ⟨⟨prep_rest_of_fields hf1 rfl rfl rfl, hfl.1, hfl.2.2.1⟩,
        bs, { bs with varinfo := r1.2 }, hbs, ?_, fun _ hi => ?_⟩
      · show modify_at _ r1.1.bitsets i = _
        rw [hfl.2.1]
      · rw [show ({ bs with varinfo := r1.2 } : rnnbitset).isinline = bs.isinline from rfl,
          hin] at hi
        exact absurd hi (by decide)
    · obtain ⟨r2, h2, h⟩ := Res.bind_eq_ok.1 h
      injection h with h; subst h
      obtain ⟨hf2, hq⟩ := Res.mapM_state_rel _ estatus_only
        (fun _ y => bitfield_named (if bs.bare then none else some bs.name) y)
        estatus_only_refl (fun _ _ _ => estatus_only_trans)
        (fun s x r hr => ⟨(preptypeinfo_frame fuel).2 _ _ _ _ _ hr,
          (prepbitfield_named _ _ _ _ _ _ hr).2.1⟩)
        _ _ _ h2
      have hf := estatus_only_trans hf1 hf2
      have hfl := estatus_only_fields hf
      refine ⟨⟨prep_rest_of_fields hf rfl rfl rfl, hfl.1, hfl.2.2.1⟩,
        bs,
        { bs with
          varinfo := r1.2, bitfields := r2.2,
          fullname := some (catstr r1.2.prefix_ bs.name) },
        hbs, ?_, fun _ _ => ⟨rfl, forall₂_right _ _ _ hq⟩⟩
      show modify_at _ r2.1.bitsets i = _
      rw [hfl.2.1]

/-- One round of the loop over the domains. -/
theorem prepdomain_effect (fuel : Nat) (db : rnndb) (i : Nat) (db' : rnndb)
    (h : prepdomain fuel db i = .ok db') :
    (prep_rest db db' ∧ db'.enums = db.enums ∧ db'.bitsets = db.bitsets) ∧
    ∃ x x', db.domains[i]? = some x ∧ db'.domains = modify_at (fun _ => x') db.domains i ∧
      (True → domain_done x') := by
  unfold prepdomain at h
  split at h
  · exact Res.noConfusion h
  · next dom hdom =>
    obtain ⟨r1, h1, h⟩ := Res.bind_eq_ok.1 h
    have hf1 := prepvarinfo_frame _ _ _ _ h1
    obtain ⟨r2, h2, h⟩ := Res.bind_eq_ok.1 h
    injection h with h; subst h
    obtain ⟨hf2, hq⟩ := Res.mapM_state_rel _ estatus_only
      (fun _ y => expanded y = true)
      estatus_only_refl (fun _ _ _ => estatus_only_trans)
      (fun s x r hr => ⟨prepdelem_frame fuel _ _ _ _ _ _ hr,
        prepdelem_expanded fuel _ _ _ _ _ _ hr⟩)
      _ _ _ h2
    have hf := estatus_only_trans hf1 hf2
    have hfl := estatus_only_fields hf
    refine ⟨⟨prep_rest_of_fields hf rfl rfl rfl, hfl.1, hfl.2.1⟩,
      dom,
      { dom with
        varinfo := r1.2, subelems := r2.2,
        fullname := some (catstr r1.2.prefix_ dom.name) },
      hdom, ?_, fun _ => ⟨rfl, (expanded_list_iff _).2 (forall₂_right _ _ _ hq)⟩⟩
    show modify_at _ r2.1.domains i = _
    rw [hfl.2.2.1]

theorem mem_done_of_index {α : Type} (Done : α → Prop) (l : List α) (n : Nat)
    (hn : l.length ≤ n)
    (h : ∀ (j : Nat) (x : α), j < 0 + n → l[j]? = some x → Done x) :
    ∀ x, x ∈ l → Done x := by
  intro x hx
  obtain ⟨j, hj⟩ := List.mem_iff_getElem?.1 hx
  have hlt : j < l.length := by
    by_contra hge
    rw [List.getElem?_eq_none (by omega)] at hj
    exact Option.noConfusion hj
  exact h j x (by omega) hj

/-- What `rnn_prepdb` leaves: groups and files as they were, `estatus` as it
was or set; every bitset and every domain as its round left it; and, in a
database none of whose enums was marked prepared, every enum as its round
left it. -/
theorem rnn_prepdb_done (fuel : Nat) (db db' : rnndb) (h : rnn_prepdb fuel db = .ok db') :
    prep_rest db db' ∧ (∀ b, b ∈ db'.bitsets → bitset_done b) ∧
    (∀ d, d ∈ db'.domains → domain_done d) ∧
    ((∀ e, e ∈ db.enums → e.prepared = false) → ∀ e, e ∈ db'.enums → enum_done e) := by
  unfold rnn_prepdb at h
  obtain ⟨db1, h1, h⟩ := Res.bind_eq_ok.1 h
  obtain ⟨db2, h2, h3⟩ := Res.bind_eq_ok.1 h
  have hE := Res.for_indices_done prepenum rnndb.enums (fun x => x.prepared = false) enum_done
    (fun a b => prep_rest a b ∧ b.bitsets = a.bitsets ∧ b.domains = a.domains)
    (fun _ => ⟨prep_rest_refl _, rfl, rfl⟩)
    (fun _ _ _ h1 h2 => ⟨prep_rest_trans h1.1 h2.1, h2.2.1.trans h1.2.1, h2.2.2.trans h1.2.2⟩)
    (fun db i db' h => prepenum_effect db i db' h) db.enums.length 0 db db1
  have hB := Res.for_indices_done (prepbitset fuel) rnndb.bitsets (fun _ => True) bitset_done
    (fun a b => prep_rest a b ∧ b.enums = a.enums ∧ b.domains = a.domains)
    (fun _ => ⟨prep_rest_refl _, rfl, rfl⟩)
    (fun _ _ _ h1 h2 => ⟨prep_rest_trans h1.1 h2.1, h2.2.1.trans h1.2.1, h2.2.2.trans h1.2.2⟩)
    (fun db i db' h => prepbitset_effect fuel db i db' h) db1.bitsets.length 0 db1 db2
    (fun _ _ _ _ => trivial) (fun j _ hj => absurd hj (Nat.not_lt_zero j)) h2
  have hD := Res.for_indices_done (prepdomain fuel) rnndb.domains (fun _ => True) domain_done
    (fun a b => prep_rest a b ∧ b.enums = a.enums ∧ b.bitsets = a.bitsets)
    (fun _ => ⟨prep_rest_refl _, rfl, rfl⟩)
    (fun _ _ _ h1 h2 => ⟨prep_rest_trans h1.1 h2.1, h2.2.1.trans h1.2.1, h2.2.2.trans h1.2.2⟩)
    (fun db i db' h => prepdomain_effect fuel db i db' h) db2.domains.length 0 db2 db'
    (fun _ _ _ _ => trivial) (fun j _ hj => absurd hj (Nat.not_lt_zero j)) h3
  obtain ⟨hrB, hlB, hdB, _⟩ := hB
  obtain ⟨hrD, hlD, hdD, _⟩ := hD
  refine ⟨?_, ?_, ?_, ?_⟩
  · -- the rest of the database
    have hrE : prep_rest db db1 := by
      -- the enum loop respects the rest whatever the flags are
      have := Res.for_indices_done prepenum rnndb.enums (fun _ => True) (fun _ => True)
        (fun a b => prep_rest a b)
        (fun _ => prep_rest_refl _) (fun _ _ _ h1 h2 => prep_rest_trans h1 h2)
        (fun db i db' h => by
          obtain ⟨hr, x, x', hx, hg, _⟩ := prepenum_effect db i db' h
          exact ⟨hr.1, x, x', hx, hg, fun _ => trivial⟩) db.enums.length 0 db db1
        (fun _ _ _ _ => trivial) (fun _ _ _ _ => trivial) h1
      exact this.1
    exact prep_rest_trans hrE (prep_rest_trans hrB.1 hrD.1)
  · intro b hb
    rw [hrD.2.2] at hb
    exact mem_done_of_index bitset_done _ _ (by rw [hlB]) hdB b hb
  · intro d hd
    exact mem_done_of_index domain_done _ _ (by rw [hlD]) hdD d hd
  · intro hprep e he
    obtain ⟨_, hlE, hdE, _⟩ := hE
      (fun j x _ hx => hprep x (List.mem_iff_getElem?.2 ⟨j, hx⟩))
      (fun j _ hj => absurd hj (Nat.not_lt_zero j)) h1
    rw [hrD.2.1, hrB.2.1] at he
    exact mem_done_of_index enum_done _ _ (by rw [hlE]) hdE e he

/-! ## Outcomes of the loader -/

theorem Res.eq_ok_of_isOk {α : Type} {r : Res α} (d : α) (h : r.isOk = true) :
    r = .ok (r.getD d) := by
  cases r with
  | ok a => rfl
  | fault => exact Bool.noConfusion h
  | nofuel => exact Bool.noConfusion h

theorem rnn_load_ok (fuel : Nat) (fs : xmlFiles) (file : String)
    (h : (rnn_load fuel fs file).isOk = true) :
    ∃ db, rnn_parsefile fuel fs rnn_newdb file = some db ∧
      rnn_prepdb fuel db = .ok (rnn_loaded fuel fs file) := by
  have h1 := Res.eq_ok_of_isOk rnn_newdb h
  unfold rnn_loaded
  generalize (rnn_load fuel fs file).getD rnn_newdb = db' at h1 ⊢
  unfold rnn_load at h1
  split at h1
  · exact Res.noConfusion h1
  · next db hdb => exact ⟨db, hdb, h1⟩

/-! ## Use-group expansion -/

/-- C12, as stated, fails below a dead element: in the database loaded from
`files_dead_usegroup` the stripe `S` is dead, `prepdelem` returns before it
descends, and the use-group below `S` is still a use-group after
`rnn_prepdb`. -/
theorem usegroup_expansion_counterexample :
    (rnn_load 10 files_dead_usegroup "a.xml").isOk = true ∧
    (rnn_loaded 10 files_dead_usegroup "a.xml").domains.map
      (fun d => no_usegroup_list d.subelems) = [false] ∧
    (rnn_loaded 10 files_dead_usegroup "a.xml").domains.map (fun d => d.subelems.map
      (fun e => (e.type, e.varinfo.dead, e.subelems.map (fun c => c.type)))) =
      [[(RNN_ETYPE_STRIPE, true, [RNN_ETYPE_USE_GROUP])]] := by
  decide!

/-- C12, amended: after `rnn_prepdb`, no domain element that is reached from a
domain through live elements only is of type use-group: every subelement of a
domain, and every subelement of an element that is not dead, in turn. -/
theorem usegroup_expansion (fuel : Nat) (db db' : rnndb)
    (h : rnn_prepdb fuel db = .ok db') :
    ∀ d, d ∈ db'.domains → expanded_list d.subelems = true :=
  fun d hd => ((rnn_prepdb_done fuel db db' h).2.2.1 d hd).2

/-- C12, amended, on `files_usegroup`: the loader returns, and the use-group of
the domain `D` has become a stripe that holds the copy of the group's
element. -/
theorem usegroup_expansion_witness :
    (rnn_load 10 files_usegroup "a.xml").isOk = true ∧
    (rnn_loaded 10 files_usegroup "a.xml").domains.all
      (fun d => expanded_list d.subelems) = true ∧
    (rnn_loaded 10 files_usegroup "a.xml").domains.map
      (fun d => d.subelems.map (fun e => (e.type, e.subelems.length))) =
      [[(RNN_ETYPE_STRIPE, 1)]] := by
  refine ⟨by decide!, ?_, by decide!⟩
  obtain ⟨db, _, h⟩ := rnn_load_ok 10 files_usegroup "a.xml" (by decide!)
  exact List.all_eq_true.2 (fun d hd => usegroup_expansion 10 db _ h d hd)

/-- C13: `copydelem` copies every scalar of the element but `type`, which
stays 0, the value of `RNN_ETYPE_REG`: in the database parsed from
`files_usegroup` the group `G` holds the stripe `S`, and after the expansion
of the use-group of `D` the copy of `S` is a register; the copies of its own
subelements are made by `copydelem` as well. -/
theorem copydelem_type :
    (∀ e : rnndelem, (copydelem e).type = RNN_ETYPE_REG ∧ (copydelem e).name = e.name ∧
      (copydelem e).width = e.width ∧ (copydelem e).access = e.access ∧
      (copydelem e).offset = e.offset ∧ (copydelem e).length = e.length ∧
      (copydelem e).stride = e.stride ∧ (copydelem e).varinfo = e.varinfo ∧
      (copydelem e).subelems = copydelems e.subelems) ∧
    ((rnn_parsefile 10 files_usegroup rnn_newdb "a.xml").map (fun db =>
      db.groups.map (fun g => (g.name, g.subelems.map (fun e => (e.type, e.name))))) =
      some [("G", [(RNN_ETYPE_STRIPE, some "S")])]) ∧
    (rnn_load 10 files_usegroup "a.xml").isOk = true ∧
    (rnn_loaded 10 files_usegroup "a.xml").domains.flatMap (fun d => d.subelems.map (fun e =>
      (e.type, e.name, e.length, e.subelems.map (fun c => (c.type, c.name))))) =
      [(RNN_ETYPE_STRIPE, none, 1, [(RNN_ETYPE_REG, some "S")])] :=
  ⟨fun e => by
      cases e with
      | mk type name width access offset length stride subelems varinfo typeinfo fullname =>
        rw [copydelem]
        exact ⟨rfl, rfl, rfl, rfl, rfl, rfl, rfl, rfl, rfl⟩,
    by decide!, by decide!, by decide!⟩

/-! ## Dead definitions -/

/-- C15, as stated, fails: in the database loaded from `files_dead_members`
the value `X`, the bitfield `F` and the stripe `S` are dead, and their
`fullname` is set, to `E_X`, `T_F` and `D_S`. -/
theorem dead_fullname_counterexample :
    (rnn_load 10 files_dead_members "a.xml").isOk = true ∧
    (rnn_loaded 10 files_dead_members "a.xml").enums.flatMap
      (fun e => e.vals.map (fun v => (v.name, v.varinfo.dead, v.fullname))) =
      [("A", false, some "V_A"), ("B", false, some "V_B"), ("X", true, some "E_X")] ∧
    (rnn_loaded 10 files_dead_members "a.xml").bitsets.flatMap
      (fun b => b.bitfields.map (fun f => (f.name, f.varinfo.dead, f.fullname))) =
      [("F", true, some "T_F")] ∧
    (rnn_loaded 10 files_dead_members "a.xml").domains.flatMap
      (fun d => d.subelems.map (fun e => (e.name, e.varinfo.dead, e.fullname))) =
      [(some "S", true, some "D_S")] :=
  ⟨by decide!, by decide!, by decide!, by decide!⟩

/-- C15, amended: a value, a bitfield or a named domain element that its
preparation finds dead keeps the `fullname` assigned before the variant
check: the prefix it was prepared under, an underscore and its name, without a
variant prefix. It is not null. -/
theorem dead_fullname :
    (∀ (db : rnndb) (val : rnnvalue) (pfx : Option String) (parvi : rnnvarinfo)
        (r : rnndb × rnnvalue),
      prepvalue db val pfx parvi = .ok r → r.2.varinfo.dead = true →
      r.2.fullname = some (catstr pfx val.name)) ∧
    (∀ (fuel : Nat) (db : rnndb) (bf : rnnbitfield) (pfx : Option String)
        (parvi : rnnvarinfo) (r : rnndb × rnnbitfield),
      prepbitfield fuel db bf pfx parvi = .ok r → r.2.varinfo.dead = true →
      r.2.fullname = some (catstr pfx bf.name)) ∧
    (∀ (fuel : Nat) (db : rnndb) (elem : rnndelem) (pfx : Option String)
        (parvi : rnnvarinfo) (width : Nat) (r : rnndb × rnndelem) (name : String),
      prepdelem fuel db elem pfx parvi width = .ok r → r.2.varinfo.dead = true →
      elem.type ≠ RNN_ETYPE_USE_GROUP → elem.name = some name →
      r.2.fullname = some (catstr pfx name)) := by
  refine ⟨?_, ?_, ?_⟩
  · intro db val pfx parvi r h hd
    obtain ⟨hn, hf⟩ := prepvalue_named db val pfx parvi r h
    unfold value_named at hf
    rw [hf, hd, hn]
    rfl
  · intro fuel db bf pfx parvi r h hd
    obtain ⟨hn, hf, _⟩ := prepbitfield_named fuel db bf pfx parvi r h
    unfold bitfield_named at hf
    rw [hf, hd, hn]
    rfl
  · intro fuel db elem pfx parvi width r name h hd ht hname
    have := ((prepdelem_dead fuel db elem pfx parvi width r h hd).2.2.1 ht).2.2.2
    rw [this, hname]

/-- C15, amended, at the value `X`, the bitfield `F` and the stripe `S` of
`files_dead_members`, prepared in the database that holds `V`. -/
theorem dead_fullname_witness :
    ((prepvalue db_V value_X_dead (some "E") rnnvarinfo_zero).getD
      (rnn_newdb, value_X_dead)).2.fullname = some "E_X" ∧
    ((prepbitfield 3 db_V bitfield_F_dead (some "T") rnnvarinfo_zero).getD
      (rnn_newdb, bitfield_F_dead)).2.fullname = some "T_F" ∧
    ((prepdelem 3 db_V stripe_S_dead (some "D") rnnvarinfo_zero 8).getD
      (rnn_newdb, stripe_S_dead)).2.fullname = some "D_S" :=
  ⟨dead_fullname.1 db_V value_X_dead (some "E") rnnvarinfo_zero _
      (Res.eq_ok_of_isOk _ (by decide!)) (by decide!),
    dead_fullname.2.1 3 db_V bitfield_F_dead (some "T") rnnvarinfo_zero _
      (Res.eq_ok_of_isOk _ (by decide!)) (by decide!),
    dead_fullname.2.2 3 db_V stripe_S_dead (some "D") rnnvarinfo_zero 8 _ "S"
      (Res.eq_ok_of_isOk _ (by decide!)) (by decide!) (by decide) rfl⟩

/-- C16, as stated, fails for an enum: in the database loaded from
`files_dead_enum` the enum `E` is dead, and `prepenum`, which does not test
`dead`, has prepared its value `X`, whose `fullname`, null as parsed, is
`E_X`. -/
theorem dead_children_counterexample :
    ((rnn_parsefile 10 files_dead_enum rnn_newdb "a.xml").map (fun db => db.enums.flatMap
      (fun e => e.vals.map (fun v => (e.name, v.name, v.fullname))))) =
      some [("V", "A", none), ("V", "B", none), ("E", "X", none)] ∧
    (rnn_load 10 files_dead_enum "a.xml").isOk = true ∧
    (rnn_loaded 10 files_dead_enum "a.xml").enums.map (fun e => (e.name, e.varinfo.dead)) =
      [("V", false), ("E", true)] ∧
    (rnn_loaded 10 files_dead_enum "a.xml").enums.flatMap
      (fun e => e.vals.map (fun v => (e.name, v.name, v.fullname))) =
      [("V", "A", some "V_A"), ("V", "B", some "V_B"), ("E", "X", some "E_X")] :=
  ⟨by decide!, by decide!, by decide!, by decide!⟩

/-- C16, amended: no children of a dead bitfield or of a dead domain element
are prepared. A bitfield that `prepbitfield` finds dead keeps its type info and
its mask; an element that `prepdelem` finds dead keeps its type info, its
stride and its subelements, which for a use-group are the copies that the
expansion has just appended to them. -/
theorem dead_children :
    (∀ (fuel : Nat) (db : rnndb) (bf : rnnbitfield) (pfx : Option String)
        (parvi : rnnvarinfo) (r : rnndb × rnnbitfield),
      prepbitfield fuel db bf pfx parvi = .ok r → r.2.varinfo.dead = true →
      r.2.typeinfo = bf.typeinfo ∧ r.2.mask = bf.mask) ∧
    (∀ (fuel : Nat) (db : rnndb) (elem : rnndelem) (pfx : Option String)
        (parvi : rnnvarinfo) (width : Nat) (r : rnndb × rnndelem),
      prepdelem fuel db elem pfx parvi width = .ok r → r.2.varinfo.dead = true →
      r.2.typeinfo = elem.typeinfo ∧ r.2.stride = elem.stride ∧
      (elem.type ≠ RNN_ETYPE_USE_GROUP → r.2.subelems = elem.subelems) ∧
      (elem.type = RNN_ETYPE_USE_GROUP → ∀ name, elem.name = some name →
        r.2.subelems = elem.subelems ++
          (match find_named rnngroup.name name db.groups 0 with
            | some (_, gr) => copydelems gr.subelems
            | none => []))) := by
  refine ⟨?_, ?_⟩
  · intro fuel db bf pfx parvi r h hd
    exact (prepbitfield_named fuel db bf pfx parvi r h).2.2 hd
  · intro fuel db elem pfx parvi width r h hd
    obtain ⟨h1, h2, h3, h4⟩ := prepdelem_dead fuel db elem pfx parvi width r h hd
    exact ⟨h1, h2, fun ht => (h3 ht).2.2.1, fun ht => (h4 ht).2.2.2⟩

/-- C16, amended, at the bitfield `F` and the stripe `S` of
`files_dead_members`: the value `Y` of `F` and the register `R` of `S` have no
`fullname`, and `F` has no mask. -/
theorem dead_children_witness :
    ((prepbitfield 3 db_V bitfield_F_dead (some "T") rnnvarinfo_zero).getD
      (rnn_newdb, bitfield_F_dead)).2.typeinfo.vals.map (fun v => (v.name, v.fullname)) =
      [("Y", none)] ∧
    ((prepbitfield 3 db_V bitfield_F_dead (some "T") rnnvarinfo_zero).getD
      (rnn_newdb, bitfield_F_dead)).2.mask = 0 ∧
    ((prepdelem 3 db_V stripe_S_dead (some "D") rnnvarinfo_zero 8).getD
      (rnn_newdb, stripe_S_dead)).2.subelems.map (fun e => (e.name, e.fullname)) =
      [(some "R", none)] :=
  ⟨congrArg (fun ti => ti.vals.map (fun v => (v.name, v.fullname)))
      (dead_children.1 3 db_V bitfield_F_dead (some "T") rnnvarinfo_zero _
        (Res.eq_ok_of_isOk _ (by decide!)) (by decide!)).1,
    (dead_children.1 3 db_V bitfield_F_dead (some "T") rnnvarinfo_zero _
        (Res.eq_ok_of_isOk _ (by decide!)) (by decide!)).2,
    congrArg (fun l => l.map (fun e => (e.name, e.fullname)))
      ((dead_children.2 3 db_V stripe_S_dead (some "D") rnnvarinfo_zero 8 _
        (Res.eq_ok_of_isOk _ (by decide!)) (by decide!)).2.2.1 (by decide))⟩

/-! ## The names of the top-level definitions and of their members -/

theorem mem_modify_at {α : Type} (f : α → α) :
    ∀ (l : List α) (i : Nat) (y : α), y ∈ modify_at f l i → y ∈ l ∨ ∃ x, x ∈ l ∧ y = f x := by
  intro l
  induction l with
  | nil => intro i y hy; simp [modify_at] at hy
  | cons x xs ih =>
    intro i y hy
    cases i with
    | zero =>
      simp only [modify_at, List.mem_cons] at hy
      rcases hy with rfl | hy
      · exact Or.inr ⟨x, List.mem_cons_self _ _, rfl⟩
      · exact Or.inl (List.mem_cons_of_mem _ hy)
    | succ i =>
      simp only [modify_at, List.mem_cons] at hy
      rcases hy with rfl | hy
      · exact Or.inl (List.mem_cons_self _ _)
      · rcases ih i y hy with h | ⟨z, hz, rfl⟩
        · exact Or.inl (List.mem_cons_of_mem _ h)
        · exact Or.inr ⟨z, List.mem_cons_of_mem _ hz, rfl⟩

/-- The parser marks no enum prepared. -/
theorem unprepared_closed :
    parser_closed (fun db db' =>
      (∀ e, e ∈ db.enums → e.prepared = false) → ∀ e, e ∈ db'.enums → e.prepared = false) where
  refl := fun _ h => h
  trans := fun h1 h2 h => h2 (h1 h)
  estatus := fun _ h => h
  enum_cur := fun db name a h e he => by
    unfold parseenum_cur at he
    split at he
    · split at he <;> exact h e he
    · rcases List.mem_append.1 he with he | he
      · exact h e he
      · rw [List.mem_singleton] at he
        subst he
        rfl
  bitset_cur := fun db name a h e he => by
    unfold parsebitset_cur at he
    split at he
    · split at he <;> exact h e he
    · exact h e he
  group_cur := fun db name h e he => by
    unfold parsegroup_cur at he
    split at he <;> exact h e he
  domain_cur := fun db name a h e he => by
    unfold parsedomain_cur at he
    split at he
    · split at he
      · exact h e he
      · split at he <;> exact h e he
    · exact h e he
  addval := fun db cur val h e he => by
    rcases mem_modify_at _ _ _ _ he with he | ⟨x, hx, rfl⟩
    · exact h e he
    · exact h x hx
  addbitfield := fun _ _ _ h => h
  group_add := fun _ _ _ h => h
  domain_add := fun _ _ _ h => h
  file := fun _ _ _ h => h

/-- In a database parsed from the empty one no enum is marked prepared. -/
theorem rnn_parsefile_unprepared (fuel : Nat) (fs : xmlFiles) (file : String) (db : rnndb)
    (h : rnn_parsefile fuel fs rnn_newdb file = some db) :
    ∀ e, e ∈ db.enums → e.prepared = false :=
  (parser_rel unprepared_closed fuel).2.2.2.2.2.2.2.2.2 fs rnn_newdb file db h
    (fun e he => by simp [rnn_newdb] at he)

/-- C17, as stated, fails for a bare enum: in the database loaded from the
file of scenario S1 the enum `E` is bare and has no prefix, and its `fullname`
is `E`: the name is not skipped. -/
theorem toplevel_fullname_counterexample :
    (rnn_load 10 files_s1 "a.xml").isOk = true ∧
    (rnn_loaded 10 files_s1 "a.xml").enums.map
      (fun e => (e.name, e.bare, e.isinline, e.varinfo.prefix_, e.fullname)) =
      [("E", true, false, none, some "E")] :=
  ⟨by decide!, by decide!⟩

/-- C17, amended: after `rnn_prepdb` on a database in which no enum is marked
prepared, every enum and every bitset that is not inline has the `fullname`
`catstr(varinfo.prefix, name)`: the effective prefix, an underscore and the
name when there is a prefix, the name otherwise, whether the definition is
bare or not. -/
theorem toplevel_fullname (fuel : Nat) (db db' : rnndb) (h : rnn_prepdb fuel db = .ok db')
    (hprep : ∀ e, e ∈ db.enums → e.prepared = false) :
    (∀ e, e ∈ db'.enums → e.isinline = false →
      e.fullname = some (catstr e.varinfo.prefix_ e.name)) ∧
    (∀ b, b ∈ db'.bitsets → b.isinline = false →
      b.fullname = some (catstr b.varinfo.prefix_ b.name)) :=
  ⟨fun e he hi => ((rnn_prepdb_done fuel db db' h).2.2.2 hprep e he hi).1,
    fun b hb hi => ((rnn_prepdb_done fuel db db' h).2.1 b hb hi).1⟩

/-- C17, amended, on the files of the scenarios S1 and S3: the loader returns,
the bare enum `E` has the `fullname` `E` and the bitset `B` the `fullname`
`B`. -/
theorem toplevel_fullname_witness :
    (rnn_loaded 10 files_s1 "a.xml").enums.all
      (fun e => e.isinline || e.fullname == some (catstr e.varinfo.prefix_ e.name)) = true ∧
    (rnn_loaded 10 files_s3 "a.xml").bitsets.all
      (fun b => b.isinline || b.fullname == some (catstr b.varinfo.prefix_ b.name)) = true ∧
    (rnn_loaded 10 files_s1 "a.xml").enums.map (fun e => (e.name, e.bare, e.fullname)) =
      [("E", true, some "E")] ∧
    (rnn_loaded 10 files_s3 "a.xml").bitsets.map (fun b => (b.name, b.bare, b.fullname)) =
      [("B", false, some "B")] := by
  refine ⟨?_, ?_, by decide!, by decide!⟩
  · obtain ⟨db, hdb, h⟩ := rnn_load_ok 10 files_s1 "a.xml" (by decide!)
    refine List.all_eq_true.2 (fun e he => ?_)
    cases hi : e.isinline with
    | true => rfl
    | false =>
      rw [(toplevel_fullname 10 db _ h (rnn_parsefile_unprepared _ _ _ _ hdb)).1 e he hi]
      simp
  · obtain ⟨db, hdb, h⟩ := rnn_load_ok 10 files_s3 "a.xml" (by decide!)
    refine List.all_eq_true.2 (fun b hb => ?_)
    cases hi : b.isinline with
    | true => rfl
    | false =>
      rw [(toplevel_fullname 10 db _ h (rnn_parsefile_unprepared _ _ _ _ hdb)).2 b hb hi]
      simp

/-- C18: after `rnn_prepdb` on a database in which no enum is marked
prepared, every live value of an enum that is not inline has the `fullname`
`E_V`, or `V` when the enum is bare, behind the variant prefix of the value and
an underscore when the value has one; and so has every live bitfield of a
bitset that is not inline. -/
theorem member_fullname (fuel : Nat) (db db' : rnndb) (h : rnn_prepdb fuel db = .ok db')
    (hprep : ∀ e, e ∈ db.enums → e.prepared = false) :
    (∀ e, e ∈ db'.enums → e.isinline = false → ∀ v, v ∈ e.vals → v.varinfo.dead = false →
      v.fullname = some (catstr v.varinfo.prefix_
        (catstr (if e.bare then none else some e.name) v.name))) ∧
    (∀ b, b ∈ db'.bitsets → b.isinline = false → ∀ f, f ∈ b.bitfields →
      f.varinfo.dead = false →
      f.fullname = some (catstr f.varinfo.prefix_
        (catstr (if b.bare then none else some b.name) f.name))) := by
  refine ⟨fun e he hi v hv hd => ?_, fun b hb hi f hf hd => ?_⟩
  · have := ((rnn_prepdb_done fuel db db' h).2.2.2 hprep e he hi).2 v hv
    unfold value_named at this
    rw [this, hd]
    rfl
  · have := ((rnn_prepdb_done fuel db db' h).2.1 b hb hi).2 f hf
    unfold bitfield_named at this
    rw [this, hd]
    rfl

/-- C18 on the files of the scenarios S1 and S3: the values of the bare enum
`E` have the fullnames `A` and `B`, with the values 1 and 2, and the bitfield
`F` of the bitset `B` has the `fullname` `B_F` and the mask 0xF0. -/
theorem member_fullname_witness :
    (rnn_loaded 10 files_s1 "a.xml").enums.all (fun e => e.isinline || e.vals.all (fun v =>
      v.varinfo.dead || v.fullname == some (catstr v.varinfo.prefix_
        (catstr (if e.bare then none else some e.name) v.name)))) = true ∧
    (rnn_loaded 10 files_s1 "a.xml").enums.flatMap (fun e => e.vals.map (fun v =>
      (v.name, v.fullname, v.valvalid, v.value))) =
      [("A", some "A", true, 1), ("B", some "B", true, 2)] ∧
    (rnn_loaded 10 files_s3 "a.xml").bitsets.flatMap (fun b => b.bitfields.map (fun f =>
      (f.name, f.fullname, f.mask))) = [("F", some "B_F", 0xF0)] := by
  refine ⟨?_, by decide!, by decide!⟩
  obtain ⟨db, hdb, h⟩ := rnn_load_ok 10 files_s1 "a.xml" (by decide!)
  refine List.all_eq_true.2 (fun e he => ?_)
  cases hi : e.isinline with
  | true => rfl
  | false =>
    refine (Bool.false_or _).trans (List.all_eq_true.2 (fun v hv => ?_))
    cases hd : v.varinfo.dead with
    | true => rfl
    | false =>
      rw [(member_fullname 10 db _ h (rnn_parsefile_unprepared _ _ _ _ hdb)).1 e he hi v hv hd]
      simp

/-! ## `estatus` is never cleared -/

theorem estatus_kept_of_or {db db' : rnndb}
    (h : db'.estatus = db.estatus ∨ db'.estatus = 1) : estatus_kept db db' := by
  intro h0
  rcases h with h | h
  · rw [h]; exact h0
  · rw [h]; exact Nat.one_ne_zero

theorem estatus_kept_errset (err : Bool) (db : rnndb) : estatus_kept db (errset err db) :=
  estatus_kept_of_or (estatus_only_estatus ⟨err, rfl⟩)

theorem estatus_kept_of_ext {db db' : rnndb} (h : db_ext db db') : estatus_kept db db' :=
  estatus_kept_of_or h.2.2.2.2.2

theorem estatus_kept_of_only {db db' : rnndb} (h : estatus_only db db') :
    estatus_kept db db' :=
  estatus_kept_of_or (estatus_only_estatus h)

/-- C19: once `estatus` is set, it is set after every operation of the loader:
after the attribute decoders, after every function of the parser, and after
every function of the preparer, whatever they return. -/
theorem estatus_monotonic :
    ((∀ db attr, estatus_kept db (getattrib db attr).1) ∧
      (∀ db attr, estatus_kept db (getboolattrib db attr).1) ∧
      (∀ db attr, estatus_kept db (getnumattrib db attr).1) ∧
      (∀ db attr ti, estatus_kept db (trytypeattr db attr ti).1)) ∧
    ((∀ fuel fs db node ti r, trytypetag fuel fs db node ti = some r → estatus_kept db r.1) ∧
      (∀ fuel fs db node r, parsevalue fuel fs db node = some r → estatus_kept db r.1) ∧
      (∀ fuel fs db node r, parsebitfield fuel fs db node = some r → estatus_kept db r.1) ∧
      (∀ fuel fs db node r, parseenum fuel fs db node = some r → estatus_kept db r) ∧
      (∀ fuel fs db node r, parsebitset fuel fs db node = some r → estatus_kept db r) ∧
      (∀ fuel fs db node r, trydelem fuel fs db node = some r → estatus_kept db r.1) ∧
      (∀ fuel fs db node r, parsegroup fuel fs db node = some r → estatus_kept db r) ∧
      (∀ fuel fs db node r, parsedomain fuel fs db node = some r → estatus_kept db r) ∧
      (∀ fuel fs db node r, trytop fuel fs db node = some r → estatus_kept db r.1) ∧
      (∀ fuel fs db file r, rnn_parsefile fuel fs db file = some r → estatus_kept db r)) ∧
    ((∀ db en name, estatus_kept db (findvidx db en name).1) ∧
      (∀ db vi parent r, prepvarinfo db vi parent = .ok r → estatus_kept db r.1) ∧
      (∀ db val pfx parvi r, prepvalue db val pfx parvi = .ok r → estatus_kept db r.1) ∧
      (∀ fuel db ti pfx vi r, preptypeinfo fuel db ti pfx vi = .ok r → estatus_kept db r.1) ∧
      (∀ fuel db bf pfx parvi r, prepbitfield fuel db bf pfx parvi = .ok r →
        estatus_kept db r.1) ∧
      (∀ fuel db elem pfx parvi width r, prepdelem fuel db elem pfx parvi width = .ok r →
        estatus_kept db r.1) ∧
      (∀ db i r, prepenum db i = .ok r → estatus_kept db r) ∧
      (∀ fuel db i r, prepbitset fuel db i = .ok r → estatus_kept db r) ∧
      (∀ fuel db i r, prepdomain fuel db i = .ok r → estatus_kept db r) ∧
      (∀ fuel db r, rnn_prepdb fuel db = .ok r → estatus_kept db r)) := by
  refine ⟨⟨?_, ?_, ?_, ?_⟩, ⟨?_, ?_, ?_, ?_, ?_, ?_, ?_, ?_, ?_, ?_⟩,
    ⟨?_, ?_, ?_, ?_, ?_, ?_, ?_, ?_, ?_, ?_⟩⟩
  · intro db attr
    obtain ⟨e, s, h⟩ := getattrib_uniform attr
    rw [h]; exact estatus_kept_errset e db
  · intro db attr
    obtain ⟨e, s, h⟩ := getboolattrib_uniform attr
    rw [h]; exact estatus_kept_errset e db
  · intro db attr
    obtain ⟨e, s, h⟩ := getnumattrib_uniform attr
    rw [h]; exact estatus_kept_errset e db
  · intro db attr ti
    obtain ⟨e, ti', r, h⟩ := trytypeattr_uniform attr ti
    rw [h]; exact estatus_kept_errset e db
  · exact fun fuel fs db node ti r h =>
      estatus_kept_of_ext ((parser_db_ext fuel).1 fs db node ti r h)
  · exact fun fuel fs db node r h =>
      estatus_kept_of_ext ((parser_db_ext fuel).2.1 fs db node r h)
  · exact fun fuel fs db node r h =>
      estatus_kept_of_ext ((parser_db_ext fuel).2.2.1 fs db node r h)
  · exact fun fuel fs db node r h =>
      estatus_kept_of_ext ((parser_db_ext fuel).2.2.2.1 fs db node r h)
  · exact fun fuel fs db node r h =>
      estatus_kept_of_ext ((parser_db_ext fuel).2.2.2.2.1 fs db node r h)
  · exact fun fuel fs db node r h =>
      estatus_kept_of_ext ((parser_db_ext fuel).2.2.2.2.2.1 fs db node r h)
  · exact fun fuel fs db node r h =>
      estatus_kept_of_ext ((parser_db_ext fuel).2.2.2.2.2.2.1 fs db node r h)
  · exact fun fuel fs db node r h =>
      estatus_kept_of_ext ((parser_db_ext fuel).2.2.2.2.2.2.2.1 fs db node r h)
  · exact fun fuel fs db node r h =>
      estatus_kept_of_ext ((parser_db_ext fuel).2.2.2.2.2.2.2.2.1 fs db node r h)
  · exact fun fuel fs db file r h =>
      estatus_kept_of_ext ((parser_db_ext fuel).2.2.2.2.2.2.2.2.2 fs db file r h)
  · intro db en name
    obtain ⟨e, idx, h⟩ := findvidx_uniform en name
    rw [h]; exact estatus_kept_errset e db
  · exact fun db vi parent r h => estatus_kept_of_only (prepvarinfo_frame db vi parent r h)
  · exact fun db val pfx parvi r h =>
      estatus_kept_of_only (prepvalue_frame db val pfx parvi r h)
  · exact fun fuel db ti pfx vi r h =>
      estatus_kept_of_only ((preptypeinfo_frame fuel).1 db ti pfx vi r h)
  · exact fun fuel db bf pfx parvi r h =>
      estatus_kept_of_only ((preptypeinfo_frame fuel).2 db bf pfx parvi r h)
  · exact fun fuel db elem pfx parvi width r h =>
      estatus_kept_of_only (prepdelem_frame fuel db elem pfx parvi width r h)
  · exact fun db i r h => estatus_kept_of_or (prepenum_effect db i r h).1.1.estatus
  · exact fun fuel db i r h => estatus_kept_of_or (prepbitset_effect fuel db i r h).1.1.estatus
  · exact fun fuel db i r h => estatus_kept_of_or (prepdomain_effect fuel db i r h).1.1.estatus
  · exact fun fuel db r h => estatus_kept_of_or (rnn_prepdb_done fuel db r h).1.estatus

/-- C19 at a database with `estatus` set: the file `a.xml` of scenario S2 is
parsed into it without an error and the result is prepared, and `estatus` is 1
after either. -/
theorem estatus_monotonic_witness :
    (set_estatus rnn_newdb).estatus ≠ 0 ∧
    (rnn_parsefile 10 files_s2 (set_estatus rnn_newdb) "a.xml").map (fun db => db.estatus) =
      some 1 ∧
    (rnn_prepdb 10 (set_estatus (db_with_E [plain_value "X" 1]))).isOk = true ∧
    ((rnn_prepdb 10 (set_estatus (db_with_E [plain_value "X" 1]))).getD rnn_newdb).estatus
      ≠ 0 :=
  ⟨by decide, by decide!, by decide!,
    estatus_monotonic.2.2.2.2.2.2.2.2.2.2.2 10 (set_estatus (db_with_E [plain_value "X" 1])) _
      (Res.eq_ok_of_isOk _ (by decide!)) (by decide)⟩

theorem split_spaces_spec : ∀ (cs cur : List Char),
    split_spaces cs cur =
      (((cs.splitOn ' ').modifyHead (fun l => cur.reverse ++ l)).filter
        (fun t => t ≠ [])).map String.mk := by
  intro cs
  induction cs with
  | nil =>
    intro cur
    by_cases h : cur = []
    · subst h; simp [split_spaces, List.splitOn, List.splitOnP_nil]
    · simp [split_spaces, List.splitOn, List.splitOnP_nil, h]
  | cons c cs ih =>
    intro cur
    unfold split_spaces
    by_cases hc : c = ' '
    · subst hc
      have h0 := ih []
      simp only [List.reverse_nil, List.nil_append] at h0
      have hid : (List.splitOn ' ' cs).modifyHead (fun l => l) = List.splitOn ' ' cs := by
        cases List.splitOn ' ' cs <;> rfl
      rw [hid] at h0
      by_cases h : cur = []
      · subst h
        simp [List.splitOn, List.splitOnP_cons, h0]
      · simp [List.splitOn, List.splitOnP_cons, h0, h]
    · rw [if_neg hc, ih (c :: cur)]
      simp [List.splitOn, List.splitOnP_cons, hc, List.modifyHead_modifyHead, Function.comp_def]

theorem split_spaces_terms (expr : String) :
    split_spaces expr.toList [] = (spec_terms expr).map String.mk := by
  rw [split_spaces_spec, spec_terms]
  have hid : (List.splitOn ' ' expr.toList).modifyHead (fun l => [].reverse ++ l) =
      List.splitOn ' ' expr.toList := by
    cases List.splitOn ' ' expr.toList <;> rfl
  rw [hid]

theorem split_term_spec : ∀ (cs acc : List Char),
    split_term cs acc =
      (acc.reverse ++ cs.takeWhile (fun c => c != ':' && c != '-'),
        match cs.dropWhile (fun c => c != ':' && c != '-') with
        | [] => none
        | sep :: b => some (sep, b)) := by
  intro cs
  induction cs with
  | nil => intro acc; simp [split_term]
  | cons c cs ih =>
    intro acc
    unfold split_term
    by_cases hc : c = ':' ∨ c = '-'
    · rw [if_pos hc]
      have hp : (c != ':' && c != '-') = false := by
        rcases hc with h | h <;> subst h <;> decide
      simp [List.takeWhile_cons, List.dropWhile_cons, hp]
    · rw [if_neg hc, ih]
      have hp : (c != ':' && c != '-') = true := by
        simp only [not_or] at hc
        simp [hc.1, hc.2]
      simp [List.takeWhile_cons, List.dropWhile_cons, hp]

theorem findvidx_spec (db : rnndb) (en : rnnenum) (name : List Char) :
    (findvidx db en (String.mk name)).2 =
      match spec_value_index en name with
      | some i => (i : Int)
      | none => -1 := by
  have key : ∀ (l : List rnnvalue) (k : Nat),
      (find_named rnnvalue.name (String.mk name) l k).map Prod.fst =
        List.findIdx? (fun v => v.name.toList == name) l k := by
    intro l
    induction l with
    | nil => intro k; rfl
    | cons v vs ih =>
      intro k
      unfold find_named
      rw [List.findIdx?_cons]
      by_cases hv : v.name = String.mk name
      · have hb : (v.name.toList == name) = true := by rw [hv]; simp
        rw [if_pos hv, hb]; rfl
      · have hb : (v.name.toList == name) = false := by
          rw [beq_eq_false_iff_ne]
          intro h
          exact hv (by rw [← h]; rfl)
        rw [if_neg hv, hb, ih]; rfl
  have h := key en.vals 0
  unfold findvidx spec_value_index
  rw [← h]
  cases find_named rnnvalue.name (String.mk name) en.vals 0 with
  | none => rfl
  | some p => rfl

theorem mark_variants_spec : ∀ (vs : List Nat) (k : Nat) (lo hi : Int),
    (mark_variants vs k lo hi).length = vs.length ∧
    ∀ i, i < vs.length → (mark_variants vs k lo hi).getD i 0 =
      if lo ≤ ((k + i : Nat) : Int) ∧ ((k + i : Nat) : Int) < hi then vs.getD i 0 ||| 2
      else vs.getD i 0 := by
  intro vs
  induction vs with
  | nil =>
    intro k lo hi
    exact ⟨rfl, fun i hi => absurd hi (by simp)⟩
  | cons v vs ih =>
    intro k lo hi
    obtain ⟨hl, hg⟩ := ih (k + 1) lo hi
    unfold mark_variants
    refine ⟨by simp [hl], fun i hi => ?_⟩
    cases i with
    | zero => simp
    | succ i =>
      have := hg i (by simpa using hi)
      simp only [List.getD_cons_succ]
      rw [this, show k + 1 + i = k + (i + 1) by omega]
theorem mark_if_spec (C : Prop) [Decidable C] (x y : rnndb) (variants : List Nat)
    (lo hi : Int) :
    (if C then (x, mark_variants variants 0 lo hi) else (y, variants)).2.length =
      variants.length ∧
    ∀ i, i < variants.length →
      (if C then (x, mark_variants variants 0 lo hi) else (y, variants)).2.getD i 0 =
        if C ∧ lo ≤ (i : Int) ∧ (i : Int) < hi then variants.getD i 0 ||| 2
        else variants.getD i 0 := by
  obtain ⟨hl, hg⟩ := mark_variants_spec variants 0 lo hi
  by_cases hC : C
  · simp only [hC, if_true, true_and]
    refine ⟨hl, fun i hi => ?_⟩
    rw [hg i hi, Nat.zero_add]
  · simp [hC]

theorem prepvarinfo_term_spec (en : rnnenum) (db : rnndb) (variants : List Nat)
    (t : List Char) :
    (prepvarinfo_term en (db, variants) (String.mk t)).2.length = variants.length ∧
    ∀ i, i < variants.length →
      (prepvarinfo_term en (db, variants) (String.mk t)).2.getD i 0 =
        if spec_term_selects en t i = true then variants.getD i 0 ||| 2
        else variants.getD i 0 := by
  have hsplit := split_term_spec t []
  simp only [List.reverse_nil, List.nil_append] at hsplit
  rcases hd : List.dropWhile (fun c => c != ':' && c != '-') t with _ | ⟨sep, b⟩
  · rw [hd] at hsplit
    have hsplit' : split_term (String.mk t).toList [] =
        (List.takeWhile (fun c => c != ':' && c != '-') t, none) := hsplit
    have hterm : prepvarinfo_term en (db, variants) (String.mk t) =
        (let r := findvidx db en (String.mk (List.takeWhile (fun c => c != ':' && c != '-') t))
         if r.2 ≠ -1 then (r.1, mark_variants variants 0 r.2 (r.2 + 1)) else (r.1, variants)) := by
      unfold prepvarinfo_term
      simp only [hsplit']
    rw [hterm]
    unfold spec_term_selects spec_term_range
    simp only [hd]
    have hf := findvidx_spec db en (List.takeWhile (fun c => c != ':' && c != '-') t)
    cases ha : spec_value_index en (List.takeWhile (fun c => c != ':' && c != '-') t) with
    | none =>
      rw [ha] at hf
      simp [hf]
    | some j =>
      rw [ha] at hf
      have hne : (j : Int) ≠ -1 := by omega
      simp only [hf, hne, ne_eq, not_false_eq_true, if_true, Option.map_some']
      obtain ⟨hl, hg⟩ := mark_variants_spec variants 0 (j : Int) ((j : Int) + 1)
      refine ⟨hl, fun i hi => ?_⟩
      rw [hg i hi]
      simp only [Nat.zero_add, decide_eq_true_eq]
      by_cases hin : j ≤ i ∧ i < j + 1
      · rw [if_pos hin, if_pos (by omega)]
      · rw [if_neg hin, if_neg (by omega)]
  · rw [hd] at hsplit
    generalize ha' : List.takeWhile (fun c => c != ':' && c != '-') t = a at hsplit
    have hsplit' : split_term (String.mk t).toList [] = (a, some (sep, b)) := hsplit
    have hterm : prepvarinfo_term en (db, variants) (String.mk t) =
        (let r1 : rnndb × Int := if a ≠ [] then findvidx db en (String.mk a) else (db, 0)
         let r2 : rnndb × Int :=
           if b ≠ [] then
             let r := findvidx r1.1 en (String.mk b)
             if sep = '-' then (r.1, r.2 + 1) else r
           else (r1.1, (en.vals.length : Int))
         if r1.2 ≠ -1 ∧ r2.2 ≠ -1 then (r2.1, mark_variants variants 0 r1.2 r2.2)
         else (r2.1, variants)) := by
      unfold prepvarinfo_term
      simp only [hsplit']
    have hsel : ∀ i, spec_term_selects en t i =
        match (if a = [] then some 0 else spec_value_index en a),
          (if b = [] then some en.vals.length
            else (spec_value_index en b).map (fun i => if sep = '-' then i + 1 else i)) with
        | some lo, some hi => decide (lo ≤ i ∧ i < hi)
        | _, _ => false := by
      intro i
      unfold spec_term_selects spec_term_range
      simp only [hd, ha']
      generalize (if a = [] then some 0 else spec_value_index en a) = lo
      generalize (if b = [] then some en.vals.length
        else (spec_value_index en b).map (fun i => if sep = '-' then i + 1 else i)) = hi
      rcases lo with _ | lo <;> rcases hi with _ | hi <;> rfl
    rw [hterm]
    have hfa := findvidx_spec db en a
    have hfb := fun db => findvidx_spec db en b
    by_cases ha0 : a = [] <;> by_cases hb0 : b = [] <;> by_cases hs : sep = '-' <;>
      cases hia : spec_value_index en a <;> cases hib : spec_value_index en b <;>
      simp only [hia, hib] at hfa hfb hsel <;>
      simp only [ha0, hb0, hs, hfa, hfb, ne_eq, not_true_eq_false, not_false_eq_true, if_true,
        if_false, Option.map_some', Option.map_none', List.cons_ne_nil] at hsel ⊢ <;>
      refine ⟨(mark_if_spec _ _ _ variants _ _).1, fun i hi => ?_⟩ <;>
      rw [(mark_if_spec _ _ _ variants _ _).2 i hi, hsel i] <;>
      refine if_congr ?_ rfl rfl <;>
      simp only [decide_eq_true_eq, Bool.false_eq_true] <;>
      clear hfa hfb <;>
      refine ⟨fun h => ?_, fun h => ?_⟩ <;>
      first | omega | exact h.elim | simp only [false_and, and_false] at h
theorem prepvarinfo_terms_spec (en : rnnenum) : ∀ (ts : List (List Char)) (db : rnndb)
    (variants : List Nat),
    ((ts.map String.mk).foldl (prepvarinfo_term en) (db, variants)).2.length =
      variants.length ∧
    ∀ i, i < variants.length →
      ((ts.map String.mk).foldl (prepvarinfo_term en) (db, variants)).2.getD i 0 =
        if ts.any (fun t => spec_term_selects en t i) = true then variants.getD i 0 ||| 2
        else variants.getD i 0 := by
  intro ts
  induction ts with
  | nil => intro db variants; exact ⟨rfl, fun i _ => by simp⟩
  | cons t ts ih =>
    intro db variants
    obtain ⟨hl, hg⟩ := prepvarinfo_term_spec en db variants t
    obtain ⟨hl', hg'⟩ := ih (prepvarinfo_term en (db, variants) (String.mk t)).1
      (prepvarinfo_term en (db, variants) (String.mk t)).2
    simp only [List.map_cons, List.foldl_cons]
    refine ⟨hl'.trans hl, fun i hi => ?_⟩
    rw [hg' i (by omega), hg i hi, List.any_cons]
    by_cases h1 : spec_term_selects en t i = true <;>
      by_cases h2 : ts.any (fun t => spec_term_selects en t i) = true <;>
      simp [h1, h2, Nat.lor_assoc]

theorem find_varset_some (vidx : Nat) : ∀ (l : List rnnvarset) (k pos : Nat),
    find_varset vidx l k = some pos →
      k ≤ pos ∧ ∃ vs, l[pos - k]? = some vs ∧ vs.venum = vidx := by
  intro l
  induction l with
  | nil => intro k pos h; simp [find_varset] at h
  | cons v vs ih =>
    intro k pos h
    unfold find_varset at h
    by_cases hv : v.venum = vidx
    · rw [if_pos hv] at h
      injection h with h
      subst h
      exact ⟨Nat.le_refl _, v, by simp, hv⟩
    · rw [if_neg hv] at h
      obtain ⟨hle, w, hw, hwv⟩ := ih (k + 1) pos h
      refine ⟨by omega, w, ?_, hwv⟩
      rw [show pos - k = (pos - (k + 1)) + 1 by omega]
      simpa using hw

theorem find_varset_modify_at (vidx : Nat) (f : rnnvarset → rnnvarset)
    (hf : ∀ vs, (f vs).venum = vs.venum) : ∀ (l : List rnnvarset) (j k : Nat),
    find_varset vidx (modify_at f l j) k = find_varset vidx l k := by
  intro l
  induction l with
  | nil => intro j k; rfl
  | cons v vs ih =>
    intro j k
    cases j with
    | zero => simp only [modify_at, find_varset, hf]
    | succ j => simp only [modify_at, find_varset, ih]

theorem find_varset_append (vidx : Nat) (x : rnnvarset) (hx : x.venum = vidx) :
    ∀ (l : List rnnvarset) (k : Nat), find_varset vidx l k = none →
      find_varset vidx (l ++ [x]) k = some (k + l.length) := by
  intro l
  induction l with
  | nil => intro k _; simp [find_varset, hx]
  | cons v vs ih =>
    intro k h
    unfold find_varset at h
    by_cases hv : v.venum = vidx
    · rw [if_pos hv] at h; exact absurd h (by simp)
    · rw [if_neg hv] at h
      show find_varset vidx (v :: (vs ++ [x])) k = _
      unfold find_varset
      rw [if_neg hv, ih (k + 1) h, List.length_cons]
      congr 1; omega

theorem live_variants_spec (variants : List Nat) (nvars : Nat) :
    (live_variants variants nvars).length = nvars ∧
    ∀ i, i < nvars →
      (live_variants variants nvars).getD i 0 = if variants.getD i 0 = 3 then 1 else 0 := by
  unfold live_variants
  refine ⟨by simp, fun i hi => ?_⟩
  rw [List.getD_eq_getElem?_getD, List.getElem?_map, List.getElem?_range hi]
  rfl

theorem any_live_iff (final : List Nat) :
    (!(final.any (fun v => v != 0))) = true ↔ ∀ i, i < final.length → final.getD i 0 = 0 := by
  simp only [Bool.not_eq_true', List.any_eq_false, bne_iff_ne, ne_eq, Decidable.not_not]
  constructor
  · intro h i hi
    rw [List.getD_eq_getElem?_getD, List.getElem?_eq_getElem hi]
    exact h _ (List.getElem_mem hi)
  · intro h v hv
    obtain ⟨i, hi, rfl⟩ := List.getElem_of_mem hv
    have := h i hi
    rw [List.getD_eq_getElem?_getD, List.getElem?_eq_getElem hi] at this
    exact this
theorem marked_variants_spec (db : rnndb) (en : rnnenum) (vars : String) (old : List Nat)
    (hlen : old.length = en.vals.length) :
    (live_variants ((split_spaces vars.toList []).foldl (prepvarinfo_term en) (db, old)).2
        en.vals.length).length = en.vals.length ∧
    ∀ i, i < en.vals.length →
      (live_variants ((split_spaces vars.toList []).foldl (prepvarinfo_term en) (db, old)).2
          en.vals.length).getD i 0 =
        if (if spec_selected en vars i = true then old.getD i 0 ||| 2 else old.getD i 0) = 3
        then 1 else 0 := by
  obtain ⟨hl, hg⟩ := live_variants_spec
    ((split_spaces vars.toList []).foldl (prepvarinfo_term en) (db, old)).2 en.vals.length
  refine ⟨hl, fun i hi => ?_⟩
  rw [hg i hi, split_spaces_terms]
  rw [(prepvarinfo_terms_spec en (spec_terms vars) db old).2 i (by omega)]
  rfl

theorem stored_variants_spec (vidx : Nat) (final : List Nat) (S : List rnnvarset) (p : Nat)
    (vs0 : rnnvarset) (hS : S[p]? = some vs0) (hfind : find_varset vidx S 0 = some p) :
    find_varset vidx (modify_at (fun vs => { vs with variants := final }) S p) 0 = some p ∧
    (modify_at (fun vs => { vs with variants := final }) S p)[p]? =
      some { vs0 with variants := final } := by
  refine ⟨?_, ?_⟩
  · rw [find_varset_modify_at vidx (fun vs => { vs with variants := final }) (fun _ => rfl)]
    exact hfind
  · rw [modify_at_getElem?, if_pos rfl, hS]
    rfl

theorem prepvarinfo_variants_spec (db : rnndb) (vi : rnnvarinfo) (vidx : Nat) (en : rnnenum)
    (vars : String) (old : List Nat) (holdlen : old.length = en.vals.length)
    (hold : (find_varset vidx vi.varsets 0 = none ∧ old = List.replicate en.vals.length 1) ∨
      ∃ p vs0, find_varset vidx vi.varsets 0 = some p ∧ vi.varsets[p]? = some vs0 ∧
        old = vs0.variants) :
    ∃ pos vs,
      find_varset vidx (prepvarinfo_variants db vi vidx en vars).2.varsets 0 = some pos ∧
      (prepvarinfo_variants db vi vidx en vars).2.varsets[pos]? = some vs ∧
      vs.variants.length = en.vals.length ∧
      (∀ i, i < en.vals.length → vs.variants.getD i 0 =
        if (if spec_selected en vars i = true then old.getD i 0 ||| 2 else old.getD i 0) = 3
        then 1 else 0) ∧
      ((prepvarinfo_variants db vi vidx en vars).2.dead = true ↔
        ∀ i, i < en.vals.length → vs.variants.getD i 0 = 0) := by
  obtain ⟨hl, hg⟩ := marked_variants_spec db en vars old holdlen
  rcases hold with ⟨hnone, hrep⟩ | ⟨p, vs0, hsome, hget, hvs0⟩
  · have hS : (vi.varsets ++ [({ venum := vidx, variants := List.replicate en.vals.length 1 } :
        rnnvarset)])[vi.varsets.length]? =
        some { venum := vidx, variants := List.replicate en.vals.length 1 } := by simp
    have hfind := find_varset_append vidx
      { venum := vidx, variants := List.replicate en.vals.length 1 } rfl vi.varsets 0 hnone
    rw [Nat.zero_add] at hfind
    obtain ⟨h1, h2⟩ := stored_variants_spec vidx
      (live_variants ((split_spaces vars.toList []).foldl (prepvarinfo_term en) (db, old)).2
        en.vals.length) _ _ _ hS hfind
    subst hrep
    unfold prepvarinfo_variants
    simp only [hnone, hS]
    refine ⟨_, _, h1, h2, hl, hg, ?_⟩
    rw [any_live_iff, hl]
  · obtain ⟨h1, h2⟩ := stored_variants_spec vidx
      (live_variants ((split_spaces vars.toList []).foldl (prepvarinfo_term en) (db, old)).2
        en.vals.length) _ _ _ hget hsome
    subst hvs0
    unfold prepvarinfo_variants
    simp only [hsome, hget]
    refine ⟨_, _, h1, h2, hl, hg, ?_⟩
    rw [any_live_iff, hl]
theorem copyvarsets_find (db : rnndb) (vidx : Nat) (en : rnnenum)
    (hen : db.enums[vidx]? = some en) : ∀ (vss cs : List rnnvarset) (k : Nat),
    copyvarsets db vss = .ok cs →
      match vss.find? (fun vs => vs.venum == vidx) with
      | none => find_varset vidx cs k = none
      | some pvs => ∃ p c, find_varset vidx cs k = some (k + p) ∧ cs[p]? = some c ∧
          c.variants = (List.range en.vals.length).map (fun i => pvs.variants.getD i 0) := by
  intro vss
  induction vss with
  | nil =>
    intro cs k h
    injection h with h
    subst h
    rfl
  | cons v rest ih =>
    intro cs k h
    unfold copyvarsets at h
    obtain ⟨c0, hc0, h⟩ := Res.bind_eq_ok.1 h
    obtain ⟨cs', hcs', h⟩ := Res.bind_eq_ok.1 h
    injection h with h
    subst h
    unfold copyvarset at hc0
    rw [List.find?_cons]
    by_cases hv : v.venum = vidx
    · have hb : (v.venum == vidx) = true := by simp [hv]
      rw [hb]
      rw [hv, hen] at hc0
      injection hc0 with hc0
      subst hc0
      exact ⟨0, _, by simp [find_varset], List.getElem?_cons_zero, rfl⟩
    · have hb : (v.venum == vidx) = false := by simp [hv]
      rw [hb]
      have hc0v : c0.venum = v.venum := by
        cases hx : db.enums[v.venum]? with
        | none => rw [hx] at hc0; exact Res.noConfusion hc0
        | some e => rw [hx] at hc0; injection hc0 with hc0; subst hc0; rfl
      have ih' := ih cs' (k + 1) hcs'
      have hstep : find_varset vidx (c0 :: cs') k = find_varset vidx cs' (k + 1) := by
        show (if c0.venum = vidx then some k else find_varset vidx cs' (k + 1)) = _
        rw [if_neg (by rw [hc0v]; exact hv)]
      rw [hstep]
      cases hf : List.find? (fun vs => vs.venum == vidx) rest with
      | none => rw [hf] at ih'; exact ih'
      | some pvs =>
        rw [hf] at ih'
        obtain ⟨p, c, h1, h2, h3⟩ := ih'
        exact ⟨p + 1, c, by rw [h1]; congr 1; omega, by simpa using h2, h3⟩

theorem prepvarinfo_prefixstr_fields (db : rnndb) (vi vi' : rnnvarinfo)
    (h : prepvarinfo_prefixstr db vi = .ok vi') :
    vi'.varsets = vi.varsets ∧ vi'.dead = vi.dead := by
  unfold prepvarinfo_prefixstr at h
  repeat' split at h
  all_goals first
    | exact Res.noConfusion h
    | (injection h with h; subst h; exact ⟨rfl, rfl⟩)

theorem prepvarinfo_variants_eq (db : rnndb) (vi : rnnvarinfo) (parent : Option rnnvarinfo)
    (vars : String) (vidx : Nat) (en : rnnenum) (r : rnndb × rnnvarinfo)
    (hvars : vi.variantsstr = some vars)
    (hvarset : prepvarinfo_varset db vi parent = some vidx)
    (hen : db.enums[vidx]? = some en)
    (hr : prepvarinfo db vi parent = .ok r) :
    ∃ copies vi2,
      (match parent with
        | some p => copyvarsets db p.varsets
        | none => .ok []) = .ok copies ∧
      r.2.varsets = (prepvarinfo_variants db vi2 vidx en vars).2.varsets ∧
      r.2.dead = (prepvarinfo_variants db vi2 vidx en vars).2.dead ∧
      vi2.varsets = vi.varsets ++ copies := by
  unfold prepvarinfo at hr
  obtain ⟨copies, hcop, h⟩ := Res.bind_eq_ok.1 hr
  unfold prepvarinfo_varset at hvarset
  have tail : ∀ (vi2 : rnnvarinfo), vi2.varsets = vi.varsets ++ copies →
      (if (prepvarinfo_variants db vi2 vidx en vars).2.dead = true
        then Res.ok (prepvarinfo_variants db vi2 vidx en vars)
        else (prepvarinfo_prefixstr (prepvarinfo_variants db vi2 vidx en vars).1
          (prepvarinfo_variants db vi2 vidx en vars).2).bind
            (fun vi => Res.ok ((prepvarinfo_variants db vi2 vidx en vars).1, vi))) = .ok r →
      r.2.varsets = (prepvarinfo_variants db vi2 vidx en vars).2.varsets ∧
      r.2.dead = (prepvarinfo_variants db vi2 vidx en vars).2.dead ∧
      vi2.varsets = vi.varsets ++ copies := by
    intro vi2 hv2 h
    split at h
    · injection h with h; subst h; exact ⟨rfl, rfl, hv2⟩
    · obtain ⟨vi', hp, h⟩ := Res.bind_eq_ok.1 h
      injection h with h; subst h
      obtain ⟨h1, h2⟩ := prepvarinfo_prefixstr_fields _ _ _ hp
      exact ⟨h1, h2, hv2⟩
  have close : ∀ (vi2 : rnnvarinfo) (o : Option Nat), o = some vidx →
      vi2.varsets = vi.varsets ++ copies →
      (match o with
        | none => Res.ok (set_estatus db, vi2)
        | some vidx =>
          match db.enums[vidx]? with
          | none => Res.fault
          | some en =>
            if (prepvarinfo_variants db vi2 vidx en vars).2.dead = true
            then Res.ok (prepvarinfo_variants db vi2 vidx en vars)
            else (prepvarinfo_prefixstr (prepvarinfo_variants db vi2 vidx en vars).1
              (prepvarinfo_variants db vi2 vidx en vars).2).bind
                (fun vi => Res.ok ((prepvarinfo_variants db vi2 vidx en vars).1, vi))) = .ok r →
      ∃ copies vi2,
        (match parent with
          | some p => copyvarsets db p.varsets
          | none => .ok []) = .ok copies ∧
        r.2.varsets = (prepvarinfo_variants db vi2 vidx en vars).2.varsets ∧
        r.2.dead = (prepvarinfo_variants db vi2 vidx en vars).2.dead ∧
        vi2.varsets = vi.varsets ++ copies := by
    intro vi2 o ho hv2 h
    subst ho
    simp only [hen] at h
    exact ⟨copies, vi2, hcop, tail vi2 hv2 h⟩
  rcases parent with _ | p <;> rcases hps : vi.prefixstr with _ | s <;>
    rcases hvs : vi.varsetstr with _ | s2
  all_goals simp only [hps, hvs, hvars] at h hvarset
  · exact close _ _ hvarset rfl h
  · exact close _ _ hvarset rfl h
  · by_cases hs : s = "none"
    · simp only [hs, if_true] at h hvarset
      exact close _ _ hvarset rfl h
    · simp only [hs, if_false] at h hvarset
      exact close _ _ hvarset rfl h
  · by_cases hs : s = "none"
    · simp only [hs, if_true] at h hvarset
      exact close _ _ hvarset rfl h
    · simp only [hs, if_false] at h hvarset
      exact close _ _ hvarset rfl h
  · exact close _ _ hvarset rfl h
  · exact close _ _ hvarset rfl h
  · by_cases hs : s = "none"
    · simp only [hs, if_true] at h hvarset
      exact close _ _ hvarset rfl h
    · simp only [hs, if_false] at h hvarset
      exact close _ _ hvarset rfl h
  · by_cases hs : s = "none"
    · simp only [hs, if_true] at h hvarset
      exact close _ _ hvarset rfl h
    · simp only [hs, if_false] at h hvarset
      exact close _ _ hvarset rfl h
theorem copyvarsets_boolean (db : rnndb) : ∀ (vss cs : List rnnvarset),
    copyvarsets db vss = .ok cs →
    (∀ vs, vs ∈ vss → ∀ v, v ∈ vs.variants → v ≤ 1) →
    ∀ c, c ∈ cs → ∀ v, v ∈ c.variants → v ≤ 1 := by
  intro vss
  induction vss with
  | nil =>
    intro cs h _ c hc
    injection h with h
    subst h
    simp at hc
  | cons x rest ih =>
    intro cs h hb c hc v hv
    unfold copyvarsets at h
    obtain ⟨c0, hc0, h⟩ := Res.bind_eq_ok.1 h
    obtain ⟨cs', hcs', h⟩ := Res.bind_eq_ok.1 h
    injection h with h
    subst h
    rcases List.mem_cons.1 hc with rfl | hc
    · unfold copyvarset at hc0
      split at hc0
      · exact Res.noConfusion hc0
      · injection hc0 with hc0
        subst hc0
        obtain ⟨i, _, rfl⟩ := List.mem_map.1 hv
        rw [List.getD_eq_getElem?_getD]
        cases hx : x.variants[i]? with
        | none => exact Nat.zero_le 1
        | some w =>
          exact hb x (List.mem_cons_self _ _) w (List.getElem?_mem hx)
    · exact ih cs' hcs' (fun vs hvs => hb vs (List.mem_cons_of_mem _ hvs)) c hc v hv

theorem mem_modify_at_set {α : Type} (f : α → α) : ∀ (l : List α) (i : Nat) (y : α),
    y ∈ modify_at f l i → y ∈ l ∨ ∃ x, x ∈ l ∧ y = f x := by
  intro l
  induction l with
  | nil => intro i y h; simp [modify_at] at h
  | cons x xs ih =>
    intro i y h
    cases i with
    | zero =>
      rcases List.mem_cons.1 h with rfl | h
      · exact Or.inr ⟨x, List.mem_cons_self _ _, rfl⟩
      · exact Or.inl (List.mem_cons_of_mem _ h)
    | succ i =>
      rcases List.mem_cons.1 h with rfl | h
      · exact Or.inl (List.mem_cons_self _ _)
      · rcases ih i y h with h | ⟨z, hz, rfl⟩
        · exact Or.inl (List.mem_cons_of_mem _ h)
        · exact Or.inr ⟨z, List.mem_cons_of_mem _ hz, rfl⟩

theorem prepvarinfo_variants_boolean (db : rnndb) (vi : rnnvarinfo) (vidx : Nat)
    (en : rnnenum) (vars : String) (hb : varsets_boolean vi) :
    varsets_boolean (prepvarinfo_variants db vi vidx en vars).2 := by
  have hfinal : ∀ (variants : List Nat) (v : Nat),
      v ∈ live_variants variants en.vals.length → v ≤ 1 := by
    intro variants v hv
    unfold live_variants at hv
    obtain ⟨i, _, rfl⟩ := List.mem_map.1 hv
    split <;> omega
  intro vs hvs v hv
  unfold prepvarinfo_variants at hvs
  dsimp only at hvs
  rcases mem_modify_at_set _ _ _ _ hvs with h | ⟨x, _, rfl⟩
  · split at h
    · exact hb vs h v hv
    · rcases List.mem_append.1 h with h | h
      · exact hb vs h v hv
      · rw [List.mem_singleton] at h
        subst h
        rw [List.eq_of_mem_replicate hv]
  · exact hfinal _ v hv

theorem prepvarinfo_boolean (db : rnndb) (vi : rnnvarinfo) (parent : Option rnnvarinfo)
    (r : rnndb × rnnvarinfo) (hown : vi.varsets = [])
    (hpar : ∀ p, parent = some p → varsets_boolean p)
    (hr : prepvarinfo db vi parent = .ok r) : varsets_boolean r.2 := by
  obtain ⟨pstr, vsstr, vrstr, dead, prefenum, pfx, varsets⟩ := vi
  simp only at hown
  subst hown
  unfold prepvarinfo at hr
  obtain ⟨copies, hcop, h⟩ := Res.bind_eq_ok.1 hr
  have hcb : ∀ c, c ∈ copies → ∀ v, v ∈ c.variants → v ≤ 1 := by
    rcases parent with _ | p
    · injection hcop with hcop
      subst hcop
      intro c hc
      simp at hc
    · exact copyvarsets_boolean db p.varsets copies hcop (hpar p rfl)
  have hb2 : ∀ (vi2 : rnnvarinfo), vi2.varsets = [] ++ copies →
      varsets_boolean vi2 := by
    intro vi2 hv2 vs hvs
    rw [hv2, List.nil_append] at hvs
    exact hcb vs hvs
  have keyNone : ∀ (vi2 : rnnvarinfo) (d : Bool),
      (if d = true then Res.ok (db, vi2)
        else (prepvarinfo_prefixstr db vi2).bind (fun vi => Res.ok (db, vi))) = .ok r →
      vi2.varsets = [] ++ copies →
      varsets_boolean r.2 := by
    intro vi2 d h hv2
    split at h
    · injection h with h; subst h; exact hb2 vi2 hv2
    · obtain ⟨vi', hp, h⟩ := Res.bind_eq_ok.1 h
      injection h with h; subst h
      intro vs hvs
      rw [(prepvarinfo_prefixstr_fields _ _ _ hp).1] at hvs
      exact hb2 vi2 hv2 vs hvs
  have keySome : ∀ (vi2 : rnnvarinfo) (vars : String) (o : Option Nat),
      (match o with
        | none => Res.ok (set_estatus db, vi2)
        | some vidx =>
          match db.enums[vidx]? with
          | none => Res.fault
          | some en =>
            if (prepvarinfo_variants db vi2 vidx en vars).2.dead = true
            then Res.ok (prepvarinfo_variants db vi2 vidx en vars)
            else (prepvarinfo_prefixstr (prepvarinfo_variants db vi2 vidx en vars).1
              (prepvarinfo_variants db vi2 vidx en vars).2).bind
                (fun vi => Res.ok ((prepvarinfo_variants db vi2 vidx en vars).1, vi))) = .ok r →
      vi2.varsets = [] ++ copies →
      varsets_boolean r.2 := by
    intro vi2 vars o h hv2
    have hb3 := fun vidx en => prepvarinfo_variants_boolean db vi2 vidx en vars (hb2 vi2 hv2)
    split at h
    · injection h with h; subst h; exact hb2 vi2 hv2
    · split at h
      · exact Res.noConfusion h
      · split at h
        · injection h with h; subst h; exact hb3 _ _
        · obtain ⟨vi', hp, h⟩ := Res.bind_eq_ok.1 h
          injection h with h; subst h
          intro vs hvs
          rw [(prepvarinfo_prefixstr_fields _ _ _ hp).1] at hvs
          exact hb3 _ _ vs hvs
  rcases parent with _ | p <;> rcases pstr with _ | s <;>
    rcases vrstr with _ | vars <;> simp only [] at h
  all_goals first
    | (refine keyNone _ _ h ?_; rfl)
    | (refine keySome _ _ _ h ?_; rfl)
    | (by_cases hs : s = "none" <;> simp only [hs, if_true, if_false] at h <;>
        first | (refine keyNone _ _ h ?_; rfl) | (refine keySome _ _ _ h ?_; rfl))
theorem inherited_variants (db : rnndb) (parent : Option rnnvarinfo) (vidx : Nat)
    (en : rnnenum) (hen : db.enums[vidx]? = some en) (copies : List rnnvarset)
    (hcop : (match parent with
      | some p => copyvarsets db p.varsets
      | none => .ok []) = .ok copies) :
    ∃ old : List Nat, old.length = en.vals.length ∧
      ((find_varset vidx copies 0 = none ∧ old = List.replicate en.vals.length 1) ∨
        ∃ p vs0, find_varset vidx copies 0 = some p ∧ copies[p]? = some vs0 ∧
          old = vs0.variants) ∧
      ∀ i, i < en.vals.length → old.getD i 0 =
        match parent.bind (fun p => p.varsets.find? (fun vs => vs.venum == vidx)) with
        | some pvs => pvs.variants.getD i 0
        | none => 1 := by
  have fresh : find_varset vidx copies 0 = none →
      parent.bind (fun p => p.varsets.find? (fun vs => vs.venum == vidx)) = none →
      ∃ old : List Nat, old.length = en.vals.length ∧
        ((find_varset vidx copies 0 = none ∧ old = List.replicate en.vals.length 1) ∨
          ∃ p vs0, find_varset vidx copies 0 = some p ∧ copies[p]? = some vs0 ∧
            old = vs0.variants) ∧
        ∀ i, i < en.vals.length → old.getD i 0 =
          match parent.bind (fun p => p.varsets.find? (fun vs => vs.venum == vidx)) with
          | some pvs => pvs.variants.getD i 0
          | none => 1 := by
    intro hnone hpar
    refine ⟨List.replicate en.vals.length 1, by simp, Or.inl ⟨hnone, rfl⟩, fun i hi => ?_⟩
    rw [hpar]
    simp [List.getD_eq_getElem?_getD, List.getElem?_replicate, hi]
  rcases parent with _ | p
  · injection hcop with hcop
    subst hcop
    exact fresh rfl rfl
  · have hfind := copyvarsets_find db vidx en hen p.varsets copies 0 hcop
    cases hf : List.find? (fun vs => vs.venum == vidx) p.varsets with
    | none =>
      rw [hf] at hfind
      exact fresh hfind hf
    | some pvs =>
      rw [hf] at hfind
      obtain ⟨pos, c, h1, h2, h3⟩ := hfind
      rw [Nat.zero_add] at h1
      refine ⟨c.variants, by rw [h3]; simp, Or.inr ⟨pos, c, h1, h2, rfl⟩, fun i hi => ?_⟩
      show _ = match List.find? (fun vs => vs.venum == vidx) p.varsets with
        | some pvs => pvs.variants.getD i 0
        | none => 1
      rw [hf, h3, List.getD_eq_getElem?_getD, List.getElem?_map, List.getElem?_range hi]
      rfl

theorem live_slot_iff (x : Nat) (sel : Bool) (hx : x ≤ 1) :
    (if (if sel = true then x ||| 2 else x) = 3 then 1 else 0) ≠ 0 ↔ x ≠ 0 ∧ sel = true := by
  interval_cases x <;> cases sel <;> decide

/-- C14: for a definition that holds no VarSet of its own yet (as the parser
leaves it), with a variants expression `vars` and a varset that resolves to
the enum `en` at index `vidx`, under a parent whose VarSets hold 0 or 1 in
every slot (as `prepvarinfo` leaves them): when `prepvarinfo` returns, the
VarSets of the definition hold 0 or 1 in every slot again, and its VarSet for
`vidx` has one slot per value of `en`; slot `i` is live iff it is inheritable
and selected by the expression as the specification reads it; `dead` is set
iff no slot is live; and every live slot is live in the parent's VarSet for
that enum. -/
theorem variant_slots (db : rnndb) (vi : rnnvarinfo) (parent : Option rnnvarinfo)
    (vars : String) (vidx : Nat) (en : rnnenum) (r : rnndb × rnnvarinfo)
    (hown : vi.varsets = [])
    (hbool : ∀ p, parent = some p → varsets_boolean p)
    (hvars : vi.variantsstr = some vars)
    (hvarset : prepvarinfo_varset db vi parent = some vidx)
    (hen : db.enums[vidx]? = some en)
    (hr : prepvarinfo db vi parent = .ok r) :
    varsets_boolean r.2 ∧
    ∃ vs, varset_for r.2 vidx = some vs ∧ vs.variants.length = en.vals.length ∧
      (∀ i, i < en.vals.length →
        (vs.variants.getD i 0 ≠ 0 ↔
          spec_inheritable parent vidx i = true ∧ spec_selected en vars i = true)) ∧
      (r.2.dead = true ↔ ∀ i, i < en.vals.length → vs.variants.getD i 0 = 0) ∧
      (∀ p pvs, parent = some p →
        p.varsets.find? (fun vs => vs.venum == vidx) = some pvs →
        ∀ i, i < en.vals.length → vs.variants.getD i 0 ≠ 0 → pvs.variants.getD i 0 ≠ 0) := by
  obtain ⟨copies, vi2, hcop, hrv, hrd, hv2⟩ :=
    prepvarinfo_variants_eq db vi parent vars vidx en r hvars hvarset hen hr
  rw [hown, List.nil_append] at hv2
  obtain ⟨old, holdlen, hold, hinh⟩ := inherited_variants db parent vidx en hen copies hcop
  rw [← hv2] at hold
  obtain ⟨pos, vs, hfind, hget, hlen, hslots, hdead⟩ :=
    prepvarinfo_variants_spec db vi2 vidx en vars old holdlen hold
  have hx : ∀ i, i < en.vals.length → old.getD i 0 ≤ 1 ∧
      (old.getD i 0 ≠ 0 ↔ spec_inheritable parent vidx i = true) := by
    intro i hi
    rw [hinh i hi]
    unfold spec_inheritable
    cases hf : parent.bind (fun p => p.varsets.find? (fun vs => vs.venum == vidx)) with
    | none => exact ⟨Nat.le_refl 1, by simp⟩
    | some pvs =>
      obtain ⟨p, hp, hpf⟩ := Option.bind_eq_some.1 hf
      refine ⟨?_, by simp⟩
      show pvs.variants.getD i 0 ≤ 1
      rw [List.getD_eq_getElem?_getD]
      cases hx : pvs.variants[i]? with
      | none => exact Nat.zero_le 1
      | some w =>
        exact hbool p hp pvs (List.mem_of_find?_eq_some hpf) w (List.getElem?_mem hx)
  have hiff : ∀ i, i < en.vals.length →
      (vs.variants.getD i 0 ≠ 0 ↔
        spec_inheritable parent vidx i = true ∧ spec_selected en vars i = true) := by
    intro i hi
    rw [hslots i hi, live_slot_iff _ _ (hx i hi).1, (hx i hi).2]
  refine ⟨prepvarinfo_boolean db vi parent r hown hbool hr, vs, ?_, hlen, hiff, ?_, ?_⟩
  · unfold varset_for
    rw [hrv, hfind]
    exact hget
  · rw [hrd]
    exact hdead
  · intro p pvs hp hpf i hi hlive
    have h1 := ((hiff i hi).1 hlive).1
    subst hp
    have hsp : spec_inheritable (some p) vidx i = (pvs.variants.getD i 0 != 0) := by
      unfold spec_inheritable
      show (match List.find? (fun vs => vs.venum == vidx) p.varsets with
        | some pvs => pvs.variants.getD i 0 != 0
        | none => true) = _
      rw [hpf]
    rw [hsp] at h1
    simpa using h1

theorem variant_slots_witness :
    ∃ vs, varset_for ((prepvarinfo db_CHIP (varinfo_of "CHIP" "B:") (some varinfo_AB)).getD
        (rnn_newdb, rnnvarinfo_zero)).2 0 = some vs ∧
      vs.variants = [0, 1, 0] ∧
      (vs.variants.getD 1 0 ≠ 0 ↔
        spec_inheritable (some varinfo_AB) 0 1 = true ∧
          spec_selected enum_CHIP "B:" 1 = true) ∧
      (vs.variants.getD 2 0 ≠ 0 ↔
        spec_inheritable (some varinfo_AB) 0 2 = true ∧
          spec_selected enum_CHIP "B:" 2 = true) := by
  obtain ⟨_, vs, h1, h2, h4, h5, h6⟩ := variant_slots db_CHIP (varinfo_of "CHIP" "B:")
    (some varinfo_AB) "B:" 0 enum_CHIP _ rfl
    (by
      intro p hp
      injection hp with hp
      subst hp
      unfold varsets_boolean
      decide)
    rfl (by decide) rfl (Res.eq_ok_of_isOk _ (by decide!))
  have hv : varset_for ((prepvarinfo db_CHIP (varinfo_of "CHIP" "B:") (some varinfo_AB)).getD
      (rnn_newdb, rnnvarinfo_zero)).2 0 = some { venum := 0, variants := [0, 1, 0] } := by
    decide!
  rw [hv] at h1
  injection h1 with h1
  subst h1
  exact ⟨_, hv, rfl, h4 1 (by decide), h4 2 (by decide)⟩

/-! ## The finders -/

theorem find_named_first {α : Type} (nm : α → String) (name : String) :
    ∀ (l : List α) (k i : Nat) (x : α), l[i]? = some x → nm x = name →
      (∀ m e, m < i → l[m]? = some e → nm e ≠ name) →
      find_named nm name l k = some (k + i, x) := by
  intro l
  induction l with
  | nil => intro k i x h; simp at h
  | cons y ys ih =>
    intro k i x h hx hbefore
    unfold find_named
    cases i with
    | zero =>
      simp only [List.getElem?_cons_zero, Option.some.injEq] at h
      subst h
      rw [if_pos hx]; rfl
    | succ i =>
      rw [if_neg (hbefore 0 y (by omega) (by simp))]
      rw [List.getElem?_cons_succ] at h
      rw [ih (k + 1) i x h hx (fun m e hm hme => hbefore (m + 1) e (by omega) (by simpa using hme))]
      congr 2; omega

theorem find_named_none_iff {α : Type} (nm : α → String) (name : String) (l : List α)
    (k : Nat) : find_named nm name l k = none ↔ ∀ e, e ∈ l → nm e ≠ name := by
  refine ⟨find_named_none nm name l k, fun h => ?_⟩
  cases hf : find_named nm name l k with
  | none => rfl
  | some p =>
    obtain ⟨i, x⟩ := p
    obtain ⟨_, hget, hnm, _⟩ := find_named_some nm name l k i x hf
    exact absurd hnm (h x (List.getElem?_mem hget))

theorem find_index_iff {α : Type} (nm : α → String) (name : String) (l : List α) (i : Nat) :
    (find_named nm name l 0).map Prod.fst = some i ↔ first_named nm name l i := by
  constructor
  · intro h
    cases hf : find_named nm name l 0 with
    | none => rw [hf] at h; exact Option.noConfusion h
    | some p =>
      obtain ⟨i', x⟩ := p
      rw [hf] at h
      injection h with h
      simp only at h
      subst h
      obtain ⟨_, hget, hnm, hbefore⟩ := find_named_some nm name l 0 i' x hf
      exact ⟨⟨x, by simpa using hget, hnm⟩, fun j e hj => hbefore j e (by simpa using hj)⟩
  · rintro ⟨⟨e, hget, hnm⟩, hbefore⟩
    rw [find_named_first nm name l 0 i e hget hnm hbefore]
    simp

theorem find_index_none_iff {α : Type} (nm : α → String) (name : String) (l : List α) :
    (find_named nm name l 0).map Prod.fst = none ↔ ∀ e, e ∈ l → nm e ≠ name := by
  rw [Option.map_eq_none', find_named_none_iff]

/-- C24: `rnn_findenum`, `rnn_findbitset` and `rnn_finddomain` are linear
searches by exact name. For every database and name the result is the index of
the first entry, in order of appearance, of `db->enums` (resp. `db->bitsets`,
`db->domains`) whose name is the argument, and it is "not found" iff no entry
of that sequence has the name. The functions return nothing else: the
database is read only. -/
theorem rnn_find_linear (db : rnndb) (name : String) :
    ((∀ i, rnn_findenum db name = some i ↔ first_named rnnenum.name name db.enums i) ∧
      (rnn_findenum db name = none ↔ ∀ e, e ∈ db.enums → e.name ≠ name)) ∧
    ((∀ i, rnn_findbitset db name = some i ↔ first_named rnnbitset.name name db.bitsets i) ∧
      (rnn_findbitset db name = none ↔ ∀ b, b ∈ db.bitsets → b.name ≠ name)) ∧
    ((∀ i, rnn_finddomain db name = some i ↔ first_named rnndomain.name name db.domains i) ∧
      (rnn_finddomain db name = none ↔ ∀ d, d ∈ db.domains → d.name ≠ name)) :=
  ⟨⟨fun i => find_index_iff _ _ _ i, find_index_none_iff _ _ _⟩,
    ⟨fun i => find_index_iff _ _ _ i, find_index_none_iff _ _ _⟩,
    ⟨fun i => find_index_iff _ _ _ i, find_index_none_iff _ _ _⟩⟩

/-! ## Inline enums -/

/-- C25, as stated, fails: after the file that declares `E` with
`inline="yes"` has been parsed, `E` is in `db->enums`, marked inline, and
`rnn_findenum` returns it. -/
theorem inline_enum_found_counterexample :
    (rnn_parsefile 10 files_inline_enum rnn_newdb "a.xml").map (fun db =>
      (db.enums.map (fun e => (e.name, e.isinline)), rnn_findenum db "E", db.estatus)) =
      some ([("E", true)], some 0, 0) := by
  decide!

/-- C25, amended: an enum that is in `db->enums` is found by its name, inline
or not: `rnn_findenum` returns the first enum of that name, which is the enum
itself when the names in `db->enums` are distinct. And `parseenum` registers
an enum declared with `inline="yes"` under a new name like any other: after
the declaration `rnn_findenum` returns it, marked inline. -/
theorem inline_enum_found :
    (∀ (db : rnndb) (e : rnnenum), e ∈ db.enums → e.isinline = true →
      ∃ i e', rnn_findenum db e.name = some i ∧ db.enums[i]? = some e' ∧
        e'.name = e.name ∧ ((db.enums.map rnnenum.name).Nodup → e' = e)) ∧
    (∀ (node : xmlNode) (name : String) (fuel : Nat) (fs : xmlFiles) (db : rnndb),
      plain_list node.children = true → (enum_decl_attrs node).name = some name →
      (enum_decl_attrs node).isinline = true → 2 * depth node ≤ fuel →
      rnn_findenum db name = none →
      ∃ db' e, parseenum fuel fs db node = some db' ∧
        rnn_findenum db' name = some db.enums.length ∧
        db'.enums[db.enums.length]? = some e ∧ e.name = name ∧ e.isinline = true) := by
  refine ⟨?_, ?_⟩
  · intro db e he _
    cases hf : find_named rnnenum.name e.name db.enums 0 with
    | none => exact absurd rfl (find_named_none _ _ _ _ hf e he)
    | some p =>
      obtain ⟨i, e'⟩ := p
      obtain ⟨hget, hnm⟩ := find_named_getElem? _ _ _ _ _ hf
      refine ⟨i, e', by simp [rnn_findenum, hf], hget, hnm, fun hnd => ?_⟩
      obtain ⟨j, hj⟩ := List.getElem?_of_mem he
      have hi := (List.getElem?_eq_some.1 hget).1
      have hj' := (List.getElem?_eq_some.1 hj).1
      have h1 : (db.enums.map rnnenum.name)[i]? = some e.name := by
        rw [List.getElem?_map, hget]; simp [hnm]
      have h2 : (db.enums.map rnnenum.name)[j]? = some e.name := by
        rw [List.getElem?_map, hj]; rfl
      have hij : i = j := by
        have := (List.nodup_iff_getElem?_ne_getElem?.1 hnd)
        by_contra hne
        rcases Nat.lt_or_gt_of_ne hne with hlt | hgt
        · exact this i j hlt (by simpa using hj') (by rw [h1, h2])
        · exact this j i hgt (by simpa using hi) (by rw [h1, h2])
      subst hij
      rw [hget] at hj
      injection hj
  · intro node name fuel fs db hp hname hinl hfuel hnone
    have hfresh : find_named rnnenum.name name db.enums 0 = none := by
      unfold rnn_findenum at hnone
      cases hf : find_named rnnenum.name name db.enums 0 with
      | none => rfl
      | some p => rw [hf] at hnone; exact Option.noConfusion hnone
    refine ⟨_, { new_rnnenum name (enum_decl_attrs node) with vals := enum_decl_vals node },
      (parseenum_cases node name hp hname).1 fuel fs db hfuel hfresh, ?_, ?_, rfl, hinl⟩
    · unfold rnn_findenum
      rw [errset_enums]
      rw [find_named_append rnnenum.name name _ rfl db.enums 0 hfresh]
      simp
    · rw [errset_enums]
      simp

/-- C25, amended, at the declaration of `files_inline_enum`, parsed into the
empty database. -/
theorem inline_enum_found_witness :
    ∃ db' e, parseenum 4 (fun _ => none) rnn_newdb decl_E_inline = some db' ∧
      rnn_findenum db' "E" = some 0 ∧ db'.enums[0]? = some e ∧ e.name = "E" ∧
      e.isinline = true :=
  inline_enum_found.2 decl_E_inline "E" 4 (fun _ => none) rnn_newdb (by decide) (by decide)
    (by decide) (by decide) (by decide)

/-! ## Numeric attributes -/

/-! ## The numeric attribute decoder -/

theorem strtoull_digits_lt (base : Nat) : ∀ (s : List Char) (acc : Nat) (ovf any : Bool),
    acc < 2 ^ 64 → (strtoull_digits base s acc ovf any).1 < 2 ^ 64 := by
  intro s
  induction s with
  | nil => intro acc ovf any h; exact h
  | cons c cs ih =>
    intro acc ovf any h
    unfold strtoull_digits
    split
    · exact h
    · split
      · split
        · next hlt => exact ih _ _ _ hlt
        · exact ih _ _ _ h
      · exact h

theorem strtoull_lt (s : List Char) (base : Nat) : (strtoull s base).1 < 2 ^ 64 := by
  unfold strtoull
  have hd := fun t => strtoull_digits_lt base t 0 false false (by decide)
  have h0 : (0 : Nat) < 2 ^ 64 := by decide
  have hm : (2 ^ 64 - 1 : Nat) < 2 ^ 64 := by decide
  dsimp only
  split
  · split
    · exact h0
    · exact h0
  · split
    · exact hm
    · split
      · exact Nat.mod_lt _ h0
      · exact hd _

theorem digits_value_ge (base : Nat) : ∀ (ds : List Char) (acc : Nat), 1 ≤ base →
    acc ≤ ds.foldl (fun acc c => acc * base + hex_digit_value c) acc := by
  intro ds
  induction ds with
  | nil => intro acc _; exact Nat.le_refl _
  | cons c cs ih =>
    intro acc hb
    refine Nat.le_trans ?_ (ih _ hb)
    calc acc = acc * 1 := (Nat.mul_one acc).symm
      _ ≤ acc * base := Nat.mul_le_mul_left _ hb
      _ ≤ acc * base + hex_digit_value c := Nat.le_add_right _ _

theorem strtoull_digits_all (base : Nat) (hb : 1 ≤ base) : ∀ (ds : List Char) (acc : Nat)
    (any : Bool),
    (∀ c, c ∈ ds → digit_value c = some (hex_digit_value c) ∧ hex_digit_value c < base) →
    ds.foldl (fun acc c => acc * base + hex_digit_value c) acc < 2 ^ 64 →
    strtoull_digits base ds acc false any =
      (ds.foldl (fun acc c => acc * base + hex_digit_value c) acc, false,
        any || !ds.isEmpty, []) := by
  intro ds
  induction ds with
  | nil => intro acc any _ _; simp [strtoull_digits]
  | cons c cs ih =>
    intro acc any hds hlt
    obtain ⟨hv, hdb⟩ := hds c (List.mem_cons_self _ _)
    have hstep : acc * base + hex_digit_value c < 2 ^ 64 :=
      Nat.lt_of_le_of_lt (digits_value_ge base cs _ hb) hlt
    unfold strtoull_digits
    simp only [hv, hdb, hstep, if_true, List.foldl_cons]
    rw [ih _ true (fun c' hc' => hds c' (List.mem_cons_of_mem _ hc')) hlt]
    simp

theorem dec_digit_value (c : Char) (h : is_dec_digit c = true) :
    digit_value c = some (hex_digit_value c) ∧ hex_digit_value c < 10 ∧
      c_isspace c = false ∧ c ≠ '-' ∧ c ≠ '+' ∧ c ≠ 'x' ∧ c ≠ 'X' := by
  have hc : '0' ≤ c ∧ c ≤ '9' := by simpa [is_dec_digit] using h
  have h1 : '0'.toNat ≤ c.toNat := hc.1
  have h2 : c.toNat ≤ '9'.toNat := hc.2
  have e0 : '0'.toNat = 48 := rfl
  have e9 : '9'.toNat = 57 := rfl
  refine ⟨?_, ?_, ?_, ?_, ?_, ?_, ?_⟩
  · unfold digit_value hex_digit_value
    rw [if_pos hc, if_pos h]
  · unfold hex_digit_value
    rw [if_pos h]; omega
  · cases hs : c_isspace c with
    | false => rfl
    | true =>
      exfalso
      simp only [c_isspace, Bool.or_eq_true, decide_eq_true_eq] at hs
      rcases hs with ((((hs | hs) | hs) | hs) | hs) | hs <;> (subst hs; revert hc; decide)
  all_goals (intro hx; subst hx; revert hc; decide)

theorem hex_digit_value_spec (c : Char) (h : is_hex_digit c = true) :
    digit_value c = some (hex_digit_value c) ∧ hex_digit_value c < 16 := by
  by_cases hd : is_dec_digit c = true
  · exact ⟨(dec_digit_value c hd).1, Nat.lt_trans (dec_digit_value c hd).2.1 (by decide)⟩
  · have hnd : ¬ ('0' ≤ c ∧ c ≤ '9') := by simpa [is_dec_digit] using hd
    simp only [is_hex_digit, Bool.or_eq_true, decide_eq_true_eq] at h
    have ea : 'a'.toNat = 97 := rfl
    have ef : 'f'.toNat = 102 := rfl
    have eA : 'A'.toNat = 65 := rfl
    have eF : 'F'.toNat = 70 := rfl
    rcases h with (h | h) | h
    · exact absurd h hd
    · have h1 : 'a'.toNat ≤ c.toNat := h.1
      have h2 : c.toNat ≤ 'f'.toNat := h.2
      have hz : 'a' ≤ c ∧ c ≤ 'z' := ⟨h.1, Nat.le_trans h2 (by decide)⟩
      refine ⟨?_, ?_⟩
      · unfold digit_value hex_digit_value
        rw [if_neg hnd, if_pos hz, if_neg hd, if_pos h]
      · unfold hex_digit_value
        rw [if_neg hd, if_pos h]; omega
    · have h1 : 'A'.toNat ≤ c.toNat := h.1
      have h2 : c.toNat ≤ 'F'.toNat := h.2
      have hna : ¬ ('a' ≤ c ∧ c ≤ 'z') := by
        intro hz
        have : 'a'.toNat ≤ c.toNat := hz.1
        omega
      have hnf : ¬ ('a' ≤ c ∧ c ≤ 'f') := by
        intro hz
        have : 'a'.toNat ≤ c.toNat := hz.1
        omega
      have hZ : 'A' ≤ c ∧ c ≤ 'Z' := ⟨h.1, Nat.le_trans h2 (by decide)⟩
      refine ⟨?_, ?_⟩
      · unfold digit_value hex_digit_value
        rw [if_neg hnd, if_neg hna, if_pos hZ, if_neg hd, if_neg hnf]
      · unfold hex_digit_value
        rw [if_neg hd, if_neg hnf]; omega

theorem strtoull_decimal (s : List Char) (h : decimal_literal s = true)
    (hv : digits_value 10 s < 2 ^ 64) : strtoull s 10 = (digits_value 10 s, []) := by
  unfold decimal_literal at h
  simp only [Bool.and_eq_true, Bool.not_eq_true', List.all_eq_true] at h
  obtain ⟨hne, hall⟩ := h
  cases s with
  | nil => simp at hne
  | cons c cs =>
    obtain ⟨_, _, hsp, hm, hp, _, _⟩ := dec_digit_value c (hall c (List.mem_cons_self _ _))
    have hd := strtoull_digits_all 10 (by decide) (c :: cs) 0 false
      (fun c' hc' => ⟨(dec_digit_value c' (hall c' hc')).1, (dec_digit_value c' (hall c' hc')).2.1⟩)
      hv
    have hdw : (c :: cs).dropWhile c_isspace = c :: cs := by
      rw [List.dropWhile_cons, hsp]; rfl
    unfold strtoull
    simp only [hdw]
    have hsg : ∀ r, c :: cs = '-' :: r → False := fun r heq => by
      injection heq with h1; exact hm h1
    have hsp' : ∀ r, c :: cs = '+' :: r → False := fun r heq => by
      injection heq with h1; exact hp h1
    simp only [hm, hp, hsg, hsp', ne_eq, not_false_eq_true, imp_false, reduceCtorEq,
      List.cons.injEq, false_and, and_false, implies_true, if_false,
      show ¬ ((10 : Nat) = 16) by decide]
    by_cases hc0 : c = '0'
    · subst hc0
      rcases cs with _ | ⟨x, r⟩
      · simp [hd, digits_value]
      · simp [hd, digits_value]
    · have h0 : ∀ x r, c :: cs = '0' :: x :: r → False := fun x r heq => by
        injection heq with h1; exact hc0 h1
      simp [hc0, hd, digits_value]

theorem strtoull_hex (s : List Char) (h : hex_literal s = true)
    (hv : digits_value 16 (s.drop 2) < 2 ^ 64) :
    strtoull s 16 = (digits_value 16 (s.drop 2), []) := by
  unfold hex_literal at h
  split at h
  · next x ds =>
    simp only [Bool.and_eq_true, Bool.or_eq_true, beq_iff_eq, Bool.not_eq_true',
      List.all_eq_true] at h
    obtain ⟨⟨hx, hne⟩, hall⟩ := h
    have hd := strtoull_digits_all 16 (by decide) ds 0 false
      (fun c' hc' => hex_digit_value_spec c' (hall c' hc')) hv
    have hdw : ('0' :: x :: ds).dropWhile c_isspace = '0' :: x :: ds := by
      rw [List.dropWhile_cons]; rfl
    unfold strtoull
    cases ds with
    | nil => simp at hne
    | cons d ds =>
      simp only [hdw]
      simp [if_pos hx, hd, digits_value]
  · exact absurd h (by simp)

theorem decimal_literal_no_x (s : List Char) (h : decimal_literal s = true) :
    ¬ ('x' ∈ s ∨ 'X' ∈ s) ∧ hex_literal s = false := by
  unfold decimal_literal at h
  simp only [Bool.and_eq_true, Bool.not_eq_true', List.all_eq_true] at h
  obtain ⟨_, hall⟩ := h
  have hx : 'x' ∉ s := fun hm => absurd (hall _ hm) (by decide)
  have hX : 'X' ∉ s := fun hm => absurd (hall _ hm) (by decide)
  refine ⟨fun hor => hor.elim hx hX, ?_⟩
  rcases s with _ | ⟨a, _ | ⟨x, ds⟩⟩
  · rfl
  · unfold hex_literal; split <;> simp_all
  · have hmem : x ∈ a :: x :: ds := by simp
    have hx1 : x ≠ 'x' := fun e => hx (e ▸ hmem)
    have hx2 : x ≠ 'X' := fun e => hX (e ▸ hmem)
    unfold hex_literal
    split
    · next heq =>
      injection heq with _ h2
      injection h2 with h3 _
      subst h3
      simp [hx1, hx2]
    · rfl

theorem hex_literal_has_x (s : List Char) (h : hex_literal s = true) :
    'x' ∈ s ∨ 'X' ∈ s := by
  unfold hex_literal at h
  split at h
  · next x ds =>
    simp only [Bool.and_eq_true, Bool.or_eq_true, beq_iff_eq] at h
    rcases h.1.1 with rfl | rfl
    · left; simp
    · right; simp
  · exact absurd h (by simp)

theorem getnumattrib_base (db : rnndb) (attr : xmlAttr) :
    getnumattrib db attr =
      (errset (decide ((strtoull (getattrib db attr).2.toList
          (literal_base (getattrib db attr).2.toList)).2 ≠ [])) (getattrib db attr).1,
        (strtoull (getattrib db attr).2.toList
          (literal_base (getattrib db attr).2.toList)).1) := by
  unfold getnumattrib literal_base errset
  have hc : ∀ (c : Char) (l : List Char), l.contains c = true ↔ c ∈ l := fun c l => by simp
  simp only [hc]
  by_cases hx : 'x' ∈ (getattrib db attr).2.toList ∨ 'X' ∈ (getattrib db attr).2.toList
  · simp only [if_pos hx]
    generalize strtoull (getattrib db attr).2.toList 16 = p
    by_cases hr : p.2 = [] <;> simp [hr]
  · simp only [if_neg hx]
    generalize strtoull (getattrib db attr).2.toList 10 = p
    by_cases hr : p.2 = [] <;> simp [hr]

theorem strtoull_literal (s : List Char) (h : decimal_literal s = true ∨ hex_literal s = true)
    (hv : literal_value s < 2 ^ 64) : strtoull s (literal_base s) = (literal_value s, []) := by
  rcases h with h | h
  · have hn := decimal_literal_no_x s h
    have hl : literal_value s = digits_value 10 s := by
      unfold literal_value; rw [hn.2]; rfl
    have hb : literal_base s = 10 := by unfold literal_base; rw [if_neg hn.1]
    rw [hb, hl]; rw [hl] at hv
    exact strtoull_decimal s h hv
  · have hl : literal_value s = digits_value 16 (s.drop 2) := by
      unfold literal_value; rw [h]; rfl
    have hb : literal_base s = 16 := by
      unfold literal_base; rw [if_pos (hex_literal_has_x s h)]
    rw [hb, hl]; rw [hl] at hv
    exact strtoull_hex s h hv

/-- C23: `getnumattrib` reads the text of the attribute with `strtoull` in base
16 when the text holds an `x` or an `X` and in base 10 otherwise; the number it
returns is below `2^64`; `estatus` is set exactly when `strtoull` leaves
characters unread, and is otherwise as `getattrib` left it; for a well-formed
literal (decimal digits, or `0x`/`0X` and hexadecimal digits) whose value fits
64 bits the result is that value and `estatus` is not touched. On the texts
`0x1` and `2` the results are 1 and 2 with `estatus` still 0, the text `2z`
sets `estatus`, and `parsevalue` on `<value name="A" value=".."/>` with these
texts returns a value with `valvalid = true` and the values 1 and 2. -/
theorem getnumattrib_decode :
    (∀ (db : rnndb) (attr : xmlAttr),
      getnumattrib db attr =
        (errset (decide ((strtoull (getattrib db attr).2.toList
            (literal_base (getattrib db attr).2.toList)).2 ≠ [])) (getattrib db attr).1,
          (strtoull (getattrib db attr).2.toList
            (literal_base (getattrib db attr).2.toList)).1) ∧
      (getnumattrib db attr).2 < 2 ^ 64 ∧
      ((decimal_literal (getattrib db attr).2.toList = true ∨
            hex_literal (getattrib db attr).2.toList = true) →
          literal_value (getattrib db attr).2.toList < 2 ^ 64 →
          getnumattrib db attr =
            ((getattrib db attr).1, literal_value (getattrib db attr).2.toList))) ∧
    ((getnumattrib rnn_newdb (xml_attr "value" "0x1")).1.estatus,
        (getnumattrib rnn_newdb (xml_attr "value" "0x1")).2) = (0, 1) ∧
    ((getnumattrib rnn_newdb (xml_attr "value" "2")).1.estatus,
        (getnumattrib rnn_newdb (xml_attr "value" "2")).2) = (0, 2) ∧
    ((getnumattrib rnn_newdb (xml_attr "value" "2z")).1.estatus,
        (getnumattrib rnn_newdb (xml_attr "value" "2z")).2) = (1, 2) ∧
    (parsevalue 2 (fun _ => none) rnn_newdb (value_node "0x1")).map
        (fun r => (r.1.estatus, r.2.map (fun v => (v.name, v.valvalid, v.value)))) =
      some (0, some ("A", true, 1)) ∧
    (parsevalue 2 (fun _ => none) rnn_newdb (value_node "2")).map
        (fun r => (r.1.estatus, r.2.map (fun v => (v.name, v.valvalid, v.value)))) =
      some (0, some ("A", true, 2)) := by
  refine ⟨fun db attr => ⟨getnumattrib_base db attr, ?_, fun h hv => ?_⟩,
    by decide!, by decide!, by decide!, by decide!, by decide!⟩
  · rw [getnumattrib_base]; exact strtoull_lt _ _
  · rw [getnumattrib_base, strtoull_literal _ h hv]; rfl

/-! ## Bitfield placement -/

theorem getnumattrib_lt (db : rnndb) (attr : xmlAttr) : (getnumattrib db attr).2 < 2 ^ 64 := by
  rw [getnumattrib_base]; exact strtoull_lt _ _

theorem getattrib_text (db : rnndb) (a : xmlAttr) : (getattrib db a).2 = attr_text a := by
  obtain ⟨e, s, h⟩ := getattrib_uniform a
  rw [attr_text, h, h]

theorem getnumattrib_number (db : rnndb) (a : xmlAttr) :
    (getnumattrib db a).2 = attr_number a := by
  obtain ⟨e, s, h⟩ := getnumattrib_uniform a
  rw [attr_number, h, h]

theorem foldl_last_attr {S V : Type} (step : S → xmlAttr → S) (get : S → V) (nm : String)
    (val : xmlAttr → V)
    (hstep : ∀ s a, get (step s a) = if a.name = nm then val a else get s) :
    ∀ (l : List xmlAttr) (s : S),
      get (l.foldl step s) =
        ((l.filter (fun a => a.name = nm)).getLast?.map val).getD (get s) := by
  intro l
  induction l using List.reverseRecOn with
  | nil => intro s; rfl
  | append_singleton l a ih =>
    intro s
    rw [List.foldl_append, List.foldl_cons, List.foldl_nil, hstep, List.filter_append]
    by_cases ha : a.name = nm
    · rw [if_pos ha]
      simp [List.filter_cons, ha]
    · rw [if_neg ha, ih]
      simp [List.filter_cons, ha]

theorem parsebitfield_attr_fields (st : rnndb × rnnbitfield_tmp) (a : xmlAttr) :
    (parsebitfield_attr st a).2.name =
        (if a.name = "name" then some (attr_text a) else st.2.name) ∧
      (parsebitfield_attr st a).2.high =
        (if a.name = "high" then attr_number a else st.2.high) ∧
      (parsebitfield_attr st a).2.highok = (if a.name = "high" then true else st.2.highok) ∧
      (parsebitfield_attr st a).2.low =
        (if a.name = "low" then attr_number a else st.2.low) ∧
      (parsebitfield_attr st a).2.lowok = (if a.name = "low" then true else st.2.lowok) := by
  unfold parsebitfield_attr
  by_cases c1 : a.name = "name"
  · have h2 : a.name ≠ "high" := by rw [c1]; decide
    have h3 : a.name ≠ "low" := by rw [c1]; decide
    simp [if_pos c1, if_neg h2, if_neg h3, getattrib_text]
  by_cases c2 : a.name = "high"
  · have h3 : a.name ≠ "low" := by rw [c2]; decide
    simp [if_neg c1, if_pos c2, if_neg h3, getnumattrib_number]
  by_cases c3 : a.name = "low"
  · simp [if_neg c1, if_neg c2, if_pos c3, getnumattrib_number]
  by_cases c4 : a.name = "varset"
  · simp [if_neg c1, if_neg c2, if_neg c3, if_pos c4]
  by_cases c5 : a.name = "variants"
  · simp [if_neg c1, if_neg c2, if_neg c3, if_neg c4, if_pos c5]
  simp only [if_neg c1, if_neg c2, if_neg c3, if_neg c4, if_neg c5]
  split <;> simp

theorem parsebitfield_attrs (db : rnndb) (node : xmlNode) :
    (node.properties.foldl parsebitfield_attr (db, rnnbitfield_tmp_zero)).2.name =
        (given_attr node "name").map attr_text ∧
      (node.properties.foldl parsebitfield_attr (db, rnnbitfield_tmp_zero)).2.high =
        given_number node "high" ∧
      (node.properties.foldl parsebitfield_attr (db, rnnbitfield_tmp_zero)).2.highok =
        (given_attr node "high").isSome ∧
      (node.properties.foldl parsebitfield_attr (db, rnnbitfield_tmp_zero)).2.low =
        given_number node "low" ∧
      (node.properties.foldl parsebitfield_attr (db, rnnbitfield_tmp_zero)).2.lowok =
        (given_attr node "low").isSome := by
  refine ⟨?_, ?_, ?_, ?_, ?_⟩
  · rw [foldl_last_attr parsebitfield_attr (fun s => s.2.name) "name"
      (fun a => some (attr_text a)) (fun s a => (parsebitfield_attr_fields s a).1)]
    unfold given_attr
    cases (node.properties.filter (fun a => a.name = "name")).getLast? <;> rfl
  · rw [foldl_last_attr parsebitfield_attr (fun s => s.2.high) "high"
      attr_number (fun s a => (parsebitfield_attr_fields s a).2.1)]
    rfl
  · rw [foldl_last_attr parsebitfield_attr (fun s => s.2.highok) "high"
      (fun _ => true) (fun s a => (parsebitfield_attr_fields s a).2.2.1)]
    unfold given_attr
    cases (node.properties.filter (fun a => a.name = "high")).getLast? <;> rfl
  · rw [foldl_last_attr parsebitfield_attr (fun s => s.2.low) "low"
      attr_number (fun s a => (parsebitfield_attr_fields s a).2.2.2.1)]
    rfl
  · rw [foldl_last_attr parsebitfield_attr (fun s => s.2.lowok) "low"
      (fun _ => true) (fun s a => (parsebitfield_attr_fields s a).2.2.2.2)]
    unfold given_attr
    cases (node.properties.filter (fun a => a.name = "low")).getLast? <;> rfl

theorem given_number_lt (node : xmlNode) (nm : String) : given_number node nm < 2 ^ 64 := by
  unfold given_number
  cases given_attr node nm with
  | none => exact Nat.two_pow_pos 64
  | some a => exact getnumattrib_lt _ a

/-- The bitfield `parsebitfield` returns: null exactly when the name, `high` or
`low` was not seen or `high < low`, and then `estatus` is set; otherwise the
name and the numbers of the attributes. -/
theorem parsebitfield_result (fuel : Nat) (fs : xmlFiles) (db : rnndb) (node : xmlNode)
    (db' : rnndb) (r : Option rnnbitfield)
    (h : parsebitfield fuel fs db node = some (db', r)) :
    (r = none ↔ (given_attr node "name" = none ∨ given_attr node "low" = none ∨
      given_attr node "high" = none ∨ given_number node "high" < given_number node "low")) ∧
    (r = none → db'.estatus = 1) ∧
    (∀ bf, r = some bf → given_attr node "name" ≠ none ∧ bf.name = given_text node "name" ∧
      bf.low = given_number node "low" ∧ bf.high = given_number node "high") := by
  cases fuel with
  | zero => rw [parsebitfield] at h; exact Option.noConfusion h
  | succ fuel =>
    obtain ⟨hn, hh, hhok, hl, hlok⟩ := parsebitfield_attrs db node
    have isf : ∀ (o : Option xmlAttr), o.isSome = false ↔ o = none := fun o => by
      cases o <;> simp
    rw [parsebitfield] at h
    split at h
    · exact Option.noConfusion h
    · next db1 ti _ =>
      rw [hn, hh, hhok, hl, hlok] at h
      cases hname : given_attr node "name" with
      | none =>
        rw [hname] at h
        simp only [Option.map_none', Option.some.injEq, Prod.mk.injEq] at h
        obtain ⟨rfl, rfl⟩ := h
        exact ⟨⟨fun _ => Or.inl rfl, fun _ => rfl⟩, fun _ => rfl, fun bf hbf => Option.noConfusion hbf⟩
      | some a =>
        rw [hname] at h
        simp only [Option.map_some'] at h
        split at h
        · next hc =>
          simp only [Option.some.injEq, Prod.mk.injEq] at h
          obtain ⟨rfl, rfl⟩ := h
          refine ⟨⟨fun _ => Or.inr ?_, fun _ => rfl⟩, fun _ => rfl,
            fun bf hbf => Option.noConfusion hbf⟩
          simp only [Bool.or_eq_true, Bool.not_eq_true', decide_eq_true_eq,
            isf] at hc
          rcases hc with (hc | hc) | hc
          · exact Or.inr (Or.inl hc)
          · exact Or.inl hc
          · exact Or.inr (Or.inr hc)
        · next hc =>
          simp only [Option.some.injEq, Prod.mk.injEq] at h
          obtain ⟨rfl, rfl⟩ := h
          simp only [Bool.or_eq_true, Bool.not_eq_true', decide_eq_true_eq,
            isf, not_or] at hc
          refine ⟨⟨fun hr => Option.noConfusion hr, fun hor => ?_⟩,
            fun hr => Option.noConfusion hr, fun bf hbf => ?_⟩
          · rcases hor with hor | hor | hor | hor
            · exact Option.noConfusion hor
            · exact absurd hor hc.1.2
            · exact absurd hor hc.1.1
            · exact absurd hor hc.2
          · injection hbf with hbf
            subst hbf
            refine ⟨fun hx => Option.noConfusion hx, ?_, rfl, rfl⟩
            simp [given_text, hname]

theorem parsebitfield_total (fuel : Nat) (fs : xmlFiles) (db : rnndb) (node : xmlNode)
    (hp : plain node = true) (hf : 2 * depth node ≤ fuel) :
    ∃ db' r, parsebitfield fuel fs db node = some (db', r) := by
  obtain ⟨_, ⟨err, b, h⟩, _⟩ := plain_uniform (depth node) node hp (le_refl _)
  exact ⟨_, _, h fuel fs db hf⟩

theorem parsebitfield_accepts (fuel : Nat) (fs : xmlFiles) (db : rnndb) (node : xmlNode)
    (hp : plain node = true) (hf : 2 * depth node ≤ fuel)
    (hn : given_attr node "name" ≠ none) (hl : given_attr node "low" ≠ none)
    (hh : given_attr node "high" ≠ none)
    (hle : given_number node "low" ≤ given_number node "high") :
    ∃ db' bf, parsebitfield fuel fs db node = some (db', some bf) := by
  obtain ⟨db', r, h⟩ := parsebitfield_total fuel fs db node hp hf
  cases r with
  | some bf => exact ⟨db', bf, h⟩
  | none =>
    rcases (parsebitfield_result fuel fs db node db' none h).1.1 rfl with h1 | h1 | h1 | h1
    · exact absurd h1 hn
    · exact absurd h1 hl
    · exact absurd h1 hh
    · omega

/-- C21, as the code has it: `parsebitfield` on
`<bitfield name="F" low="0" high="64"/>` sets no `estatus` and returns the
bitfield with `high = 64`. -/
theorem parsebitfield_placement_counterexample :
    (parsebitfield 2 (fun _ => none) rnn_newdb (decl_F "0" "64")).map
        (fun r => (r.1.estatus, r.2.map (fun bf => (bf.name, bf.low, bf.high)))) =
      some (0, some ("F", 0, 64)) := by
  decide!

/-- C21, amended: every bitfield that `parsebitfield` returns has
`0 ≤ low ≤ high`, and `high` is a 64-bit number; no bound by 63 is checked. -/
theorem parsebitfield_placement (fuel : Nat) (fs : xmlFiles) (db : rnndb) (node : xmlNode)
    (db' : rnndb) (bf : rnnbitfield)
    (h : parsebitfield fuel fs db node = some (db', some bf)) :
    0 ≤ bf.low ∧ bf.low ≤ bf.high ∧ bf.high < 2 ^ 64 := by
  obtain ⟨hiff, _, hbf⟩ := parsebitfield_result fuel fs db node db' (some bf) h
  obtain ⟨_, _, hl, hh⟩ := hbf bf rfl
  refine ⟨Nat.zero_le _, ?_, ?_⟩
  · rw [hl, hh]
    by_contra hc
    exact Option.noConfusion (hiff.2 (Or.inr (Or.inr (Or.inr (by omega)))))
  · rw [hh]; exact given_number_lt node "high"

/-- C21, amended, at `<bitfield name="F" low="4" high="7"/>`. -/
theorem parsebitfield_placement_witness :
    ∃ db' bf, parsebitfield 2 (fun _ => none) rnn_newdb (decl_F "4" "7") = some (db', some bf) ∧
      0 ≤ bf.low ∧ bf.low ≤ bf.high ∧ bf.high < 2 ^ 64 := by
  obtain ⟨db', bf, h⟩ := parsebitfield_accepts 2 (fun _ => none) rnn_newdb (decl_F "4" "7")
    (by decide) (by decide) (by decide) (by decide) (by decide) (by decide!)
  exact ⟨db', bf, h, parsebitfield_placement _ _ _ _ _ _ h⟩

/-- C22: whenever `parsebitfield` returns, it returns no bitfield exactly when
the element has no `name`, no `low` or no `high` attribute, or when the number
of `high` is below that of `low`; then `estatus` is set, `trytypetag` leaves
the type info as it is and the child loop of `parsebitset` leaves the database
as `parsebitfield` returned it, so nothing is appended. Otherwise the bitfield
carries the text of `name` and the numbers of `low` and `high`, and it is the
one appended. On an element without declarations below it `parsebitfield`
returns, given fuel for its height. -/
theorem parsebitfield_rejects (fuel : Nat) (fs : xmlFiles) (db : rnndb) (node : xmlNode) :
    (∀ (db' : rnndb) (r : Option rnnbitfield),
      parsebitfield fuel fs db node = some (db', r) →
      (r = none ↔ (given_attr node "name" = none ∨ given_attr node "low" = none ∨
        given_attr node "high" = none ∨
        given_number node "high" < given_number node "low")) ∧
      (r = none → db'.estatus = 1 ∧
        (∀ ti, node.name = "bitfield" →
          trytypetag (fuel + 1) fs db node ti = some (db', ti, true)) ∧
        (∀ top cur, node.type = xmlElementType.XML_ELEMENT_NODE → node.name = "bitfield" →
          bitset_child (fun db chain => parsebitfield fuel fs db chain) top cur db node =
            some db')) ∧
      (∀ bf, r = some bf →
        bf.name = given_text node "name" ∧ bf.low = given_number node "low" ∧
        bf.high = given_number node "high" ∧
        (∀ ti, node.name = "bitfield" →
          trytypetag (fuel + 1) fs db node ti =
            some (db', { ti with bitfields := ti.bitfields ++ [bf] }, true)) ∧
        (∀ top cur, node.type = xmlElementType.XML_ELEMENT_NODE → node.name = "bitfield" →
          bitset_child (fun db chain => parsebitfield fuel fs db chain) top cur db node =
            some (bitset_addbitfield db' cur bf)))) ∧
    (plain node = true → 2 * depth node ≤ fuel →
      ∃ db' r, parsebitfield fuel fs db node = some (db', r)) := by
  refine ⟨fun db' r h => ?_, parsebitfield_total fuel fs db node⟩
  obtain ⟨hiff, hest, hbf⟩ := parsebitfield_result fuel fs db node db' r h
  have hv : ∀ nm : String, nm = "bitfield" → nm ≠ "value" := fun nm e => by rw [e]; decide
  refine ⟨hiff, fun hr => ⟨hest hr, fun ti hnm => ?_, fun top cur ht hnm => ?_⟩,
    fun bf hr => ⟨(hbf bf hr).2.1, (hbf bf hr).2.2.1, (hbf bf hr).2.2.2,
      fun ti hnm => ?_, fun top cur ht hnm => ?_⟩⟩
  · subst hr
    rw [trytypetag, if_neg (hv _ hnm), if_pos hnm, h]
  · subst hr
    have ht' : ¬ node.type ≠ xmlElementType.XML_ELEMENT_NODE := fun hc => hc ht
    unfold bitset_child
    rw [if_neg ht', if_pos hnm]
    simp only [h]
  · subst hr
    rw [trytypetag, if_neg (hv _ hnm), if_pos hnm, h]
  · subst hr
    have ht' : ¬ node.type ≠ xmlElementType.XML_ELEMENT_NODE := fun hc => hc ht
    unfold bitset_child
    rw [if_neg ht', if_pos hnm]
    simp only [h]

/-- C22 at `<bitfield name="F" low="7" high="4"/>`, which is rejected, and at
`<bitfield name="F" low="4" high="7"/>`, which is returned. -/
theorem parsebitfield_rejects_witness :
    (∃ db', parsebitfield 2 (fun _ => none) rnn_newdb (decl_F "7" "4") = some (db', none) ∧
      db'.estatus = 1) ∧
    (∃ db' bf, parsebitfield 2 (fun _ => none) rnn_newdb (decl_F "4" "7") =
        some (db', some bf) ∧ bf.name = "F" ∧ bf.low = 4 ∧ bf.high = 7) := by
  refine ⟨?_, ?_⟩
  · obtain ⟨hall, htot⟩ := parsebitfield_rejects 2 (fun _ => none) rnn_newdb (decl_F "7" "4")
    obtain ⟨db', r, h⟩ := htot (by decide) (by decide)
    obtain ⟨hiff, hnone, _⟩ := hall db' r h
    have hr : r = none := hiff.2 (Or.inr (Or.inr (Or.inr (by decide!))))
    subst hr
    exact ⟨db', h, (hnone rfl).1⟩
  · obtain ⟨hall, htot⟩ := parsebitfield_rejects 2 (fun _ => none) rnn_newdb (decl_F "4" "7")
    obtain ⟨db', r, h⟩ := htot (by decide) (by decide)
    obtain ⟨hiff, _, hsome⟩ := hall db' r h
    cases r with
    | none =>
      rcases hiff.1 rfl with h1 | h1 | h1 | h1
      · exact absurd h1 (by decide)
      · exact absurd h1 (by decide)
      · exact absurd h1 (by decide)
      · exact absurd h1 (by decide!)
    | some bf =>
      obtain ⟨h1, h2, h3, _⟩ := hsome bf rfl
      refine ⟨db', bf, h, ?_, ?_, ?_⟩
      · rw [h1]; decide
      · rw [h2]; decide!
      · rw [h3]; decide!

/-! ## The inferred stride -/

theorem int_val_small (w : Nat) (h : w < 2 ^ 31) : int_val w = (w : Int) := by
  unfold int_val
  have h1 : w % 2 ^ 32 = w := Nat.mod_eq_of_lt (by omega)
  rw [h1, if_pos h]

theorem int_div_u64_small (a b : Nat) (ha : a < 2 ^ 31) (hb0 : 0 < b) (hb : b < 2 ^ 31) :
    int_div_u64 a b = .ok (a / b) := by
  unfold int_div_u64
  rw [int_val_small a ha, int_val_small b hb]
  have h1 : ¬ ((b : Int) = 0) := by omega
  have h2 : ¬ ((a : Int) = -(2 ^ 31) ∧ (b : Int) = -1) := by omega
  rw [if_neg h1, if_neg h2]
  have h3 : (a : Int).tdiv (b : Int) = ((a / b : Nat) : Int) := rfl
  rw [h3]
  have h4 : a / b < 2 ^ 31 := lt_of_le_of_lt (Nat.div_le_self a b) ha
  congr 1
  generalize a / b = q at h4
  omega

/-- C29 on `files_width_zero`: the parser accepts the domain of width 0 with
no `estatus` (register `R`: width 32, length 2, stride 0), and the loader then
divides 32 by 0 in `prepdelem`, which is a fault. In general the stride
statement of `prepdelem` faults on every register with a length other than 1
and no stride when the width of the domain is 0; for a width `w` with
`0 < w < 2^31` such a register gets the stride `width / w`; an array or a
stripe with a length other than 1 and no stride keeps it and `estatus` is set;
an element with length 1 or with a stride is left as it is. -/
theorem stride_division_fault :
    (rnn_parsefile 10 files_width_zero rnn_newdb "a.xml").map
        (fun db => (db.estatus, db.domains.map (fun d => (d.name, d.width)))) =
      some (0, [("D", 0)]) ∧
    (rnn_parsefile 10 files_width_zero rnn_newdb "a.xml").map
        (fun db => db.domains.flatMap (fun d => d.subelems.map (fun e =>
          (e.type, e.width, e.length, e.stride)))) =
      some [(RNN_ETYPE_REG, 32, 2, 0)] ∧
    (rnn_load 10 files_width_zero "a.xml").isFault = true ∧
    (∀ (db : rnndb) (elem : rnndelem), elem.length ≠ 1 → elem.stride = 0 →
      elem.type = RNN_ETYPE_REG → prepdelem_stride db elem 0 = .fault) ∧
    (∀ (db : rnndb) (elem : rnndelem) (w : Nat), elem.length ≠ 1 → elem.stride = 0 →
      elem.type = RNN_ETYPE_REG → 0 < w → w < 2 ^ 31 → elem.width < 2 ^ 31 →
      prepdelem_stride db elem w = .ok (db, { elem with stride := elem.width / w })) ∧
    (∀ (db : rnndb) (elem : rnndelem) (w : Nat), elem.length ≠ 1 → elem.stride = 0 →
      elem.type ≠ RNN_ETYPE_REG → prepdelem_stride db elem w = .ok (set_estatus db, elem)) ∧
    (∀ (db : rnndb) (elem : rnndelem) (w : Nat), elem.length = 1 ∨ elem.stride ≠ 0 →
      prepdelem_stride db elem w = .ok (db, elem)) := by
  refine ⟨by decide!, by decide!, by decide!, ?_, ?_, ?_, ?_⟩
  · intro db elem hl hs ht
    unfold prepdelem_stride
    rw [if_pos ⟨hl, hs⟩, if_neg (fun hc => hc ht)]
    rfl
  · intro db elem w hl hs ht hw0 hw he
    unfold prepdelem_stride
    rw [if_pos ⟨hl, hs⟩, if_neg (fun hc => hc ht), int_div_u64_small _ _ he hw0 hw]
    rfl
  · intro db elem w hl hs ht
    unfold prepdelem_stride
    rw [if_pos ⟨hl, hs⟩, if_pos ht]
  · intro db elem w h
    unfold prepdelem_stride
    rw [if_neg (fun hc => by rcases h with h | h; exact hc.1 h; exact h hc.2)]

/-! ## The effective prefix -/

/-- C27 on `files_empty_prefenum`: the parser accepts the enum `P` without
values and the enum `E` with `prefix="P"` with no `estatus`, and the loader
then reads `vals[0]` of `P` in `prepvarinfo`, which is a fault. In general the
tail of `prepvarinfo` faults whenever the prefix enum has no value and the
definition has no VarSet for it; when the enum has a first value and there is
no VarSet for it, the effective prefix is the name of that value; when there
is a VarSet for it with a live slot, it is the name of the first live value. -/
theorem empty_prefenum_fault :
    (rnn_parsefile 10 files_empty_prefenum rnn_newdb "a.xml").map
        (fun db => (db.estatus, db.enums.map (fun e =>
          (e.name, e.varinfo.prefixstr, e.vals.map (fun v => v.name))))) =
      some (0, [("P", none, []), ("E", some "P", ["X"])]) ∧
    (rnn_load 10 files_empty_prefenum "a.xml").isFault = true ∧
    (∀ (db : rnndb) (vi : rnnvarinfo) (pidx : Nat) (en : rnnenum),
      vi.prefenum = some pidx → db.enums[pidx]? = some en →
      find_varset pidx vi.varsets 0 = none → en.vals = [] →
      prepvarinfo_prefixstr db vi = .fault) ∧
    (∀ (db : rnndb) (vi : rnnvarinfo) (pidx : Nat) (en : rnnenum) (v : rnnvalue)
        (rest : List rnnvalue),
      vi.prefenum = some pidx → db.enums[pidx]? = some en →
      find_varset pidx vi.varsets 0 = none → en.vals = v :: rest →
      prepvarinfo_prefixstr db vi = .ok { vi with prefix_ := some v.name }) ∧
    (∀ (db : rnndb) (vi : rnnvarinfo) (pidx pos : Nat) (en : rnnenum) (vs : rnnvarset)
        (name : String),
      vi.prefenum = some pidx → db.enums[pidx]? = some en →
      find_varset pidx vi.varsets 0 = some pos → vi.varsets[pos]? = some vs →
      first_live_name en.vals vs.variants = some name →
      prepvarinfo_prefixstr db vi = .ok { vi with prefix_ := some name }) := by
  refine ⟨by decide!, by decide!, ?_, ?_, ?_⟩
  · intro db vi pidx en hp he hv hvals
    unfold prepvarinfo_prefixstr
    simp only [hp, he, hv, hvals]
  · intro db vi pidx en v rest hp he hv hvals
    unfold prepvarinfo_prefixstr
    simp only [hp, he, hv, hvals]
  · intro db vi pidx pos en vs name hp he hv hvs hfl
    unfold prepvarinfo_prefixstr
    simp only [hp, he, hv, hvs, hfl]

/-! ## The kinds of type names -/

theorem find_enum_named (db : rnndb) (name : String) :
    find_named rnnenum.name name db.enums 0 = enum_named db name := by
  unfold enum_named rnn_findenum
  cases hf : find_named rnnenum.name name db.enums 0 with
  | none => rfl
  | some p =>
    obtain ⟨i, e⟩ := p
    have hg := (find_named_getElem? _ _ _ _ _ hf).1
    simp [hg]

theorem find_bitset_named (db : rnndb) (name : String) :
    find_named rnnbitset.name name db.bitsets 0 = bitset_named db name := by
  unfold bitset_named rnn_findbitset
  cases hf : find_named rnnbitset.name name db.bitsets 0 with
  | none => rfl
  | some p =>
    obtain ⟨i, e⟩ := p
    have hg := (find_named_getElem? _ _ _ _ _ hf).1
    simp [hg]

theorem copybitfields_nil : copybitfields [] = [] := by
  rw [copybitfields]

theorem copybitfields_cons (b : rnnbitfield) (l : List rnnbitfield) :
    copybitfields (b :: l) = copybitfield b :: copybitfields l := by
  rw [copybitfields]

theorem copybitfields_append (a b : List rnnbitfield) :
    copybitfields (a ++ b) = copybitfields a ++ copybitfields b := by
  induction a with
  | nil => rw [copybitfields_nil]; rfl
  | cons x a ih => rw [List.cons_append, copybitfields_cons, copybitfields_cons, ih]; rfl

theorem copybitfield_key (b : rnnbitfield) :
    (copybitfield b).name = b.name ∧ (copybitfield b).low = b.low ∧
      (copybitfield b).high = b.high := by
  cases b with
  | mk name low high mask varinfo typeinfo fullname =>
    rw [copybitfield]
    exact ⟨rfl, rfl, rfl⟩

theorem copybitfields_keys (l : List rnnbitfield) :
    (copybitfields l).map (fun b => (b.name, b.low, b.high)) =
      l.map (fun b => (b.name, b.low, b.high)) := by
  induction l with
  | nil => rw [copybitfields_nil]
  | cons b l ih =>
    obtain ⟨h1, h2, h3⟩ := copybitfield_key b
    rw [copybitfields_cons, List.map_cons, List.map_cons, ih, h1, h2, h3]

theorem preptype_spec (db : rnndb) (ti : rnntypeinfo) (t : rnntype) :
    preptype db ti t =
      ({ ti with
          vals := ti.vals ++ (spec_inline_vals db t.name).map copyvalue,
          bitfields := ti.bitfields ++ copybitfields (spec_inline_bitfields db t.name) },
        spec_resolve db t) := by
  unfold preptype spec_resolve spec_type_kind spec_eenum spec_ebitset spec_inline_vals
    spec_inline_bitfields
  simp only [find_enum_named, find_bitset_named]
  rcases enum_named db t.name with _ | ⟨i, en⟩ <;>
    rcases bitset_named db t.name with _ | ⟨j, bs⟩
  · simp [copybitfields_nil]
  · cases hb : bs.isinline <;> simp [hb, copybitfields_nil]
  · cases he : en.isinline <;> simp [he, copybitfields_nil]
  · cases he : en.isinline <;> cases hb : bs.isinline <;> simp [he, hb, copybitfields_nil]

theorem preptypes_spec (db : rnndb) : ∀ (ts : List rnntype) (ti : rnntypeinfo)
    (done : List rnntype),
    preptypes db ti done ts =
      { ti with
        types := done ++ ts.map (spec_resolve db),
        vals := ti.vals ++ (ts.flatMap (fun t => spec_inline_vals db t.name)).map copyvalue,
        bitfields := ti.bitfields ++
          copybitfields (ts.flatMap (fun t => spec_inline_bitfields db t.name)) } := by
  intro ts
  induction ts with
  | nil => intro ti done; simp [preptypes, copybitfields_nil]
  | cons t ts ih =>
    intro ti done
    rw [preptypes]
    simp only [preptype_spec, ih, List.flatMap_cons, copybitfields_append, List.map_append,
      List.map_cons, List.append_assoc, List.singleton_append]

theorem prepvalue_key (db : rnndb) (val : rnnvalue) (pfx : Option String)
    (parvi : rnnvarinfo) (r : rnndb × rnnvalue) (h : prepvalue db val pfx parvi = .ok r) :
    r.2.name = val.name ∧ r.2.value = val.value ∧ r.2.valvalid = val.valvalid := by
  unfold prepvalue at h
  obtain ⟨r1, h1, h⟩ := Res.bind_eq_ok.1 h
  split at h
  · injection h with h; subst h; exact ⟨rfl, rfl, rfl⟩
  · split at h <;> (injection h with h; subst h; exact ⟨rfl, rfl, rfl⟩)

theorem prepbitfield_key (fuel : Nat) (db : rnndb) (bf : rnnbitfield) (pfx : Option String)
    (parvi : rnnvarinfo) (r : rnndb × rnnbitfield)
    (h : prepbitfield fuel db bf pfx parvi = .ok r) :
    r.2.name = bf.name ∧ r.2.low = bf.low ∧ r.2.high = bf.high := by
  cases fuel with
  | zero => simp [prepbitfield] at h
  | succ fuel =>
    rw [prepbitfield] at h
    obtain ⟨r1, h1, h⟩ := Res.bind_eq_ok.1 h
    split at h
    · injection h with h; subst h; exact ⟨rfl, rfl, rfl⟩
    · obtain ⟨mask, _, h⟩ := Res.bind_eq_ok.1 h
      obtain ⟨rt, _, h⟩ := Res.bind_eq_ok.1 h
      injection h with h; subst h
      exact ⟨rfl, rfl, rfl⟩

theorem forall₂_map_eq {α β : Type} (key : α → β) :
    ∀ (xs ys : List α), List.Forall₂ (fun x y => key y = key x) xs ys →
      ys.map key = xs.map key := by
  intro xs ys h
  induction h with
  | nil => rfl
  | cons h1 _ ih => rw [List.map_cons, List.map_cons, ih, h1]

theorem spec_type_kind_other (db : rnndb) (name : String) :
    spec_type_kind db name = RNN_TTYPE_OTHER ↔
      (∀ e ∈ db.enums, e.name ≠ name) ∧ (∀ b ∈ db.bitsets, b.name ≠ name) := by
  have he : enum_named db name = none ↔ ∀ e ∈ db.enums, e.name ≠ name := by
    rw [← find_enum_named]; exact find_named_none_iff _ _ _ _
  have hb : bitset_named db name = none ↔ ∀ b ∈ db.bitsets, b.name ≠ name := by
    rw [← find_bitset_named]; exact find_named_none_iff _ _ _ _
  rw [← he, ← hb]
  unfold spec_type_kind
  rcases enum_named db name with _ | ⟨i, en⟩ <;>
    rcases bitset_named db name with _ | ⟨j, bs⟩
  · simp
  · cases hb : bs.isinline <;>
      simp [hb, RNN_TTYPE_OTHER, RNN_TTYPE_BITSET, RNN_TTYPE_INLINE_BITSET]
  · cases he : en.isinline <;>
      simp [he, RNN_TTYPE_OTHER, RNN_TTYPE_ENUM, RNN_TTYPE_INLINE_ENUM]
  · cases hb : bs.isinline <;>
      simp [hb, RNN_TTYPE_OTHER, RNN_TTYPE_BITSET, RNN_TTYPE_INLINE_BITSET]

/-- C28, as the code has it: in `files_shared_name` an enum and a bitset are
both named `T`; the loader returns with no `estatus`, and the type `T` of the
bitfield `F` has the kind `BITSET` with both `ebitset` and `eenum` bound. -/
theorem preptypeinfo_kinds_counterexample :
    (rnn_load 10 files_shared_name "a.xml").isOk = true ∧
    (rnn_loaded 10 files_shared_name "a.xml").estatus = 0 ∧
    (rnn_loaded 10 files_shared_name "a.xml").bitsets.flatMap (fun b =>
      b.bitfields.flatMap (fun f => f.typeinfo.types.map (fun t =>
        (t.name, t.type, t.eenum, t.ebitset)))) =
      [("T", RNN_TTYPE_BITSET, some 0, some 0)] := by
  refine ⟨by decide!, by decide!, by decide!⟩

/-- C28, amended: the first loop of `preptypeinfo` gives every declared type
the kind of the bitset of its name when there is one (`BITSET`, or
`INLINE_BITSET`), else that of the enum of its name (`ENUM`, or `INLINE_ENUM`),
else `OTHER`, which is the kind exactly when no enum and no bitset has the
name; it binds `eenum` to the enum of the name when that is not inline and
`ebitset` to the bitset of the name when that is not inline, and appends the
copies of the values of the inline enum of the name to `ti.vals` and of the
bitfields of the inline bitset of the name to `ti.bitfields`, in order; an enum
and a bitset of one name both act. When `preptypeinfo` returns, the types are
these, and the values and the bitfields are these by name, value and
`valvalid`, and by name, `low` and `high`. -/
theorem preptypeinfo_kinds (fuel : Nat) (db : rnndb) (ti : rnntypeinfo) (pfx : Option String)
    (vi : rnnvarinfo) (r : rnndb × rnntypeinfo)
    (h : preptypeinfo fuel db ti pfx vi = .ok r) :
    preptypes db ti [] ti.types =
      { ti with
        types := ti.types.map (spec_resolve db),
        vals := ti.vals ++
          (ti.types.flatMap (fun t => spec_inline_vals db t.name)).map copyvalue,
        bitfields := ti.bitfields ++
          copybitfields (ti.types.flatMap (fun t => spec_inline_bitfields db t.name)) } ∧
    r.2.types = ti.types.map (spec_resolve db) ∧
    r.2.vals.map (fun v => (v.name, v.value, v.valvalid)) =
      (ti.vals ++ ti.types.flatMap (fun t => spec_inline_vals db t.name)).map
        (fun v => (v.name, v.value, v.valvalid)) ∧
    r.2.bitfields.map (fun b => (b.name, b.low, b.high)) =
      (ti.bitfields ++ ti.types.flatMap (fun t => spec_inline_bitfields db t.name)).map
        (fun b => (b.name, b.low, b.high)) ∧
    (∀ name, spec_type_kind db name = RNN_TTYPE_OTHER ↔
      (∀ e ∈ db.enums, e.name ≠ name) ∧ (∀ b ∈ db.bitsets, b.name ≠ name)) := by
  have hspec := preptypes_spec db ti.types ti []
  rw [List.nil_append] at hspec
  refine ⟨hspec, ?_, ?_, ?_, spec_type_kind_other db⟩
  all_goals
    cases fuel with
    | zero => simp [preptypeinfo] at h
    | succ fuel =>
      rw [preptypeinfo] at h
      simp only [hspec] at h
      obtain ⟨rb, hb, h⟩ := Res.bind_eq_ok.1 h
      obtain ⟨rv, hv, h⟩ := Res.bind_eq_ok.1 h
      injection h with h
      subst h
      first
        | rfl
        | (have hq := (Res.mapM_state_rel _ (fun _ _ => True)
            (fun (x y : rnnvalue) => (fun (v : rnnvalue) => (v.name, v.value, v.valvalid)) y =
              (fun (v : rnnvalue) => (v.name, v.value, v.valvalid)) x)
            (fun _ => trivial) (fun _ _ _ _ _ => trivial)
            (fun s x r hr => ⟨trivial, by
              obtain ⟨h1, h2, h3⟩ := prepvalue_key s x pfx vi r hr
              simp only [h1, h2, h3]⟩) _ _ _ hv).2
           have hm := forall₂_map_eq (fun (v : rnnvalue) => (v.name, v.value, v.valvalid)) _ _ hq
           simp only [hm, List.map_append, List.map_map]
           rfl)
        | (have hq := (Res.mapM_state_rel _ (fun _ _ => True)
            (fun (x y : rnnbitfield) => (fun (b : rnnbitfield) => (b.name, b.low, b.high)) y =
              (fun (b : rnnbitfield) => (b.name, b.low, b.high)) x)
            (fun _ => trivial) (fun _ _ _ _ _ => trivial)
            (fun s x r hr => ⟨trivial, by
              obtain ⟨h1, h2, h3⟩ := prepbitfield_key fuel s x pfx vi r hr
              simp only [h1, h2, h3]⟩) _ _ _ hb).2
           have hm := forall₂_map_eq (fun (b : rnnbitfield) => (b.name, b.low, b.high)) _ _ hq
           simp only [hm, List.map_append, copybitfields_keys])

/-- C28, amended, on a type info that declares `T` in `db_T_shared`, where `T`
is an inline enum and a bitset: the kind is `BITSET`, `ebitset` is bound, and
the value of the enum has been copied. -/
theorem preptypeinfo_kinds_witness :
    ∃ r, preptypeinfo 2 db_T_shared typeinfo_T none rnnvarinfo_zero = .ok r ∧
      r.2.types = [{ name := "T", type := RNN_TTYPE_BITSET, eenum := none, ebitset := some 0 }] ∧
      r.2.vals.map (fun v => (v.name, v.value, v.valvalid)) = [("A", 1, true)] ∧
      r.2.bitfields.map (fun b => (b.name, b.low, b.high)) = [] := by
  have h := Res.eq_ok_of_isOk (rnn_newdb, rnntypeinfo_zero)
    (show (preptypeinfo 2 db_T_shared typeinfo_T none rnnvarinfo_zero).isOk = true by decide!)
  obtain ⟨_, h1, h2, h3, _⟩ := preptypeinfo_kinds _ _ _ _ _ _ h
  refine ⟨_, h, ?_, ?_, ?_⟩
  · rw [h1]; decide!
  · rw [h2]; decide!
  · rw [h3]; decide!

/-! ## The ranges of a variants expression -/

theorem prepvarinfo_live_slots (db : rnndb) (vi : rnnvarinfo) (parent : Option rnnvarinfo)
    (vars : String) (vidx : Nat) (en : rnnenum) (r : rnndb × rnnvarinfo)
    (hown : vi.varsets = [])
    (hbool : ∀ p, parent = some p → varsets_boolean p)
    (hvars : vi.variantsstr = some vars)
    (hvarset : prepvarinfo_varset db vi parent = some vidx)
    (hen : db.enums[vidx]? = some en)
    (hr : prepvarinfo db vi parent = .ok r) :
    ∃ vs, varset_for r.2 vidx = some vs ∧ vs.variants.length = en.vals.length ∧
      (∀ i, i < en.vals.length →
        (vs.variants.getD i 0 ≠ 0 ↔
          spec_inheritable parent vidx i = true ∧ spec_selected en vars i = true)) := by
  obtain ⟨copies, vi2, hcop, hrv, hrd, hv2⟩ :=
    prepvarinfo_variants_eq db vi parent vars vidx en r hvars hvarset hen hr
  rw [hown, List.nil_append] at hv2
  obtain ⟨old, holdlen, hold, hinh⟩ := inherited_variants db parent vidx en hen copies hcop
  rw [← hv2] at hold
  obtain ⟨pos, vs, hfind, hget, hlen, hslots, hdead⟩ :=
    prepvarinfo_variants_spec db vi2 vidx en vars old holdlen hold
  have hx : ∀ i, i < en.vals.length → old.getD i 0 ≤ 1 ∧
      (old.getD i 0 ≠ 0 ↔ spec_inheritable parent vidx i = true) := by
    intro i hi
    rw [hinh i hi]
    unfold spec_inheritable
    cases hf : parent.bind (fun p => p.varsets.find? (fun vs => vs.venum == vidx)) with
    | none => exact ⟨Nat.le_refl 1, by simp⟩
    | some pvs =>
      obtain ⟨p, hp, hpf⟩ := Option.bind_eq_some.1 hf
      refine ⟨?_, by simp⟩
      show pvs.variants.getD i 0 ≤ 1
      rw [List.getD_eq_getElem?_getD]
      cases hx : pvs.variants[i]? with
      | none => exact Nat.zero_le 1
      | some w =>
        exact hbool p hp pvs (List.mem_of_find?_eq_some hpf) w (List.getElem?_mem hx)
  refine ⟨vs, ?_, hlen, fun i hi => ?_⟩
  · unfold varset_for
    rw [hrv, hfind]
    exact hget
  · rw [hslots i hi, live_slot_iff _ _ (hx i hi).1, (hx i hi).2]

theorem spec_value_index_ok (en : rnnenum) (a : String) (h : ∃ v, v ∈ en.vals ∧ v.name = a) :
    spec_value_index en a.toList = some (value_idx en a) := by
  have key : ∀ (l : List rnnvalue) (k : Nat), (∃ v, v ∈ l ∧ v.name = a) →
      List.findIdx? (fun v => v.name.toList == a.toList) l k =
        some (List.findIdx (fun v => v.name == a) l + k) := by
    intro l
    induction l with
    | nil => intro k ⟨v, hv, _⟩; exact absurd hv (List.not_mem_nil v)
    | cons x xs ih =>
      intro k ⟨v, hv, hva⟩
      rw [List.findIdx?_cons, List.findIdx_cons]
      by_cases hx : x.name = a
      · have h1 : (x.name.toList == a.toList) = true := by rw [hx]; simp
        have h2 : (x.name == a) = true := by rw [hx]; simp
        rw [h1, h2]
        simp
      · have h1 : (x.name.toList == a.toList) = false := by
          rw [beq_eq_false_iff_ne]
          intro hc
          exact hx (String.ext hc)
        have h2 : (x.name == a) = false := by
          rw [beq_eq_false_iff_ne]; exact hx
        rw [h1, h2]
        have hv' : ∃ v, v ∈ xs ∧ v.name = a := by
          rcases List.mem_cons.1 hv with rfl | hv
          · exact absurd hva hx
          · exact ⟨v, hv, hva⟩
        simp only [Bool.false_eq_true, if_false, cond_false]
        rw [ih (k + 1) hv']
        congr 1
        omega
  have := key en.vals 0 h
  unfold spec_value_index value_idx
  rw [this]
  rfl

theorem takeWhile_name (l : List Char) (h : ∀ c, c ∈ l → c ≠ ':' ∧ c ≠ '-') :
    (∀ (sep : Char) (r : List Char), sep = ':' ∨ sep = '-' →
      (l ++ sep :: r).takeWhile (fun c => c != ':' && c != '-') = l ∧
      (l ++ sep :: r).dropWhile (fun c => c != ':' && c != '-') = sep :: r) ∧
    l.takeWhile (fun c => c != ':' && c != '-') = l ∧
    l.dropWhile (fun c => c != ':' && c != '-') = [] := by
  induction l with
  | nil =>
    refine ⟨fun sep r hs => ?_, rfl, rfl⟩
    have hp : (sep != ':' && sep != '-') = false := by
      rcases hs with h | h <;> subst h <;> decide
    simp [List.takeWhile_cons, List.dropWhile_cons, hp]
  | cons c l ih =>
    obtain ⟨ih1, ih2, ih3⟩ := ih (fun c' hc' => h c' (List.mem_cons_of_mem _ hc'))
    have hc := h c (List.mem_cons_self _ _)
    have hp : (c != ':' && c != '-') = true := by simp [hc.1, hc.2]
    refine ⟨fun sep r hs => ?_, ?_, ?_⟩
    · obtain ⟨h1, h2⟩ := ih1 sep r hs
      rw [List.cons_append, List.takeWhile_cons, List.dropWhile_cons, hp]
      simp only [if_true, h1, h2, and_self]
    · rw [List.takeWhile_cons, hp]; simp only [if_true, ih2]
    · rw [List.dropWhile_cons, hp]; simp only [if_true, ih3]

theorem name_toList_ne (a : String) (h : a ≠ "") : a.toList ≠ [] := by
  intro hc
  exact h (String.ext hc)

theorem range_of_sep (en : rnnenum) (a b : List Char) (sep : Char)
    (hs : sep = ':' ∨ sep = '-') (ha : ∀ c, c ∈ a → c ≠ ':' ∧ c ≠ '-') (lo hi : Nat)
    (hlo : (if a = [] then some 0 else spec_value_index en a) = some lo)
    (hhi : (if b = [] then some en.vals.length
      else (spec_value_index en b).map (fun i => if sep = '-' then i + 1 else i)) = some hi) :
    spec_term_range en (a ++ sep :: b) = some (lo, hi) := by
  obtain ⟨h1, _, _⟩ := takeWhile_name a ha
  obtain ⟨h1a, h1b⟩ := h1 sep b hs
  unfold spec_term_range
  simp only [h1a, h1b, hlo, hhi]

theorem lo_of_name (en : rnnenum) (a : Option String)
    (hok : ∀ x, a = some x → term_name_ok en x) :
    (if (a.getD "").toList = [] then some 0 else spec_value_index en (a.getD "").toList) =
      some ((a.map (value_idx en)).getD 0) := by
  cases a with
  | none => exact if_pos rfl
  | some x =>
    obtain ⟨hne, _, hex⟩ := hok x rfl
    show (if x.toList = [] then some 0 else spec_value_index en x.toList) = _
    rw [if_neg (name_toList_ne x hne), spec_value_index_ok en x hex]
    rfl

theorem hi_of_name (en : rnnenum) (b : Option String) (f : Nat → Nat)
    (hok : ∀ x, b = some x → term_name_ok en x) :
    (if (b.getD "").toList = [] then some en.vals.length
      else (spec_value_index en (b.getD "").toList).map f) =
      some ((b.map (fun x => f (value_idx en x))).getD en.vals.length) := by
  cases b with
  | none => exact if_pos rfl
  | some x =>
    obtain ⟨hne, _, hex⟩ := hok x rfl
    show (if x.toList = [] then some en.vals.length
      else (spec_value_index en x.toList).map f) = _
    rw [if_neg (name_toList_ne x hne), spec_value_index_ok en x hex]
    rfl

theorem name_chars (en : rnnenum) (a : Option String)
    (hok : ∀ x, a = some x → term_name_ok en x) :
    ∀ c, c ∈ (a.getD "").toList → c ≠ ':' ∧ c ≠ '-' := by
  cases a with
  | none => intro c hc; exact absurd hc (List.not_mem_nil c)
  | some x => exact (hok x rfl).2.1

theorem term_selects (en : rnnenum) (t : variants_term)
    (hok : ∀ a, a ∈ t.names → term_name_ok en a) (i : Nat) :
    spec_term_selects en t.chars i = decide ((t.range en).1 ≤ i ∧ i < (t.range en).2) := by
  cases t with
  | one a =>
    obtain ⟨_, hch, hex⟩ := hok a (by simp [variants_term.names])
    obtain ⟨_, h2, h3⟩ := takeWhile_name a.toList hch
    unfold spec_term_selects spec_term_range
    simp only [variants_term.chars, h2, h3, spec_value_index_ok en a hex, Option.map_some',
      variants_term.range]
  | upto a b =>
    have hoa : ∀ x, a = some x → term_name_ok en x := fun x hx =>
      hok x (by subst hx; simp [variants_term.names])
    have hob : ∀ x, b = some x → term_name_ok en x := fun x hx =>
      hok x (by subst hx; simp [variants_term.names])
    unfold spec_term_selects
    rw [variants_term.chars, range_of_sep en _ _ ':' (Or.inl rfl) (name_chars en a hoa) _ _
      (lo_of_name en a hoa) (hi_of_name en b _ hob)]
    rfl
  | thru a b =>
    have hoa : ∀ x, a = some x → term_name_ok en x := fun x hx =>
      hok x (by subst hx; simp [variants_term.names])
    have hob : ∀ x, b = some x → term_name_ok en x := fun x hx =>
      hok x (by subst hx; simp [variants_term.names])
    unfold spec_term_selects
    rw [variants_term.chars, range_of_sep en _ _ '-' (Or.inr rfl) (name_chars en a hoa) _ _
      (lo_of_name en a hoa) (hi_of_name en b _ hob)]
    rfl

theorem spec_selected_terms (en : rnnenum) (vars : String) (ts : List variants_term)
    (hexpr : spec_terms vars = ts.map variants_term.chars)
    (hok : ∀ t, t ∈ ts → ∀ a, a ∈ t.names → term_name_ok en a) (i : Nat) :
    spec_selected en vars i = true ↔ terms_select en ts i := by
  unfold spec_selected terms_select
  rw [hexpr, List.any_eq_true]
  constructor
  · rintro ⟨c, hc, hs⟩
    obtain ⟨t, ht, rfl⟩ := List.mem_map.1 hc
    rw [term_selects en t (hok t ht) i] at hs
    exact ⟨t, ht, of_decide_eq_true hs⟩
  · rintro ⟨t, ht, hs⟩
    refine ⟨t.chars, List.mem_map.2 ⟨t, ht, rfl⟩, ?_⟩
    rw [term_selects en t (hok t ht) i]
    exact decide_eq_true hs

/-- C26: let the variants expression `vars` be made of the space-separated
terms `ts`, whose names are names of values of the varset enum `en` (and are
not empty and hold no `:` or `-`). Then the slots that `prepvarinfo` selects
are exactly those in the union of the ranges of the terms, `{idx(A)}` for `A`,
`[idx(A), idx(B))` for `A:B`, `[idx(A), idx(B)]` for `A-B`, an omitted first
endpoint being 0 and an omitted second one the number of values: in the
VarSet that the variants branch creates for a definition that has none for the
enum, slot `i` is live iff `i` is in the union; and when `prepvarinfo` returns
for a definition under a parent, slot `i` of its VarSet for the enum is live
iff it is inheritable from the parent and in the union. -/
theorem variants_ranges (en : rnnenum) (vars : String) (ts : List variants_term)
    (hexpr : spec_terms vars = ts.map variants_term.chars)
    (hok : ∀ t, t ∈ ts → ∀ a, a ∈ t.names → term_name_ok en a) :
    (∀ (db : rnndb) (vi : rnnvarinfo) (vidx : Nat),
      find_varset vidx vi.varsets 0 = none →
      ∃ vs, varset_for (prepvarinfo_variants db vi vidx en vars).2 vidx = some vs ∧
        vs.variants.length = en.vals.length ∧
        ∀ i, i < en.vals.length → (vs.variants.getD i 0 ≠ 0 ↔ terms_select en ts i)) ∧
    (∀ (db : rnndb) (vi : rnnvarinfo) (parent : Option rnnvarinfo) (vidx : Nat)
        (r : rnndb × rnnvarinfo),
      vi.varsets = [] → (∀ p, parent = some p → varsets_boolean p) →
      vi.variantsstr = some vars → prepvarinfo_varset db vi parent = some vidx →
      db.enums[vidx]? = some en → prepvarinfo db vi parent = .ok r →
      ∃ vs, varset_for r.2 vidx = some vs ∧ vs.variants.length = en.vals.length ∧
        ∀ i, i < en.vals.length →
          (vs.variants.getD i 0 ≠ 0 ↔
            spec_inheritable parent vidx i = true ∧ terms_select en ts i)) := by
  refine ⟨fun db vi vidx hnone => ?_, fun db vi parent vidx r hown hbool hvars hvarset hen hr => ?_⟩
  · obtain ⟨pos, vs, hfind, hget, hlen, hslots, _⟩ :=
      prepvarinfo_variants_spec db vi vidx en vars (List.replicate en.vals.length 1)
        (List.length_replicate _ _) (Or.inl ⟨hnone, rfl⟩)
    refine ⟨vs, ?_, hlen, fun i hi => ?_⟩
    · unfold varset_for
      rw [hfind]
      exact hget
    · have h1 : (List.replicate en.vals.length 1).getD i 0 = 1 := by
        rw [List.getD_eq_getElem?_getD, List.getElem?_replicate, if_pos hi]
        rfl
      rw [hslots i hi, h1, live_slot_iff 1 _ (Nat.le_refl 1),
        spec_selected_terms en vars ts hexpr hok i]
      exact ⟨fun h => h.2, fun h => ⟨by decide, h⟩⟩
  · obtain ⟨vs, h1, h2, h3⟩ :=
      prepvarinfo_live_slots db vi parent vars vidx en r hown hbool hvars hvarset hen hr
    refine ⟨vs, h1, h2, fun i hi => ?_⟩
    rw [h3 i hi, spec_selected_terms en vars ts hexpr hok i]

/-- C26 on the enum `CHIP` with the values A, B, C and the expression `B:`, the
one term `B:` with its second endpoint omitted: a definition without a parent
VarSet gets the slots `[1, 3)`, and under a parent with A and B live the slot
of B alone. -/
theorem variants_ranges_witness :
    (∃ vs, varset_for (prepvarinfo_variants db_CHIP (varinfo_of "CHIP" "B:") 0 enum_CHIP
        "B:").2 0 = some vs ∧ vs.variants = [0, 1, 1] ∧
      (vs.variants.getD 2 0 ≠ 0 ↔
        terms_select enum_CHIP [variants_term.upto (some "B") none] 2)) ∧
    (∃ vs, varset_for ((prepvarinfo db_CHIP (varinfo_of "CHIP" "B:") (some varinfo_AB)).getD
        (rnn_newdb, rnnvarinfo_zero)).2 0 = some vs ∧ vs.variants = [0, 1, 0] ∧
      (vs.variants.getD 2 0 ≠ 0 ↔
        spec_inheritable (some varinfo_AB) 0 2 = true ∧
          terms_select enum_CHIP [variants_term.upto (some "B") none] 2)) := by
  have hexpr : spec_terms "B:" = [variants_term.upto (some "B") none].map variants_term.chars := by
    decide
  have hok : ∀ t, t ∈ [variants_term.upto (some "B") none] →
      ∀ a, a ∈ t.names → term_name_ok enum_CHIP a := by
    intro t ht a ha
    rw [List.mem_singleton] at ht
    subst ht
    have ha' : a = "B" := by simpa [variants_term.names] using ha
    subst ha'
    exact ⟨by decide, by decide, ⟨{ plain_value "B" 0 with valvalid := false }, by decide, rfl⟩⟩
  obtain ⟨hfresh, hpar⟩ := variants_ranges enum_CHIP "B:" [variants_term.upto (some "B") none]
    hexpr hok
  refine ⟨?_, ?_⟩
  · obtain ⟨vs, h1, _, h3⟩ := hfresh db_CHIP (varinfo_of "CHIP" "B:") 0 (by decide)
    have hv : varset_for (prepvarinfo_variants db_CHIP (varinfo_of "CHIP" "B:") 0 enum_CHIP
        "B:").2 0 = some { venum := 0, variants := [0, 1, 1] } := by
      decide!
    rw [hv] at h1
    injection h1 with h1
    subst h1
    exact ⟨_, hv, rfl, h3 2 (by decide)⟩
  · obtain ⟨vs, h1, _, h3⟩ := hpar db_CHIP (varinfo_of "CHIP" "B:") (some varinfo_AB) 0 _ rfl
      (by
        intro p hp
        injection hp with hp
        subst hp
        unfold varsets_boolean
        decide)
      rfl (by decide) rfl (Res.eq_ok_of_isOk _ (by decide!))
    have hv : varset_for ((prepvarinfo db_CHIP (varinfo_of "CHIP" "B:")
        (some varinfo_AB)).getD (rnn_newdb, rnnvarinfo_zero)).2 0 =
        some { venum := 0, variants := [0, 1, 0] } := by
      decide!
    rw [hv] at h1
    injection h1 with h1
    subst h1
    exact ⟨_, hv, rfl, h3 2 (by decide)⟩

/-! ## Unique names -/

theorem modify_at_map_name {α : Type} (nm : α → String) (f : α → α)
    (hf : ∀ x, nm (f x) = nm x) :
    ∀ (l : List α) (i : Nat), (modify_at f l i).map nm = l.map nm := by
  intro l
  induction l with
  | nil => intro i; rfl
  | cons x xs ih =>
    intro i
    cases i with
    | zero => simp [modify_at, hf]
    | succ i => simp [modify_at, ih]

theorem nodup_modify_at {α : Type} (nm : α → String) (f : α → α)
    (hf : ∀ x, nm (f x) = nm x) (l : List α) (i : Nat) (h : (l.map nm).Nodup) :
    ((modify_at f l i).map nm).Nodup := by
  rw [modify_at_map_name nm f hf]
  exact h

theorem nodup_append_fresh {α : Type} (nm : α → String) (l : List α) (x : α)
    (h : (l.map nm).Nodup) (hx : find_named nm (nm x) l 0 = none) :
    ((l ++ [x]).map nm).Nodup := by
  rw [List.map_append, List.nodup_append]
  refine ⟨h, List.nodup_singleton _, ?_⟩
  intro a ha hb
  rw [List.map_singleton, List.mem_singleton] at hb
  subst hb
  obtain ⟨e, he, hne⟩ := List.mem_map.1 ha
  exact find_named_none nm (nm x) l 0 hx e he hne

theorem names_unique_closed :
    parser_closed (fun db db' => names_unique db → names_unique db') where
  refl := fun _ h => h
  trans := fun h1 h2 h => h2 (h1 h)
  estatus := fun _ h => h
  enum_cur := fun db name a h => by
    unfold parseenum_cur
    split
    · split <;> exact h
    · next hnone =>
      exact ⟨nodup_append_fresh rnnenum.name db.enums (new_rnnenum name a) h.1 hnone,
        h.2.1, h.2.2.1, h.2.2.2⟩
  bitset_cur := fun db name a h => by
    unfold parsebitset_cur
    split
    · split <;> exact h
    · next hnone =>
      exact ⟨h.1, nodup_append_fresh rnnbitset.name db.bitsets (new_rnnbitset name a) h.2.1
        hnone, h.2.2.1, h.2.2.2⟩
  group_cur := fun db name h => by
    unfold parsegroup_cur
    split
    · exact h
    · next hnone =>
      exact ⟨h.1, h.2.1,
        nodup_append_fresh rnngroup.name db.groups { name := name, subelems := [] } h.2.2.1
          hnone, h.2.2.2⟩
  domain_cur := fun db name a h => by
    unfold parsedomain_cur
    split
    · split
      · exact h
      · split
        · refine ⟨h.1, h.2.1, h.2.2.1, ?_⟩
          show (List.map rnndomain.name (modify_at _ db.domains _)).Nodup
          refine nodup_modify_at rnndomain.name _ ?_ _ _ h.2.2.2
          intro x
          rfl
        · exact h
    · next hnone =>
      exact ⟨h.1, h.2.1, h.2.2.1,
        nodup_append_fresh rnndomain.name db.domains (new_rnndomain name a) h.2.2.2 hnone⟩
  addval := fun db cur val h => by
    refine ⟨?_, h.2.1, h.2.2.1, h.2.2.2⟩
    show (List.map rnnenum.name (modify_at _ db.enums _)).Nodup
    refine nodup_modify_at rnnenum.name _ ?_ _ _ h.1
    intro x
    rfl
  addbitfield := fun db cur bf h => by
    refine ⟨h.1, ?_, h.2.2.1, h.2.2.2⟩
    show (List.map rnnbitset.name (modify_at _ db.bitsets _)).Nodup
    refine nodup_modify_at rnnbitset.name _ ?_ _ _ h.2.1
    intro x
    rfl
  group_add := fun db cur delem h => by
    refine ⟨h.1, h.2.1, ?_, h.2.2.2⟩
    show (List.map rnngroup.name (modify_at _ db.groups _)).Nodup
    refine nodup_modify_at rnngroup.name _ ?_ _ _ h.2.2.1
    intro x
    rfl
  domain_add := fun db cur delem h => by
    refine ⟨h.1, h.2.1, h.2.2.1, ?_⟩
    show (List.map rnndomain.name (modify_at _ db.domains _)).Nodup
    refine nodup_modify_at rnndomain.name _ ?_ _ _ h.2.2.2
    intro x
    rfl
  file := fun _ _ _ h => h

theorem rnn_parsefiles_unique : ∀ (calls : List (Nat × xmlFiles × String)) (db db' : rnndb),
    names_unique db → rnn_parsefiles db calls = some db' → names_unique db' := by
  intro calls
  induction calls with
  | nil =>
    intro db db' hu h
    injection h with h
    subst h
    exact hu
  | cons c calls ih =>
    intro db db' hu h
    unfold rnn_parsefiles at h
    rw [List.foldlM_cons] at h
    cases hc : rnn_parsefile c.1 c.2.1 db c.2.2 with
    | none => rw [hc] at h; exact Option.noConfusion h
    | some db1 =>
      rw [hc] at h
      exact ih db1 db'
        ((parser_rel names_unique_closed c.1).2.2.2.2.2.2.2.2.2 c.2.1 db c.2.2 db1 hc hu) h

theorem nodup_only_match {α : Type} (nm : α → String) (l : List α)
    (hnd : (l.map nm).Nodup) (i j : Nat) (e e' : α) (hi : l[i]? = some e)
    (hj : l[j]? = some e') (hn : nm e' = nm e) : j = i := by
  have h1 : (l.map nm)[i]? = some (nm e) := by rw [List.getElem?_map, hi]; rfl
  have h2 : (l.map nm)[j]? = some (nm e) := by rw [List.getElem?_map, hj]; simp [hn]
  have hil := (List.getElem?_eq_some.1 hi).1
  have hjl := (List.getElem?_eq_some.1 hj).1
  have := List.nodup_iff_getElem?_ne_getElem?.1 hnd
  by_contra hne
  rcases Nat.lt_or_gt_of_ne hne with hlt | hgt
  · exact this j i hlt (by simpa using hil) (by rw [h1, h2])
  · exact this i j hgt (by simpa using hjl) (by rw [h1, h2])

theorem find_of_nodup {α : Type} (nm : α → String) (l : List α)
    (hnd : (l.map nm).Nodup) (i : Nat) (e : α) (hi : l[i]? = some e) :
    (find_named nm (nm e) l 0).map Prod.fst = some i := by
  rw [find_index_iff]
  refine ⟨⟨e, hi, rfl⟩, fun j e' hlt hj hn => ?_⟩
  have := nodup_only_match nm l hnd i j e e' hi hj hn
  omega

/-- C31: names are unique within each top-level sequence. When no two enums,
no two bitsets, no two groups and no two domains of `db` share a name, as in
the empty database, then after any sequence of calls of `rnn_parsefile`, on
any documents and paths, that returns, the same holds of the database it
leaves; there an entry of `db->enums`, `db->bitsets` or `db->domains` is the
only one of its name, and the finder called with its name returns it. -/
theorem names_unique_parsed (calls : List (Nat × xmlFiles × String)) (db db' : rnndb)
    (hu : names_unique db) (h : rnn_parsefiles db calls = some db') :
    names_unique rnn_newdb ∧ names_unique db' ∧
    (∀ i j e e', db'.enums[i]? = some e → db'.enums[j]? = some e' → e'.name = e.name →
      j = i ∧ rnn_findenum db' e.name = some i) ∧
    (∀ i j e e', db'.bitsets[i]? = some e → db'.bitsets[j]? = some e' → e'.name = e.name →
      j = i ∧ rnn_findbitset db' e.name = some i) ∧
    (∀ i j e e', db'.domains[i]? = some e → db'.domains[j]? = some e' → e'.name = e.name →
      j = i ∧ rnn_finddomain db' e.name = some i) ∧
    (∀ i j e e', db'.groups[i]? = some e → db'.groups[j]? = some e' → e'.name = e.name →
      j = i ∧ (find_named rnngroup.name e.name db'.groups 0).map Prod.fst = some i) := by
  have hu' := rnn_parsefiles_unique calls db db' hu h
  refine ⟨⟨List.nodup_nil, List.nodup_nil, List.nodup_nil, List.nodup_nil⟩, hu', ?_, ?_, ?_, ?_⟩
  · intro i j e e' hi hj hn
    exact ⟨nodup_only_match rnnenum.name _ hu'.1 i j e e' hi hj hn,
      find_of_nodup rnnenum.name _ hu'.1 i e hi⟩
  · intro i j e e' hi hj hn
    exact ⟨nodup_only_match rnnbitset.name _ hu'.2.1 i j e e' hi hj hn,
      find_of_nodup rnnbitset.name _ hu'.2.1 i e hi⟩
  · intro i j e e' hi hj hn
    exact ⟨nodup_only_match rnndomain.name _ hu'.2.2.2 i j e e' hi hj hn,
      find_of_nodup rnndomain.name _ hu'.2.2.2 i e hi⟩
  · intro i j e e' hi hj hn
    exact ⟨nodup_only_match rnngroup.name _ hu'.2.2.1 i j e e' hi hj hn,
      find_of_nodup rnngroup.name _ hu'.2.2.1 i e hi⟩

/-- C31 on `files_declared_again`: from the empty database, `a.xml` and then
`b.xml` are parsed; every name declared more than once is held once. -/
theorem names_unique_parsed_witness :
    ∃ db', rnn_parsefiles rnn_newdb
        [(10, files_declared_again, "a.xml"), (10, files_declared_again, "b.xml")] = some db' ∧
      names_unique db' ∧
      (db'.enums.map rnnenum.name, db'.bitsets.map rnnbitset.name,
        db'.groups.map rnngroup.name, db'.domains.map rnndomain.name) =
        (["E", "F"], ["E"], ["G"], ["D"]) := by
  have hs : ((rnn_parsefiles rnn_newdb
      [(10, files_declared_again, "a.xml"), (10, files_declared_again, "b.xml")]).map
      (fun db => (db.enums.map rnnenum.name, db.bitsets.map rnnbitset.name,
        db.groups.map rnngroup.name, db.domains.map rnndomain.name))) =
      some (["E", "F"], ["E"], ["G"], ["D"]) := by
    decide!
  cases hp : rnn_parsefiles rnn_newdb
      [(10, files_declared_again, "a.xml"), (10, files_declared_again, "b.xml")] with
  | none => rw [hp] at hs; exact Option.noConfusion hs
  | some db' =>
    rw [hp] at hs
    injection hs with hs
    exact ⟨db', rfl, (names_unique_parsed _ rnn_newdb db'
      ⟨List.nodup_nil, List.nodup_nil, List.nodup_nil, List.nodup_nil⟩ hp).2.1, hs⟩

end Rnn
